import Mathlib

/-!
# Double-array trie engines of `trie_impl.cc`

A shallow embedding of the three engines of `src/trie_impl.cc`:

* `basic_trie`  : the double-array trie (base/check cells, relocation);
* `single_trie` : the tail trie (one `basic_trie` plus a flat suffix array);
* `double_trie` : the two-trie (front and rear `basic_trie` joined by the
  index/accept tables).

Machine integers (`size_type`, `char_type`, `value_type`, all signed 32 bit in
the source) are unbounded `Int`: no operation of the engines relies on
wrap-around.  Arrays (`states_`, `suffix_`, `index_`, `accept_`) are total
functions from the index to the cell; the capacity kept in the headers is
carried along as a separate field and grown exactly where the source calls the
resize helpers.  The writes to `suffix_` that the source makes without a
capacity test are checked against the capacity: such a write outside the array
is the fault `out_of_bounds` (`single_trie.write_suffix`).

A pointer `const char_type *p` into the terminated buffer `key.data()` is
modelled by the list of symbols that stand between `p` and the first
terminator: `*p` is the head of that list, or the terminator when the list is
empty.  A null pointer is `none`.

The inline helpers of the header `trie_impl.h` are not among the sources; each
of them is modelled from the specification and marked as such.
-/

namespace dutil

/-- Faults of the embedding: things the C++ code cannot report.
`null_dereference` is a read through a null `const char_type *`;
`out_of_bounds` is a read or a write before the first or after the last cell
of a buffer;
`assertion_failed` is an `assert` of the source that does not hold;
`out_of_fuel` is a loop of the model that did not finish within its bound. -/
inductive fault where
  | null_dereference
  | out_of_bounds
  | assertion_failed
  | out_of_fuel
  deriving DecidableEq, Repr

/-- Outcome of a mutating call on an engine of type `σ`:
`done st` is normal completion with the engine left in state `st`;
`threw msg st` is a `std::runtime_error(msg)` leaving the engine in state `st`;
`crashed f` is a fault, after which the engine has no defined state. -/
inductive outcome (σ : Type) where
  | done (st : σ)
  | threw (msg : String) (st : σ)
  | crashed (f : fault)

/-! ## Alphabet and keys -/

namespace key_type

/-- Modelled from the spec: `key_type::kCharsetSize` of `trie_impl.h`;
"the alphabet has size 257: bytes 0..255 plus a sentinel terminator". -/
def kCharsetSize : Int := 257

/-- Modelled from the spec: `key_type::kTerminator` of `trie_impl.h`;
"keys should be normalized to symbol ∈ 1..257 where 1 is reserved terminator". -/
def kTerminator : Int := 1

/-- Modelled from the spec: `key_type::char_in` of `trie_impl.h`, the
"internal injection" of the bytes into the non-terminator symbols `2..257`. -/
def char_in (b : Fin 256) : Int := (b.val : Int) + 2

/-- Every symbol of the alphabet, `1 .. kCharsetSize`, in increasing order. -/
def symbols : List Int := (List.range 257).map (fun (n : Nat) => (n : Int) + 1)

end key_type

/-- Modelled from the spec: `trie::key_type` of `trie_impl.h`, "an ordered
sequence of symbols".  The list holds the symbols pushed so far; the
terminator that `data()` appends is not part of it. -/
abbrev key_type := List Int

/-- Modelled from the spec: `key_type::assign(const char *, size_t)`, the key
made of the given bytes. -/
def key_type.assign (bytes : List (Fin 256)) : key_type := bytes.map key_type.char_in

/-- Modelled from the spec: `key_type::data()`, seen as a pointer to the first
symbol of the terminated buffer: the symbols before the first terminator. -/
def key_type.data (key : key_type) : List Int :=
  key.takeWhile (fun c => decide (c ≠ key_type.kTerminator))

/-- Modelled from the spec: `trie::result_type` of `trie_impl.h`, the vector
of `(key, value)` pairs filled by the prefix searches. -/
abbrev result_type := List (key_type × Int)

/-- The test `miss && *miss != key_type::kTerminator` on a pointer. -/
def pending : Option (List Int) → Bool
  | some (_ :: _) => true
  | _ => false

/-- The symbol `*p` under a non-null pointer. -/
def deref (p : List Int) : Int := p.headD key_type.kTerminator

/-! ## Basic trie -/

/-- The pair `extremum_type` of the source: the largest and the smallest
symbol of a group, `0` standing for "none yet". -/
structure extremum_type where
  max : Int
  min : Int
  deriving DecidableEq, Repr

/-- The update of an extremum by one symbol, as written in
`create_transition` (lines 227-230) and `create_branch` (lines 841-844). -/
def extremum_type.add (e : extremum_type) (ch : Int) : extremum_type :=
  let mx := if ch > e.max ∨ e.max = 0 then ch else e.max
  let mn := if ch < e.min ∨ e.min = 0 then ch else e.min
  ⟨mx, mn⟩

/-- The state of a `basic_trie`: `header_->size`, the `states_` array split
into its `base` and `check` columns, and `last_base_`. -/
structure basic_trie where
  size : Int
  base : Int → Int
  check : Int → Int
  last_base : Int

namespace basic_trie

/-- Modelled from the spec: `basic_trie::kDefaultStateSize` of `trie_impl.h`
(the value is not given; the capacity used when no usable hint is passed). -/
def kDefaultStateSize : Int := 4096

/-- Modelled from the spec: `basic_trie::set_base` of `trie_impl.h`. -/
def set_base (tr : basic_trie) (s v : Int) : basic_trie :=
  { tr with base := fun j => if j = s then v else tr.base j }

/-- Modelled from the spec: `basic_trie::set_check` of `trie_impl.h`. -/
def set_check (tr : basic_trie) (s v : Int) : basic_trie :=
  { tr with check := fun j => if j = s then v else tr.check j }

/-- Modelled from the spec: `basic_trie::set_last_base` of `trie_impl.h`. -/
def set_last_base (tr : basic_trie) (v : Int) : basic_trie :=
  { tr with last_base := v }

/-- Modelled from the spec: `basic_trie::next` of `trie_impl.h`,
"`t = base(s) + c`". -/
def next (tr : basic_trie) (s ch : Int) : Int := tr.base s + ch

/-- Modelled from the spec: `basic_trie::prev` of `trie_impl.h`,
"`check(t)` is the parent of `t`". -/
def prev (tr : basic_trie) (s : Int) : Int := tr.check s

/-- Modelled from the spec: `basic_trie::resize_state` of `trie_impl.h`, "the
state array grows by geometric resize (e.g., double) when an access would
exceed `size`"; the new cells are zero. -/
def resize_state (tr : basic_trie) (n : Int) : basic_trie :=
  { tr with size := 2 * tr.size + n }

/-- Modelled from the spec: `basic_trie::check_transition` of `trie_impl.h`:
`t` is an allocated cell whose parent is the state `s`. -/
def check_transition (tr : basic_trie) (s t : Int) : Bool :=
  decide (0 < s) && decide (0 < t) && decide (t < tr.size) && decide (tr.check t = s)

/-- Modelled from the spec: `basic_trie::check_reverse_transition` of
`trie_impl.h`: `s` is entered from its parent `prev(s)` on the symbol `ch`. -/
def check_reverse_transition (tr : basic_trie) (s ch : Int) : Bool :=
  decide (0 < s) && decide (0 < tr.prev s) && decide (tr.next (tr.prev s) ch = s)

/-- Modelled from the spec: `basic_trie::find_exist_target` of `trie_impl.h`:
"for every `c` ... include it iff `check(base(s) + c) = s`", over the whole
alphabet, together with the extremum of the symbols found. -/
def find_exist_target (tr : basic_trie) (s : Int) : List Int × extremum_type :=
  let targets := key_type.symbols.filter (fun c => tr.check_transition s (tr.next s c))
  (targets, targets.foldl extremum_type.add ⟨0, 0⟩)

/-- Modelled from the spec: the constructor's memory: a zero-filled state
array of capacity `size` (`kDefaultStateSize` when the hint is below the
alphabet size); source lines 74-84. -/
def create (size : Int) : basic_trie :=
  let size := if size < key_type.kCharsetSize then kDefaultStateSize else size
  resize_state ⟨0, fun _ => 0, fun _ => 0, 0⟩ size

/-- Modelled from the spec: `basic_trie::go_forward` of `trie_impl.h`:
"advances from `s` as far as possible; `mismatch_ptr` is null iff the entire
input was consumed" (the terminator included). -/
def go_forward (tr : basic_trie) (s : Int) : List Int → Int × Option (List Int)
  | [] =>
    let t := tr.next s key_type.kTerminator
    if tr.check_transition s t then (t, none) else (s, some [])
  | c :: rest =>
    let t := tr.next s c
    if tr.check_transition s t then go_forward tr t rest else (s, some (c :: rest))

/-- The scan of `find_base` (lines 142-156): `i` is the candidate before the
increment. -/
def find_base_loop (inputs : List Int) (extremum : extremum_type) :
    Nat → basic_trie → Int → Except fault (basic_trie × Int)
  | 0, _, _ => .error .out_of_fuel
  | fuel + 1, tr, i =>
    let i := i + 1
    let tr := if i + extremum.max ≥ tr.size then tr.resize_state extremum.max else tr
    if tr.check (i + extremum.min) ≤ 0 ∧ tr.check (i + extremum.max) ≤ 0
        ∧ inputs.all (fun c => decide (tr.check (i + c) ≤ 0)) then
      .ok (tr, i)
    else find_base_loop inputs extremum fuel tr i

/-- The function `basic_trie::find_base` (lines 135-161).  The scan is bounded by the number of
candidates up to the capacity: beyond it every cell is free. -/
def find_base (tr : basic_trie) (inputs : List Int) (extremum : extremum_type) :
    Except fault (basic_trie × Int) :=
  match find_base_loop inputs extremum ((tr.size - tr.last_base).toNat + 1) tr tr.last_base with
  | .error f => .error f
  | .ok (tr, i) => .ok ({ tr with last_base := if i > 256 then i - 255 else i }, i)

/-- The writes of one round of the loop of `relocate` for a symbol with an old
link (lines 178-192): the child is copied to its new cell, its own children
are given the new cell as parent, and the old cell is cleared. -/
def relocate_one (tr : basic_trie) (obase nbase c : Int) : basic_trie :=
  let tr := tr.set_base (nbase + c) (tr.base (obase + c))
  let tr := tr.set_check (nbase + c) (tr.check (obase + c))
  let targets := (tr.find_exist_target (obase + c)).1
  let tr := targets.foldl
    (fun tr p => tr.set_check (tr.base (obase + c) + p) (nbase + c)) tr
  (tr.set_base (obase + c) 0).set_check (obase + c) 0

/-- The calls `relocator_->relocate(old, new)` of a relocation (lines 188-189),
given the cells it moved: one call for each moved cell, in order, when
`relocator_` is non-null (the constructor of the two-trie registers a
relocator with each of its tries, lines 357-364), and none when `relocator_`
is null (lines 88 and 96; the tail trie hands no relocator to its trie, line
749). -/
def relocator_calls (relocator : Bool) (moved : List (Int × Int)) : List (Int × Int) :=
  if relocator then moved else []

/-- The loop of `relocate` (lines 175-194); `moved` collects, in order, the
pair (old cell, new cell) of every child that is moved.  These pairs are the
arguments of the calls of lines 188-189, which are made only when a relocator
is registered (`relocator_calls`). -/
def relocate_loop (s obase nbase : Int) :
    List Int → basic_trie → Int → List (Int × Int) → basic_trie × Int × List (Int × Int)
  | [], tr, stand, moved => (tr, stand, moved)
  | c :: rest, tr, stand, moved =>
    if tr.check (obase + c) ≠ s then relocate_loop s obase nbase rest tr stand moved
    else
      relocate_loop s obase nbase rest (tr.relocate_one obase nbase c)
        (if stand = obase + c then nbase + c else stand)
        (moved ++ [(obase + c, nbase + c)])

/-- The function `basic_trie::relocate` (lines 163-199): returns the trie, the standing state
and the pairs (old cell, new cell) of the cells moved, in order. -/
def relocate (tr : basic_trie) (stand s : Int) (inputs : List Int)
    (extremum : extremum_type) : Except fault (basic_trie × Int × List (Int × Int)) :=
  let obase := tr.base s
  match tr.find_base inputs extremum with
  | .error f => .error f
  | .ok (tr, nbase) =>
    let (tr, stand, moved) := relocate_loop s obase nbase inputs tr stand []
    .ok (tr.set_base s nbase, stand, moved)

/-- The function `basic_trie::create_transition` (lines 202-240): returns the trie, the target
state and the pairs (old cell, new cell) of the cells moved by its relocation, in order. -/
def create_transition (tr : basic_trie) (s ch : Int) :
    Except fault (basic_trie × Int × List (Int × Int)) :=
  let t := tr.next s ch
  let tr := if t ≥ tr.size then tr.resize_state (t - tr.size + 1) else tr
  if tr.base s > 0 ∧ tr.check t ≤ 0 then
    .ok (tr.set_check t s, t, [])
  else
    let (targets, extremum) := tr.find_exist_target s
    let parent_targets :=
      if tr.check t ≠ 0 then tr.find_exist_target (tr.check t) else ([], ⟨0, 0⟩)
    let r :=
      if parent_targets.1.length > 0 ∧ targets.length + 1 > parent_targets.1.length then
        tr.relocate s (tr.check t) parent_targets.1 parent_targets.2
      else
        tr.relocate s s (targets ++ [ch]) (extremum.add ch)
    match r with
    | .error f => .error f
    | .ok (tr, s, moved) =>
      let t := tr.next s ch
      let tr := if t ≥ tr.size then tr.resize_state (t - tr.size + 1) else tr
      .ok (tr.set_check t s, t, moved)

/-- The do-while loop of `basic_trie::insert` (lines 251-253) from a non-null
`p`: one transition per symbol, the terminator included. -/
def insert_loop : List Int → basic_trie → Int → Except fault (basic_trie × Int)
  | [], tr, s =>
    match tr.create_transition s key_type.kTerminator with
    | .error f => .error f
    | .ok (tr, t, _) => .ok (tr, t)
  | c :: rest, tr, s =>
    match tr.create_transition s c with
    | .error f => .error f
    | .ok (tr, t, _) => insert_loop rest tr t

/-- The function `basic_trie::insert` (lines 243-256). -/
def insert (tr : basic_trie) (key : key_type) (value : Int) : outcome basic_trie :=
  if value < 1 then .threw "basic_trie::insert: value must > 0" tr
  else
    match tr.go_forward 1 key.data with
    | (_, none) => .crashed .null_dereference
    | (s, some p) =>
      match insert_loop p tr s with
      | .error f => .crashed f
      | .ok (tr, s) => .done (tr.set_base s value)

/-- The function `basic_trie::search` (lines 259-268): `none` is the result `false`, `some v`
the result `true` with `*value = v`. -/
def search (tr : basic_trie) (key : key_type) : Option Int :=
  match tr.go_forward 1 key.data with
  | (_, some _) => none
  | (s, none) => some (tr.base s)

/-- The function `basic_trie::prefix_search_aux` (lines 280-303).  `miss` is the pointer into
the searched key (`none` when null); the recursion depth is bounded by
`fuel`. -/
def prefix_search_aux (tr : basic_trie) :
    Nat → Int → Option (List Int) → key_type → result_type → Except fault result_type
  | 0, _, _, _, _ => .error .out_of_fuel
  | fuel + 1, s, miss, store, result =>
    let targets := (tr.find_exist_target s).1
    if targets.length ≠ 0 then
      targets.foldlM (fun result p =>
        match miss with
        | none => prefix_search_aux tr fuel (tr.next s p) none (store ++ [p]) result
        | some [] => prefix_search_aux tr fuel (tr.next s p) (some []) (store ++ [p]) result
        | some (m :: rest) =>
          if m ≠ p then pure result
          else prefix_search_aux tr fuel (tr.next s p) (some rest) (store ++ [p]) result)
        result
    else
      .ok (result ++ [(store, tr.base s)])

/-- The function `basic_trie::prefix_search` (lines 270-278). -/
def prefix_search (tr : basic_trie) (key : key_type) : Except fault result_type :=
  let (s, p) := tr.go_forward 1 key.data
  tr.prefix_search_aux (tr.size.toNat + 1) s p key []

end basic_trie

/-! ## Tail trie -/

/-- The state of a `single_trie`: the basic trie `trie_`, the array `suffix_`
with its capacity `header_->suffix_size`, and `next_suffix_`. -/
structure single_trie where
  trie : basic_trie
  suffix : Int → Int
  suffix_size : Int
  next_suffix : Int

namespace single_trie

/-- Modelled from the spec: `single_trie::resize_suffix` of `trie_impl.h`,
"grow the suffix array geometrically"; the new cells are zero. -/
def resize_suffix (st : single_trie) (n : Int) : single_trie :=
  { st with suffix_size := 2 * st.suffix_size + n }

/-- The assignment `suffix_[i] = v`. -/
def set_suffix (st : single_trie) (i v : Int) : single_trie :=
  { st with suffix := fun j => if j = i then v else st.suffix j }

/-- The assignment `suffix_[i] = v` where the source makes no capacity test
(lines 853, 874, 890 and 896): a write outside the cells `0 .. suffix_size - 1`
of the array is a fault. -/
def write_suffix (st : single_trie) (i v : Int) : Except fault single_trie :=
  if 0 ≤ i ∧ i < st.suffix_size then .ok (st.set_suffix i v) else .error .out_of_bounds

/-- The constructor `single_trie::single_trie(size_t)` (lines 745-754). -/
def create (size : Int) : single_trie :=
  resize_suffix ⟨basic_trie.create size, fun _ => 0, 0, 1⟩
    (if size ≠ 0 then size else basic_trie.kDefaultStateSize)

/-- The do-while loop of `insert_suffix` (lines 816-821). -/
def insert_suffix_loop : List Int → single_trie → single_trie
  | [], st =>
    let st := if st.next_suffix + 1 ≥ st.suffix_size
      then st.resize_suffix (st.next_suffix + 1) else st
    { st.set_suffix st.next_suffix key_type.kTerminator with next_suffix := st.next_suffix + 1 }
  | c :: rest, st =>
    let st := if st.next_suffix + 1 ≥ st.suffix_size
      then st.resize_suffix (st.next_suffix + 1) else st
    insert_suffix_loop rest
      { st.set_suffix st.next_suffix c with next_suffix := st.next_suffix + 1 }

/-- The function `single_trie::insert_suffix` (lines 810-823). -/
def insert_suffix (st : single_trie) (s : Int) (inputs : List Int) (value : Int) :
    single_trie :=
  let st := { st with trie := st.trie.set_base s (-st.next_suffix) }
  let st := insert_suffix_loop inputs st
  { st.set_suffix st.next_suffix value with next_suffix := st.next_suffix + 1 }

/-- Result of the common-string loop of `create_branch` (lines 835-847):
either the loop ran through the terminator (`duplicate`, with `start` on the
value cell), or it stopped at a difference, with the common symbols, their
extremum, the position `start` in the suffix array and the pointer `p`. -/
inductive common_result where
  | duplicate (start : Int)
  | differ (common : List Int) (extremum : extremum_type) (start : Int) (p : List Int)

/-- The common-string loop of `create_branch` (lines 835-847). -/
def common_loop (st : single_trie) :
    List Int → List Int → extremum_type → Int → common_result
  | [], common, extremum, start =>
    if st.suffix start ≠ key_type.kTerminator then .differ common extremum start []
    else .duplicate (start + 1)
  | c :: rest, common, extremum, start =>
    if st.suffix start ≠ c then .differ common extremum start (c :: rest)
    else common_loop st rest (common ++ [c]) (extremum.add c) (start + 1)

/-- The loop of `create_branch` that threads the common string into the trie
(lines 860-861). -/
def common_transitions : List Int → basic_trie → Int → Except fault (basic_trie × Int)
  | [], tr, s => .ok (tr, s)
  | c :: rest, tr, s =>
    match tr.create_transition s c with
    | .error f => .error f
    | .ok (tr, t, _) => common_transitions rest tr t

/-- The function `single_trie::create_branch` (lines 825-878). -/
def create_branch (st : single_trie) (s : Int) (inputs : List Int) (value : Int) :
    Except fault single_trie :=
  match common_loop st inputs [] ⟨0, 0⟩ (-st.trie.base s) with
  | .duplicate start => st.write_suffix start value
  | .differ common extremum start p =>
    let r : Except fault (basic_trie × Int) :=
      if common ≠ [] then
        match st.trie.find_base common extremum with
        | .error f => .error f
        | .ok (tr, b) => common_transitions common (tr.set_base s b) s
      else .ok (st.trie.set_base s 0, s)
    match r with
    | .error f => .error f
    | .ok (tr, s) =>
      match tr.create_transition s (st.suffix start) with
      | .error f => .error f
      | .ok (tr, t, _) =>
        let tr := tr.set_base t (-(start + 1))
        match tr.create_transition s (deref p) with
        | .error f => .error f
        | .ok (tr, t, _) =>
          match p with
          | [] =>
            let st := { st with trie := tr.set_base t (-st.next_suffix) }
            match st.write_suffix st.next_suffix value with
            | .error f => .error f
            | .ok st => .ok { st with next_suffix := st.next_suffix + 1 }
          | _ :: rest => .ok (insert_suffix { st with trie := tr } t rest value)

/-- The body of `single_trie::insert` (lines 881-901). -/
def insert_core (st : single_trie) (key : key_type) (value : Int) :
    Except fault single_trie :=
  match st.trie.go_forward 1 key.data with
  | (s, p) =>
    if st.trie.base s < 0 then
      match p with
      | some p => create_branch st s p value
      | none => st.write_suffix (-st.trie.base s) value
    else
      match p with
      | none => .error .null_dereference
      | some p =>
        match st.trie.create_transition s (deref p) with
        | .error f => .error f
        | .ok (tr, s, _) =>
          match p with
          | [] =>
            let st := { st with trie := tr.set_base s (-st.next_suffix) }
            match st.write_suffix st.next_suffix value with
            | .error f => .error f
            | .ok st => .ok { st with next_suffix := st.next_suffix + 1 }
          | _ :: rest => .ok (insert_suffix { st with trie := tr } s rest value)

/-- The function `single_trie::insert` (lines 881-901): the source raises no exception. -/
def insert (st : single_trie) (key : key_type) (value : Int) : outcome single_trie :=
  match insert_core st key value with
  | .error f => .crashed f
  | .ok st => .done st

/-- The comparison loop of `single_trie::search` (lines 910-913): `some start`
is the position after the matched terminator, `none` the result `false`. -/
def search_loop (st : single_trie) : List Int → Int → Option Int
  | [], start => if key_type.kTerminator ≠ st.suffix start then none else some (start + 1)
  | c :: rest, start => if c ≠ st.suffix start then none else search_loop st rest (start + 1)

/-- The function `single_trie::search` (lines 903-920): `none` is the result `false`,
`some v` the result `true` with `*value = v`. -/
def search (st : single_trie) (key : key_type) : Option Int :=
  match st.trie.go_forward 1 key.data with
  | (s, p) =>
    if st.trie.base s < 0 then
      match p with
      | some p =>
        match search_loop st p (-st.trie.base s) with
        | none => none
        | some start => some (st.suffix start)
      | none => some (st.suffix (-st.trie.base s))
    else none

/-- The tail loop of `single_trie::prefix_search` (lines 945-954) for one
candidate: returns `fail`, the pointer `miss`, the extended key and the
position of the terminator.  The scan is bounded by `fuel`. -/
def tail_loop (st : single_trie) :
    Nat → Int → Option (List Int) → key_type → Except fault (Bool × Option (List Int) × key_type × Int)
  | 0, _, _, _ => .error .out_of_fuel
  | fuel + 1, start, miss, key =>
    if st.suffix start ≠ key_type.kTerminator then
      match miss with
      | some (m :: rest) =>
        if m ≠ st.suffix start then .ok (true, miss, key, start)
        else tail_loop st fuel (start + 1) (some rest) (key ++ [st.suffix start])
      | _ => tail_loop st fuel (start + 1) miss (key ++ [st.suffix start])
    else .ok (false, miss, key, start)

/-- The loop of `single_trie::prefix_search` over the candidates (lines
936-961): a candidate is rewritten in place or erased. -/
def complete (st : single_trie) (p : Option (List Int)) :
    result_type → Except fault result_type
  | [] => .ok []
  | (key, second) :: more =>
    let start := -second
    match key.getLast? with
    | none => .error .out_of_bounds
    | some last =>
      if last = key_type.kTerminator then
        match complete st p more with
        | .error f => .error f
        | .ok r => .ok ((key, st.suffix start) :: r)
      else
        match tail_loop st (st.suffix_size.toNat + 1) start p key with
        | .error f => .error f
        | .ok (fail, miss, key, start) =>
          match complete st p more with
          | .error f => .error f
          | .ok r =>
            if fail || pending miss then .ok r
            else .ok ((key, st.suffix (start + 1)) :: r)

/-- The function `single_trie::prefix_search` (lines 922-963). -/
def prefix_search (st : single_trie) (key : key_type) : Except fault result_type :=
  match st.trie.go_forward 1 key.data with
  | (s, p) =>
    let s := if st.trie.check_reverse_transition s key_type.kTerminator
      then st.trie.prev s else s
    let store : key_type := match p with
      | some p => key.take (key.data.length - p.length)
      | none => key
    match st.trie.prefix_search_aux (st.trie.size.toNat + 1) s p store [] with
    | .error f => .error f
    | .ok result => complete st p result

end single_trie

/-! ## Two-trie -/

/-- The cell `index_type` of the index table: `index` is the accept entry the
key's tail hangs on (`0`: the key ends in the front trie), `data` the value. -/
structure index_type where
  index : Int
  data : Int

/-- The entry `refer_type` of the map `refer_`: the accept entry of a rear
state and the front separators linked to it. -/
structure refer_type where
  accept_index : Int
  referer : List Int

/-- The state of a `double_trie`: front trie `lhs_`, rear trie `rhs_`, the
tables `index_` and `accept_` with their capacities, the allocation counters,
the map `refer_`, the free lists and the two watchers. -/
structure double_trie where
  lhs : basic_trie
  rhs : basic_trie
  index : Int → index_type
  accept : Int → Int
  index_size : Int
  accept_size : Int
  next_index : Int
  next_accept : Int
  refer : List (Int × refer_type)
  free_index : List Int
  free_accept : List Int
  watcher0 : Int
  watcher1 : Int

namespace double_trie

/-- The constructor `double_trie::double_trie(size_t)` (lines 349-371). -/
def create (size : Int) : double_trie :=
  let n := if size ≠ 0 then size else basic_trie.kDefaultStateSize
  { lhs := basic_trie.create size, rhs := basic_trie.create size,
    index := fun _ => ⟨0, 0⟩, accept := fun _ => 0,
    index_size := n, accept_size := n, next_index := 1, next_accept := 1,
    refer := [], free_index := [], free_accept := [], watcher0 := 0, watcher1 := 0 }

/-- The assignment `index_[i].index = v`. -/
def set_index (dt : double_trie) (i v : Int) : double_trie :=
  { dt with index := fun j => if j = i then ⟨v, (dt.index j).data⟩ else dt.index j }

/-- The assignment `index_[i].data = v`. -/
def set_data (dt : double_trie) (i v : Int) : double_trie :=
  { dt with index := fun j => if j = i then ⟨(dt.index j).index, v⟩ else dt.index j }

/-- The assignment `accept_[k].accept = v`. -/
def set_accept (dt : double_trie) (k v : Int) : double_trie :=
  { dt with accept := fun j => if j = k then v else dt.accept j }

/-- The lookup `refer_.find(u)`. -/
def find_refer (dt : double_trie) (u : Int) : Option refer_type :=
  (dt.refer.find? (fun e => decide (e.1 = u))).map (fun e => e.2)

/-- The removal `refer_.erase(u)`. -/
def erase_refer (dt : double_trie) (u : Int) : double_trie :=
  { dt with refer := dt.refer.filter (fun e => decide (e.1 ≠ u)) }

/-- The assignment `refer_[u] = e`. -/
def set_refer (dt : double_trie) (u : Int) (e : refer_type) : double_trie :=
  { dt with refer := (u, e) :: dt.refer.filter (fun x => decide (x.1 ≠ u)) }

/-- Modelled from the spec: `double_trie::check_separator` of `trie_impl.h`,
"a front-trie state `s` is a separator iff `base(s) < 0`". -/
def check_separator (dt : double_trie) (s : Int) : Bool := decide (dt.lhs.base s < 0)

/-- Modelled from the spec: `double_trie::link_state` of `trie_impl.h`,
"`r = accept[index[-base(s)].index_ref].accept`". -/
def link_state (dt : double_trie) (s : Int) : Int :=
  dt.accept (dt.index (-dt.lhs.base s)).index

/-- Modelled from the spec: `double_trie::outdegree` of `trie_impl.h`, the
number of outgoing symbols of a rear state. -/
def outdegree (dt : double_trie) (s : Int) : Nat := (dt.rhs.find_exist_target s).1.length

/-- Modelled from the spec: `double_trie::count_referer` of `trie_impl.h`, the
number of front separators that point to the rear state. -/
def count_referer (dt : double_trie) (s : Int) : Nat :=
  match dt.find_refer s with
  | none => 0
  | some e => e.referer.length

/-- Modelled from the spec: `double_trie::find_index_entry` of `trie_impl.h`:
the index slot owned by the front state `s`, a reclaimed or fresh one being
assigned (`base(s) = -slot`) when `s` has none. -/
def find_index_entry (dt : double_trie) (s : Int) : double_trie × Int :=
  if dt.lhs.base s < 0 then (dt, -dt.lhs.base s)
  else
    match dt.free_index with
    | i :: rest => ({ dt with free_index := rest, lhs := dt.lhs.set_base s (-i) }, i)
    | [] =>
      let i := dt.next_index
      let dt := { dt with next_index := i + 1 }
      let dt := if dt.next_index ≥ dt.index_size
        then { dt with index_size := 2 * dt.index_size + 1 } else dt
      ({ dt with lhs := dt.lhs.set_base s (-i) }, i)

/-- Modelled from the spec: `double_trie::find_accept_entry` of `trie_impl.h`:
the accept entry of the rear state `t`, a reclaimed or fresh one being
assigned and recorded in `refer_` when `t` has none. -/
def find_accept_entry (dt : double_trie) (t : Int) : double_trie × Int :=
  match dt.find_refer t with
  | some e => (dt, e.accept_index)
  | none =>
    match dt.free_accept with
    | k :: rest =>
      (({ dt with free_accept := rest }.set_accept k t).set_refer t ⟨k, []⟩, k)
    | [] =>
      let k := dt.next_accept
      let dt := { dt with next_accept := k + 1 }
      let dt := if dt.next_accept ≥ dt.accept_size
        then { dt with accept_size := 2 * dt.accept_size + 1 } else dt
      ((dt.set_accept k t).set_refer t ⟨k, []⟩, k)

/-- Modelled from the spec: `double_trie::set_link` of `trie_impl.h`: "link via
a fresh index/accept pair": the front state `s` becomes a separator whose
index slot refers to the accept entry of the rear state `t`, and `s` joins
the referers of `t`.  Returns the index slot. -/
def set_link (dt : double_trie) (s t : Int) : double_trie × Int :=
  let (dt, i) := dt.find_index_entry s
  let (dt, k) := dt.find_accept_entry t
  let dt := dt.set_index i k
  let e : refer_type := (dt.find_refer t).getD ⟨k, []⟩
  let e := if s ∈ e.referer then e else { e with referer := e.referer ++ [s] }
  (dt.set_refer t e, i)

/-- Modelled from the spec: `double_trie::free_accept_entry` of `trie_impl.h`:
"free the accept entry": the accept entry of the rear state goes to the free
list and the state leaves `refer_`. -/
def free_accept_entry (dt : double_trie) (s : Int) : double_trie :=
  match dt.find_refer s with
  | none => dt
  | some e =>
    let dt := dt.set_accept e.accept_index 0
    ({ dt with free_accept := dt.free_accept ++ [e.accept_index] }).erase_refer s

/-- Modelled from the spec: `double_trie::remove_accept_state` of
`trie_impl.h`: the rear cell is cleared and its accept entry freed. -/
def remove_accept_state (dt : double_trie) (s : Int) : double_trie :=
  let dt := { dt with rhs := (dt.rhs.set_base s 0).set_check s 0 }
  dt.free_accept_entry s

/-- Modelled from the spec: `double_trie::relocate_front` of `trie_impl.h`, the
callback of the front trie: a renumbered separator is renamed in the referer
set of the rear state it points to. -/
def relocate_front (dt : double_trie) (o n : Int) : double_trie :=
  if dt.lhs.base n < 0 ∧ (dt.index (-dt.lhs.base n)).index > 0 then
    let r := dt.link_state n
    match dt.find_refer r with
    | none => dt
    | some e => dt.set_refer r { e with referer := e.referer.map (fun x => if x = o then n else x) }
  else dt

/-- Modelled from the spec: `double_trie::relocate_rear` of `trie_impl.h`, the
callback of the rear trie: "every accept entry whose `accept` equals `old`",
"the `refer` map key `old → new`" and "the watchers" are rewritten. -/
def relocate_rear (dt : double_trie) (o n : Int) : double_trie :=
  let dt := { dt with watcher0 := if dt.watcher0 = o then n else dt.watcher0,
                      watcher1 := if dt.watcher1 = o then n else dt.watcher1 }
  match dt.find_refer o with
  | none => dt
  | some e => ((dt.set_accept e.accept_index n).erase_refer o).set_refer n e

/-- The call `lhs_->create_transition(s, ch)` of the two-trie.  Its constructor
registers the front callback with `lhs_` (lines 357-364), so that line 189
calls it for every cell moved (`relocator_calls true`); the callback is applied
here to these calls in order. -/
def lhs_create_transition (dt : double_trie) (s ch : Int) : Except fault (double_trie × Int) :=
  match dt.lhs.create_transition s ch with
  | .error f => .error f
  | .ok (tr, t, moved) =>
    .ok ((basic_trie.relocator_calls true moved).foldl
      (fun dt m => dt.relocate_front m.1 m.2) { dt with lhs := tr }, t)

/-- The call `rhs_->create_transition(s, ch)` of the two-trie.  Its constructor
registers the rear callback with `rhs_` (lines 357-364), so that line 189
calls it for every cell moved (`relocator_calls true`); the callback is applied
here to these calls in order. -/
def rhs_create_transition (dt : double_trie) (s ch : Int) : Except fault (double_trie × Int) :=
  match dt.rhs.create_transition s ch with
  | .error f => .error f
  | .ok (tr, t, moved) =>
    .ok ((basic_trie.relocator_calls true moved).foldl
      (fun dt m => dt.relocate_rear m.1 m.2) { dt with rhs := tr }, t)

end double_trie

/-- Modelled from the spec: `basic_trie::go_forward_reverse` of `trie_impl.h`:
"walk `inputs` through `rhs` in reverse".  The argument is the buffer read
from its terminator back to its first symbol; a non-null mismatch pointer is
the rest of that reversed reading, starting at `*p`. -/
def basic_trie.go_forward_reverse (tr : basic_trie) (s : Int) :
    List Int → Int × Option (List Int)
  | [] => (s, none)
  | c :: rest =>
    let t := tr.next s c
    if tr.check_transition s t then go_forward_reverse tr t rest else (s, some (c :: rest))

/-- Modelled from the spec: `basic_trie::go_backward` of `trie_impl.h`: "walk
`rhs` backwards symbol by symbol against `p`"; returns the state where the
walk stops. -/
def basic_trie.go_backward (tr : basic_trie) (s : Int) : List Int → Int × Option (List Int)
  | [] =>
    if tr.check_reverse_transition s key_type.kTerminator then (tr.prev s, none)
    else (s, some [])
  | c :: rest =>
    if tr.check_reverse_transition s c then go_backward tr (tr.prev s) rest
    else (s, some (c :: rest))

namespace double_trie

/-- The function `double_trie::rhs_append` (lines 441-474).  `inputs` is the buffer in forward
order (the symbols before the terminator). -/
def rhs_append (dt : double_trie) (inputs : List Int) : Except fault (double_trie × Int) :=
  match dt.rhs.go_forward_reverse 1 (key_type.kTerminator :: inputs.reverse) with
  | (s, none) =>
    if dt.outdegree s = 0 then .ok (dt, s)
    else
      let t := dt.rhs.next s key_type.kTerminator
      if !dt.rhs.check_transition s t then dt.rhs_create_transition s key_type.kTerminator
      else .ok (dt, t)
  | (s, some p) =>
    let r : Except fault double_trie :=
      if dt.outdegree s = 0 then
        match dt.rhs_create_transition s key_type.kTerminator with
        | .error f => .error f
        | .ok (dt, t) =>
          match dt.find_refer s with
          | none => .ok dt
          | some e =>
            .ok ((e.referer.foldl (fun dt x => (dt.set_link x t).1) dt).free_accept_entry s)
      else .ok dt
    match r with
    | .error f => .error f
    | .ok dt =>
      p.foldlM (fun (acc : double_trie × Int) c => acc.1.rhs_create_transition acc.2 c) (dt, s)

/-- The function `double_trie::lhs_insert` (lines 476-488). -/
def lhs_insert (dt : double_trie) (s : Int) (inputs : List Int) (value : Int) :
    Except fault double_trie :=
  match dt.lhs_create_transition s (deref inputs) with
  | .error f => .error f
  | .ok (dt, s) =>
    match inputs with
    | [] =>
      let (dt, i) := dt.find_index_entry s
      .ok ((dt.set_index i 0).set_data i value)
    | _ :: rest =>
      match dt.rhs_append rest with
      | .error f => .error f
      | .ok (dt, a) =>
        let (dt, i) := dt.set_link s a
        .ok (dt.set_data i value)

/-- Modelled from the spec: `double_trie::rhs_clean_one` of `trie_impl.h`:
"removes a tail if it has become a dangling interior (exists only as a chain
with no referer set)": a childless rear state without referers that hangs on
a terminator edge is removed. -/
def rhs_clean_one (dt : double_trie) (t : Int) : double_trie × Bool :=
  if dt.rhs.check_reverse_transition t key_type.kTerminator ∧ dt.outdegree t = 0
      ∧ dt.count_referer t = 0 then
    (dt.remove_accept_state t, true)
  else (dt, false)

/-- The function `double_trie::rhs_clean_more` (lines 490-516); the recursion towards the root
is bounded by `fuel`. -/
def rhs_clean_more : Nat → double_trie → Int → Except fault double_trie
  | 0, _, _ => .error .out_of_fuel
  | fuel + 1, dt, t =>
    if dt.outdegree t = 0 ∧ dt.count_referer t = 0 then
      if ¬ dt.rhs.check t > 0 then .error .assertion_failed
      else
        let s := dt.rhs.prev t
        let dt := dt.remove_accept_state t
        if ¬ s > 0 then .error .assertion_failed
        else rhs_clean_more fuel dt s
    else if dt.outdegree t = 1 then
      let r := dt.rhs.next t key_type.kTerminator
      if dt.rhs.check_transition t r then
        let linked : Except fault double_trie :=
          match dt.find_refer r with
          | none => .ok dt
          | some e =>
            let dt := e.referer.foldl (fun dt x => (dt.set_link x t).1) dt
            match dt.find_refer t with
            | none => .error .assertion_failed
            | some e => .ok (dt.set_accept e.accept_index t)
        match linked with
        | .error f => .error f
        | .ok dt =>
          let dt := if dt.rhs.base r > 1
            then { dt with rhs := dt.rhs.set_last_base (dt.rhs.base r) } else dt
          .ok (dt.remove_accept_state r)
      else .ok dt
    else .ok dt

/-- The loop of `rhs_insert` that threads the matched symbols into the front
trie (lines 544-546). -/
def match_transitions : List Int → double_trie → Int → Except fault (double_trie × Int)
  | [], dt, s => .ok (dt, s)
  | c :: rest, dt, s =>
    match dt.lhs_create_transition s c with
    | .error f => .error f
    | .ok (dt, t) => match_transitions rest dt t

/-- The function `double_trie::rhs_insert` (lines 518-575); `matched` is the vector `match`. -/
def rhs_insert (dt : double_trie) (s r : Int) (matched : List Int) (remain : List Int)
    (ch value : Int) : Except fault double_trie :=
  -- R-1
  let u := dt.link_state s
  if ¬ u > 0 then .error .assertion_failed
  else if ¬ dt.rhs.check u > 0 then .error .assertion_failed
  else
  let slot := -dt.lhs.base s
  let oval := (dt.index slot).data
  let dt := (dt.set_index slot 0).set_data slot 0
  let dt := { dt with free_index := dt.free_index ++ [slot] }
  let dt := { dt with lhs := dt.lhs.set_base s 0 }
  let dt := { dt with watcher0 := u, watcher1 := r }
  let dt :=
    match dt.find_refer u with
    | none => dt
    | some e =>
      let e := { e with referer := e.referer.filter (fun x => decide (x ≠ s)) }
      let dt := dt.set_refer u e
      if e.referer.length = 0 then dt.free_accept_entry u else dt
  -- R-2
  match match_transitions matched dt s with
  | .error f => .error f
  | .ok (dt, s) =>
  match dt.lhs_create_transition s (deref remain) with
  | .error f => .error f
  | .ok (dt, t) =>
  let r2 : Except fault double_trie :=
    match remain with
    | [] =>
      let (dt, _) := dt.find_index_entry t
      .ok ((dt.set_data (-dt.lhs.base t) value).set_index (-dt.lhs.base t) 0)
    | _ :: rest =>
      match dt.rhs_append rest with
      | .error f => .error f
      | .ok (dt, a) =>
        if ¬ dt.rhs.check dt.watcher0 > 0 then .error .assertion_failed
        else
          let (dt, i) := dt.set_link t a
          .ok (dt.set_data i value)
  match r2 with
  | .error f => .error f
  | .ok dt =>
  -- R-3
  match dt.lhs_create_transition s ch with
  | .error f => .error f
  | .ok (dt, t) =>
  let v := dt.rhs.prev dt.watcher1
  let r3 : Except fault (double_trie × Int) :=
    if !dt.rhs.check_transition v (dt.rhs.next v key_type.kTerminator) then
      dt.rhs_create_transition v key_type.kTerminator
    else .ok (dt, dt.rhs.next v key_type.kTerminator)
  match r3 with
  | .error f => .error f
  | .ok (dt, r) =>
  let (dt, i) := dt.set_link t r
  let dt := dt.set_data i oval
  -- R-4
  let u := dt.watcher0
  match dt.rhs_clean_one u with
  | (dt, true) => .ok dt
  | (dt, false) => rhs_clean_more (dt.rhs.size.toNat + 1) dt u

/-- Result of the reverse walk of `double_trie::insert` (lines 601-612). -/
inductive walk_result where
  | duplicate
  | overrun
  | mismatch (r : Int) (matched : List Int) (p : List Int)

/-- The reverse walk of `double_trie::insert` (lines 601-612): `duplicate`
when the walk reaches the rear root, `overrun` when the loop ends by its
condition (`p` then stands behind the terminator), otherwise the state, the
matched symbols and the pointer at the `break`. -/
def reverse_walk (dt : double_trie) : List Int → Int → List Int → walk_result
  | [], r, matched =>
    if dt.rhs.check_reverse_transition r key_type.kTerminator then
      if dt.rhs.prev r = 1 then .duplicate else .overrun
    else .mismatch r matched []
  | c :: rest, r, matched =>
    if dt.rhs.check_reverse_transition r c then
      if dt.rhs.prev r = 1 then .duplicate
      else reverse_walk dt rest (dt.rhs.prev r) (matched ++ [c])
    else .mismatch r matched (c :: rest)

/-- The body of `double_trie::insert` (lines 577-616). -/
def insert_core (dt : double_trie) (key : key_type) (value : Int) : Except fault double_trie :=
  match dt.lhs.go_forward 1 key.data with
  | (s, none) => .ok (dt.set_data (-dt.lhs.base s) value)
  | (s, some p) =>
    if !dt.check_separator s then dt.lhs_insert s p value
    else if ¬ (dt.index (-dt.lhs.base s)).index > 0 then .error .assertion_failed
    else
      let r := dt.link_state s
      let r := if dt.rhs.check_reverse_transition r key_type.kTerminator ∧ dt.rhs.prev r > 1
        then dt.rhs.prev r else r
      match dt.reverse_walk p r [] with
      | .duplicate => .ok (dt.set_data (-dt.lhs.base s) value)
      | .overrun => .error .out_of_bounds
      | .mismatch r matched p =>
        let mismatch := r - dt.rhs.base (dt.rhs.prev r)
        dt.rhs_insert s r matched p mismatch value

/-- The function `double_trie::insert` (lines 577-616): the source raises no exception. -/
def insert (dt : double_trie) (key : key_type) (value : Int) : outcome double_trie :=
  match insert_core dt key value with
  | .error f => .crashed f
  | .ok dt => .done dt

/-- The function `double_trie::search` (lines 618-641): `.ok none` is the result `false`,
`.ok (some v)` the result `true` with `*value = v`. -/
def search (dt : double_trie) (key : key_type) : Except fault (Option Int) :=
  match dt.lhs.go_forward 1 key.data with
  | (s, none) => .ok (some (dt.index (-dt.lhs.base s)).data)
  | (s, some p) =>
    if !dt.check_separator s then .ok none
    else if ¬ (dt.index (-dt.lhs.base s)).index > 0 then .error .assertion_failed
    else
      let r := dt.link_state s
      let r := if dt.rhs.check_reverse_transition r key_type.kTerminator
        then dt.rhs.prev r else r
      let r := (dt.rhs.go_backward r p).1
      if r = 1 then .ok (some (dt.index (-dt.lhs.base s)).data) else .ok none

/-- The do-while loop of `double_trie::prefix_search` (lines 669-680) for one
candidate: returns `fail`, the pointer `miss` and the extended key.  The walk
towards the rear root is bounded by `fuel`. -/
def rear_loop (dt : double_trie) :
    Nat → Int → Option (List Int) → key_type → Except fault (Bool × Option (List Int) × key_type)
  | 0, _, _, _ => .error .out_of_fuel
  | fuel + 1, r, miss, key =>
    let ch := r - dt.rhs.base (dt.rhs.prev r)
    let r := dt.rhs.prev r
    match miss with
    | some (m :: rest) =>
      if !dt.rhs.check_transition r (dt.rhs.next r m) then .ok (true, miss, key)
      else if r > 1 then rear_loop dt fuel r (some rest) (key ++ [ch])
      else .ok (false, some rest, key ++ [ch])
    | _ =>
      if r > 1 then rear_loop dt fuel r miss (key ++ [ch])
      else .ok (false, miss, key ++ [ch])

/-- The loop of `double_trie::prefix_search` over the candidates (lines
657-687): a candidate is rewritten in place or erased. -/
def complete (dt : double_trie) (p : Option (List Int)) : result_type → Except fault result_type
  | [] => .ok []
  | (key, second) :: more =>
    let i := -second
    if (dt.index i).index = 0 then
      match complete dt p more with
      | .error f => .error f
      | .ok r => .ok ((key, (dt.index i).data) :: r)
    else
      let r := dt.accept (dt.index i).index
      let r := if dt.rhs.check_reverse_transition r key_type.kTerminator
        then dt.rhs.prev r else r
      match rear_loop dt (dt.rhs.size.toNat + 1) r p key with
      | .error f => .error f
      | .ok (fail, miss, key) =>
        match complete dt p more with
        | .error f => .error f
        | .ok r =>
          if fail || pending miss then .ok r
          else .ok ((key, (dt.index i).data) :: r)

/-- The function `double_trie::prefix_search` (lines 643-690). -/
def prefix_search (dt : double_trie) (key : key_type) : Except fault result_type :=
  match dt.lhs.go_forward 1 key.data with
  | (s, p) =>
    let s := if dt.lhs.check_reverse_transition s key_type.kTerminator
      then dt.lhs.prev s else s
    let store : key_type := match p with
      | some p => key.take (key.data.length - p.length)
      | none => key
    match dt.lhs.prefix_search_aux (dt.lhs.size.toNat + 1) s p store [] with
    | .error f => .error f
    | .ok result => complete dt p result

end double_trie

/-! ## Runs of the engines -/

/-- The state an outcome leaves behind on normal completion. -/
def outcome.state? {σ : Type} : outcome σ → Option σ
  | .done st => some st
  | _ => none

/-- The fault of an outcome that is a crash. -/
def outcome.fault? {σ : Type} : outcome σ → Option fault
  | .crashed f => some f
  | _ => none

/-- A sequence of `basic_trie::insert` calls; stops at the first call that
does not complete. -/
def basic_trie.insert_all : basic_trie → List (key_type × Int) → outcome basic_trie
  | tr, [] => .done tr
  | tr, (k, v) :: rest =>
    match tr.insert k v with
    | .done tr => insert_all tr rest
    | o => o

/-- A sequence of `single_trie::insert` calls; stops at the first call that
does not complete. -/
def single_trie.insert_all : single_trie → List (key_type × Int) → outcome single_trie
  | st, [] => .done st
  | st, (k, v) :: rest =>
    match st.insert k v with
    | .done st => insert_all st rest
    | o => o

/-- A sequence of `double_trie::insert` calls; stops at the first call that
does not complete. -/
def double_trie.insert_all : double_trie → List (key_type × Int) → outcome double_trie
  | dt, [] => .done dt
  | dt, (k, v) :: rest =>
    match dt.insert k v with
    | .done dt => insert_all dt rest
    | o => o

/-- The bytes of an ASCII string literal. -/
def ascii (s : String) : List (Fin 256) := s.toList.map (fun c => Fin.ofNat c.toNat)

/-- The key `key.assign(s, strlen(s))` of a string literal. -/
def key_of (s : String) : key_type := key_type.assign (ascii s)

/-- The dictionary of `regress_prefix.cc` (lines 26-32) with the values
`i + 1` it is inserted with. -/
def regress_dict : List (key_type × Int) :=
  [(key_of "bachelor", 1), (key_of "back", 2), (key_of "badge", 3), (key_of "badger", 4),
   (key_of "badness", 5), (key_of "bcs", 6), (key_of "backbone", 7)]

/-- The pairs of a result vector with each key cut at its first terminator,
which is how `c_str()` shows it. -/
def shown (r : result_type) : List (key_type × Int) := r.map (fun e => (e.1.data, e.2))

deriving instance DecidableEq for Except

/-- The prefix search of the tail trie built from the regression dictionary. -/
def regress_single (key : key_type) : Option (Except fault (List (key_type × Int))) :=
  ((single_trie.create 0).insert_all regress_dict).state?.map
    (fun st => (st.prefix_search key).map shown)

/-- The prefix search of the two-trie built from the regression dictionary. -/
def regress_double (key : key_type) : Option (Except fault (List (key_type × Int))) :=
  ((double_trie.create 0).insert_all regress_dict).state?.map
    (fun dt => (dt.prefix_search key).map shown)

/-! ## Vocabulary of the properties -/

namespace basic_trie

/-- A live state: the root or an occupied cell. -/
def live (tr : basic_trie) (a : Int) : Prop := a = 1 ∨ 0 < tr.check a

/-- One transition: the state entered from `a` on the symbol `x`, if there is
such an edge (the test `check_transition(a, next(a, x))`). -/
def step (tr : basic_trie) (a x : Int) : Option Int :=
  if tr.check_transition a (tr.next a x) then some (tr.next a x) else none

/-- The state reached from `a` along the word `w`, if every edge exists. -/
def walk (tr : basic_trie) : Int → List Int → Option Int
  | a, [] => some a
  | a, x :: w =>
    match tr.step a x with
    | none => none
    | some b => walk tr b w

/-- A state no cell names as its parent. -/
def childless (tr : basic_trie) (a : Int) : Prop := ∀ t, tr.check t ≠ a

/-- The base/check link invariant of the state array: occupied cells lie in
`2 .. size - 1`, the parent of an occupied cell is live and reaches the cell
by one symbol of the alphabet from its positive base, free cells carry base
`0`, and `last_base_` is a cell index. -/
structure wf (tr : basic_trie) : Prop where
  size_ge : 2 ≤ tr.size
  last_base_ge : 0 ≤ tr.last_base
  last_base_lt : tr.last_base < tr.size
  check_range : ∀ t, tr.check t ≠ 0 → 2 ≤ t ∧ t < tr.size
  check_nonneg : ∀ t, 0 ≤ tr.check t
  link : ∀ t, 0 < tr.check t →
    0 < tr.base (tr.check t) ∧ 1 ≤ t - tr.base (tr.check t)
      ∧ t - tr.base (tr.check t) ≤ 257 ∧ tr.live (tr.check t)
  free_base : ∀ t, t ≠ 1 → tr.check t = 0 → tr.base t = 0
  no_self : ∀ t, 0 < tr.check t → tr.check t ≠ t

/-- The extremum `e` bounds the symbols of `l`. -/
def covers (e : extremum_type) (l : List Int) : Prop :=
  0 ≤ e.min ∧ 0 ≤ e.max ∧ ∀ c ∈ l, c ≤ e.max

/-- The cell `x` is a child of `s` whose symbol is in `D`: one of the cells a
relocation of the children of `s` over the symbols `D` moves. -/
def movedp (tr0 : basic_trie) (s obase : Int) (D : List Int) (x : Int) : Prop :=
  tr0.check x = s ∧ (x - obase) ∈ D

/-- The state `cur` is `tr0` after the children of `s` with a symbol in `D`
have been moved by `d` cells: each moved child is copied to its new cell and
its old cell cleared, each child of a moved child names the new cell as its
parent, and every other cell is as in `tr0`. -/
structure reloc (tr0 cur : basic_trie) (s obase d : Int) (D : List Int) : Prop where
  size : cur.size = tr0.size
  last_base : cur.last_base = tr0.last_base
  new : ∀ x, movedp tr0 s obase D x →
    cur.check (x + d) = s ∧ cur.base (x + d) = tr0.base x
  old : ∀ x, movedp tr0 s obase D x → cur.check x = 0 ∧ cur.base x = 0
  grand : ∀ y, movedp tr0 s obase D (tr0.check y) →
    cur.check y = tr0.check y + d ∧ cur.base y = tr0.base y
  other : ∀ y, ¬ movedp tr0 s obase D (y - d) → ¬ movedp tr0 s obase D y →
    ¬ movedp tr0 s obase D (tr0.check y) →
    cur.check y = tr0.check y ∧ cur.base y = tr0.base y

/-- What a relocation of the children of `s` by `d` cells over the symbols
`inputs` needs: the new cells are free cells inside the array, and, when `s`
has a child at all, the old cell of every symbol is occupied. -/
structure reloc_pre (tr0 : basic_trie) (s obase d : Int) (inputs : List Int) : Prop where
  wf0 : tr0.wf
  live_s : tr0.live s
  obase_eq : obase = tr0.base s
  free : ∀ c ∈ inputs, tr0.check (obase + c + d) = 0
  newpos : ∀ c ∈ inputs, 2 ≤ obase + c + d
  newlt : ∀ c ∈ inputs, obase + c + d < tr0.size
  occ : ¬ tr0.childless s → ∀ c ∈ inputs, 0 < tr0.check (obase + c)

end basic_trie

namespace basic_trie

/-- The state `cur` is `tr0` with every child of `q` moved by `d` cells to a
cell that was free. -/
structure relocd (tr0 cur : basic_trie) (q d : Int) : Prop where
  size : cur.size = tr0.size
  last_base : cur.last_base = tr0.last_base
  child : ∀ x, tr0.check x = q →
    cur.check (x + d) = q ∧ cur.base (x + d) = tr0.base x ∧ cur.check x = 0 ∧ cur.base x = 0
      ∧ tr0.check (x + d) = 0 ∧ 2 ≤ x + d ∧ x + d < tr0.size ∧ x ≠ q ∧ x + d ≠ q
  grand : ∀ y, tr0.check (tr0.check y) = q →
    cur.check y = tr0.check y + d ∧ cur.base y = tr0.base y
  other : ∀ y, tr0.check (y - d) ≠ q → tr0.check y ≠ q → tr0.check (tr0.check y) ≠ q →
    cur.check y = tr0.check y ∧ cur.base y = tr0.base y

/-- The renaming of the states by a relocation of the children of `q` by `d`
cells. -/
def rename (tr0 : basic_trie) (q d : Int) (x : Int) : Int :=
  if tr0.check x = q then x + d else x

end basic_trie

namespace basic_trie

/-- The trie `tr'` is the trie `tr` with the edge from `s` on the symbol `c`
added (if it was not there), up to the renaming `ρ` of the states, and `t` is
the target of that edge: the outcome of `create_transition(s, c)`. -/
structure ct_sim (tr tr' : basic_trie) (s c t : Int) (ρ : Int → Int) : Prop where
  wf' : tr'.wf
  root : ρ 1 = 1
  live' : ∀ a, tr.live a → tr'.live (ρ a)
  inj : ∀ a b, tr.live a → tr.live b → ρ a = ρ b → a = b
  fwd : ∀ a x b, tr.live a → tr.step a x = some b → tr'.step (ρ a) x = some (ρ b)
  bwd : ∀ a x b', tr.live a → tr'.step (ρ a) x = some b' →
    (∃ b, tr.step a x = some b ∧ b' = ρ b) ∨ (a = s ∧ x = c ∧ b' = t ∧ tr.step s c = none)
  edge : tr'.step (ρ s) c = some t
  fresh : tr.step s c = none → tr'.base t = 0 ∧ tr'.childless t
  base_leaf : ∀ a, tr.live a → tr.childless a → a ≠ s → tr'.base (ρ a) = tr.base a
  self : tr.childless s → ρ s = s

end basic_trie

namespace basic_trie

/-- The moved cells `moved` are those of the renaming `ρ`: one pair
`(o, ρ o)` for each state the renaming moves, each to a cell that was free. -/
def moved_rel (tr : basic_trie) (ρ : Int → Int) (moved : List (Int × Int)) : Prop :=
  (moved.map Prod.fst).Nodup
  ∧ (∀ o n, (o, n) ∈ moved → 0 < tr.check o ∧ tr.check n = 0 ∧ 2 ≤ n ∧ ρ o = n)
  ∧ (∀ x, tr.live x → ρ x ≠ x → (x, ρ x) ∈ moved)

/-- The trie `trF` is the trie `tr` with its states renamed by `ρ`: the same
edges between the renamed states, and the same base at every childless state
other than `s`. -/
structure sim (tr trF : basic_trie) (s : Int) (ρ : Int → Int) : Prop where
  wfF : trF.wf
  root : ρ 1 = 1
  live' : ∀ a, tr.live a → trF.live (ρ a)
  inj : ∀ a b, tr.live a → tr.live b → ρ a = ρ b → a = b
  fwd : ∀ a x b, tr.live a → tr.step a x = some b → trF.step (ρ a) x = some (ρ b)
  bwd : ∀ a x b', tr.live a → trF.step (ρ a) x = some b' →
    ∃ b, tr.step a x = some b ∧ b' = ρ b
  base_leaf : ∀ a, tr.live a → tr.childless a → a ≠ s → trF.base (ρ a) = tr.base a

end basic_trie

namespace basic_trie

/-- The trie `tr'` is the trie `tr` grown by the fresh path `q` below the
word `pre`, and `t` is the end of that path: every word of `tr` is a word of
`tr'`, with the same base at its childless end states (the end of `pre`
apart), and the only other words of `tr'` are `pre` followed by a non-empty
beginning of `q`. -/
structure grown (tr tr' : basic_trie) (pre q : List Int) (t : Int) : Prop where
  wf' : tr'.wf
  absent : ∀ q', q' ≠ [] → q' <+: q → tr.walk 1 (pre ++ q') = none
  old : ∀ w u, tr.walk 1 w = some u →
    ∃ u', tr'.walk 1 w = some u'
      ∧ (tr.childless u → w ≠ pre → tr'.base u' = tr.base u ∧ tr'.childless u')
  path : tr'.walk 1 (pre ++ q) = some t
  only : ∀ w u', tr'.walk 1 w = some u' →
    (∃ u, tr.walk 1 w = some u) ∨ (∃ q', q' ≠ [] ∧ q' <+: q ∧ w = pre ++ q')
  leaf : tr'.childless t ∧ tr'.base t = 0

end basic_trie

/-- A key made of symbols of bytes only: no terminator, every symbol in
`2 .. 257`. -/
def key_type.valid (key : key_type) : Prop := ∀ x ∈ key, 2 ≤ x ∧ x ≤ 257

namespace basic_trie

/-- The basic trie `tr` stores the map `M` from keys to values: every bound
key is a word (with its terminator) that ends in a childless state whose base
is the value, and every word of the trie is the beginning of a bound key. -/
structure stores (tr : basic_trie) (M : key_type → Option Int) : Prop where
  wf : tr.wf
  key_sym : ∀ k v, M k = some v → k.valid
  has : ∀ k v, M k = some v →
    ∃ u, tr.walk 1 (k ++ [key_type.kTerminator]) = some u ∧ tr.base u = v ∧ tr.childless u
  only : ∀ w u, tr.walk 1 w = some u →
    w = [] ∨ ∃ k v, M k = some v ∧ w <+: k ++ [key_type.kTerminator]
  root_base : 0 ≤ tr.base 1

end basic_trie

/-- The map `M` with the key `k` bound to `v`. -/
def bind_key (M : key_type → Option Int) (k : key_type) (v : Int) : key_type → Option Int :=
  fun k' => if k' = k then some v else M k'

/-- The value of the last pair of the sequence whose key is `k`, if any. -/
def last_insert (seq : List (List (Fin 256) × Int)) (k : List (Fin 256)) : Option Int :=
  ((seq.filter (fun e => decide (e.1 = k))).getLast?).map (fun e => e.2)

/-- The insert calls of a sequence of byte keys with their values. -/
def calls (seq : List (List (Fin 256) × Int)) : List (key_type × Int) :=
  seq.map (fun e => (key_type.assign e.1, e.2))

/-- The map `M` after the bindings of a sequence of calls, in order. -/
def bind_all (M : key_type → Option Int) : List (List (Fin 256) × Int) → key_type → Option Int
  | [] => M
  | e :: rest => bind_all (bind_key M (key_type.assign e.1) e.2) rest

namespace single_trie

/-- The suffix array holds the symbols `r` from the index `n` on. -/
def reads (st : single_trie) : Int → List Int → Prop
  | _, [] => True
  | n, c :: r => st.suffix n = c ∧ reads st (n + 1) r

/-- The key `k` has its leaf at the end `u` of the word `w`, the rest `r` of
the terminated key being its tail. -/
def leaf_of (st : single_trie) (k : key_type) (w r : List Int) (u : Int) : Prop :=
  k ++ [key_type.kTerminator] = w ++ r ∧ st.trie.walk 1 w = some u ∧ st.trie.base u < 0

/-- The tail trie `st` stores the map `M` from keys to values: every bound key
has a leaf whose base points at its tail in the suffix array, the tail being
followed by the value; every word of the trie is the beginning of a bound
key; the tails of different keys do not overlap and lie below
`next_suffix_`. -/
structure stores (st : single_trie) (M : key_type → Option Int) : Prop where
  wf : st.trie.wf
  next_pos : 1 ≤ st.next_suffix
  key_sym : ∀ k v, M k = some v → k.valid
  has : ∀ k v, M k = some v → ∃ w r u, st.leaf_of k w r u
    ∧ st.reads (-st.trie.base u) r ∧ st.suffix (-st.trie.base u + r.length) = v
    ∧ 1 ≤ -st.trie.base u ∧ -st.trie.base u + r.length < st.next_suffix
  only : ∀ w u, st.trie.walk 1 w = some u →
    w = [] ∨ ∃ k v, M k = some v ∧ w <+: k ++ [key_type.kTerminator]
  disjoint : ∀ k1 v1 k2 v2 w1 r1 u1 w2 r2 u2, M k1 = some v1 → M k2 = some v2 → k1 ≠ k2 →
    st.leaf_of k1 w1 r1 u1 → st.leaf_of k2 w2 r2 u2 →
    -st.trie.base u1 + r1.length < -st.trie.base u2
      ∨ -st.trie.base u2 + r2.length < -st.trie.base u1
  root_base : 0 ≤ st.trie.base 1

end single_trie

/-- The dictionary of `regress_prefix.cc` (lines 26-32) as byte strings with
the values `i + 1`. -/
def regress_pairs : List (List (Fin 256) × Int) :=
  [(ascii "bachelor", 1), (ascii "back", 2), (ascii "badge", 3), (ascii "badger", 4),
   (ascii "badness", 5), (ascii "bcs", 6), (ascii "backbone", 7)]

/-- The check-link predicate of the state array: every occupied cell `t` has a
parent `check(t)` with a positive base, the parent is the root or occupied, and
exactly one symbol `c` of the alphabet gives `base(check(t)) + c = t`. -/
def basic_trie.check_link (tr : basic_trie) : Prop :=
  ∀ t, 0 < tr.check t →
    0 < tr.base (tr.check t) ∧ tr.live (tr.check t)
      ∧ ∃ c, (1 ≤ c ∧ c ≤ 257 ∧ tr.base (tr.check t) + c = t)
        ∧ ∀ c', 1 ≤ c' ∧ c' ≤ 257 ∧ tr.base (tr.check t) + c' = t → c' = c

/-- Two calls of `find_base` in a row on a fresh basic trie, for the symbol
`2`: the base found and `last_base_` after each call. -/
def find_base_example : Except fault ((Int × Int) × (Int × Int)) :=
  match (basic_trie.create 0).find_base [2] ⟨2, 2⟩ with
  | .error f => .error f
  | .ok (tr1, b1) =>
    match tr1.find_base [2] ⟨2, 2⟩ with
    | .error f => .error f
    | .ok (tr2, b2) => .ok ((b1, tr1.last_base), (b2, tr2.last_base))

/-- What a run shows of one leaf of a tail trie: the leaf, its base, the cell
of the suffix array at the index `-base`, the cell after it, and
`next_suffix_`. -/
structure leaf_view where
  leaf : Option Int
  base : Int
  cell : Int
  after : Int
  next_suffix : Int
  deriving DecidableEq

/-- The leaf at the end of the word `w` in the tail trie `st`. -/
def single_trie.view (st : single_trie) (w : List Int) : leaf_view :=
  let u := (st.trie.walk 1 w).getD 0
  { leaf := st.trie.walk 1 w, base := st.trie.base u, cell := st.suffix (-st.trie.base u),
    after := st.suffix (-st.trie.base u + 1), next_suffix := st.next_suffix }

/-- A leaf entered over a terminator edge and a leaf entered over a byte:
after `insert("ab", 5)` and `insert("a", 7)` on a fresh tail trie, the leaf of
the word `a` with its terminator and the leaf of the word `ab`. -/
def tail_layout_example : Option (leaf_view × leaf_view) :=
  ((single_trie.create 0).insert_all [(key_of "ab", 5), (key_of "a", 7)]).state?.map
    (fun st => (st.view (key_of "a" ++ [key_type.kTerminator]), st.view (key_of "ab")))

/-- The residual filter of the two-trie prefix search on two runs:
`prefix_search("xc")` after `insert("xab", 1)` alone, and after
`insert("xab", 1)` and `insert("ycb", 2)`. -/
def residual_filter_example :
    Option (Except fault (List (key_type × Int)))
      × Option (Except fault (List (key_type × Int))) :=
  (((double_trie.create 0).insert_all [(key_of "xab", 1)]).state?.map
      (fun dt => (dt.prefix_search (key_of "xc")).map shown),
    ((double_trie.create 0).insert_all [(key_of "xab", 1), (key_of "ycb", 2)]).state?.map
      (fun dt => (dt.prefix_search (key_of "xc")).map shown))

/-- What a run shows of the link of a front state and of one rear state: the
front state, the accept entry its index cell refers to, the rear state it is
linked to, the referers `refer_` lists for that rear state and its outgoing
symbols; then another rear state, the parent in its check, its outgoing
symbols and whether `refer_` has it. -/
structure link_view where
  front : Option Int
  entry : Int
  linked : Int
  referers : Option (List Int)
  outgoing : List Int
  rear : Option Int
  rear_check : Int
  rear_outgoing : List Int
  rear_refer : Bool
  deriving DecidableEq

/-- The link of the front state at the end of the word `wf` and the rear state
at the end of the rear word `wr` in the two-trie `dt`. -/
def double_trie.view (dt : double_trie) (wf wr : List Int) : link_view :=
  let s := (dt.lhs.walk 1 wf).getD 0
  let d := (dt.rhs.walk 1 wr).getD 0
  { front := dt.lhs.walk 1 wf, entry := (dt.index (-dt.lhs.base s)).index,
    linked := dt.link_state s,
    referers := (dt.find_refer (dt.link_state s)).map (fun e => e.referer),
    outgoing := (dt.rhs.find_exist_target (dt.link_state s)).1,
    rear := dt.rhs.walk 1 wr, rear_check := dt.rhs.check d,
    rear_outgoing := (dt.rhs.find_exist_target d).1,
    rear_refer := (dt.find_refer d).isSome }

/-- The rear trie after `insert("a", 1)` and `insert("aba", 2)` on a fresh
two-trie, seen from the front state of the word `a` with its terminator and
at the rear state of the word of two terminators. -/
def exclusivity_example : Option link_view :=
  ((double_trie.create 0).insert_all [(key_of "a", 1), (key_of "aba", 2)]).state?.map
    (fun dt => dt.view (key_of "a" ++ [key_type.kTerminator])
      [key_type.kTerminator, key_type.kTerminator])

/-- The suffix array of a tail trie made with the size 4: `next_suffix_` and
the capacity `suffix_size` after `insert("ab", 5)`, and the fault in which
`insert("a", 7)` then ends.  Beside it the same two calls on a tail trie made
with the size 5: `next_suffix_` after `insert("ab", 5)`, then the capacity and
the cell `suffix_[4]` after `insert("a", 7)`. -/
def suffix_write_example :
    Option ((Int × Int) × Option fault) × Option (Int × Int × Int) :=
  (((single_trie.create 4).insert (key_of "ab") 5).state?.map
      (fun st1 => ((st1.next_suffix, st1.suffix_size), (st1.insert (key_of "a") 7).fault?)),
    ((single_trie.create 5).insert (key_of "ab") 5).state?.bind
      (fun st1 =>
        (st1.insert (key_of "a") 7).state?.map
          (fun st2 => (st1.next_suffix, st2.suffix_size, st2.suffix 4))))

/-- The basic trie after the first transition of a fresh trie,
`create_transition(1, 2)`: the root with one child. -/
def edge_trie : basic_trie :=
  match (basic_trie.create 0).create_transition 1 2 with
  | .ok (tr, _, _) => tr
  | .error _ => basic_trie.create 0

/-- The basic trie after `insert("ab", 1)` and `insert("b", 2)` on a fresh
basic trie: the root has the base 1 and the children 100 and 101 on the
symbols 99 and 100 of `a` and `b`; the state 100 has the child 102, which has
the leaf 4; the state 101 has the leaf 5. -/
def branch_trie : basic_trie :=
  match (basic_trie.create 0).insert_all [(key_of "ab", 1), (key_of "b", 2)] with
  | .done tr => tr
  | _ => basic_trie.create 0

/-- What a call of `relocate` for the state 1 shows of the symbol 2: the old
base `o` of the state 1 with the parents in the cells `o + 2` and `o + 3`
before the call, the base `n` that `find_base` returns, the parents in the
cells `n + 2` and `n + 3` after the call, and the cells moved. -/
def basic_trie.relocate_view (tr : basic_trie) (inputs : List Int) (e : extremum_type) :
    Option ((Int × Int × Int) × Int × (Int × Int) × List (Int × Int)) :=
  match tr.find_base inputs e, tr.relocate 1 1 inputs e with
  | .ok (_, n), .ok (tr', _, moved) =>
    some ((tr.base 1, tr.check (tr.base 1 + 2), tr.check (tr.base 1 + 3)), n,
      (tr'.check (n + 2), tr'.check (n + 3)), moved)
  | _, _ => none

/-- A call of `relocate` with a symbol whose old cell is free: on the trie
whose root has the one child 3 on the symbol 2, the call for the root with the
symbols 2 and 3. -/
def relocate_free_cell_example :
    Option ((Int × Int × Int) × Int × (Int × Int) × List (Int × Int)) :=
  edge_trie.relocate_view [2, 3] ⟨3, 2⟩

/-- A call of `relocate` in a trie whose `relocator_` is null: on
`branch_trie`, the call for the root with the symbols 99, 100 and 3, standing
on the child 100; the result lists the cells moved, the calls of the callback
and the state returned. -/
def relocate_null_example : Option (List (Int × Int) × List (Int × Int) × Int) :=
  match branch_trie.relocate 100 1 [99, 100, 3] ⟨100, 3⟩ with
  | .ok (_, stand, moved) => some (moved, basic_trie.relocator_calls false moved, stand)
  | .error _ => none

/-! ## The link invariant of the two-trie -/

/-- A state of the trie: the end of a word from the root. -/
def basic_trie.reach (tr : basic_trie) (s : Int) : Prop := ∃ w, tr.walk 1 w = some s

namespace double_trie

/-- The accept entry `k` is in use: allocated and not on the free list. -/
def in_use (dt : double_trie) (k : Int) : Prop :=
  1 ≤ k ∧ k < dt.next_accept ∧ k ∉ dt.free_accept

/-- The accept entry the index cell of the front state `s` refers to,
`index_[-base(s)].index`. -/
def index_ref (dt : double_trie) (s : Int) : Int := (dt.index (-dt.lhs.base s)).index

/-- The link invariant of a two-trie, the referers of the rear state `a0`
apart: both tries are well formed; no rear state has a negative base, the
root of the rear trie has terminator edges only, and the terminator child of
another rear state has the base `0`; the separators of the front trie own
different index cells that are allocated and not free; every accept entry in
use is the one `refer_` lists for its rear state, every rear state in
`refer_` is a state of the rear trie other than the root, the accept state of
its accept entry, which is in use; every referer is a separator of the front
trie (whose index cell, unless it is a referer of `a0`, refers to that accept
entry), and every separator whose index cell refers to an accept entry is
listed among the referers of the accept state of that entry, which is in
use. -/
structure rinvx (dt : double_trie) (a0 : Int) : Prop where
  wfF : dt.lhs.wf
  wfR : dt.rhs.wf
  rootF : 0 ≤ dt.lhs.base 1
  baseR : ∀ y, dt.rhs.reach y → 0 ≤ dt.rhs.base y
  rootR : ∀ c t, dt.rhs.step 1 c = some t → c = key_type.kTerminator
  dummy : ∀ y d, dt.rhs.reach y → y ≠ 1 → dt.rhs.step y key_type.kTerminator = some d →
    dt.rhs.base d = 0
  slot_range : ∀ s, dt.lhs.reach s → dt.lhs.base s < 0 →
    -dt.lhs.base s < dt.next_index ∧ -dt.lhs.base s ∉ dt.free_index
  slot_inj : ∀ s1 s2, dt.lhs.reach s1 → dt.lhs.reach s2 → dt.lhs.base s1 < 0 →
    dt.lhs.base s1 = dt.lhs.base s2 → s1 = s2
  free_index_nodup : dt.free_index.Nodup
  free_index_range : ∀ i ∈ dt.free_index, 1 ≤ i ∧ i < dt.next_index
  next_index_pos : 1 ≤ dt.next_index
  free_accept_nodup : dt.free_accept.Nodup
  free_accept_range : ∀ k ∈ dt.free_accept, 1 ≤ k ∧ k < dt.next_accept
  next_accept_pos : 1 ≤ dt.next_accept
  acc : ∀ k, dt.in_use k → ∃ e, dt.find_refer (dt.accept k) = some e ∧ e.accept_index = k
  ref : ∀ a e, dt.find_refer a = some e →
    dt.accept e.accept_index = a ∧ dt.in_use e.accept_index ∧ dt.rhs.reach a ∧ a ≠ 1
  referer : ∀ a e x, dt.find_refer a = some e → x ∈ e.referer →
    dt.lhs.reach x ∧ dt.lhs.base x < 0 ∧ (a ≠ a0 → dt.index_ref x = e.accept_index)
  linked : ∀ s, dt.lhs.reach s → dt.lhs.base s < 0 → 0 < dt.index_ref s →
    dt.in_use (dt.index_ref s)
      ∧ ∃ e, dt.find_refer (dt.accept (dt.index_ref s)) = some e ∧ s ∈ e.referer

/-- The link invariant of a two-trie. -/
def rinv (dt : double_trie) : Prop := dt.rinvx 0

/-- The second half of `set_link`, after the index slot `i` of the front state
`s` is known: the accept entry of the rear state `t` is found or made, the
index slot refers to it, and `s` joins the referers of `t`. -/
def link_entry (dt : double_trie) (s t i : Int) : double_trie :=
  let (dt, k) := dt.find_accept_entry t
  let dt := dt.set_index i k
  let e : refer_type := (dt.find_refer t).getD ⟨k, []⟩
  let e := if s ∈ e.referer then e else { e with referer := e.referer ++ [s] }
  dt.set_refer t e

/-- Step R-1 of `rhs_insert` (lines 527-540) after its two assertions: the separator `s` gives
up its index slot and its place among the referers of the rear state it is linked to, and the
watchers are set. -/
def unlink (dt : double_trie) (s r : Int) : double_trie :=
  let u := dt.link_state s
  let slot := -dt.lhs.base s
  let dt := (dt.set_index slot 0).set_data slot 0
  let dt := { dt with free_index := dt.free_index ++ [slot] }
  let dt := { dt with lhs := dt.lhs.set_base s 0 }
  let dt := { dt with watcher0 := u, watcher1 := r }
  match dt.find_refer u with
  | none => dt
  | some e =>
    let e := { e with referer := e.referer.filter (fun x => decide (x ≠ s)) }
    let dt := dt.set_refer u e
    if e.referer.length = 0 then dt.free_accept_entry u else dt

/-- The end of step R-2 of `rhs_insert` (lines 549-559): the new state `t` of the front trie
gets its index slot, and its link to the rear trie when symbols remain. -/
def link_rest (dt : double_trie) (t : Int) (remain : List Int) (value : Int) :
    Except fault double_trie :=
  match remain with
  | [] =>
    let (dt, _) := dt.find_index_entry t
    .ok ((dt.set_data (-dt.lhs.base t) value).set_index (-dt.lhs.base t) 0)
  | _ :: rest =>
    match dt.rhs_append rest with
    | .error f => .error f
    | .ok (dt, a) =>
      if ¬ dt.rhs.check dt.watcher0 > 0 then .error .assertion_failed
      else
        let (dt, i) := dt.set_link t a
        .ok (dt.set_data i value)

/-- Steps R-3 and R-4 of `rhs_insert` (lines 562-574): the old key is linked again, behind the
symbol `ch`, and the rear trie is cleaned from the first watcher on. -/
def relink_old (dt : double_trie) (s ch oval : Int) : Except fault double_trie :=
  match dt.lhs_create_transition s ch with
  | .error f => .error f
  | .ok (dt, t) =>
  let v := dt.rhs.prev dt.watcher1
  let r3 : Except fault (double_trie × Int) :=
    if !dt.rhs.check_transition v (dt.rhs.next v key_type.kTerminator) then
      dt.rhs_create_transition v key_type.kTerminator
    else .ok (dt, dt.rhs.next v key_type.kTerminator)
  match r3 with
  | .error f => .error f
  | .ok (dt, r) =>
  let (dt, i) := dt.set_link t r
  let dt := dt.set_data i oval
  let u := dt.watcher0
  match dt.rhs_clean_one u with
  | (dt, true) => .ok dt
  | (dt, false) => rhs_clean_more (dt.rhs.size.toNat + 1) dt u

/-- Every rear state in `refer_` has a referer. -/
def referer_ne (dt : double_trie) : Prop :=
  ∀ a e, dt.find_refer a = some e → e.referer ≠ []

/-- The index cell of a separator refers to an accept entry, unless the separator is entered on
the terminator. -/
def sep_index (dt : double_trie) : Prop :=
  ∀ s, dt.lhs.reach s → dt.lhs.base s < 0 →
    0 < dt.index_ref s ∨ ∃ p, dt.lhs.step p key_type.kTerminator = some s

end double_trie

/-! ## Elementary facts about the cells -/

namespace basic_trie

@[simp] theorem set_base_base (tr : basic_trie) (s v j : Int) :
    (tr.set_base s v).base j = if j = s then v else tr.base j := rfl

@[simp] theorem set_base_check (tr : basic_trie) (s v : Int) :
    (tr.set_base s v).check = tr.check := rfl

@[simp] theorem set_base_size (tr : basic_trie) (s v : Int) :
    (tr.set_base s v).size = tr.size := rfl

@[simp] theorem set_base_last_base (tr : basic_trie) (s v : Int) :
    (tr.set_base s v).last_base = tr.last_base := rfl

@[simp] theorem set_check_check (tr : basic_trie) (s v j : Int) :
    (tr.set_check s v).check j = if j = s then v else tr.check j := rfl

@[simp] theorem set_check_base (tr : basic_trie) (s v : Int) :
    (tr.set_check s v).base = tr.base := rfl

@[simp] theorem set_check_size (tr : basic_trie) (s v : Int) :
    (tr.set_check s v).size = tr.size := rfl

@[simp] theorem set_check_last_base (tr : basic_trie) (s v : Int) :
    (tr.set_check s v).last_base = tr.last_base := rfl

@[simp] theorem resize_state_base (tr : basic_trie) (n : Int) :
    (tr.resize_state n).base = tr.base := rfl

@[simp] theorem resize_state_check (tr : basic_trie) (n : Int) :
    (tr.resize_state n).check = tr.check := rfl

@[simp] theorem resize_state_size (tr : basic_trie) (n : Int) :
    (tr.resize_state n).size = 2 * tr.size + n := rfl

@[simp] theorem resize_state_last_base (tr : basic_trie) (n : Int) :
    (tr.resize_state n).last_base = tr.last_base := rfl

theorem check_transition_iff (tr : basic_trie) (s t : Int) :
    tr.check_transition s t = true ↔ 0 < s ∧ 0 < t ∧ t < tr.size ∧ tr.check t = s := by
  simp [check_transition, and_assoc]

theorem mem_symbols (c : Int) : c ∈ key_type.symbols ↔ 1 ≤ c ∧ c ≤ 257 := by
  unfold key_type.symbols
  simp only [List.mem_map, List.mem_range]
  constructor
  · rintro ⟨n, hn, rfl⟩
    omega
  · intro h
    exact ⟨(c - 1).toNat, by omega, by omega⟩

theorem live_pos {tr : basic_trie} (h : tr.wf) {a : Int} (ha : tr.live a) : 1 ≤ a := by
  rcases ha with rfl | ha
  · omega
  · have := (h.check_range a (by omega)).1
    omega

theorem live_lt_size {tr : basic_trie} (h : tr.wf) {a : Int} (ha : tr.live a) : a < tr.size := by
  rcases ha with rfl | ha
  · have := h.size_ge
    omega
  · exact (h.check_range a (by omega)).2

theorem check_one {tr : basic_trie} (h : tr.wf) : tr.check 1 = 0 := by
  by_contra hc
  have := (h.check_range 1 hc).1
  omega

/-- Under the invariant a cell is a child of the live state `a` exactly when
the transition test holds for it. -/
theorem check_transition_of_check {tr : basic_trie} (h : tr.wf) {a t : Int}
    (ha : 0 < a) (ht : tr.check t = a) : tr.check_transition a t = true := by
  rw [check_transition_iff]
  have hr := h.check_range t (by omega)
  exact ⟨ha, by omega, hr.2, ht⟩

theorem step_eq_some {tr : basic_trie} {a x b : Int} :
    tr.step a x = some b ↔ b = tr.base a + x ∧ 0 < a ∧ 0 < b ∧ b < tr.size ∧ tr.check b = a := by
  unfold step
  by_cases hc : tr.check_transition a (tr.next a x) = true
  · rw [if_pos hc]
    rw [check_transition_iff] at hc
    simp only [next] at hc ⊢
    constructor
    · intro hb
      have hb' : tr.base a + x = b := by simpa using hb
      subst hb'
      exact ⟨rfl, hc⟩
    · rintro ⟨rfl, _⟩
      rfl
  · rw [if_neg hc]
    rw [check_transition_iff] at hc
    simp only [next] at hc
    constructor
    · intro hb
      cases hb
    · rintro ⟨rfl, h⟩
      exact absurd h hc

theorem step_eq_none {tr : basic_trie} {a x : Int} :
    tr.step a x = none ↔
      ¬ (0 < a ∧ 0 < tr.base a + x ∧ tr.base a + x < tr.size ∧ tr.check (tr.base a + x) = a) := by
  unfold step
  by_cases hc : tr.check_transition a (tr.next a x) = true
  · rw [if_pos hc]
    rw [check_transition_iff] at hc
    simp only [next] at hc
    simp [hc]
  · rw [if_neg hc]
    rw [check_transition_iff] at hc
    simp only [next] at hc
    simp only [true_iff]
    exact hc

/-- Under the invariant: a step exists iff the target cell names `a` as parent. -/
theorem step_some_iff {tr : basic_trie} (h : tr.wf) {a x b : Int} (ha : 0 < a) :
    tr.step a x = some b ↔ b = tr.base a + x ∧ tr.check b = a := by
  rw [step_eq_some]
  constructor
  · rintro ⟨h1, _, _, _, h2⟩
    exact ⟨h1, h2⟩
  · rintro ⟨h1, h2⟩
    have hr := h.check_range b (by omega)
    exact ⟨h1, ha, by omega, hr.2, h2⟩

theorem step_live {tr : basic_trie} {a x b : Int} (hs : tr.step a x = some b) : tr.live b := by
  rw [step_eq_some] at hs
  right
  omega

theorem childless_step {tr : basic_trie} {a : Int} (hc : tr.childless a) (x : Int) :
    tr.step a x = none := by
  rw [step_eq_none]
  rintro ⟨_, _, _, h⟩
  exact hc _ h

theorem childless_of_base_nonpos {tr : basic_trie} (h : tr.wf) {a : Int} (ha : 0 < a)
    (hb : tr.base a ≤ 0) : tr.childless a := by
  intro t ht
  have := (h.link t (by omega)).1
  rw [ht] at this
  omega

/-- The symbols found by `find_exist_target` are the labels of the children. -/
theorem mem_find_exist_target {tr : basic_trie} (h : tr.wf) {a c : Int} (ha : 0 < a) :
    c ∈ (tr.find_exist_target a).1 ↔ (1 ≤ c ∧ c ≤ 257) ∧ tr.check (tr.base a + c) = a := by
  unfold find_exist_target
  simp only [List.mem_filter, mem_symbols, check_transition_iff, next]
  constructor
  · rintro ⟨hc, _, _, _, h2⟩
    exact ⟨hc, h2⟩
  · rintro ⟨hc, h2⟩
    have hr := h.check_range (tr.base a + c) (by omega)
    exact ⟨hc, ha, by omega, hr.2, h2⟩

theorem find_exist_target_complete {tr : basic_trie} (h : tr.wf) {a t : Int} (ha : 0 < a)
    (ht : tr.check t = a) : t - tr.base a ∈ (tr.find_exist_target a).1 := by
  rw [mem_find_exist_target h ha]
  have hl := h.link t (by omega)
  rw [ht] at hl
  refine ⟨⟨hl.2.1, hl.2.2.1⟩, ?_⟩
  have : tr.base a + (t - tr.base a) = t := by omega
  rw [this, ht]

theorem find_exist_target_nil_iff {tr : basic_trie} (h : tr.wf) {a : Int} (ha : 0 < a) :
    (tr.find_exist_target a).1 = [] ↔ tr.childless a := by
  constructor
  · intro hn t ht
    have := find_exist_target_complete h ha ht
    rw [hn] at this
    simp at this
  · intro hc
    apply List.eq_nil_iff_forall_not_mem.mpr
    intro c hcm
    rw [mem_find_exist_target h ha] at hcm
    exact hc _ hcm.2

/-! ## Extremum of a symbol group -/

theorem covers_add {e : extremum_type} {l : List Int} (h : covers e l) {c : Int}
    (hc : 1 ≤ c) : covers (e.add c) (l ++ [c]) := by
  obtain ⟨h1, h2, h3⟩ := h
  unfold extremum_type.add
  refine ⟨?_, ?_, ?_⟩
  · dsimp only
    split_ifs <;> omega
  · dsimp only
    split_ifs <;> omega
  · intro d hd
    rw [List.mem_append] at hd
    dsimp only
    rcases hd with hd | hd
    · have := h3 d hd
      split_ifs <;> omega
    · simp only [List.mem_singleton] at hd
      subst hd
      split_ifs <;> omega

theorem covers_foldl (l : List Int) (hl : ∀ c ∈ l, 1 ≤ c) (e : extremum_type)
    (pre : List Int) (h : covers e pre) :
    covers (l.foldl extremum_type.add e) (pre ++ l) := by
  induction l generalizing e pre with
  | nil => simpa using h
  | cons c l ih =>
    simp only [List.foldl_cons]
    have := ih (fun d hd => hl d (List.mem_cons_of_mem _ hd)) (e.add c) (pre ++ [c])
      (covers_add h (hl c (List.mem_cons_self _ _)))
    simpa using this

theorem covers_find_exist_target (tr : basic_trie) (a : Int) :
    covers (tr.find_exist_target a).2 (tr.find_exist_target a).1 := by
  have := covers_foldl (tr.find_exist_target a).1 (by
    intro c hc
    unfold find_exist_target at hc
    simp only [List.mem_filter, mem_symbols] at hc
    exact hc.1.1) ⟨0, 0⟩ [] ⟨le_refl _, le_refl _, by simp⟩
  simpa [find_exist_target] using this

end basic_trie

/-! ## `find_base` -/

namespace basic_trie

theorem check_free_of_ge {tr : basic_trie} (h : tr.wf) {t : Int} (ht : tr.size ≤ t) :
    tr.check t = 0 := by
  by_contra hc
  have := (h.check_range t hc).2
  omega

theorem find_base_loop_spec {tr0 : basic_trie} (h0 : tr0.wf) (inputs : List Int)
    (e : extremum_type) (he1 : 0 ≤ e.min) (he2 : 0 ≤ e.max) (hin : ∀ c ∈ inputs, 0 ≤ c) :
    ∀ (fuel : Nat) (tr : basic_trie) (i : Int), tr.base = tr0.base → tr.check = tr0.check →
      tr0.size ≤ tr.size → tr.last_base = tr0.last_base → 0 ≤ i → i < tr.size →
      1 ≤ fuel → tr0.size - i ≤ fuel →
      ∃ tr' b, find_base_loop inputs e fuel tr i = .ok (tr', b)
        ∧ tr'.base = tr0.base ∧ tr'.check = tr0.check ∧ tr0.size ≤ tr'.size
        ∧ tr'.last_base = tr0.last_base ∧ i < b ∧ b + e.max < tr'.size
        ∧ tr0.check (b + e.min) ≤ 0 ∧ tr0.check (b + e.max) ≤ 0
        ∧ ∀ c ∈ inputs, tr0.check (b + c) ≤ 0 := by
  intro fuel
  induction fuel with
  | zero => intro tr i _ _ _ _ _ _ h1 _; omega
  | succ fuel ih =>
    intro tr i hb hc hs hl hi0 hi _ hfuel
    have hsz := h0.size_ge
    unfold find_base_loop
    simp only []
    generalize htr1 : (if i + 1 + e.max ≥ tr.size then tr.resize_state e.max else tr) = tr1
    have hb1 : tr1.base = tr0.base := by
      rw [← htr1]; split_ifs <;> simp [hb]
    have hc1 : tr1.check = tr0.check := by
      rw [← htr1]; split_ifs <;> simp [hc]
    have hl1 : tr1.last_base = tr0.last_base := by
      rw [← htr1]; split_ifs <;> simp [hl]
    have hs1 : tr.size ≤ tr1.size ∧ i + 1 + e.max < tr1.size := by
      rw [← htr1]; split_ifs with hge
      · simp only [resize_state_size]; constructor <;> omega
      · constructor <;> omega
    by_cases hcond : tr1.check (i + 1 + e.min) ≤ 0 ∧ tr1.check (i + 1 + e.max) ≤ 0
        ∧ inputs.all (fun c => decide (tr1.check (i + 1 + c) ≤ 0)) = true
    · rw [if_pos hcond]
      refine ⟨tr1, i + 1, rfl, hb1, hc1, by omega, hl1, by omega, hs1.2, ?_, ?_, ?_⟩
      · rw [← hc1]; exact hcond.1
      · rw [← hc1]; exact hcond.2.1
      · intro c hcm
        have := hcond.2.2
        rw [List.all_eq_true] at this
        have := this c hcm
        rw [← hc1]
        simpa using this
    · rw [if_neg hcond]
      have hlt : i + 1 < tr0.size := by
        by_contra hge
        apply hcond
        rw [hc1]
        refine ⟨?_, ?_, ?_⟩
        · rw [check_free_of_ge h0 (by omega)]
        · rw [check_free_of_ge h0 (by omega)]
        · rw [List.all_eq_true]
          intro c hcm
          have := hin c hcm
          rw [check_free_of_ge h0 (by omega)]
          simp
      obtain ⟨tr', b, hr, h1, h2, h3, h4, h5, h6⟩ :=
        ih tr1 (i + 1) hb1 hc1 (by omega) hl1 (by omega) (by omega) (by omega) (by omega)
      exact ⟨tr', b, hr, h1, h2, h3, h4, by omega, h6⟩

/-- The function `find_base` returns a base whose cells for every symbol of `inputs` are free
and lie inside the (possibly grown) state array; base and check are untouched. -/
theorem find_base_spec {tr : basic_trie} (h : tr.wf) (inputs : List Int) (e : extremum_type)
    (he1 : 0 ≤ e.min) (he2 : 0 ≤ e.max) (hin : ∀ c ∈ inputs, 0 ≤ c) :
    ∃ tr' b, tr.find_base inputs e = .ok (tr', b)
      ∧ tr'.base = tr.base ∧ tr'.check = tr.check ∧ tr.size ≤ tr'.size
      ∧ 0 ≤ tr'.last_base ∧ tr'.last_base < tr'.size
      ∧ 1 ≤ b ∧ b + e.max < tr'.size
      ∧ ∀ c ∈ inputs, tr.check (b + c) ≤ 0 := by
  have hl := h.last_base_ge
  have hlt := h.last_base_lt
  obtain ⟨tr1, b, hr, h1, h2, h3, h4, h5, h6, _, _, h9⟩ :=
    find_base_loop_spec h inputs e he1 he2 hin ((tr.size - tr.last_base).toNat + 1) tr
      tr.last_base rfl rfl (le_refl _) rfl hl hlt (by omega) (by
        have : ((tr.size - tr.last_base).toNat : Int) = tr.size - tr.last_base :=
          Int.toNat_of_nonneg (by omega)
        push_cast
        omega)
  unfold find_base
  rw [hr]
  refine ⟨_, b, rfl, ?_, ?_, ?_, ?_, ?_, by omega, ?_, h9⟩
  · exact h1
  · exact h2
  · exact h3
  · dsimp only
    split_ifs <;> omega
  · dsimp only
    split_ifs <;> omega
  · exact h6

end basic_trie

/-! ## The loop of `relocate` -/

namespace basic_trie

theorem foldl_set_check (b n : Int) (l : List Int) (tr : basic_trie) :
    (l.foldl (fun tr p => tr.set_check (tr.base b + p) n) tr).base = tr.base
    ∧ (l.foldl (fun tr p => tr.set_check (tr.base b + p) n) tr).size = tr.size
    ∧ (l.foldl (fun tr p => tr.set_check (tr.base b + p) n) tr).last_base = tr.last_base
    ∧ ∀ y, (l.foldl (fun tr p => tr.set_check (tr.base b + p) n) tr).check y
        = if (y - tr.base b) ∈ l then n else tr.check y := by
  induction l generalizing tr with
  | nil => simp
  | cons p l ih =>
    simp only [List.foldl_cons]
    obtain ⟨h1, h2, h3, h4⟩ := ih (tr.set_check (tr.base b + p) n)
    refine ⟨by rw [h1]; rfl, by rw [h2]; rfl, by rw [h3]; rfl, ?_⟩
    intro y
    rw [h4]
    simp only [set_check_base, set_check_check, List.mem_cons]
    by_cases hy : y - tr.base b ∈ l
    · simp [hy]
    · by_cases hp : y = tr.base b + p
      · have : y - tr.base b = p := by omega
        simp [hp]
      · have : ¬ y - tr.base b = p := by omega
        simp [hp, hy, this]

theorem relocate_one_size (tr : basic_trie) (obase nbase c : Int) :
    (tr.relocate_one obase nbase c).size = tr.size := by
  unfold relocate_one
  simp only [set_check_size, set_base_size]
  rw [(foldl_set_check _ _ _ _).2.1]
  rfl

theorem relocate_one_last_base (tr : basic_trie) (obase nbase c : Int) :
    (tr.relocate_one obase nbase c).last_base = tr.last_base := by
  unfold relocate_one
  simp only [set_check_last_base, set_base_last_base]
  rw [(foldl_set_check _ _ _ _).2.2.1]
  rfl

theorem relocate_one_base (tr : basic_trie) (obase nbase c y : Int) :
    (tr.relocate_one obase nbase c).base y
      = if y = obase + c then 0 else if y = nbase + c then tr.base (obase + c)
        else tr.base y := by
  unfold relocate_one
  simp only [set_check_base, set_base_base]
  rw [(foldl_set_check _ _ _ _).1]
  simp only [set_check_base, set_base_base]

theorem relocate_one_check (tr : basic_trie) (obase nbase c y : Int) :
    (tr.relocate_one obase nbase c).check y
      = if y = obase + c then 0
        else if (y - tr.base (obase + c)) ∈
            (((tr.set_base (nbase + c) (tr.base (obase + c))).set_check (nbase + c)
              (tr.check (obase + c))).find_exist_target (obase + c)).1 then nbase + c
        else if y = nbase + c then tr.check (obase + c) else tr.check y := by
  unfold relocate_one
  simp only [set_check_check, set_base_check]
  rw [(foldl_set_check _ _ _ _).2.2.2]
  simp only [set_check_base, set_base_base, set_check_check, set_base_check]
  have : (if obase + c = nbase + c then tr.base (obase + c) else tr.base (obase + c))
      = tr.base (obase + c) := by split_ifs <;> rfl
  rw [this]

/-- Facts about a cell that a relocation moves. -/
theorem movedp_facts {tr0 : basic_trie} {s obase d : Int} {inputs D : List Int}
    (P : reloc_pre tr0 s obase d inputs) (hD : ∀ x ∈ D, x ∈ inputs) {x : Int}
    (hx : movedp tr0 s obase D x) :
    tr0.check (x + d) = 0 ∧ 2 ≤ x + d ∧ x + d < tr0.size ∧ 0 < s ∧ tr0.check x = s
      ∧ x ≠ s ∧ 2 ≤ x ∧ tr0.check s ≠ s ∧ x + d ≠ s ∧ ¬ tr0.childless s := by
  obtain ⟨h1, h2⟩ := hx
  have hi := hD _ h2
  have e : obase + (x - obase) + d = x + d := by omega
  have f1 := P.free _ hi
  have f2 := P.newpos _ hi
  have f3 := P.newlt _ hi
  rw [e] at f1 f2 f3
  have hs := live_pos P.wf0 P.live_s
  have hss : tr0.check s ≠ s := by
    rcases P.live_s with rfl | hl
    · rw [check_one P.wf0]; omega
    · exact P.wf0.no_self s hl
  have hx2 := (P.wf0.check_range x (by omega)).1
  refine ⟨f1, f2, f3, by omega, h1, ?_, hx2, hss, ?_, ?_⟩
  · intro hxs
    rw [hxs] at h1
    exact hss h1
  · intro hxs
    rw [hxs] at f1
    rcases P.live_s with rfl | hl
    · omega
    · omega
  · intro hc
    exact hc x h1

theorem not_movedp_s {tr0 : basic_trie} {s obase d : Int} {inputs D : List Int}
    (P : reloc_pre tr0 s obase d inputs) : ¬ movedp tr0 s obase D s := by
  rintro ⟨h1, _⟩
  rcases P.live_s with rfl | hl
  · rw [check_one P.wf0] at h1; omega
  · exact P.wf0.no_self s hl h1

/-- The test of the loop sees the old links of `tr0`. -/
theorem reloc_test {tr0 cur : basic_trie} {s obase d : Int} {inputs D : List Int}
    (P : reloc_pre tr0 s obase d inputs) (hD : ∀ x ∈ D, x ∈ inputs)
    (R : reloc tr0 cur s obase d D) {c : Int} (hc : c ∈ inputs) (hcD : c ∉ D) :
    (cur.check (obase + c) = s ↔ tr0.check (obase + c) = s)
    ∧ (tr0.check (obase + c) = s →
        cur.check (obase + c) = s ∧ cur.base (obase + c) = tr0.base (obase + c)) := by
  have hs := live_pos P.wf0 P.live_s
  have h1 : ¬ movedp tr0 s obase D (obase + c - d) := by
    intro hm
    obtain ⟨f1, _, _, _, _, _, _, _, _, f10⟩ := movedp_facts P hD hm
    have e : obase + c - d + d = obase + c := by omega
    rw [e] at f1
    have := P.occ f10 c hc
    omega
  have h2 : ¬ movedp tr0 s obase D (obase + c) := by
    rintro ⟨_, hm⟩
    have e : obase + c - obase = c := by omega
    rw [e] at hm
    exact hcD hm
  by_cases h3 : movedp tr0 s obase D (tr0.check (obase + c))
  · obtain ⟨f1, f2, _, _, f5, f6, _, _, f9, _⟩ := movedp_facts P hD h3
    have hg := (R.grand _ h3).1
    constructor
    · constructor
      · intro h
        rw [hg] at h
        exact absurd h f9
      · intro h
        exact absurd h f6
    · intro h
      exact absurd h f6
  · have ho := R.other _ h1 h2 h3
    constructor
    · rw [ho.1]
    · intro h
      rw [ho.1, ho.2]
      exact ⟨h, rfl⟩

end basic_trie

namespace basic_trie

theorem movedp_cons {tr0 : basic_trie} {s obase c : Int} {D : List Int} {x : Int} :
    movedp tr0 s obase (c :: D) x ↔ (tr0.check x = s ∧ x = obase + c) ∨ movedp tr0 s obase D x := by
  unfold movedp
  simp only [List.mem_cons]
  constructor
  · rintro ⟨h1, h2 | h2⟩
    · left; exact ⟨h1, by omega⟩
    · right; exact ⟨h1, h2⟩
  · rintro (⟨h1, h2⟩ | ⟨h1, h2⟩)
    · exact ⟨h1, Or.inl (by omega)⟩
    · exact ⟨h1, Or.inr h2⟩

/-- The children that the loop finds for the child being moved are its
children in `tr0`. -/
theorem reloc_targets {tr0 cur : basic_trie} {s obase d nbase : Int} {inputs D : List Int}
    (P : reloc_pre tr0 s obase d inputs) (hD : ∀ x ∈ D, x ∈ inputs)
    (R : reloc tr0 cur s obase d D) {c : Int} (hc : c ∈ inputs) (hcD : c ∉ D)
    (hlink : tr0.check (obase + c) = s) (hd : nbase = obase + d) (y : Int) :
    (y - cur.base (obase + c)) ∈
        (((cur.set_base (nbase + c) (cur.base (obase + c))).set_check (nbase + c)
          (cur.check (obase + c))).find_exist_target (obase + c)).1
      ↔ tr0.check y = obase + c := by
  have hs := live_pos P.wf0 P.live_s
  obtain ⟨a1, a2⟩ := (reloc_test P hD R hc hcD).2 hlink
  have hn0 : tr0.check (nbase + c) = 0 := by
    have := P.free c hc
    have e : obase + c + d = nbase + c := by omega
    rwa [e] at this
  have hx0 := (P.wf0.check_range (obase + c) (by omega)).1
  have hx0s : obase + c ≠ s := by
    intro h
    rw [h] at hlink
    exact P.wf0.no_self s (by omega) hlink
  unfold find_exist_target
  simp only [List.mem_filter, mem_symbols, check_transition_iff, next, set_check_check,
    set_base_base, set_base_check, set_check_base, set_check_size, set_base_size,
    decide_eq_true_eq]
  have hne : obase + c ≠ nbase + c := by
    intro h
    rw [← h] at hn0
    omega
  rw [if_neg hne, a2]
  have e : tr0.base (obase + c) + (y - tr0.base (obase + c)) = y := by omega
  rw [e, a1]
  constructor
  · rintro ⟨_, _, _, _, h⟩
    by_cases hyn : y = nbase + c
    · rw [if_pos hyn] at h
      exact absurd h.symm hx0s
    · rw [if_neg hyn] at h
      by_cases m1 : movedp tr0 s obase D (y - d)
      · have := (R.new _ m1).1
        have e2 : y - d + d = y := by omega
        rw [e2] at this
        rw [this] at h
        exact absurd h.symm hx0s
      · by_cases m2 : movedp tr0 s obase D y
        · have := (R.old _ m2).1
          omega
        · by_cases m3 : movedp tr0 s obase D (tr0.check y)
          · have hg := (R.grand _ m3).1
            obtain ⟨f1, _⟩ := movedp_facts P hD m3
            rw [hg] at h
            rw [h, hlink] at f1
            omega
          · rw [(R.other _ m1 m2 m3).1] at h
            exact h
  · intro h
    have hl := P.wf0.link y (by omega)
    rw [h] at hl
    have hr := P.wf0.check_range y (by omega)
    have hyn : y ≠ nbase + c := by
      intro hy
      rw [hy] at h
      omega
    rw [if_neg hyn]
    have m1 : ¬ movedp tr0 s obase D (y - d) := by
      intro m
      obtain ⟨f1, _⟩ := movedp_facts P hD m
      have e2 : y - d + d = y := by omega
      rw [e2] at f1
      omega
    have m2 : ¬ movedp tr0 s obase D y := by
      rintro ⟨m, _⟩
      omega
    have m3 : ¬ movedp tr0 s obase D (tr0.check y) := by
      rw [h]
      rintro ⟨_, m⟩
      have e2 : obase + c - obase = c := by omega
      rw [e2] at m
      exact hcD m
    rw [(R.other _ m1 m2 m3).1]
    refine ⟨⟨hl.2.1, hl.2.2.1⟩, by omega, by omega, ?_, h⟩
    rw [R.size]
    exact hr.2

end basic_trie

namespace basic_trie

/-- One round of the loop keeps the description of the relocation. -/
theorem reloc_step {tr0 cur : basic_trie} {s obase d nbase : Int} {inputs D : List Int}
    (P : reloc_pre tr0 s obase d inputs) (hD : ∀ x ∈ D, x ∈ inputs)
    (R : reloc tr0 cur s obase d D) {c : Int} (hc : c ∈ inputs) (hcD : c ∉ D)
    (hlink : tr0.check (obase + c) = s) (hd : nbase = obase + d) :
    reloc tr0 (cur.relocate_one obase nbase c) s obase d (c :: D) := by
  have hs := live_pos P.wf0 P.live_s
  obtain ⟨a1, a2⟩ := (reloc_test P hD R hc hcD).2 hlink
  have key := reloc_targets P hD R hc hcD hlink hd
  have hD' : ∀ x ∈ c :: D, x ∈ inputs := by
    intro x hx
    rcases List.mem_cons.mp hx with rfl | hx
    · exact hc
    · exact hD x hx
  have hn : nbase + c = obase + c + d := by omega
  have hn0 : tr0.check (obase + c + d) = 0 := P.free c hc
  have h00 : tr0.check 0 = 0 := by
    by_contra h
    have := (P.wf0.check_range 0 h).1
    omega
  have hx0m : ¬ movedp tr0 s obase D (obase + c) := by
    rintro ⟨_, m⟩
    have e2 : obase + c - obase = c := by omega
    rw [e2] at m
    exact hcD m
  have hx02 : 2 ≤ obase + c := (P.wf0.check_range (obase + c) (by omega)).1
  have hx0s : obase + c ≠ s := by
    intro h
    rw [h] at hlink
    exact P.wf0.no_self s (by omega) hlink
  refine ⟨?_, ?_, ?_, ?_, ?_, ?_⟩
  · rw [relocate_one_size, R.size]
  · rw [relocate_one_last_base, R.last_base]
  · -- new
    intro x hx
    obtain ⟨f1, f2, f3, f4, f5, f6, f7, f8, f9, f10⟩ := movedp_facts P hD' hx
    have e1 : x + d ≠ obase + c := by
      intro h
      rw [h] at f1
      omega
    have e2 : ¬ (x + d - cur.base (obase + c)) ∈
        (((cur.set_base (nbase + c) (cur.base (obase + c))).set_check (nbase + c)
          (cur.check (obase + c))).find_exist_target (obase + c)).1 := by
      rw [key]
      omega
    simp only [relocate_one_check, relocate_one_base, if_neg e1, if_neg e2]
    rcases movedp_cons.mp hx with ⟨_, hx0⟩ | hm
    · have e3 : x + d = nbase + c := by omega
      simp only [if_pos e3]
      exact ⟨a1, by rw [a2, hx0]⟩
    · have e3 : x + d ≠ nbase + c := by
        intro h
        apply hx0m
        have : x = obase + c := by omega
        rwa [this] at hm
      simp only [if_neg e3]
      exact R.new x hm
  · -- old
    intro x hx
    obtain ⟨f1, f2, f3, f4, f5, f6, f7, f8, f9, f10⟩ := movedp_facts P hD' hx
    simp only [relocate_one_check, relocate_one_base]
    by_cases e1 : x = obase + c
    · simp only [if_pos e1]
      exact ⟨trivial, trivial⟩
    · simp only [if_neg e1]
      have e2 : ¬ (x - cur.base (obase + c)) ∈
          (((cur.set_base (nbase + c) (cur.base (obase + c))).set_check (nbase + c)
            (cur.check (obase + c))).find_exist_target (obase + c)).1 := by
        rw [key]
        omega
      have e3 : x ≠ nbase + c := by
        intro h
        rw [h, hn] at f5
        omega
      simp only [if_neg e2, if_neg e3]
      rcases movedp_cons.mp hx with ⟨_, hx0⟩ | hm
      · exact absurd hx0 e1
      · exact R.old x hm
  · -- grand
    intro y hy
    obtain ⟨f1, f2, f3, f4, f5, f6, f7, f8, f9, f10⟩ := movedp_facts P hD' hy
    have e1 : y ≠ obase + c := by
      intro h
      rw [h, hlink] at f5
      exact f8 f5
    have e3 : y ≠ nbase + c := by
      intro h
      have hy0 : tr0.check y = 0 := by rw [h, hn]; exact hn0
      rw [hy0, h00] at f5
      omega
    simp only [relocate_one_check, relocate_one_base, if_neg e1, if_neg e3]
    rcases movedp_cons.mp hy with ⟨_, hx0⟩ | hm
    · have e2 : (y - cur.base (obase + c)) ∈
          (((cur.set_base (nbase + c) (cur.base (obase + c))).set_check (nbase + c)
            (cur.check (obase + c))).find_exist_target (obase + c)).1 := by
        rw [key]
        exact hx0
      simp only [if_pos e2]
      refine ⟨by omega, ?_⟩
      have m1 : ¬ movedp tr0 s obase D (y - d) := by
        intro m
        obtain ⟨g1, _⟩ := movedp_facts P hD m
        have e4 : y - d + d = y := by omega
        rw [e4] at g1
        omega
      have m2 : ¬ movedp tr0 s obase D y := by
        rintro ⟨m, _⟩
        omega
      have m3 : ¬ movedp tr0 s obase D (tr0.check y) := by
        rw [hx0]
        exact hx0m
      exact (R.other _ m1 m2 m3).2
    · have e2 : ¬ (y - cur.base (obase + c)) ∈
          (((cur.set_base (nbase + c) (cur.base (obase + c))).set_check (nbase + c)
            (cur.check (obase + c))).find_exist_target (obase + c)).1 := by
        rw [key]
        intro h
        rw [h] at hm
        exact hx0m hm
      simp only [if_neg e2]
      exact R.grand y hm
  · -- other
    intro y m1 m2 m3
    have n1 : ¬ movedp tr0 s obase D (y - d) := fun m => m1 (movedp_cons.mpr (Or.inr m))
    have n2 : ¬ movedp tr0 s obase D y := fun m => m2 (movedp_cons.mpr (Or.inr m))
    have n3 : ¬ movedp tr0 s obase D (tr0.check y) := fun m => m3 (movedp_cons.mpr (Or.inr m))
    have e1 : y ≠ obase + c := by
      intro h
      apply m2
      rw [h]
      exact movedp_cons.mpr (Or.inl ⟨hlink, rfl⟩)
    have e3 : y ≠ nbase + c := by
      intro h
      apply m1
      have : y - d = obase + c := by omega
      rw [this]
      exact movedp_cons.mpr (Or.inl ⟨hlink, rfl⟩)
    have e2 : ¬ (y - cur.base (obase + c)) ∈
        (((cur.set_base (nbase + c) (cur.base (obase + c))).set_check (nbase + c)
          (cur.check (obase + c))).find_exist_target (obase + c)).1 := by
      rw [key]
      intro h
      apply m3
      rw [h]
      exact movedp_cons.mpr (Or.inl ⟨hlink, rfl⟩)
    simp only [relocate_one_check, relocate_one_base, if_neg e1, if_neg e2, if_neg e3]
    exact R.other y n1 n2 n3

theorem reloc_nil (tr0 : basic_trie) (s obase d : Int) : reloc tr0 tr0 s obase d [] := by
  refine ⟨rfl, rfl, ?_, ?_, ?_, ?_⟩
  · rintro x ⟨_, h⟩; simp at h
  · rintro x ⟨_, h⟩; simp at h
  · rintro x ⟨_, h⟩; simp at h
  · intro y _ _ _; exact ⟨rfl, rfl⟩

theorem reloc_mono {tr0 cur : basic_trie} {s obase d : Int} {D D' : List Int}
    (h : ∀ x, x ∈ D ↔ x ∈ D') (R : reloc tr0 cur s obase d D) : reloc tr0 cur s obase d D' := by
  have hm : ∀ x, movedp tr0 s obase D' x ↔ movedp tr0 s obase D x := by
    intro x
    unfold movedp
    rw [h]
  refine ⟨R.size, R.last_base, ?_, ?_, ?_, ?_⟩
  · intro x hx; exact R.new x ((hm x).mp hx)
  · intro x hx; exact R.old x ((hm x).mp hx)
  · intro y hy; exact R.grand y ((hm _).mp hy)
  · intro y m1 m2 m3
    exact R.other y (fun m => m1 ((hm _).mpr m)) (fun m => m2 ((hm _).mpr m))
      (fun m => m3 ((hm _).mpr m))

/-- The loop of `relocate`: after the loop the state is the relocation of the
children of `s` with a symbol among `inputs`; the standing state follows its
cell. -/
theorem relocate_loop_spec {tr0 : basic_trie} {s obase d nbase : Int} {inputs : List Int}
    (P : reloc_pre tr0 s obase d inputs) (hd : nbase = obase + d) :
    ∀ (rest D : List Int) (cur : basic_trie) (stand : Int) (moved : List (Int × Int)),
      (∀ x ∈ D, x ∈ inputs) → (∀ x ∈ rest, x ∈ inputs) → (∀ x ∈ rest, x ∉ D) → rest.Nodup →
      reloc tr0 cur s obase d D →
      ∃ cur' stand' moved' D', relocate_loop s obase nbase rest cur stand moved
          = (cur', stand', moved')
        ∧ reloc tr0 cur' s obase d D'
        ∧ (∀ x, x ∈ D' ↔ x ∈ D ∨ (x ∈ rest ∧ tr0.check (obase + x) = s))
        ∧ (movedp tr0 s obase rest stand → stand' = stand + d)
        ∧ (¬ movedp tr0 s obase rest stand → stand' = stand) := by
  intro rest
  induction rest with
  | nil =>
    intro D cur stand moved _ _ _ _ R
    refine ⟨cur, stand, moved, D, rfl, R, by simp, ?_, fun _ => rfl⟩
    rintro ⟨_, h⟩
    simp at h
  | cons c rest ih =>
    intro D cur stand moved hD hrest hnot hnd R
    have hc : c ∈ inputs := hrest c (List.mem_cons_self _ _)
    have hcD : c ∉ D := hnot c (List.mem_cons_self _ _)
    have hrest' : ∀ x ∈ rest, x ∈ inputs := fun x hx => hrest x (List.mem_cons_of_mem _ hx)
    have hnd' := (List.nodup_cons.mp hnd)
    have ht := reloc_test P hD R hc hcD
    rw [relocate_loop]
    by_cases hlink : tr0.check (obase + c) = s
    · have hcur : ¬ cur.check (obase + c) ≠ s := not_not.mpr (ht.1.mpr hlink)
      rw [if_neg hcur]
      have R' := reloc_step P hD R hc hcD hlink hd
      obtain ⟨cur', stand', moved', D', he, R2, hD2, hst1, hst2⟩ :=
        ih (c :: D) (cur.relocate_one obase nbase c)
          (if stand = obase + c then nbase + c else stand) (moved ++ [(obase + c, nbase + c)])
          (by
            intro x hx
            rcases List.mem_cons.mp hx with rfl | hx
            · exact hc
            · exact hD x hx)
          hrest'
          (by
            intro x hx hxD
            rcases List.mem_cons.mp hxD with rfl | hxD
            · exact hnd'.1 hx
            · exact hnot x (List.mem_cons_of_mem _ hx) hxD)
          hnd'.2 R'
      have mfree : ¬ movedp tr0 s obase rest (nbase + c) := by
        rintro ⟨m, _⟩
        have := P.free c hc
        have e : obase + c + d = nbase + c := by omega
        rw [e] at this
        have hs := live_pos P.wf0 P.live_s
        omega
      refine ⟨cur', stand', moved', D', he, R2, ?_, ?_, ?_⟩
      · intro x
        rw [hD2, List.mem_cons, List.mem_cons]
        constructor
        · rintro ((rfl | h) | h)
          · right; exact ⟨Or.inl rfl, hlink⟩
          · left; exact h
          · right; exact ⟨Or.inr h.1, h.2⟩
        · rintro (h | ⟨rfl | h, h2⟩)
          · left; right; exact h
          · left; left; rfl
          · right; exact ⟨h, h2⟩
      · intro m
        by_cases hst0 : stand = obase + c
        · rw [if_pos hst0] at hst2
          rw [hst2 mfree]
          omega
        · rw [if_neg hst0] at hst1
          apply hst1
          rcases movedp_cons.mp m with ⟨_, h⟩ | h
          · exact absurd h hst0
          · exact h
      · intro m
        have hst0 : stand ≠ obase + c := by
          intro h
          apply m
          rw [h]
          exact movedp_cons.mpr (Or.inl ⟨hlink, rfl⟩)
        rw [if_neg hst0] at hst2
        exact hst2 (fun h => m (movedp_cons.mpr (Or.inr h)))
    · have hcur : cur.check (obase + c) ≠ s := fun h => hlink (ht.1.mp h)
      rw [if_pos hcur]
      obtain ⟨cur', stand', moved', D', he, R2, hD2, hst1, hst2⟩ :=
        ih D cur stand moved hD hrest'
          (fun x hx => hnot x (List.mem_cons_of_mem _ hx)) hnd'.2 R
      refine ⟨cur', stand', moved', D', he, R2, ?_, ?_, ?_⟩
      · intro x
        rw [hD2, List.mem_cons]
        constructor
        · rintro (h | h)
          · left; exact h
          · right; exact ⟨Or.inr h.1, h.2⟩
        · rintro (h | ⟨rfl | h, h2⟩)
          · left; exact h
          · exact absurd h2 hlink
          · right; exact ⟨h, h2⟩
      · intro m
        apply hst1
        rcases movedp_cons.mp m with ⟨h1, h⟩ | h
        · rw [h] at h1
          exact absurd h1 hlink
        · exact h
      · intro m
        exact hst2 (fun h => m (movedp_cons.mpr (Or.inr h)))

/-- The cells the loop of `relocate` moves: one for every child of `s` with a
symbol among the inputs, in the order of the inputs. -/
theorem relocate_loop_moved {tr0 : basic_trie} {s obase d nbase : Int} {inputs : List Int}
    (P : reloc_pre tr0 s obase d inputs) (hd : nbase = obase + d) :
    ∀ (rest D : List Int) (cur : basic_trie) (stand : Int) (moved : List (Int × Int)),
      (∀ x ∈ D, x ∈ inputs) → (∀ x ∈ rest, x ∈ inputs) → (∀ x ∈ rest, x ∉ D) → rest.Nodup →
      reloc tr0 cur s obase d D →
      (relocate_loop s obase nbase rest cur stand moved).2.2
        = moved ++ (rest.filter (fun c => decide (tr0.check (obase + c) = s))).map
            (fun c => (obase + c, nbase + c)) := by
  intro rest
  induction rest with
  | nil =>
    intro D cur stand moved _ _ _ _ _
    simp [relocate_loop]
  | cons c rest ih =>
    intro D cur stand moved hD hrest hnot hnd R
    have hc : c ∈ inputs := hrest c (List.mem_cons_self _ _)
    have hcD : c ∉ D := hnot c (List.mem_cons_self _ _)
    have hrest' : ∀ x ∈ rest, x ∈ inputs := fun x hx => hrest x (List.mem_cons_of_mem _ hx)
    have hnd' := (List.nodup_cons.mp hnd)
    have ht := reloc_test P hD R hc hcD
    rw [relocate_loop]
    by_cases hlink : tr0.check (obase + c) = s
    · have hcur : ¬ cur.check (obase + c) ≠ s := not_not.mpr (ht.1.mpr hlink)
      rw [if_neg hcur]
      have R' := reloc_step P hD R hc hcD hlink hd
      rw [ih (c :: D) (cur.relocate_one obase nbase c)
          (if stand = obase + c then nbase + c else stand) (moved ++ [(obase + c, nbase + c)])
          (by
            intro x hx
            rcases List.mem_cons.mp hx with rfl | hx
            · exact hc
            · exact hD x hx)
          hrest'
          (by
            intro x hx hxD
            rcases List.mem_cons.mp hxD with rfl | hxD
            · exact hnd'.1 hx
            · exact hnot x (List.mem_cons_of_mem _ hx) hxD)
          hnd'.2 R']
      rw [List.filter_cons_of_pos (by simpa using hlink)]
      simp
    · have hcur : cur.check (obase + c) ≠ s := fun h => hlink (ht.1.mp h)
      rw [if_pos hcur]
      rw [ih D cur stand moved hD hrest'
          (fun x hx => hnot x (List.mem_cons_of_mem _ hx)) hnd'.2 R]
      rw [List.filter_cons_of_neg (by simpa using hlink)]

end basic_trie

/-! ## A relocation is a renaming of the states -/

namespace basic_trie

theorem relocd_of_reloc {tr0 cur : basic_trie} {q obase d : Int} {inputs D : List Int}
    (P : reloc_pre tr0 q obase d inputs) (hD : ∀ x ∈ D, x ∈ inputs)
    (R : reloc tr0 cur q obase d D)
    (hcomp : ∀ x, tr0.check x = q → (x - obase) ∈ D) : relocd tr0 cur q d := by
  have hm : ∀ x, movedp tr0 q obase D x ↔ tr0.check x = q := by
    intro x
    constructor
    · intro h; exact h.1
    · intro h; exact ⟨h, hcomp x h⟩
  refine ⟨R.size, R.last_base, ?_, ?_, ?_⟩
  · intro x hx
    have m := (hm x).mpr hx
    obtain ⟨f1, f2, f3, f4, f5, f6, f7, f8, f9, f10⟩ := movedp_facts P hD m
    exact ⟨(R.new x m).1, (R.new x m).2, (R.old x m).1, (R.old x m).2, f1, f2, f3, f6, f9⟩
  · intro y hy
    exact R.grand y ((hm _).mpr hy)
  · intro y h1 h2 h3
    exact R.other y (fun m => h1 ((hm _).mp m)) (fun m => h2 ((hm _).mp m))
      (fun m => h3 ((hm _).mp m))

theorem check_zero {tr : basic_trie} (h : tr.wf) : tr.check 0 = 0 := by
  by_contra hc
  have := (h.check_range 0 hc).1
  omega

theorem not_live_of_free {tr : basic_trie} {y : Int} (h0 : tr.check y = 0) (h2 : 2 ≤ y) :
    ¬ tr.live y := by
  rintro (h | h) <;> omega

/-- No cell of a well-formed trie names a free cell as its parent. -/
theorem check_ne_of_free {tr : basic_trie} (h : tr.wf) {y : Int} (h0 : tr.check y = 0)
    (h2 : 2 ≤ y) (t : Int) : tr.check t ≠ y := by
  intro ht
  have := (h.link t (by omega)).2.2.2
  rw [ht] at this
  exact not_live_of_free h0 h2 this

/-- The state after `relocate`: well-formedness. -/
theorem relocd_wf {tr0 cur : basic_trie} {q d : Int} (h0 : tr0.wf) (hq : tr0.live q)
    (R : relocd tr0 cur q d) (hnb : 1 ≤ tr0.base q + d) :
    (cur.set_base q (tr0.base q + d)).wf := by
  have hq1 := live_pos h0 hq
  have hqq : tr0.check q ≠ q := by
    rcases hq with rfl | hl
    · rw [check_one h0]; omega
    · exact h0.no_self q hl
  have h00 := check_zero h0
  -- the relocated parent stays live
  have hqlive : (cur.set_base q (tr0.base q + d)).live q := by
    rcases hq with rfl | hl
    · left; rfl
    · right
      simp only [set_base_check]
      by_cases g : tr0.check (tr0.check q) = q
      · rw [(R.grand q g).1]
        have := (R.child _ g).2.2.2.2.2.1
        omega
      · have n1 : tr0.check (q - d) ≠ q := by
          intro m
          have := R.child _ m
          have e : q - d + d = q := by omega
          rw [e] at this
          omega
        rw [(R.other q n1 hqq g).1]
        exact hl
  refine ⟨?_, ?_, ?_, ?_, ?_, ?_, ?_, ?_⟩
  · simp only [set_base_size]; rw [R.size]; exact h0.size_ge
  · simp only [set_base_last_base]; rw [R.last_base]; exact h0.last_base_ge
  · simp only [set_base_last_base, set_base_size]; rw [R.last_base, R.size]
    exact h0.last_base_lt
  · intro t ht
    simp only [set_base_check, set_base_size] at ht ⊢
    rw [R.size]
    by_cases m1 : tr0.check (t - d) = q
    · have := R.child _ m1
      have e : t - d + d = t := by omega
      rw [e] at this
      omega
    · by_cases m2 : tr0.check t = q
      · have := R.child _ m2
        omega
      · by_cases m3 : tr0.check (tr0.check t) = q
        · have := R.child _ m3
          exact h0.check_range t (by
            intro h
            rw [h, h00] at m3
            omega)
        · rw [(R.other t m1 m2 m3).1] at ht
          exact h0.check_range t ht
  · intro t
    simp only [set_base_check]
    by_cases m1 : tr0.check (t - d) = q
    · have := R.child _ m1
      have e : t - d + d = t := by omega
      rw [e] at this
      omega
    · by_cases m2 : tr0.check t = q
      · have := R.child _ m2
        omega
      · by_cases m3 : tr0.check (tr0.check t) = q
        · have := R.child _ m3
          rw [(R.grand t m3).1]
          omega
        · rw [(R.other t m1 m2 m3).1]
          exact h0.check_nonneg t
  · intro t ht
    simp only [set_base_check, set_base_base] at ht ⊢
    by_cases m1 : tr0.check (t - d) = q
    · have c1 := R.child _ m1
      have e : t - d + d = t := by omega
      rw [e] at c1
      have hl := h0.link (t - d) (by omega)
      rw [m1] at hl
      rw [c1.1, if_pos rfl]
      refine ⟨by omega, by omega, by omega, ?_⟩
      have := hqlive
      simpa [live] using this
    · by_cases m2 : tr0.check t = q
      · have := R.child _ m2
        omega
      · by_cases m3 : tr0.check (tr0.check t) = q
        · have c3 := R.child _ m3
          have hp : 0 < tr0.check t := by
            have := h0.check_nonneg t
            have : tr0.check t ≠ 0 := by
              intro h
              rw [h, h00] at m3
              omega
            omega
          have hl := h0.link t hp
          rw [(R.grand t m3).1]
          rw [if_neg c3.2.2.2.2.2.2.2.2, c3.2.1]
          refine ⟨hl.1, hl.2.1, hl.2.2.1, ?_⟩
          right
          show 0 < cur.check _
          rw [c3.1]
          omega
        · have ho := R.other t m1 m2 m3
          rw [ho.1] at ht ⊢
          have hl := h0.link t ht
          have hpq : tr0.check t ≠ q := m2
          rw [if_neg hpq]
          -- the parent keeps its base and stays live
          have hpn : tr0.check (tr0.check t - d) ≠ q := by
            intro m
            have := R.child _ m
            have e : tr0.check t - d + d = tr0.check t := by omega
            rw [e] at this
            have := hl.2.2.2
            rcases this with h1 | h1 <;> omega
          have hbase : cur.base (tr0.check t) = tr0.base (tr0.check t) := by
            by_cases g : tr0.check (tr0.check (tr0.check t)) = q
            · exact (R.grand _ g).2
            · exact (R.other _ hpn m3 g).2
          rw [hbase]
          refine ⟨hl.1, hl.2.1, hl.2.2.1, ?_⟩
          rcases hl.2.2.2 with h1 | h1
          · left; exact h1
          · right
            show 0 < cur.check _
            by_cases g : tr0.check (tr0.check (tr0.check t)) = q
            · rw [(R.grand _ g).1]
              have := (R.child _ g).2.2.2.2.2.1
              omega
            · rw [(R.other _ hpn m3 g).1]
              exact h1
  · intro t ht1 ht
    simp only [set_base_check, set_base_base] at ht ⊢
    have htq : t ≠ q := by
      intro h
      rw [h] at ht
      rcases hqlive with h1 | h1
      · omega
      · simp only [set_base_check] at h1
        omega
    rw [if_neg htq]
    by_cases m1 : tr0.check (t - d) = q
    · have := R.child _ m1
      have e : t - d + d = t := by omega
      rw [e] at this
      omega
    · by_cases m2 : tr0.check t = q
      · exact (R.child _ m2).2.2.2.1
      · by_cases m3 : tr0.check (tr0.check t) = q
        · have := R.child _ m3
          rw [(R.grand t m3).1] at ht
          omega
        · have ho := R.other t m1 m2 m3
          rw [ho.1] at ht
          rw [ho.2]
          exact h0.free_base t ht1 ht
  · intro t ht
    simp only [set_base_check] at ht ⊢
    by_cases m1 : tr0.check (t - d) = q
    · have := R.child _ m1
      have e : t - d + d = t := by omega
      rw [e] at this
      omega
    · by_cases m2 : tr0.check t = q
      · have := R.child _ m2
        omega
      · by_cases m3 : tr0.check (tr0.check t) = q
        · have c3 := R.child _ m3
          rw [(R.grand t m3).1]
          intro h
          rw [h] at c3
          have hp : tr0.check t ≠ 0 := by
            intro h'
            rw [h', h00] at m3
            omega
          have := c3.2.2.2.2.1
          omega
        · have ho := R.other t m1 m2 m3
          rw [ho.1] at ht ⊢
          exact h0.no_self t ht

end basic_trie

namespace basic_trie

theorem not_new_of_live {tr0 cur : basic_trie} {q d : Int} (R : relocd tr0 cur q d) {a : Int}
    (ha : tr0.live a) : tr0.check (a - d) ≠ q := by
  intro m
  have := R.child _ m
  have e : a - d + d = a := by omega
  rw [e] at this
  rcases ha with h | h <;> omega

theorem rename_root {tr0 : basic_trie} (h0 : tr0.wf) {q d : Int} (hq : tr0.live q) :
    rename tr0 q d 1 = 1 := by
  unfold rename
  have := live_pos h0 hq
  rw [check_one h0, if_neg (by omega)]

theorem rename_self {tr0 : basic_trie} (h0 : tr0.wf) {q d : Int} (hq : tr0.live q) :
    rename tr0 q d q = q := by
  unfold rename
  have hqq : tr0.check q ≠ q := by
    rcases hq with rfl | hl
    · rw [check_one h0]; omega
    · exact h0.no_self q hl
  rw [if_neg hqq]

/-- A live state that is neither `q` nor a child of `q` keeps its cell and base. -/
theorem relocd_stay {tr0 cur : basic_trie} {q d : Int}
    (R : relocd tr0 cur q d) {a : Int} (ha : tr0.live a) (hm : tr0.check a ≠ q) :
    cur.base a = tr0.base a ∧ (a = 1 ∨ 0 < cur.check a) := by
  have n1 := not_new_of_live R ha
  by_cases g : tr0.check (tr0.check a) = q
  · refine ⟨(R.grand a g).2, ?_⟩
    right
    rw [(R.grand a g).1]
    have := (R.child _ g).2.2.2.2.2.1
    omega
  · refine ⟨(R.other a n1 hm g).2, ?_⟩
    rcases ha with h | h
    · left; exact h
    · right
      rw [(R.other a n1 hm g).1]
      exact h

theorem rename_live {tr0 cur : basic_trie} {q d : Int} (h0 : tr0.wf) (hq : tr0.live q)
    (R : relocd tr0 cur q d) (nb : Int) {a : Int} (ha : tr0.live a) :
    (cur.set_base q nb).live (rename tr0 q d a) := by
  have hq1 := live_pos h0 hq
  unfold rename
  by_cases m : tr0.check a = q
  · rw [if_pos m]
    right
    show 0 < cur.check _
    rw [(R.child a m).1]
    omega
  · rw [if_neg m]
    exact (relocd_stay R ha m).2

theorem relocd_base {tr0 cur : basic_trie} {q d : Int} (h0 : tr0.wf)
    (R : relocd tr0 cur q d) (nb : Int) {a : Int} (ha : tr0.live a) (haq : a ≠ q) :
    (cur.set_base q nb).base (rename tr0 q d a) = tr0.base a := by
  unfold rename
  simp only [set_base_base]
  by_cases m : tr0.check a = q
  · rw [if_pos m]
    have c := R.child a m
    rw [if_neg c.2.2.2.2.2.2.2.2, c.2.1]
  · rw [if_neg m, if_neg haq]
    exact (relocd_stay R ha m).1

/-- Forward simulation: every edge of `tr0` is an edge between the renamed
states after the relocation. -/
theorem relocd_fwd {tr0 cur : basic_trie} {q d : Int} (h0 : tr0.wf) (hq : tr0.live q)
    (R : relocd tr0 cur q d) (hnb : 1 ≤ tr0.base q + d) {a x b : Int} (ha : tr0.live a)
    (hs : tr0.step a x = some b) :
    (cur.set_base q (tr0.base q + d)).step (rename tr0 q d a) x = some (rename tr0 q d b) := by
  have hF := relocd_wf h0 hq R hnb
  have ha1 := live_pos h0 ha
  have haF := live_pos hF (rename_live h0 hq R (tr0.base q + d) ha)
  rw [step_some_iff h0 (by omega)] at hs
  obtain ⟨hb, hcb⟩ := hs
  rw [step_some_iff hF (by omega)]
  by_cases haq : a = q
  · -- the relocated parent
    subst haq
    rw [rename_self h0 hq]
    have c := R.child b hcb
    simp only [set_base_base, set_base_check, eq_self_iff_true, if_true]
    unfold rename
    rw [if_pos hcb]
    exact ⟨by omega, c.1⟩
  · rw [relocd_base h0 R _ ha haq]
    show _ ∧ cur.check _ = _
    by_cases m : tr0.check a = q
    · -- a moved child
      have g : tr0.check (tr0.check b) = q := by rw [hcb]; exact m
      have hbq : tr0.check b ≠ q := by rw [hcb]; exact haq
      unfold rename
      rw [if_pos m, if_neg hbq]
      refine ⟨hb, ?_⟩
      rw [(R.grand b g).1, hcb]
    · have hbq : tr0.check b ≠ q := by rw [hcb]; exact haq
      have hbl : tr0.live b := Or.inr (by omega)
      have n1 := not_new_of_live R hbl
      have g : tr0.check (tr0.check b) ≠ q := by rw [hcb]; exact m
      unfold rename
      rw [if_neg m, if_neg hbq]
      refine ⟨hb, ?_⟩
      rw [(R.other b n1 hbq g).1, hcb]

/-- Backward simulation: every edge after the relocation that leaves a renamed
live state is the image of an edge of `tr0`. -/
theorem relocd_bwd {tr0 cur : basic_trie} {q d : Int} (h0 : tr0.wf) (hq : tr0.live q)
    (R : relocd tr0 cur q d) (hnb : 1 ≤ tr0.base q + d) {a x b' : Int} (ha : tr0.live a)
    (hs : (cur.set_base q (tr0.base q + d)).step (rename tr0 q d a) x = some b') :
    ∃ b, tr0.step a x = some b ∧ b' = rename tr0 q d b := by
  have hF := relocd_wf h0 hq R hnb
  have ha1 := live_pos h0 ha
  have hq1 := live_pos h0 hq
  have haF := live_pos hF (rename_live h0 hq R (tr0.base q + d) ha)
  have h00 := check_zero h0
  rw [step_some_iff hF (by omega)] at hs
  obtain ⟨hb, hcb⟩ := hs
  have hcb' : cur.check b' = rename tr0 q d a := hcb
  -- classify the cell b'
  by_cases m1 : tr0.check (b' - d) = q
  · -- b' is a new cell: its parent is q
    have c := R.child _ m1
    have e : b' - d + d = b' := by omega
    rw [e] at c
    rw [c.1] at hcb'
    have haq : a = q := by
      unfold rename at hcb'
      by_cases m : tr0.check a = q
      · rw [if_pos m] at hcb'
        have := (R.child a m).2.2.2.2.2.2.2.2
        omega
      · rw [if_neg m] at hcb'
        omega
    subst haq
    rw [rename_self h0 hq] at hb
    simp only [set_base_base, eq_self_iff_true, if_true] at hb
    refine ⟨b' - d, ?_, ?_⟩
    · rw [step_some_iff h0 (by omega)]
      exact ⟨by omega, m1⟩
    · unfold rename
      rw [if_pos m1]
      omega
  · by_cases m2 : tr0.check b' = q
    · have c := R.child _ m2
      rw [c.2.2.1] at hcb'
      omega
    · by_cases m3 : tr0.check (tr0.check b') = q
      · -- b' is a child of a moved child
        have c := R.child _ m3
        rw [(R.grand b' m3).1] at hcb'
        have hma : tr0.check a = q := by
          by_contra m
          unfold rename at hcb'
          rw [if_neg m] at hcb'
          rw [← hcb'] at ha
          exact not_live_of_free c.2.2.2.2.1 c.2.2.2.2.2.1 ha
        have haq : a ≠ q := (R.child a hma).2.2.2.2.2.2.2.1
        unfold rename at hcb'
        rw [if_pos hma] at hcb'
        rw [relocd_base h0 R _ ha haq] at hb
        refine ⟨b', ?_, ?_⟩
        · rw [step_some_iff h0 (by omega)]
          exact ⟨hb, by omega⟩
        · unfold rename
          rw [if_neg m2]
      · rw [(R.other b' m1 m2 m3).1] at hcb'
        have hma : tr0.check a ≠ q := by
          intro m
          unfold rename at hcb'
          rw [if_pos m] at hcb'
          have c := R.child a m
          exact check_ne_of_free h0 c.2.2.2.2.1 c.2.2.2.2.2.1 b' hcb'
        unfold rename at hcb'
        rw [if_neg hma] at hcb'
        have haq : a ≠ q := by
          intro h
          rw [h] at hcb'
          exact m2 hcb'
        rw [relocd_base h0 R _ ha haq] at hb
        refine ⟨b', ?_, ?_⟩
        · rw [step_some_iff h0 (by omega)]
          exact ⟨hb, hcb'⟩
        · unfold rename
          rw [if_neg m2]

/-- A cell that was free and is not a new cell is free after the relocation;
the old cells of the children are free after it. -/
theorem relocd_free {tr0 cur : basic_trie} {q d : Int} (h0 : tr0.wf) (hq : tr0.live q)
    (R : relocd tr0 cur q d) (nb : Int) {y : Int} (hy2 : 2 ≤ y)
    (hy : (tr0.check y = 0 ∧ tr0.check (y - d) ≠ q) ∨ tr0.check y = q) :
    (cur.set_base q nb).check y = 0 ∧ (cur.set_base q nb).base y = 0 := by
  have hq1 := live_pos h0 hq
  have h00 := check_zero h0
  simp only [set_base_check, set_base_base]
  rcases hy with ⟨hy0, hyn⟩ | hyq
  · have hyq : y ≠ q := by
      intro h
      rw [h] at hy0
      rcases hq with h1 | h1 <;> omega
    have m2 : tr0.check y ≠ q := by omega
    have m3 : tr0.check (tr0.check y) ≠ q := by rw [hy0, h00]; omega
    have ho := R.other y hyn m2 m3
    rw [if_neg hyq, ho.1, ho.2]
    exact ⟨hy0, h0.free_base y (by omega) hy0⟩
  · have c := R.child y hyq
    rw [if_neg c.2.2.2.2.2.2.2.1]
    exact ⟨c.2.2.1, c.2.2.2.1⟩

end basic_trie

/-! ## Adding the edge -/

namespace basic_trie

/-- Well-formedness only depends on the cells, as long as the capacity does
not shrink and `last_base_` stays a cell index. -/
theorem wf_of_cells {tr tr' : basic_trie} (h : tr.wf) (hb : tr'.base = tr.base)
    (hc : tr'.check = tr.check) (hs : tr.size ≤ tr'.size) (hl0 : 0 ≤ tr'.last_base)
    (hl1 : tr'.last_base < tr'.size) : tr'.wf := by
  have hs2 := h.size_ge
  refine ⟨by omega, hl0, hl1, ?_, ?_, ?_, ?_, ?_⟩
  · intro t ht
    rw [hc] at ht
    have := h.check_range t ht
    omega
  · intro t; rw [hc]; exact h.check_nonneg t
  · intro t ht
    rw [hc] at ht
    have := h.link t ht
    simp only [hb, hc, live] at this ⊢
    exact this
  · intro t ht1 ht
    rw [hc] at ht
    rw [hb]
    exact h.free_base t ht1 ht
  · intro t ht
    rw [hc] at ht ⊢
    exact h.no_self t ht

theorem step_of_cells {tr tr' : basic_trie} (h : tr.wf) (h' : tr'.wf) (hb : tr'.base = tr.base)
    (hc : tr'.check = tr.check) (a x : Int) : tr'.step a x = tr.step a x := by
  by_cases ha : 0 < a
  · cases hs : tr.step a x with
    | none =>
      cases hs' : tr'.step a x with
      | none => rfl
      | some b =>
        rw [step_some_iff h' ha, hb, hc] at hs'
        rw [← step_some_iff h ha, hs] at hs'
        cases hs'
    | some b =>
      rw [step_some_iff h ha] at hs
      rw [step_some_iff h' ha, hb, hc]
      exact hs
  · have e1 : tr.step a x = none := by
      rw [step_eq_none]; rintro ⟨h1, _⟩; exact ha h1
    have e2 : tr'.step a x = none := by
      rw [step_eq_none]; rintro ⟨h1, _⟩; exact ha h1
    rw [e1, e2]

theorem wf_resize {tr : basic_trie} (h : tr.wf) {n : Int} (hn : 0 ≤ n) :
    (tr.resize_state n).wf := by
  have := h.size_ge
  have := h.last_base_lt
  exact wf_of_cells h rfl rfl (by simp only [resize_state_size]; omega) h.last_base_ge
    (by simp only [resize_state_size, resize_state_last_base]; omega)

/-- The function `set_check(t, s)` on a cell `t = base(s) + c` that is free, or already the
child of `s`: the trie stays well-formed. -/
theorem wf_add_edge {tr : basic_trie} (h : tr.wf) {s c t : Int} (hs : tr.live s)
    (hb : 0 < tr.base s) (ht : t = tr.base s + c) (hc1 : 1 ≤ c) (hc2 : c ≤ 257)
    (hsz : t < tr.size) (hfree : tr.check t = 0 ∨ tr.check t = s) :
    (tr.set_check t s).wf := by
  have hs1 := live_pos h hs
  have hts : t ≠ s := by
    intro e
    rcases hfree with h0 | h0
    · rw [e] at h0
      rcases hs with h1 | h1 <;> omega
    · rw [e] at h0
      rcases hs with h1 | h1
      · rw [h1, check_one h] at h0; omega
      · exact h.no_self s h1 h0
  have hlive : ∀ p, tr.live p → (tr.set_check t s).live p := by
    intro p hp
    rcases hp with h1 | h1
    · left; exact h1
    · right
      simp only [set_check_check]
      split_ifs <;> omega
  refine ⟨h.size_ge, h.last_base_ge, h.last_base_lt, ?_, ?_, ?_, ?_, ?_⟩
  · intro y hy
    simp only [set_check_check, set_check_size] at hy ⊢
    by_cases e : y = t
    · constructor <;> omega
    · rw [if_neg e] at hy
      exact h.check_range y hy
  · intro y
    simp only [set_check_check]
    split_ifs
    · omega
    · exact h.check_nonneg y
  · intro y hy
    simp only [set_check_check, set_check_base] at hy ⊢
    by_cases e : y = t
    · rw [if_pos e]
      exact ⟨hb, by omega, by omega, hlive s hs⟩
    · rw [if_neg e] at hy ⊢
      have hl := h.link y hy
      exact ⟨hl.1, hl.2.1, hl.2.2.1, hlive _ hl.2.2.2⟩
  · intro y hy1 hy
    simp only [set_check_check, set_check_base] at hy ⊢
    by_cases e : y = t
    · rw [if_pos e] at hy; omega
    · rw [if_neg e] at hy
      exact h.free_base y hy1 hy
  · intro y hy
    simp only [set_check_check] at hy ⊢
    by_cases e : y = t
    · rw [if_pos e]; omega
    · rw [if_neg e] at hy ⊢
      exact h.no_self y hy

/-- The edges after `set_check(t, s)`. -/
theorem step_add_edge {tr : basic_trie} (h : tr.wf) {s c t : Int} (hs : tr.live s)
    (hb : 0 < tr.base s) (ht : t = tr.base s + c) (hc1 : 1 ≤ c) (hc2 : c ≤ 257)
    (hsz : t < tr.size) (hfree : tr.check t = 0 ∨ tr.check t = s) :
    (tr.set_check t s).step s c = some t
    ∧ (∀ a x b, tr.step a x = some b → (tr.set_check t s).step a x = some b)
    ∧ (∀ a x b, (tr.set_check t s).step a x = some b →
        tr.step a x = some b ∨ (a = s ∧ x = c ∧ b = t ∧ tr.check t = 0)) := by
  have h' := wf_add_edge h hs hb ht hc1 hc2 hsz hfree
  have hs1 := live_pos h hs
  refine ⟨?_, ?_, ?_⟩
  · rw [step_some_iff h' (by omega)]
    simp only [set_check_base, set_check_check]
    exact ⟨ht, by simp⟩
  · intro a x b hst
    have ha : 0 < a := by
      rw [step_eq_some] at hst; exact hst.2.1
    rw [step_some_iff h ha] at hst
    rw [step_some_iff h' ha]
    simp only [set_check_base, set_check_check]
    refine ⟨hst.1, ?_⟩
    by_cases e : b = t
    · rw [if_pos e]
      rw [e] at hst
      rcases hfree with h0 | h0 <;> omega
    · rw [if_neg e]; exact hst.2
  · intro a x b hst
    have ha : 0 < a := by
      rw [step_eq_some] at hst; exact hst.2.1
    rw [step_some_iff h' ha] at hst
    simp only [set_check_base, set_check_check] at hst
    by_cases e : b = t
    · rw [if_pos e] at hst
      rcases hfree with h0 | h0
      · right
        have hsa : a = s := by omega
        subst hsa
        refine ⟨rfl, by omega, e, h0⟩
      · left
        rw [step_some_iff h ha]
        exact ⟨hst.1, by rw [e]; omega⟩
    · rw [if_neg e] at hst
      left
      rw [step_some_iff h ha]
      exact hst

theorem rename_inj {tr0 cur : basic_trie} {q d : Int} (R : relocd tr0 cur q d) {a b : Int}
    (ha : tr0.live a) (hb : tr0.live b) (hab : rename tr0 q d a = rename tr0 q d b) : a = b := by
  unfold rename at hab
  by_cases ma : tr0.check a = q
  · by_cases mb : tr0.check b = q
    · rw [if_pos ma, if_pos mb] at hab; omega
    · rw [if_pos ma, if_neg mb] at hab
      have c := R.child a ma
      rw [hab] at c
      exact absurd hb (not_live_of_free c.2.2.2.2.1 c.2.2.2.2.2.1)
  · by_cases mb : tr0.check b = q
    · rw [if_neg ma, if_pos mb] at hab
      have c := R.child b mb
      rw [← hab] at c
      exact absurd ha (not_live_of_free c.2.2.2.2.1 c.2.2.2.2.2.1)
    · rw [if_neg ma, if_neg mb] at hab; exact hab

theorem childless_iff_step {tr : basic_trie} (h : tr.wf) {a : Int} (ha : 0 < a) :
    tr.childless a ↔ ∀ x, tr.step a x = none := by
  constructor
  · intro hc x; exact childless_step hc x
  · intro hn t ht
    have hl := h.link t (by omega)
    rw [ht] at hl
    have : tr.step a (t - tr.base a) = some t := by
      rw [step_some_iff h ha]
      exact ⟨by omega, ht⟩
    rw [hn] at this
    cases this

end basic_trie

/-! ## `relocate` -/

namespace basic_trie

theorem rename_congr {tr tr1 : basic_trie} (hc : tr1.check = tr.check) (q d a : Int) :
    rename tr1 q d a = rename tr q d a := by
  unfold rename
  rw [hc]

theorem live_congr {tr tr1 : basic_trie} (hc : tr1.check = tr.check) (a : Int) :
    tr1.live a ↔ tr.live a := by
  unfold live
  rw [hc]

theorem childless_congr {tr tr1 : basic_trie} (hc : tr1.check = tr.check) (a : Int) :
    tr1.childless a ↔ tr.childless a := by
  unfold childless
  rw [hc]

/-- The function `relocate` moves every child of `q` by the same distance to free cells and
gives `q` the new base; the standing state follows its cell. -/
theorem relocate_spec {tr : basic_trie} (h : tr.wf) {q stand : Int} (hq : tr.live q)
    (inputs : List Int) (e : extremum_type) (hcov : covers e inputs)
    (hsym : ∀ c ∈ inputs, 1 ≤ c) (hnd : inputs.Nodup)
    (hcomp : ∀ x, tr.check x = q → (x - tr.base q) ∈ inputs)
    (hocc : ¬ tr.childless q → ∀ c ∈ inputs, 0 < tr.check (tr.base q + c)) :
    ∃ tr' stand' moved d cur tr1, tr.relocate stand q inputs e = .ok (tr', stand', moved)
      ∧ tr1.wf ∧ tr1.base = tr.base ∧ tr1.check = tr.check ∧ tr.size ≤ tr1.size
      ∧ relocd tr1 cur q d
      ∧ tr' = cur.set_base q (tr.base q + d) ∧ 1 ≤ tr.base q + d
      ∧ stand' = rename tr q d stand
      ∧ (∀ c ∈ inputs, tr.check (tr.base q + c + d) = 0 ∧ tr.base q + c + d < tr1.size)
      ∧ moved = (inputs.filter (fun c => decide (tr.check (tr.base q + c) = q))).map
          (fun c => (tr.base q + c, tr.base q + d + c)) := by
  obtain ⟨tr1, nbase, hfb, hb1, hc1, hs1, hl0, hl1, hnb, hmax, hfree⟩ :=
    find_base_spec h inputs e hcov.1 hcov.2.1 (fun c hc => by have := hsym c hc; omega)
  have hwf1 : tr1.wf := wf_of_cells h hb1 hc1 hs1 hl0 hl1
  have hq1 : tr1.live q := (live_congr hc1 q).mpr hq
  have hfree' : ∀ c ∈ inputs, tr.check (tr.base q + c + (nbase - tr.base q)) = 0
      ∧ tr.base q + c + (nbase - tr.base q) < tr1.size := by
    intro c hc
    have e1 : tr.base q + c + (nbase - tr.base q) = nbase + c := by omega
    rw [e1]
    have := hfree c hc
    have := h.check_nonneg (nbase + c)
    have := hcov.2.2 c hc
    constructor <;> omega
  have P : reloc_pre tr1 q (tr.base q) (nbase - tr.base q) inputs := by
    refine ⟨hwf1, hq1, by rw [hb1], ?_, ?_, ?_, ?_⟩
    · intro c hc
      rw [hc1]
      exact (hfree' c hc).1
    · intro c hc
      have := hsym c hc
      omega
    · intro c hc
      exact (hfree' c hc).2
    · intro hch c hc
      rw [hc1]
      exact hocc (fun hh => hch ((childless_congr hc1 q).mpr hh)) c hc
  obtain ⟨cur, stand', moved, D', hloop, R, hD', hst1, hst2⟩ :=
    @relocate_loop_spec _ _ _ _ nbase _ P (by omega) inputs [] tr1 stand []
      (by simp) (fun x hx => hx) (by simp) hnd (reloc_nil tr1 q (tr.base q) _)
  have hDin : ∀ x ∈ D', x ∈ inputs := by
    intro x hx
    rcases (hD' x).mp hx with h1 | h1
    · simp at h1
    · exact h1.1
  have hcomp' : ∀ x, tr1.check x = q → (x - tr.base q) ∈ D' := by
    intro x hx
    rw [hD']
    right
    rw [hc1] at hx
    refine ⟨hcomp x hx, ?_⟩
    have e1 : tr.base q + (x - tr.base q) = x := by omega
    rw [e1, hc1]
    exact hx
  have Rd := relocd_of_reloc P hDin R hcomp'
  have hmv := @relocate_loop_moved _ _ _ _ nbase _ P (by omega) inputs [] tr1 stand []
      (by simp) (fun x hx => hx) (by simp) hnd (reloc_nil tr1 q (tr.base q) _)
  rw [hloop] at hmv
  simp only [List.nil_append] at hmv
  refine ⟨cur.set_base q nbase, stand', moved, nbase - tr.base q, cur, tr1, ?_, hwf1, hb1, hc1,
    hs1, Rd, ?_, by omega, ?_, hfree', ?_⟩
  · unfold relocate
    rw [hfb]
    simp only []
    rw [hloop]
  · have e1 : tr.base q + (nbase - tr.base q) = nbase := by omega
    rw [e1]
  · unfold rename
    by_cases m : tr.check stand = q
    · rw [if_pos m]
      apply hst1
      refine ⟨by rw [hc1]; exact m, hcomp stand m⟩
    · rw [if_neg m]
      apply hst2
      rintro ⟨m', _⟩
      rw [hc1] at m'
      exact m m'
  · rw [hmv, hc1]
    have e1 : tr.base q + (nbase - tr.base q) = nbase := by omega
    rw [e1]

end basic_trie

/-! ## `create_transition` -/

namespace basic_trie

theorem sim_of_cells {tr tr1 trF : basic_trie} {s : Int} {ρ : Int → Int} (h : tr.wf)
    (h1 : tr1.wf) (hb : tr1.base = tr.base) (hc : tr1.check = tr.check)
    (S : sim tr1 trF s ρ) : sim tr trF s ρ := by
  refine ⟨S.wfF, S.root, ?_, ?_, ?_, ?_, ?_⟩
  · intro a ha
    exact S.live' a ((live_congr hc a).mpr ha)
  · intro a b ha hb'
    exact S.inj a b ((live_congr hc a).mpr ha) ((live_congr hc b).mpr hb')
  · intro a x b ha hst
    rw [← step_of_cells h h1 hb hc] at hst
    exact S.fwd a x b ((live_congr hc a).mpr ha) hst
  · intro a x b' ha hst
    obtain ⟨b, h1', h2⟩ := S.bwd a x b' ((live_congr hc a).mpr ha) hst
    rw [step_of_cells h h1 hb hc] at h1'
    exact ⟨b, h1', h2⟩
  · intro a ha hch has
    rw [S.base_leaf a ((live_congr hc a).mpr ha) ((childless_congr hc a).mpr hch) has, hb]

theorem sim_id {tr : basic_trie} (h : tr.wf) (s : Int) : sim tr tr s id := by
  refine ⟨h, rfl, fun a ha => ha, fun a b _ _ hab => hab, fun a x b _ hst => hst, ?_,
    fun a _ _ _ => rfl⟩
  intro a x b' _ hst
  exact ⟨b', hst, rfl⟩

/-- The state after `relocate` simulates the state before it. -/
theorem sim_of_relocd {tr0 cur : basic_trie} {q d s : Int} (h0 : tr0.wf) (hq : tr0.live q)
    (R : relocd tr0 cur q d) (hnb : 1 ≤ tr0.base q + d)
    (hqs : q = s ∨ ¬ tr0.childless q) :
    sim tr0 (cur.set_base q (tr0.base q + d)) s (rename tr0 q d) := by
  refine ⟨relocd_wf h0 hq R hnb, rename_root h0 hq, ?_, ?_, ?_, ?_, ?_⟩
  · intro a ha
    exact rename_live h0 hq R _ ha
  · intro a b ha hb hab
    exact rename_inj R ha hb hab
  · intro a x b ha hst
    exact relocd_fwd h0 hq R hnb ha hst
  · intro a x b' ha hst
    exact relocd_bwd h0 hq R hnb ha hst
  · intro a ha hch has
    apply relocd_base h0 R _ ha
    rcases hqs with h1 | h1
    · rw [h1]; exact has
    · intro haq
      rw [haq] at hch
      exact h1 hch

/-- The last statement of `create_transition`: the edge is written into a
trie that simulates the original one. -/
theorem ct_finish {tr trF trF2 : basic_trie} {s c t : Int} {ρ : Int → Int}
    (h : tr.wf) (S : sim tr trF s ρ) (hs : tr.live s) (hb : 0 < trF.base (ρ s))
    (ht : t = trF.base (ρ s) + c) (hc1 : 1 ≤ c) (hc2 : c ≤ 257)
    (hE : (tr.step s c = none ∧ trF.check t = 0 ∧ trF.base t = 0)
      ∨ (∃ t0, tr.step s c = some t0 ∧ t = ρ t0))
    (hself : tr.childless s → ρ s = s)
    (hb2 : trF2.base = trF.base) (hc2' : trF2.check = trF.check) (hwf2 : trF2.wf)
    (hsz : t < trF2.size) :
    ct_sim tr (trF2.set_check t (ρ s)) s c t ρ := by
  have hs' : trF2.live (ρ s) := (live_congr hc2' _).mpr (S.live' s hs)
  have hb' : 0 < trF2.base (ρ s) := by rw [hb2]; exact hb
  have ht' : t = trF2.base (ρ s) + c := by rw [hb2]; exact ht
  have hfree : trF2.check t = 0 ∨ trF2.check t = ρ s := by
    rw [hc2']
    rcases hE with h1 | ⟨t0, h1, h2⟩
    · left; exact h1.2.1
    · right
      have := S.fwd s c t0 hs h1
      rw [step_some_iff S.wfF (live_pos S.wfF (S.live' s hs))] at this
      rw [h2]
      exact this.2
  have hwf' := wf_add_edge hwf2 hs' hb' ht' hc1 hc2 hsz hfree
  obtain ⟨e1, e2, e3⟩ := step_add_edge hwf2 hs' hb' ht' hc1 hc2 hsz hfree
  have hlive : ∀ p, trF2.live p → (trF2.set_check t (ρ s)).live p := by
    intro p hp
    rcases hp with h1 | h1
    · left; exact h1
    · right
      simp only [set_check_check]
      have := live_pos hwf2 hs'
      split_ifs <;> omega
  refine ⟨hwf', S.root, ?_, S.inj, ?_, ?_, e1, ?_, ?_, hself⟩
  · intro a ha
    exact hlive _ ((live_congr hc2' _).mpr (S.live' a ha))
  · intro a x b ha hst
    apply e2
    rw [step_of_cells S.wfF hwf2 hb2 hc2']
    exact S.fwd a x b ha hst
  · intro a x b' ha hst
    rcases e3 _ _ _ hst with h1 | ⟨h1, h2, h3, h4⟩
    · rw [step_of_cells S.wfF hwf2 hb2 hc2'] at h1
      left
      exact S.bwd a x b' ha h1
    · right
      have has : a = s := S.inj a s ha hs h1
      refine ⟨has, h2, h3, ?_⟩
      rcases hE with h5 | ⟨t0, h5, h6⟩
      · exact h5.1
      · exfalso
        have := S.fwd s c t0 hs h5
        rw [step_some_iff S.wfF (live_pos S.wfF (S.live' s hs))] at this
        rw [hc2', h6, this.2] at h4
        have := live_pos S.wfF (S.live' s hs)
        omega
  · intro hn
    rcases hE with h1 | ⟨t0, h1, _⟩
    · have ht2 : 2 ≤ t := by omega
      constructor
      · simp only [set_check_base]
        rw [hb2]
        exact h1.2.2
      · intro y
        simp only [set_check_check]
        by_cases e : y = t
        · rw [if_pos e]
          intro hh
          rw [hh] at hs'
          have h0 : trF2.check t = 0 := by rw [hc2']; exact h1.2.1
          exact not_live_of_free h0 ht2 hs'
        · rw [if_neg e]
          have h0 : trF2.check t = 0 := by rw [hc2']; exact h1.2.1
          exact check_ne_of_free hwf2 h0 ht2 y
    · rw [hn] at h1
      cases h1
  · intro a ha hch has
    simp only [set_check_base]
    rw [hb2]
    exact S.base_leaf a ha hch has

end basic_trie

namespace basic_trie

theorem find_exist_target_nodup (tr : basic_trie) (a : Int) :
    (tr.find_exist_target a).1.Nodup := by
  unfold find_exist_target
  apply List.Nodup.filter
  unfold key_type.symbols
  apply List.Nodup.map _ (List.nodup_range 257)
  intro x y hxy
  simp only at hxy
  omega

/-- The guarded resize of `create_transition` (lines 210-211 and 234-235). -/
theorem resize_if_facts {tr : basic_trie} (h : tr.wf) {t : Int} (ht : 0 ≤ t) :
    (if t ≥ tr.size then tr.resize_state (t - tr.size + 1) else tr).base = tr.base
    ∧ (if t ≥ tr.size then tr.resize_state (t - tr.size + 1) else tr).check = tr.check
    ∧ (if t ≥ tr.size then tr.resize_state (t - tr.size + 1) else tr).wf
    ∧ t < (if t ≥ tr.size then tr.resize_state (t - tr.size + 1) else tr).size := by
  have := h.size_ge
  refine ⟨?_, ?_, ?_, ?_⟩
  · split_ifs <;> rfl
  · split_ifs <;> rfl
  · split_ifs with hge
    · exact wf_resize h (by omega)
    · exact h
  · split_ifs with hge
    · simp only [resize_state_size]; omega
    · omega

/-- The cells `relocate` moves are those of the renaming of the children of
`q`. -/
theorem moved_rel_of_relocate {tr tra : basic_trie} (hca : tra.check = tr.check)
    (hba : tra.base = tr.base) {q d : Int} (hq : 0 < q) {inputs : List Int}
    (hnd : inputs.Nodup) (hcomp : ∀ x, tra.check x = q → (x - tra.base q) ∈ inputs)
    (hfree : ∀ c ∈ inputs, tra.check (tra.base q + c + d) = 0)
    (hge : ∀ x, tra.check x = q → 2 ≤ x + d) {moved : List (Int × Int)}
    (hmv : moved = (inputs.filter (fun c => decide (tra.check (tra.base q + c) = q))).map
      (fun c => (tra.base q + c, tra.base q + d + c))) :
    moved_rel tr (rename tr q d) moved := by
  have hmem : ∀ o n, (o, n) ∈ moved ↔ ∃ c ∈ inputs, tra.check (tra.base q + c) = q
      ∧ o = tra.base q + c ∧ n = tra.base q + d + c := by
    intro o n
    rw [hmv]
    simp only [List.mem_map, List.mem_filter, decide_eq_true_eq, Prod.mk.injEq]
    constructor
    · rintro ⟨c, ⟨h1, h2⟩, h3, h4⟩
      exact ⟨c, h1, h2, h3.symm, h4.symm⟩
    · rintro ⟨c, h1, h2, h3, h4⟩
      exact ⟨c, ⟨h1, h2⟩, h3.symm, h4.symm⟩
  refine ⟨?_, ?_, ?_⟩
  · rw [hmv, List.map_map]
    apply List.Nodup.map_on _ (hnd.filter _)
    intro x _ y _ hxy
    simp only [Function.comp] at hxy
    omega
  · intro o n hon
    obtain ⟨c, hc, h2, h3, h4⟩ := (hmem o n).mp hon
    have hco : tr.check o = q := by rw [← hca, h3]; exact h2
    refine ⟨by rw [hco]; exact hq, ?_, ?_, ?_⟩
    · have := hfree c hc
      rw [← hca, h4]
      have e : tra.base q + d + c = tra.base q + c + d := by omega
      rw [e]
      exact this
    · have := hge (tra.base q + c) h2
      omega
    · unfold rename
      rw [if_pos hco]
      omega
  · intro x _ hne
    unfold rename at hne ⊢
    by_cases hx : tr.check x = q
    · rw [if_pos hx]
      rw [hmem]
      have hx' : tra.check x = q := by rw [hca]; exact hx
      refine ⟨x - tra.base q, hcomp x hx', ?_, by omega, by omega⟩
      have e : tra.base q + (x - tra.base q) = x := by omega
      rw [e]
      exact hx'
    · rw [if_neg hx] at hne
      exact absurd rfl hne

/-- The function `create_transition(s, c)` on a well-formed trie, from a live state `s` with a
non-negative base and a symbol of the alphabet: the call returns, and the new
trie is the old one with the edge added, up to a renaming of the states. -/
theorem create_transition_moved {tr : basic_trie} (h : tr.wf) {s c : Int} (hs : tr.live s)
    (hb : 0 ≤ tr.base s) (hc1 : 1 ≤ c) (hc2 : c ≤ 257) :
    ∃ tr' t moved ρ, tr.create_transition s c = .ok (tr', t, moved)
      ∧ ct_sim tr tr' s c t ρ ∧ moved_rel tr ρ moved := by
  have hs1 := live_pos h hs
  have hsz := h.size_ge
  have ht0 : 0 ≤ tr.next s c := by simp only [next]; omega
  obtain ⟨hba, hca, hwfa, hlta⟩ := resize_if_facts h ht0
  unfold create_transition
  simp only []
  generalize (if tr.next s c ≥ tr.size then tr.resize_state (tr.next s c - tr.size + 1)
    else tr) = tra at hba hca hwfa hlta ⊢
  have hsa : tra.live s := (live_congr hca s).mpr hs
  simp only [next] at hlta ⊢
  rw [hba]
  generalize ht0' : tr.base s + c = t0 at hlta ⊢
  have hmem := fun c' => mem_find_exist_target hwfa (a := s) (c := c') (by omega)
  by_cases hbr : tr.base s > 0 ∧ tra.check t0 ≤ 0
  · -- the cell is free
    rw [if_pos hbr]
    refine ⟨_, _, _, id, rfl, ?_, ⟨by simp, by intro o n hon; simp at hon,
      by intro x _ hx; exact absurd rfl hx⟩⟩
    have h0 : tra.check t0 = 0 := by
      have := hwfa.check_nonneg t0
      omega
    have S : sim tr tra s id := sim_of_cells h hwfa hba hca (sim_id hwfa s)
    apply ct_finish h S hs (by simp only [id]; rw [hba]; omega)
      (by simp only [id]; rw [hba]; omega) hc1 hc2 _ (fun _ => rfl) rfl rfl hwfa hlta
    left
    refine ⟨?_, h0, ?_⟩
    · rw [step_eq_none]
      rintro ⟨_, _, _, h4⟩
      rw [ht0', ← hca, h0] at h4
      omega
    · exact hwfa.free_base t0 (by omega) h0
  · rw [if_neg hbr]
    by_cases hB : (if tra.check t0 ≠ 0 then tra.find_exist_target (tra.check t0)
          else ([], { max := 0, min := 0 })).1.length > 0
        ∧ (tra.find_exist_target s).1.length + 1
          > (if tra.check t0 ≠ 0 then tra.find_exist_target (tra.check t0)
            else ([], { max := 0, min := 0 })).1.length
    · -- the children of the parent of the occupied cell are moved
      rw [if_pos hB]
      have hq0 : tra.check t0 ≠ 0 := by
        intro hq
        rw [if_neg (not_not.mpr hq)] at hB
        simp at hB
      rw [if_pos hq0] at hB ⊢
      generalize hq : tra.check t0 = q at hB hq0 ⊢
      have hqpos : 0 < q := by
        have := hwfa.check_nonneg t0
        omega
      have hlk := hwfa.link t0 (by omega)
      rw [hq] at hlk
      have hqlive : tra.live q := hlk.2.2.2
      have hmemq := fun c' => mem_find_exist_target hwfa (a := q) (c := c') hqpos
      obtain ⟨tr', stand', moved, d, cur, tr1, hrel, hwf1, hb1, hc1', hs1', R, htr', hnb, hst,
          hfree, hmv⟩ :=
        @relocate_spec _ hwfa q s hqlive (tra.find_exist_target q).1
          (tra.find_exist_target q).2 (covers_find_exist_target tra q)
          (fun c' hc' => ((hmemq c').mp hc').1.1) (find_exist_target_nodup tra q)
          (fun x hx => find_exist_target_complete hwfa hqpos hx)
          (fun _ c' hc' => by rw [((hmemq c').mp hc').2]; exact hqpos)
      rw [hrel]
      simp only []
      have hb1t : tr1.base = tr.base := by rw [hb1, hba]
      have hc1t : tr1.check = tr.check := by rw [hc1', hca]
      have hq1 : tr1.live q := (live_congr hc1' q).mpr hqlive
      have hren : rename tr1 q d = rename tr q d := funext (rename_congr hc1t q d)
      have hnb1 : 1 ≤ tr1.base q + d := by rw [hb1]; exact hnb
      have hchild : ¬ tr1.childless q := by
        intro hch
        exact hch t0 (by rw [hc1']; exact hq)
      have S1 := sim_of_relocd (s := s) hwf1 hq1 R hnb1 (Or.inr hchild)
      rw [hb1, ← htr', hren] at S1
      have S : sim tr tr' s (rename tr q d) := sim_of_cells h hwf1 hb1t hc1t S1
      have hren2 : rename tra q d = rename tr q d := funext (rename_congr hca q d)
      rw [hren2] at hst
      -- s has a child
      have hnt : (tra.find_exist_target s).1 ≠ [] := by
        intro hnil
        rw [hnil] at hB
        simp only [List.length_nil] at hB
        omega
      obtain ⟨c0, hc0⟩ := List.exists_mem_of_ne_nil _ hnt
      have hc0' := (hmem c0).mp hc0
      have hbpos : 0 < tr.base s := by
        have := (hwfa.link _ (by rw [hc0'.2]; omega)).1
        rw [hc0'.2, hba] at this
        exact this
      have hnotcl : ¬ tr.childless s := by
        intro hch
        exact hch _ (by rw [← hca]; exact hc0'.2)
      have hlt' : 0 ≤ tr'.next stand' c := by
        rw [hst]
        have := live_pos S.wfF (S.live' s hs)
        simp only [next]
        by_cases hqs : q = s
        · subst hqs
          rw [rename_self h hs, htr']
          simp only [set_base_base, eq_self_iff_true, if_true]
          omega
        · have := S1.base_leaf
          have hbs : tr'.base (rename tr q d s) = tr.base s := by
            rw [htr', ← hren, ← hb1t]
            exact relocd_base hwf1 R _ ((live_congr hc1t s).mpr hs) (fun e => hqs e.symm)
          rw [hbs]
          omega
      obtain ⟨hb2, hc2', hwf2, hsz2⟩ := resize_if_facts S.wfF hlt'
      have hmoved : moved_rel tr (rename tr q d) moved :=
        moved_rel_of_relocate hca hba hqpos (find_exist_target_nodup tra q)
          (fun x hx => find_exist_target_complete hwfa hqpos hx)
          (fun c' hc' => (hfree c' hc').1)
          (fun x hx => (R.child x (by rw [hc1']; exact hx)).2.2.2.2.2.1) hmv
      refine ⟨_, _, _, rename tr q d, rfl, ?_, hmoved⟩
      rw [hst] at hb2 hc2' hwf2 hsz2 ⊢
      by_cases hqs : q = s
      · -- the edge exists already
        subst hqs
        have hstep : tr.step q c = some t0 := by
          rw [step_some_iff h (by omega)]
          exact ⟨ht0'.symm, by rw [← hca]; exact hq⟩
        have hbq : tr'.base (rename tr q d q) = tr.base q + d := by
          rw [rename_self h hs, htr']
          simp only [set_base_base, eq_self_iff_true, if_true]
          rw [hba]
        apply ct_finish h S hs (by rw [hbq]; rw [hba] at hnb; exact hnb) rfl hc1 hc2 _
          (fun hch => absurd hch hnotcl) hb2 hc2' hwf2 hsz2
        right
        refine ⟨t0, hstep, ?_⟩
        rw [hbq]
        unfold rename
        rw [← hca, hq, if_pos rfl]
        omega
      · have hbs : tr'.base (rename tr q d s) = tr.base s := by
          rw [htr', ← hren, ← hb1t]
          exact relocd_base hwf1 R _ ((live_congr hc1t s).mpr hs) (fun e => hqs e.symm)
        apply ct_finish h S hs (by rw [hbs]; exact hbpos) rfl hc1 hc2 _
          (fun hch => absurd hch hnotcl) hb2 hc2' hwf2 hsz2
        left
        rw [hbs, ht0']
        have ht02 : 2 ≤ t0 := (hwfa.check_range t0 (by omega)).1
        have hfr := relocd_free hwf1 hq1 R (tra.base q + d) ht02
          (Or.inr (by rw [hc1']; exact hq))
        rw [← htr'] at hfr
        refine ⟨?_, hfr.1, hfr.2⟩
        rw [step_eq_none]
        rintro ⟨_, _, _, h4⟩
        rw [ht0', ← hca, hq] at h4
        exact hqs h4
    · -- the children of s are moved
      rw [if_neg hB]
      have hcnot : c ∉ (tra.find_exist_target s).1 := by
        intro hcm
        have hcs := ((hmem c).mp hcm).2
        rw [hba, ht0'] at hcs
        apply hB
        have hq0 : tra.check t0 ≠ 0 := by omega
        rw [if_pos hq0, hcs]
        have : 0 < (tra.find_exist_target s).1.length := List.length_pos_of_mem hcm
        constructor <;> omega
      have hcs : tra.check t0 ≠ s := by
        intro hcs
        apply hcnot
        rw [hmem]
        refine ⟨⟨hc1, hc2⟩, ?_⟩
        rw [hba, ht0']
        exact hcs
      have hnd_in : ((tra.find_exist_target s).1 ++ [c]).Nodup := by
        apply List.Nodup.append (find_exist_target_nodup tra s) (List.nodup_singleton c)
        intro x hx1 hx2
        simp only [List.mem_singleton] at hx2
        rw [hx2] at hx1
        exact hcnot hx1
      obtain ⟨tr', stand', moved, d, cur, tr1, hrel, hwf1, hb1, hc1', hs1', R, htr', hnb, hst,
          hfree, hmv⟩ :=
        @relocate_spec _ hwfa s s hsa ((tra.find_exist_target s).1 ++ [c])
          ((tra.find_exist_target s).2.add c)
          (covers_add (covers_find_exist_target tra s) hc1)
          (by
            intro c' hc'
            rcases List.mem_append.mp hc' with h1 | h1
            · exact ((hmem c').mp h1).1.1
            · simp only [List.mem_singleton] at h1
              omega)
          hnd_in
          (fun x hx => List.mem_append_left _ (find_exist_target_complete hwfa (by omega) hx))
          (by
            intro hch c' hc'
            rcases List.mem_append.mp hc' with h1 | h1
            · rw [((hmem c').mp h1).2]; omega
            · simp only [List.mem_singleton] at h1
              rw [h1, hba, ht0']
              have hbpos : 0 < tr.base s := by
                by_contra hnp
                apply hch
                apply childless_of_base_nonpos hwfa (by omega)
                rw [hba]
                omega
              have := hwfa.check_nonneg t0
              by_contra hnp
              apply hbr
              exact ⟨hbpos, by omega⟩)
      rw [hrel]
      simp only []
      have hb1t : tr1.base = tr.base := by rw [hb1, hba]
      have hc1t : tr1.check = tr.check := by rw [hc1', hca]
      have hq1 : tr1.live s := (live_congr hc1' s).mpr hsa
      have hren : rename tr1 s d = rename tr s d := funext (rename_congr hc1t s d)
      have hnb1 : 1 ≤ tr1.base s + d := by rw [hb1]; exact hnb
      have S1 := sim_of_relocd (s := s) hwf1 hq1 R hnb1 (Or.inl rfl)
      rw [hb1, ← htr', hren] at S1
      have S : sim tr tr' s (rename tr s d) := sim_of_cells h hwf1 hb1t hc1t S1
      have hren2 : rename tra s d = rename tr s d := funext (rename_congr hca s d)
      rw [hren2, rename_self h hs] at hst
      have hbq : tr'.base s = tr.base s + d := by
        rw [htr']
        simp only [set_base_base, eq_self_iff_true, if_true]
        rw [hba]
      have hlt' : 0 ≤ tr'.next stand' c := by
        rw [hst]
        simp only [next]
        rw [hbq]
        rw [hba] at hnb
        omega
      obtain ⟨hb2, hc2', hwf2, hsz2⟩ := resize_if_facts S.wfF hlt'
      have hmoved : moved_rel tr (rename tr s d) moved :=
        moved_rel_of_relocate hca hba (by omega) hnd_in
          (fun x hx => List.mem_append_left _ (find_exist_target_complete hwfa (by omega) hx))
          (fun c' hc' => (hfree c' hc').1)
          (fun x hx => (R.child x (by rw [hc1']; exact hx)).2.2.2.2.2.1) hmv
      refine ⟨_, _, _, rename tr s d, rfl, ?_, hmoved⟩
      rw [hst] at hb2 hc2' hwf2 hsz2 ⊢
      have hrs : rename tr s d s = s := rename_self h hs
      have key := ct_finish (t := tr'.next s c) h S hs (by rw [hrs, hbq]; rw [hba] at hnb; exact hnb)
        (by rw [hrs]; rfl) hc1 hc2 (by
          left
          simp only [next]
          rw [hbq]
          have hf := hfree c (List.mem_append_right _ (List.mem_singleton.mpr rfl))
          rw [hba] at hf hnb
          have hfr := relocd_free hwf1 hq1 R (tra.base s + d) (y := tr.base s + d + c)
            (by omega)
            (Or.inl ⟨by rw [hc1', ← hf.1]; congr 1; omega, by
              have e : tr.base s + d + c - d = t0 := by omega
              rw [e, hc1']
              exact hcs⟩)
          rw [← htr'] at hfr
          refine ⟨?_, hfr.1, hfr.2⟩
          rw [step_eq_none]
          rintro ⟨_, _, _, h4⟩
          rw [ht0', ← hca] at h4
          exact hcs h4)
        (fun _ => hrs) hb2 hc2' hwf2 hsz2
      rw [hrs] at key
      exact key

/-- The function `create_transition(s, c)` returns the trie with the edge
added, up to a renaming of the states. -/
theorem create_transition_spec {tr : basic_trie} (h : tr.wf) {s c : Int} (hs : tr.live s)
    (hb : 0 ≤ tr.base s) (hc1 : 1 ≤ c) (hc2 : c ≤ 257) :
    ∃ tr' t moved ρ, tr.create_transition s c = .ok (tr', t, moved)
      ∧ ct_sim tr tr' s c t ρ := by
  obtain ⟨tr', t, moved, ρ, h1, h2, _⟩ := create_transition_moved h hs hb hc1 hc2
  exact ⟨tr', t, moved, ρ, h1, h2⟩

end basic_trie

/-! ## Words -/

namespace basic_trie

@[simp] theorem walk_nil (tr : basic_trie) (a : Int) : tr.walk a [] = some a := rfl

theorem walk_cons (tr : basic_trie) (a x : Int) (w : List Int) :
    tr.walk a (x :: w) = (tr.step a x).bind (fun b => tr.walk b w) := by
  rw [walk]
  cases tr.step a x <;> rfl

theorem walk_append (tr : basic_trie) (a : Int) (w1 w2 : List Int) :
    tr.walk a (w1 ++ w2) = (tr.walk a w1).bind (fun b => tr.walk b w2) := by
  induction w1 generalizing a with
  | nil => simp
  | cons x w1 ih =>
    rw [List.cons_append, walk_cons, walk_cons]
    cases tr.step a x with
    | none => rfl
    | some b => simp [ih]

theorem walk_snoc {tr : basic_trie} {a u x : Int} {w : List Int} :
    tr.walk a (w ++ [x]) = some u ↔ ∃ b, tr.walk a w = some b ∧ tr.step b x = some u := by
  rw [walk_append]
  cases h : tr.walk a w with
  | none => simp
  | some b =>
    simp only [Option.some_bind, walk_cons, walk_nil, Option.some.injEq, exists_eq_left']
    cases tr.step b x <;> simp

theorem walk_live {tr : basic_trie} {a u : Int} {w : List Int} (ha : tr.live a)
    (hw : tr.walk a w = some u) : tr.live u := by
  induction w generalizing a with
  | nil =>
    simp only [walk_nil, Option.some.injEq] at hw
    rw [← hw]; exact ha
  | cons x w ih =>
    rw [walk_cons] at hw
    cases hs : tr.step a x with
    | none => rw [hs] at hw; cases hw
    | some b =>
      rw [hs] at hw
      exact ih (step_live hs) hw

theorem live_root (tr : basic_trie) : tr.live 1 := Or.inl rfl

/-- A word that has a beginning which is not a word of the trie is not a word. -/
theorem walk_none_of_prefix {tr : basic_trie} {a : Int} {w1 w2 : List Int}
    (h : tr.walk a w1 = none) : tr.walk a (w1 ++ w2) = none := by
  rw [walk_append, h]
  rfl

theorem walk_prefix {tr : basic_trie} {a u : Int} {w1 w2 : List Int}
    (h : tr.walk a (w1 ++ w2) = some u) : ∃ b, tr.walk a w1 = some b ∧ tr.walk b w2 = some u := by
  rw [walk_append] at h
  cases h1 : tr.walk a w1 with
  | none => rw [h1] at h; cases h
  | some b =>
    rw [h1] at h
    exact ⟨b, rfl, h⟩

/-- Below a childless state there is no word but the empty one. -/
theorem walk_childless {tr : basic_trie} {a u : Int} {w : List Int} (hc : tr.childless a)
    (hw : tr.walk a w = some u) : w = [] := by
  cases w with
  | nil => rfl
  | cons x w =>
    rw [walk_cons, childless_step hc] at hw
    cases hw

/-- Two words from the root that end in the same state are equal. -/
theorem walk_inj {tr : basic_trie} (h : tr.wf) :
    ∀ (w1 w2 : List Int) (u : Int), tr.walk 1 w1 = some u → tr.walk 1 w2 = some u → w1 = w2 := by
  have hroot : ∀ (w : List Int) (x : Int), tr.walk 1 (w ++ [x]) ≠ some 1 := by
    intro w x hw
    obtain ⟨b, _, hs⟩ := walk_snoc.mp hw
    rw [step_eq_some] at hs
    rw [check_one h] at hs
    omega
  intro w1
  induction w1 using List.reverseRecOn with
  | nil =>
    intro w2 u h1 h2
    simp only [walk_nil, Option.some.injEq] at h1
    rcases List.eq_nil_or_concat w2 with rfl | ⟨L, y, hL⟩
    · rfl
    · rw [List.concat_eq_append] at hL
      subst hL
      rw [← h1] at h2
      exact absurd h2 (hroot L y)
  | append_singleton w1 x ih =>
    intro w2 u h1 h2
    rcases List.eq_nil_or_concat w2 with rfl | ⟨L, y, hL⟩
    · simp only [walk_nil, Option.some.injEq] at h2
      rw [← h2] at h1
      exact absurd h1 (hroot w1 x)
    · rw [List.concat_eq_append] at hL
      subst hL
      obtain ⟨b, hb, hs⟩ := walk_snoc.mp h1
      obtain ⟨b', hb', hs'⟩ := walk_snoc.mp h2
      rw [step_eq_some] at hs hs'
      have hbb : b = b' := by omega
      subst hbb
      have hxy : x = y := by omega
      subst hxy
      rw [ih L b hb hb']

/-! ## Words across `create_transition` -/

theorem ct_walk_fwd {tr tr' : basic_trie} {s c t : Int} {ρ : Int → Int}
    (C : ct_sim tr tr' s c t ρ) {a u : Int} {w : List Int} (ha : tr.live a)
    (hw : tr.walk a w = some u) : tr'.walk (ρ a) w = some (ρ u) := by
  induction w generalizing a with
  | nil =>
    simp only [walk_nil, Option.some.injEq] at hw ⊢
    rw [hw]
  | cons x w ih =>
    rw [walk_cons] at hw ⊢
    cases hs : tr.step a x with
    | none => rw [hs] at hw; cases hw
    | some b =>
      rw [hs] at hw
      rw [C.fwd a x b ha hs]
      exact ih (step_live hs) hw

theorem ct_walk_bwd {tr tr' : basic_trie} {s c t : Int} {ρ : Int → Int}
    (C : ct_sim tr tr' s c t ρ) (hnew : tr.step s c = none) {a u' : Int} {w : List Int}
    (ha : tr.live a) (hw : tr'.walk (ρ a) w = some u') :
    (∃ u, tr.walk a w = some u ∧ u' = ρ u)
      ∨ (∃ pre, w = pre ++ [c] ∧ tr.walk a pre = some s ∧ u' = t) := by
  induction w generalizing a with
  | nil =>
    simp only [walk_nil, Option.some.injEq] at hw
    left
    exact ⟨a, rfl, hw.symm⟩
  | cons x w ih =>
    rw [walk_cons] at hw
    cases hs : tr'.step (ρ a) x with
    | none => rw [hs] at hw; cases hw
    | some b' =>
      rw [hs] at hw
      simp only [Option.some_bind] at hw
      rcases C.bwd a x b' ha hs with ⟨b, hb, hbb⟩ | ⟨has, hxc, hbt, _⟩
      · rw [hbb] at hw
        rcases ih (step_live hb) hw with ⟨u, hu, huu⟩ | ⟨pre, hpre, hwp, hut⟩
        · left
          refine ⟨u, ?_, huu⟩
          rw [walk_cons, hb]
          exact hu
        · right
          refine ⟨x :: pre, by rw [hpre]; rfl, ?_, hut⟩
          rw [walk_cons, hb]
          exact hwp
      · right
        rw [hbt] at hw
        have hw0 := walk_childless (C.fresh hnew).2 hw
        subst hw0
        simp only [walk_nil, Option.some.injEq] at hw
        exact ⟨[], by rw [hxc]; rfl, by rw [has]; rfl, hw.symm⟩

/-- One new edge below the end `s` of the word `pre` grows the trie by the
path `[c]`. -/
theorem grown_of_ct {tr tr' : basic_trie} {s c t : Int} {ρ : Int → Int} (h : tr.wf)
    (C : ct_sim tr tr' s c t ρ) (hnew : tr.step s c = none) {pre : List Int}
    (hpre : tr.walk 1 pre = some s) : grown tr tr' pre [c] t := by
  have hsl : tr.live s := walk_live (live_root tr) hpre
  refine ⟨C.wf', ?_, ?_, ?_, ?_, ⟨(C.fresh hnew).2, (C.fresh hnew).1⟩⟩
  · intro q' hq' hpq
    have : q' = [c] := by
      rcases List.prefix_cons_iff.mp hpq with h1 | ⟨l, h1, h2⟩
      · exact absurd h1 hq'
      · rw [h1, List.prefix_nil.mp h2]
    rw [this, walk_append, hpre]
    simp only [Option.some_bind, walk_cons, hnew]
    rfl
  · intro w u hw
    have hul : tr.live u := walk_live (live_root tr) hw
    have := ct_walk_fwd C (live_root tr) hw
    rw [C.root] at this
    refine ⟨ρ u, this, ?_⟩
    intro hch hwp
    have hus : u ≠ s := by
      intro hus
      rw [hus] at hw
      exact hwp (walk_inj h w pre s hw hpre)
    refine ⟨C.base_leaf u hul hch hus, ?_⟩
    have hpos := live_pos C.wf' (C.live' u hul)
    rw [childless_iff_step C.wf' (by omega)]
    intro x
    cases hst : tr'.step (ρ u) x with
    | none => rfl
    | some b' =>
      rcases C.bwd u x b' hul hst with ⟨b, hb, _⟩ | ⟨h1, _⟩
      · rw [childless_step hch] at hb
        cases hb
      · exact absurd h1 hus
  · rw [walk_append]
    have := ct_walk_fwd C (live_root tr) hpre
    rw [C.root] at this
    rw [this]
    simp only [Option.some_bind, walk_cons, C.edge, walk_nil]
  · intro w u' hw
    have hw' : tr'.walk (ρ 1) w = some u' := by rw [C.root]; exact hw
    rcases ct_walk_bwd C hnew (live_root tr) hw' with ⟨u, hu, _⟩ | ⟨p, hp, hwp, _⟩
    · left; exact ⟨u, hu⟩
    · right
      refine ⟨[c], by simp, List.prefix_refl _, ?_⟩
      rw [hp, walk_inj h p pre s hwp hpre]

/-- The start of the new edge keeps its cell when it had no child. -/
theorem ct_start {tr tr' : basic_trie} {s c t : Int} {ρ : Int → Int}
    (C : ct_sim tr tr' s c t ρ) {pre : List Int} (hpre : tr.walk 1 pre = some s)
    (hch : tr.childless s) : tr'.walk 1 pre = some s ∧ tr'.step s c = some t := by
  have := ct_walk_fwd C (live_root tr) hpre
  rw [C.root, C.self hch] at this
  refine ⟨this, ?_⟩
  have := C.edge
  rw [C.self hch] at this
  exact this

end basic_trie

namespace basic_trie

/-- Growing by a path and then by a second path below its end is growing by
the two paths in a row. -/
theorem grown_trans {tr tr1 tr2 : basic_trie} {pre q1 q2 : List Int} {t1 t2 : Int}
    (G1 : grown tr tr1 pre q1 t1) (G2 : grown tr1 tr2 (pre ++ q1) q2 t2) (hq1 : q1 ≠ []) :
    grown tr tr2 pre (q1 ++ q2) t2 := by
  have habs1 : tr.walk 1 (pre ++ q1) = none := G1.absent q1 hq1 (List.prefix_refl _)
  refine ⟨G2.wf', ?_, ?_, ?_, ?_, G2.leaf⟩
  · intro q' hq' hpq
    rcases List.prefix_or_prefix_of_prefix hpq (List.prefix_append q1 q2) with h1 | ⟨r, hr⟩
    · exact G1.absent q' hq' h1
    · rw [← hr, ← List.append_assoc]
      exact walk_none_of_prefix habs1
  · intro w u hw
    obtain ⟨u1, hu1, hp1⟩ := G1.old w u hw
    obtain ⟨u2, hu2, hp2⟩ := G2.old w u1 hu1
    refine ⟨u2, hu2, ?_⟩
    intro hch hwp
    obtain ⟨hb1, hc1⟩ := hp1 hch hwp
    have hne : w ≠ pre ++ q1 := by
      intro e
      rw [e, habs1] at hw
      cases hw
    obtain ⟨hb2, hc2⟩ := hp2 hc1 hne
    exact ⟨by rw [hb2, hb1], hc2⟩
  · have := G2.path
    rw [List.append_assoc] at this
    exact this
  · intro w u' hw
    rcases G2.only w u' hw with ⟨u1, hu1⟩ | ⟨q', hq', hpq, hwq⟩
    · rcases G1.only w u1 hu1 with ⟨u, hu⟩ | ⟨q', hq', hpq, hwq⟩
      · left; exact ⟨u, hu⟩
      · right
        exact ⟨q', hq', hpq.trans (List.prefix_append q1 q2), hwq⟩
    · right
      refine ⟨q1 ++ q', ?_, ?_, ?_⟩
      · intro e
        exact hq1 (List.append_eq_nil.mp e).1
      · exact (List.prefix_append_right_inj q1).mpr hpq
      · rw [hwq, List.append_assoc]

/-- Writing the base of a live childless state changes no edge. -/
theorem set_base_leaf {tr : basic_trie} (h : tr.wf) {u : Int} (hu : tr.live u)
    (hch : tr.childless u) (v : Int) :
    (tr.set_base u v).wf ∧ (∀ a x, (tr.set_base u v).step a x = tr.step a x) := by
  have hu1 := live_pos h hu
  have hwf : (tr.set_base u v).wf := by
    refine ⟨h.size_ge, h.last_base_ge, h.last_base_lt, h.check_range, h.check_nonneg, ?_, ?_,
      h.no_self⟩
    · intro t ht
      simp only [set_base_check, set_base_base] at ht ⊢
      have hl := h.link t ht
      have hne : tr.check t ≠ u := hch t
      rw [if_neg hne]
      exact hl
    · intro t ht1 ht
      simp only [set_base_check, set_base_base] at ht ⊢
      have hne : t ≠ u := by
        intro e
        rw [e] at ht
        rcases hu with h1 | h1 <;> omega
      rw [if_neg hne]
      exact h.free_base t ht1 ht
  refine ⟨hwf, ?_⟩
  intro a x
  by_cases ha : a = u
  · subst ha
    rw [childless_step hch]
    exact @childless_step (tr.set_base a v) a hch x
  · by_cases hpos : 0 < a
    · cases hs : tr.step a x with
      | none =>
        cases hs' : (tr.set_base u v).step a x with
        | none => rfl
        | some b =>
          rw [step_some_iff hwf hpos] at hs'
          simp only [set_base_base, set_base_check, if_neg ha] at hs'
          rw [← step_some_iff h hpos, hs] at hs'
          cases hs'
      | some b =>
        rw [step_some_iff h hpos] at hs
        rw [step_some_iff hwf hpos]
        simp only [set_base_base, set_base_check, if_neg ha]
        exact hs
    · have e1 : tr.step a x = none := by
        rw [step_eq_none]; rintro ⟨h1, _⟩; exact hpos h1
      have e2 : (tr.set_base u v).step a x = none := by
        rw [step_eq_none]; rintro ⟨h1, _⟩; exact hpos h1
      rw [e1, e2]

theorem walk_congr {tr tr' : basic_trie} (hs : ∀ a x, tr'.step a x = tr.step a x) (a : Int)
    (w : List Int) : tr'.walk a w = tr.walk a w := by
  induction w generalizing a with
  | nil => rfl
  | cons x w ih =>
    rw [walk_cons, walk_cons, hs]
    cases tr.step a x with
    | none => rfl
    | some b => simp [ih]

/-! ## `go_forward` -/

/-- The function `go_forward` ends at the end of the longest beginning of the terminated key
that is a word of the trie. -/
theorem go_forward_spec (tr : basic_trie) (a : Int) (data : List Int) :
    (∀ s, tr.go_forward a data = (s, none) → tr.walk a (data ++ [key_type.kTerminator]) = some s)
    ∧ (∀ s p, tr.go_forward a data = (s, some p) →
        ∃ pre, data = pre ++ p ∧ tr.walk a pre = some s ∧ tr.step s (deref p) = none) := by
  induction data generalizing a with
  | nil =>
    constructor
    · intro s hs
      rw [go_forward] at hs
      simp only [List.nil_append]
      by_cases hc : tr.check_transition a (tr.next a key_type.kTerminator) = true
      · rw [if_pos hc] at hs
        simp only [Prod.mk.injEq, and_true] at hs
        rw [walk_cons]
        simp only [step, if_pos hc, Option.some_bind, walk_nil]
        rw [hs]
      · rw [if_neg hc] at hs
        simp at hs
    · intro s p hs
      rw [go_forward] at hs
      by_cases hc : tr.check_transition a (tr.next a key_type.kTerminator) = true
      · rw [if_pos hc] at hs
        simp at hs
      · rw [if_neg hc] at hs
        simp only [Prod.mk.injEq, Option.some.injEq] at hs
        obtain ⟨h1, h2⟩ := hs
        subst h1 h2
        refine ⟨[], rfl, rfl, ?_⟩
        simp only [step, deref, List.headD_nil, if_neg hc]
  | cons c data ih =>
    constructor
    · intro s hs
      rw [go_forward] at hs
      by_cases hc : tr.check_transition a (tr.next a c) = true
      · rw [if_pos hc] at hs
        rw [List.cons_append, walk_cons]
        simp only [step, if_pos hc, Option.some_bind]
        exact (ih _).1 s hs
      · rw [if_neg hc] at hs
        simp at hs
    · intro s p hs
      rw [go_forward] at hs
      by_cases hc : tr.check_transition a (tr.next a c) = true
      · rw [if_pos hc] at hs
        obtain ⟨pre, h1, h2, h3⟩ := (ih _).2 s p hs
        refine ⟨c :: pre, by rw [h1]; rfl, ?_, h3⟩
        rw [walk_cons]
        simp only [step, if_pos hc, Option.some_bind]
        exact h2
      · rw [if_neg hc] at hs
        simp only [Prod.mk.injEq, Option.some.injEq] at hs
        obtain ⟨h1, h2⟩ := hs
        subst h1 h2
        refine ⟨[], rfl, rfl, ?_⟩
        simp only [step, deref, List.headD_cons, if_neg hc]

end basic_trie

/-! ## Chains of `create_transition` -/

/-- A chain of `create_transition` calls along the symbols `q`, started at the
end `s` of the word `pre` on a symbol `s` has no edge for, grows the trie by
the path `q`. -/
theorem single_trie.common_transitions_spec :
    ∀ (q : List Int) (tr : basic_trie) (s : Int) (pre : List Int), q ≠ [] →
      (∀ c ∈ q, 1 ≤ c ∧ c ≤ 257) → tr.wf → tr.walk 1 pre = some s → 0 ≤ tr.base s →
      tr.step s (q.headD 0) = none →
      ∃ tr' t, single_trie.common_transitions q tr s = .ok (tr', t)
        ∧ basic_trie.grown tr tr' pre q t := by
  intro q
  induction q with
  | nil => intro _ _ _ h; exact absurd rfl h
  | cons c rest ih =>
    intro tr s pre _ hsym hwf hpre hb hnew
    simp only [List.headD_cons] at hnew
    have hsl : tr.live s := basic_trie.walk_live (basic_trie.live_root tr) hpre
    have hc := hsym c (List.mem_cons_self _ _)
    obtain ⟨tr1, t1, moved, ρ, hct, C⟩ :=
      basic_trie.create_transition_spec hwf hsl hb hc.1 hc.2
    have G1 := basic_trie.grown_of_ct hwf C hnew hpre
    rw [single_trie.common_transitions, hct]
    simp only []
    by_cases hrest : rest = []
    · subst hrest
      exact ⟨tr1, t1, rfl, G1⟩
    · obtain ⟨tr', t, hch, G2⟩ := ih tr1 t1 (pre ++ [c]) hrest
        (fun x hx => hsym x (List.mem_cons_of_mem _ hx)) G1.wf' G1.path
        (by rw [G1.leaf.2]) (basic_trie.childless_step G1.leaf.1 _)
      refine ⟨tr', t, hch, ?_⟩
      have := basic_trie.grown_trans G1 G2 (by simp)
      simpa using this

theorem basic_trie.insert_loop_eq (p : List Int) (tr : basic_trie) (s : Int) :
    basic_trie.insert_loop p tr s
      = single_trie.common_transitions (p ++ [key_type.kTerminator]) tr s := by
  induction p generalizing tr s with
  | nil =>
    simp only [basic_trie.insert_loop, List.nil_append, single_trie.common_transitions]
  | cons c p ih =>
    simp only [basic_trie.insert_loop, List.cons_append, single_trie.common_transitions]
    cases tr.create_transition s c with
    | error f => rfl
    | ok r => exact ih _ _

/-! ## Keys -/

theorem key_type.data_valid {key : key_type} (h : key.valid) : key.data = key := by
  unfold key_type.data
  rw [List.takeWhile_eq_self_iff]
  intro x hx
  have := h x hx
  simp only [key_type.kTerminator, ne_eq, decide_not, Bool.not_eq_true', decide_eq_false_iff_not]
  omega

theorem key_type.valid_assign (bytes : List (Fin 256)) : (key_type.assign bytes).valid := by
  intro x hx
  unfold key_type.assign at hx
  simp only [List.mem_map] at hx
  obtain ⟨b, _, rfl⟩ := hx
  unfold key_type.char_in
  have := b.isLt
  omega

theorem key_type.assign_inj {a b : List (Fin 256)}
    (h : key_type.assign a = key_type.assign b) : a = b := by
  unfold key_type.assign at h
  apply List.map_injective_iff.mpr _ h
  intro x y hxy
  unfold key_type.char_in at hxy
  apply Fin.ext
  omega

theorem key_type.terminator_not_mem {key : key_type} (h : key.valid) :
    key_type.kTerminator ∉ key := by
  intro hm
  have := h _ hm
  simp only [key_type.kTerminator] at this
  omega

/-- A terminated valid key that begins another terminated valid key is that key. -/
theorem key_type.eq_of_prefix {k k' : key_type} (hk' : k'.valid)
    (h : k ++ [key_type.kTerminator] <+: k' ++ [key_type.kTerminator]) : k = k' := by
  obtain ⟨r, hr⟩ := h
  have hnot := key_type.terminator_not_mem hk'
  -- the terminator of k is in k' ++ [1], hence it is the last symbol
  have hlen : k.length = k'.length := by
    by_contra hne
    have hlt : k.length < k'.length := by
      have h1 := congrArg List.length hr
      simp only [List.length_append, List.length_singleton] at h1
      omega
    have h2 := congrArg (fun l => l.get? k.length) hr
    simp only [List.get?_eq_getElem?] at h2
    rw [List.append_assoc, List.getElem?_append_right (le_refl _)] at h2
    simp only [Nat.sub_self, List.singleton_append, List.getElem?_cons_zero] at h2
    rw [List.getElem?_append_left hlt] at h2
    have := List.getElem?_mem h2.symm
    exact hnot this
  have h3 := congrArg (fun l => l.take k.length) hr
  simp only [List.append_assoc, List.take_left'] at h3
  rw [hlen, List.take_left'] at h3
  · exact h3
  · rfl

/-- A valid key that is a beginning of a terminated valid key, followed by its
own terminator: either the same key or a proper beginning. -/
theorem key_type.not_prefix_of_mem {k' : key_type} {w : List Int} (hk' : k'.valid)
    (hw : key_type.kTerminator ∈ w) (h : w <+: k' ++ [key_type.kTerminator]) :
    w = k' ++ [key_type.kTerminator] := by
  obtain ⟨r, hr⟩ := h
  have hnot := key_type.terminator_not_mem hk'
  rcases List.eq_nil_or_concat r with rfl | ⟨L, y, hL⟩
  · simpa using hr
  · exfalso
    rw [List.concat_eq_append] at hL
    subst hL
    rw [← List.append_assoc] at hr
    have h1 := List.append_inj' hr rfl
    apply hnot
    rw [← h1.1]
    exact List.mem_append_left _ hw

/-! ## The basic trie stores what is inserted -/

namespace basic_trie

theorem walk_deref_none {tr : basic_trie} {s : Int} {p : List Int}
    (h : tr.step s (deref p) = none) : tr.walk s (p ++ [key_type.kTerminator]) = none := by
  cases p with
  | nil =>
    simp only [deref, List.headD_nil] at h
    simp only [List.nil_append, walk_cons, h]
    rfl
  | cons c p =>
    simp only [deref, List.headD_cons] at h
    simp only [List.cons_append, walk_cons, h]
    rfl

theorem wf_create (size : Int) : (create size).wf := by
  unfold create
  simp only []
  refine ⟨?_, ?_, ?_, ?_, ?_, ?_, ?_, ?_⟩
  · simp only [resize_state_size, key_type.kCharsetSize, kDefaultStateSize]
    split_ifs <;> omega
  · simp
  · simp only [resize_state_size, resize_state_last_base, key_type.kCharsetSize,
      kDefaultStateSize]
    split_ifs <;> omega
  · intro t ht
    simp at ht
  · intro t
    simp
  · intro t ht
    simp at ht
  · intro t _ _
    simp
  · intro t ht
    simp at ht

theorem childless_create (size : Int) (a : Int) (ha : 0 < a) : (create size).childless a := by
  intro t
  unfold create
  simp only [resize_state_check]
  omega

theorem stores_create (size : Int) : stores (create size) (fun _ => none) := by
  refine ⟨wf_create size, ?_, ?_, ?_, ?_⟩
  · intro k v h; cases h
  · intro k v h; cases h
  · intro w u hw
    left
    exact walk_childless (childless_create size 1 (by omega)) hw
  · unfold create
    simp

/-- The function `search` returns what the trie stores. -/
theorem search_eq {tr : basic_trie} {M : key_type → Option Int} (S : stores tr M)
    {k : key_type} (hk : k.valid) : tr.search k = M k := by
  unfold search
  rw [key_type.data_valid hk]
  rcases hgf : tr.go_forward 1 k with ⟨s, _ | p⟩
  · simp only []
    have hw := (go_forward_spec tr 1 k).1 s hgf
    rcases S.only _ _ hw with h0 | ⟨k', v, hM, hp⟩
    · simp at h0
    · have hkk := key_type.eq_of_prefix (S.key_sym k' v hM) hp
      subst hkk
      obtain ⟨u, hu, hb, _⟩ := S.has k v hM
      rw [hw] at hu
      simp only [Option.some.injEq] at hu
      rw [hM, hu, hb]
  · simp only []
    obtain ⟨pre, hpre, hwalk, hstep⟩ := (go_forward_spec tr 1 k).2 s p hgf
    cases hM : M k with
    | none => rfl
    | some v =>
      exfalso
      obtain ⟨u, hu, _⟩ := S.has k v hM
      rw [hpre, List.append_assoc] at hu
      obtain ⟨b, hb1, hb2⟩ := walk_prefix hu
      rw [hwalk] at hb1
      simp only [Option.some.injEq] at hb1
      rw [← hb1, walk_deref_none hstep] at hb2
      cases hb2

/-- A state at the end of a word without terminator has a non-negative base. -/
theorem stores_base_nonneg {tr : basic_trie} {M : key_type → Option Int} (S : stores tr M)
    {pre : List Int} {s : Int} (hpre : tr.walk 1 pre = some s)
    (hno : key_type.kTerminator ∉ pre) : 0 ≤ tr.base s := by
  rcases S.only _ _ hpre with h0 | ⟨k', v, hM, hp⟩
  · subst h0
    simp only [walk_nil, Option.some.injEq] at hpre
    rw [← hpre]
    exact S.root_base
  · obtain ⟨r, hr⟩ := hp
    obtain ⟨u, hu, _⟩ := S.has k' v hM
    rw [← hr] at hu
    obtain ⟨b, hb1, hb2⟩ := walk_prefix hu
    rw [hpre] at hb1
    simp only [Option.some.injEq] at hb1
    subst hb1
    cases r with
    | nil =>
      exfalso
      apply hno
      rw [List.append_nil] at hr
      rw [hr]
      simp
    | cons x r =>
      rw [walk_cons] at hb2
      cases hst : tr.step s x with
      | none => rw [hst] at hb2; cases hb2
      | some y =>
        rw [step_eq_some] at hst
        have := (S.wf.link y (by omega)).1
        rw [hst.2.2.2.2] at this
        omega

/-- The function `insert` of a new key with a positive value completes and stores the key. -/
theorem insert_spec {tr : basic_trie} {M : key_type → Option Int} (S : stores tr M)
    {k : key_type} {v : Int} (hk : k.valid) (hnew : M k = none) (hv : 1 ≤ v) :
    ∃ tr', tr.insert k v = .done tr' ∧ stores tr' (bind_key M k v) := by
  have hnoterm := key_type.terminator_not_mem hk
  unfold insert
  rw [if_neg (by omega), key_type.data_valid hk]
  rcases hgf : tr.go_forward 1 k with ⟨s, _ | p⟩
  · exfalso
    have hw := (go_forward_spec tr 1 k).1 s hgf
    rcases S.only _ _ hw with h0 | ⟨k', v', hM, hp⟩
    · simp at h0
    · have hkk := key_type.eq_of_prefix (S.key_sym k' v' hM) hp
      subst hkk
      rw [hnew] at hM
      cases hM
  · simp only []
    obtain ⟨pre, hpre, hwalk, hstep⟩ := (go_forward_spec tr 1 k).2 s p hgf
    have hpre_no : key_type.kTerminator ∉ pre := by
      intro hm
      apply hnoterm
      rw [hpre]
      exact List.mem_append_left _ hm
    have hsym : ∀ c ∈ p ++ [key_type.kTerminator], 1 ≤ c ∧ c ≤ 257 := by
      intro c hc
      rcases List.mem_append.mp hc with h1 | h1
      · have := hk c (by rw [hpre]; exact List.mem_append_right _ h1)
        omega
      · simp only [List.mem_singleton] at h1
        rw [h1]
        simp [key_type.kTerminator]
    have hhead : (p ++ [key_type.kTerminator]).headD 0 = deref p := by
      cases p <;> rfl
    obtain ⟨tr1, t, hch, G⟩ := single_trie.common_transitions_spec
      (p ++ [key_type.kTerminator]) tr s pre (by simp) hsym S.wf hwalk
      (stores_base_nonneg S hwalk hpre_no) (by rw [hhead]; exact hstep)
    rw [insert_loop_eq, hch]
    simp only []
    refine ⟨_, rfl, ?_⟩
    have hkw : pre ++ (p ++ [key_type.kTerminator]) = k ++ [key_type.kTerminator] := by
      rw [hpre, List.append_assoc]
    have htl : tr1.live t := walk_live (live_root tr1) G.path
    obtain ⟨hwf', hsteps⟩ := set_base_leaf G.wf' htl G.leaf.1 v
    have hwalks := fun w => walk_congr hsteps 1 w
    have hpath : (tr1.set_base t v).walk 1 (k ++ [key_type.kTerminator]) = some t := by
      rw [hwalks, ← hkw]
      exact G.path
    refine ⟨hwf', ?_, ?_, ?_, ?_⟩
    · intro k' v' hM
      unfold bind_key at hM
      by_cases e : k' = k
      · rw [e]; exact hk
      · rw [if_neg e] at hM
        exact S.key_sym k' v' hM
    · intro k' v' hM
      unfold bind_key at hM
      by_cases e : k' = k
      · rw [if_pos e] at hM
        simp only [Option.some.injEq] at hM
        rw [e]
        refine ⟨t, hpath, ?_, G.leaf.1⟩
        simp only [set_base_base, eq_self_iff_true, if_true]
        exact hM
      · rw [if_neg e] at hM
        obtain ⟨u, hu, hb, hc⟩ := S.has k' v' hM
        obtain ⟨u1, hu1, hp1⟩ := G.old _ _ hu
        have hne : k' ++ [key_type.kTerminator] ≠ pre := by
          intro e2
          apply hpre_no
          rw [← e2]
          simp
        obtain ⟨hb1, hc1⟩ := hp1 hc hne
        refine ⟨u1, by rw [hwalks]; exact hu1, ?_, hc1⟩
        simp only [set_base_base]
        have hut : u1 ≠ t := by
          intro e2
          rw [e2] at hu1
          have := walk_inj G.wf' _ _ _ hu1 G.path
          rw [hkw] at this
          have := List.append_cancel_right this
          exact e this
        rw [if_neg hut, hb1, hb]
    · intro w u hw
      rw [hwalks] at hw
      rcases G.only w u hw with ⟨u0, hu0⟩ | ⟨q', hq', hpq, hwq⟩
      · rcases S.only w u0 hu0 with h0 | ⟨k', v', hM, hp⟩
        · left; exact h0
        · right
          refine ⟨k', v', ?_, hp⟩
          unfold bind_key
          have e : k' ≠ k := by
            intro e
            rw [e, hnew] at hM
            cases hM
          rw [if_neg e]
          exact hM
      · right
        refine ⟨k, v, ?_, ?_⟩
        · unfold bind_key
          rw [if_pos rfl]
        · rw [hwq, ← hkw]
          exact (List.prefix_append_right_inj pre).mpr hpq
    · -- the root has a child now
      have h1 : (tr1.set_base t v).walk 1 (k ++ [key_type.kTerminator]) = some t := hpath
      cases hk0 : k ++ [key_type.kTerminator] with
      | nil => simp at hk0
      | cons x r =>
        rw [hk0, walk_cons] at h1
        cases hst : (tr1.set_base t v).step 1 x with
        | none => rw [hst] at h1; cases h1
        | some y =>
          rw [step_eq_some] at hst
          have := (hwf'.link y (by omega)).1
          rw [hst.2.2.2.2] at this
          omega

end basic_trie

/-! ## Sequences of inserts -/

theorem last_insert_cons (e : List (Fin 256) × Int) (rest : List (List (Fin 256) × Int))
    (k : List (Fin 256)) :
    last_insert (e :: rest) k
      = match last_insert rest k with
        | some v => some v
        | none => if e.1 = k then some e.2 else none := by
  by_cases he : e.1 = k
  · have h1 : last_insert (e :: rest) k
        = some (((rest.filter (fun e => decide (e.1 = k))).getLast?.getD e).2) := by
      unfold last_insert
      rw [List.filter_cons, if_pos (by simpa using he), List.getLast?_cons]
      rfl
    have h2 : last_insert rest k
        = ((rest.filter (fun e => decide (e.1 = k))).getLast?).map (fun e => e.2) := rfl
    rw [h1, h2]
    cases (rest.filter (fun e => decide (e.1 = k))).getLast? <;> simp [he]
  · have h1 : last_insert (e :: rest) k = last_insert rest k := by
      unfold last_insert
      rw [List.filter_cons, if_neg (by simpa using he)]
    rw [h1]
    cases last_insert rest k <;> simp [he]

theorem bind_all_eq (seq : List (List (Fin 256) × Int)) (M : key_type → Option Int)
    (k : List (Fin 256)) :
    bind_all M seq (key_type.assign k)
      = match last_insert seq k with
        | some v => some v
        | none => M (key_type.assign k) := by
  induction seq generalizing M with
  | nil => simp [bind_all, last_insert]
  | cons e rest ih =>
    rw [bind_all, ih, last_insert_cons]
    cases last_insert rest k with
    | some v => rfl
    | none =>
      simp only [bind_key]
      by_cases he : e.1 = k
      · simp [he]
      · have : key_type.assign k ≠ key_type.assign e.1 :=
          fun h => he (key_type.assign_inj h).symm
        simp [he, this]

theorem last_insert_of_mem {seq : List (List (Fin 256) × Int)}
    (hd : (seq.map (fun e => e.1)).Nodup) {e : List (Fin 256) × Int} (he : e ∈ seq) :
    last_insert seq e.1 = some e.2 := by
  induction seq with
  | nil => cases he
  | cons x rest ih =>
    rw [List.map_cons, List.nodup_cons] at hd
    rw [last_insert_cons]
    rcases List.mem_cons.mp he with h1 | h1
    · subst h1
      have : last_insert rest e.1 = none := by
        unfold last_insert
        rw [List.filter_eq_nil_iff.mpr]
        · rfl
        · intro y hy
          simp only [decide_eq_true_eq]
          intro hye
          apply hd.1
          rw [← hye]
          exact List.mem_map_of_mem _ hy
      rw [this]
      simp
    · rw [ih hd.2 h1]

theorem last_insert_of_not_mem {seq : List (List (Fin 256) × Int)} {k : List (Fin 256)}
    (hk : k ∉ seq.map (fun e => e.1)) : last_insert seq k = none := by
  unfold last_insert
  rw [List.filter_eq_nil_iff.mpr]
  · rfl
  · intro y hy
    simp only [decide_eq_true_eq]
    intro hye
    apply hk
    rw [← hye]
    exact List.mem_map_of_mem _ hy

theorem last_insert_some {seq : List (List (Fin 256) × Int)} {k : List (Fin 256)} {v : Int}
    (h : last_insert seq k = some v) : (k, v) ∈ seq := by
  unfold last_insert at h
  cases hl : (seq.filter (fun e => decide (e.1 = k))).getLast? with
  | none => rw [hl] at h; cases h
  | some x =>
    rw [hl] at h
    simp only [Option.map_some', Option.some.injEq] at h
    have hm := List.mem_of_getLast?_eq_some hl
    rw [List.mem_filter] at hm
    simp only [decide_eq_true_eq] at hm
    have : x = (k, v) := by
      cases x
      simp only at hm h
      rw [hm.2, h]
    rw [← this]
    exact hm.1

/-- A sequence of `basic_trie::insert` calls of distinct new keys with
positive values completes and stores every pair. -/
theorem basic_trie.insert_all_spec :
    ∀ (seq : List (List (Fin 256) × Int)) (tr : basic_trie) (M : key_type → Option Int),
      tr.stores M → (seq.map (fun e => e.1)).Nodup → (∀ e ∈ seq, 1 ≤ e.2) →
      (∀ e ∈ seq, M (key_type.assign e.1) = none) →
      ∃ tr', tr.insert_all (calls seq) = .done tr' ∧ tr'.stores (bind_all M seq) := by
  intro seq
  induction seq with
  | nil =>
    intro tr M S _ _ _
    exact ⟨tr, rfl, S⟩
  | cons e rest ih =>
    intro tr M S hd hv hnew
    rw [List.map_cons, List.nodup_cons] at hd
    obtain ⟨tr1, h1, S1⟩ := basic_trie.insert_spec S (key_type.valid_assign e.1)
      (hnew e (List.mem_cons_self _ _)) (hv e (List.mem_cons_self _ _))
    obtain ⟨tr', h2, S2⟩ := ih tr1 (bind_key M (key_type.assign e.1) e.2) S1 hd.2
      (fun x hx => hv x (List.mem_cons_of_mem _ hx))
      (by
        intro x hx
        unfold bind_key
        have : key_type.assign x.1 ≠ key_type.assign e.1 := by
          intro h
          apply hd.1
          rw [← key_type.assign_inj h]
          exact List.mem_map_of_mem _ hx
        rw [if_neg this]
        exact hnew x (List.mem_cons_of_mem _ hx))
    refine ⟨tr', ?_, S2⟩
    simp only [calls, List.map_cons, basic_trie.insert_all]
    rw [h1]
    exact h2

/-! ## The tail trie: reading -/

namespace single_trie

theorem reads_append (st : single_trie) (n : Int) (a b : List Int) :
    st.reads n (a ++ b) ↔ st.reads n a ∧ st.reads (n + a.length) b := by
  induction a generalizing n with
  | nil => simp [reads]
  | cons c a ih =>
    show (st.suffix n = c ∧ st.reads (n + 1) (a ++ b))
      ↔ (st.suffix n = c ∧ st.reads (n + 1) a) ∧ st.reads (n + ((c :: a).length : Nat)) b
    have e : n + 1 + (a.length : Int) = n + (((c :: a).length : Nat) : Int) := by
      simp only [List.length_cons, Nat.cast_add, Nat.cast_one]
      omega
    rw [ih, e, and_assoc]

/-- Two terminated readings from the same index are equal. -/
theorem reads_unique (st : single_trie) :
    ∀ (a b : List Int) (n : Int), st.reads n (a ++ [key_type.kTerminator]) →
      st.reads n (b ++ [key_type.kTerminator]) → key_type.kTerminator ∉ a →
      key_type.kTerminator ∉ b → a = b := by
  intro a
  induction a with
  | nil =>
    intro b n ha hb _ hnb
    cases b with
    | nil => rfl
    | cons y b =>
      simp only [List.nil_append, List.cons_append, reads] at ha hb
      exfalso
      apply hnb
      rw [← hb.1, ha.1]
      exact List.mem_cons_self _ _
  | cons x a ih =>
    intro b n ha hb hna hnb
    cases b with
    | nil =>
      simp only [List.nil_append, List.cons_append, reads] at ha hb
      exfalso
      apply hna
      rw [← ha.1, hb.1]
      exact List.mem_cons_self _ _
    | cons y b =>
      simp only [List.cons_append, reads] at ha hb
      have hxy : x = y := by rw [← ha.1, hb.1]
      rw [hxy, ih b (n + 1) ha.2 hb.2 (fun h => hna (List.mem_cons_of_mem _ h))
        (fun h => hnb (List.mem_cons_of_mem _ h))]

/-- The comparison loop of `search` succeeds exactly when the suffix array
holds the rest of the terminated key. -/
theorem search_loop_spec (st : single_trie) (p : List Int) (n : Int) :
    (st.reads n (p ++ [key_type.kTerminator]) →
      st.search_loop p n = some (n + p.length + 1))
    ∧ (¬ st.reads n (p ++ [key_type.kTerminator]) → st.search_loop p n = none) := by
  induction p generalizing n with
  | nil =>
    simp only [List.nil_append, reads, and_true, search_loop, List.length_nil, Nat.cast_zero,
      add_zero]
    constructor
    · intro h
      rw [if_neg (by rw [h]; simp)]
    · intro h
      rw [if_pos (fun e => h e.symm)]
  | cons c p ih =>
    simp only [List.cons_append, reads, search_loop, List.length_cons, Nat.cast_add,
      Nat.cast_one]
    constructor
    · rintro ⟨h1, h2⟩
      rw [if_neg (by rw [h1]; simp), (ih (n + 1)).1 h2]
      congr 1
      omega
    · intro h
      by_cases hc : c ≠ st.suffix n
      · rw [if_pos hc]
      · rw [if_neg hc]
        apply (ih (n + 1)).2
        intro h2
        apply h
        exact ⟨(not_not.mp hc).symm, h2⟩

/-- Two beginnings of one word that both end in a childless state are equal. -/
theorem leaf_word_unique {tr : basic_trie} {K w1 w2 : List Int} {u1 u2 : Int}
    (h1 : w1 <+: K) (h2 : w2 <+: K) (hw1 : tr.walk 1 w1 = some u1)
    (hw2 : tr.walk 1 w2 = some u2) (hc1 : tr.childless u1) (hc2 : tr.childless u2) :
    w1 = w2 := by
  rcases List.prefix_or_prefix_of_prefix h1 h2 with ⟨r, hr⟩ | ⟨r, hr⟩
  · rw [← hr] at hw2
    obtain ⟨b, hb1, hb2⟩ := basic_trie.walk_prefix hw2
    rw [hw1] at hb1
    simp only [Option.some.injEq] at hb1
    rw [← hb1] at hb2
    have := basic_trie.walk_childless hc1 hb2
    rw [this, List.append_nil] at hr
    exact hr
  · rw [← hr] at hw1
    obtain ⟨b, hb1, hb2⟩ := basic_trie.walk_prefix hw1
    rw [hw2] at hb1
    simp only [Option.some.injEq] at hb1
    rw [← hb1] at hb2
    have := basic_trie.walk_childless hc2 hb2
    rw [this, List.append_nil] at hr
    exact hr.symm

theorem leaf_childless {st : single_trie} (h : st.trie.wf) {k : key_type} {w r : List Int}
    {u : Int} (hl : st.leaf_of k w r u) : st.trie.childless u := by
  have hlive := basic_trie.walk_live (basic_trie.live_root _) hl.2.1
  have := basic_trie.live_pos h hlive
  exact basic_trie.childless_of_base_nonpos h (by omega) (by have := hl.2.2; omega)

/-- The leaf of a bound key, found from any leaf state on the way of the key. -/
theorem stores_leaf {st : single_trie} {M : key_type → Option Int} (S : st.stores M)
    {k : key_type} {v : Int} (hM : M k = some v) {w : List Int} {u : Int}
    (hw : st.trie.walk 1 w = some u) (hb : st.trie.base u < 0)
    (hp : w <+: k ++ [key_type.kTerminator]) :
    ∃ r, st.leaf_of k w r u ∧ st.reads (-st.trie.base u) r
      ∧ st.suffix (-st.trie.base u + r.length) = v
      ∧ 1 ≤ -st.trie.base u ∧ -st.trie.base u + r.length < st.next_suffix := by
  obtain ⟨w', r', u', hl, h1, h2, h3, h4⟩ := S.has k v hM
  have hlive := basic_trie.walk_live (basic_trie.live_root _) hw
  have hpos := basic_trie.live_pos S.wf hlive
  have hc : st.trie.childless u :=
    basic_trie.childless_of_base_nonpos S.wf (by omega) (by omega)
  have hww : w = w' := leaf_word_unique hp ⟨r', hl.1.symm⟩ hw hl.2.1 hc (leaf_childless S.wf hl)
  subst hww
  have huu : u = u' := by
    have := hl.2.1
    rw [hw] at this
    simpa using this
  subst huu
  exact ⟨r', hl, h1, h2, h3, h4⟩

/-- The function `search` returns what the tail trie stores. -/
theorem tail_search_eq {st : single_trie} {M : key_type → Option Int} (S : st.stores M)
    {k : key_type} (hk : k.valid) : st.search k = M k := by
  have hnoterm := key_type.terminator_not_mem hk
  unfold search
  rw [key_type.data_valid hk]
  rcases hgf : st.trie.go_forward 1 k with ⟨s, p⟩
  simp only []
  by_cases hb : st.trie.base s < 0
  · rw [if_pos hb]
    cases p with
    | none =>
      simp only []
      have hw := (basic_trie.go_forward_spec st.trie 1 k).1 s hgf
      rcases S.only _ _ hw with h0 | ⟨k', v, hM, hp⟩
      · simp at h0
      · have hkk := key_type.eq_of_prefix (S.key_sym k' v hM) hp
        subst hkk
        obtain ⟨r, hl, h1, h2, h3, h4⟩ := stores_leaf S hM hw hb (List.prefix_refl _)
        have hr : r = [] := by
          have := hl.1
          simpa using this
        subst hr
        simp only [List.length_nil, Nat.cast_zero, add_zero] at h2
        rw [hM, h2]
    | some p =>
      simp only []
      obtain ⟨pre, hpre, hwalk, hstep⟩ := (basic_trie.go_forward_spec st.trie 1 k).2 s p hgf
      have hpk : pre <+: k ++ [key_type.kTerminator] := by
        rw [hpre, List.append_assoc]
        exact List.prefix_append _ _
      by_cases hr : st.reads (-st.trie.base s) (p ++ [key_type.kTerminator])
      · rw [(search_loop_spec st p _).1 hr]
        simp only []
        -- the leaf belongs to a bound key, which is k
        rcases S.only _ _ hwalk with h0 | ⟨k', v, hM, hp⟩
        · subst h0
          simp only [basic_trie.walk_nil, Option.some.injEq] at hwalk
          rw [← hwalk] at hb
          have := S.root_base
          omega
        · obtain ⟨r, hl, h1, h2, h3, h4⟩ := stores_leaf S hM hwalk hb hp
          have hk'v := S.key_sym k' v hM
          have hnot' := key_type.terminator_not_mem hk'v
          -- r is the rest of k' after pre, ending in the terminator
          have hpre_no : key_type.kTerminator ∉ pre := by
            intro hm
            apply hnoterm
            rw [hpre]
            exact List.mem_append_left _ hm
          obtain ⟨r0, hr0⟩ : ∃ r0, r = r0 ++ [key_type.kTerminator] := by
            rcases List.eq_nil_or_concat r with hnil | ⟨L, y, hL⟩
            · exfalso
              have e := hl.1
              rw [hnil, List.append_nil] at e
              apply hpre_no
              rw [← e]
              simp
            · rw [List.concat_eq_append] at hL
              refine ⟨L, ?_⟩
              rw [hL]
              have := hl.1
              rw [hL, ← List.append_assoc] at this
              have := (List.append_inj' this rfl).2
              simp only [List.cons.injEq, and_true] at this
              rw [← this]
          subst hr0
          have hk'eq : k' = pre ++ r0 := by
            have := hl.1
            rw [← List.append_assoc] at this
            exact (List.append_inj' this rfl).1
          have hr0_no : key_type.kTerminator ∉ r0 := by
            intro hm
            apply hnot'
            rw [hk'eq]
            exact List.mem_append_right _ hm
          have hp_no : key_type.kTerminator ∉ p := by
            intro hm
            apply hnoterm
            rw [hpre]
            exact List.mem_append_right _ hm
          have hpr := reads_unique st p r0 _ hr h1 hp_no hr0_no
          subst hpr
          have hkk : k = k' := by rw [hpre, hk'eq]
          subst hkk
          rw [hM]
          simp only [List.length_append, List.length_singleton, Nat.cast_add,
            Nat.cast_one] at h2
          rw [← h2]
          congr 2
          omega
      · rw [(search_loop_spec st p _).2 hr]
        simp only []
        cases hM : M k with
        | none => rfl
        | some v =>
          exfalso
          obtain ⟨r, hl, h1, _⟩ := stores_leaf S hM hwalk hb hpk
          apply hr
          have := hl.1
          rw [hpre, List.append_assoc] at this
          have := List.append_cancel_left this
          rw [this]
          exact h1
  · rw [if_neg hb]
    cases hM : M k with
    | none => rfl
    | some v =>
      exfalso
      obtain ⟨w, r, u, hl, _⟩ := S.has k v hM
      have hcu := leaf_childless S.wf hl
      cases p with
      | none =>
        have hw := (basic_trie.go_forward_spec st.trie 1 k).1 s hgf
        rw [hl.1] at hw
        obtain ⟨b, hb1, hb2⟩ := basic_trie.walk_prefix hw
        rw [hl.2.1] at hb1
        simp only [Option.some.injEq] at hb1
        rw [← hb1] at hb2
        have := basic_trie.walk_childless hcu hb2
        rw [this] at hb2
        simp only [basic_trie.walk_nil, Option.some.injEq] at hb2
        rw [← hb2] at hb
        exact hb hl.2.2
      | some p =>
        obtain ⟨pre, hpre, hwalk, hstep⟩ := (basic_trie.go_forward_spec st.trie 1 k).2 s p hgf
        have hpk : pre <+: k ++ [key_type.kTerminator] := by
          rw [hpre, List.append_assoc]
          exact List.prefix_append _ _
        rcases List.prefix_or_prefix_of_prefix ⟨r, hl.1.symm⟩ hpk with ⟨x, hx⟩ | ⟨x, hx⟩
        · -- the leaf is on the way to s
          rw [← hx] at hwalk
          obtain ⟨b, hb1, hb2⟩ := basic_trie.walk_prefix hwalk
          rw [hl.2.1] at hb1
          simp only [Option.some.injEq] at hb1
          rw [← hb1] at hb2
          have := basic_trie.walk_childless hcu hb2
          rw [this] at hb2
          simp only [basic_trie.walk_nil, Option.some.injEq] at hb2
          rw [← hb2] at hb
          exact hb hl.2.2
        · -- the way to the leaf leaves s on the next symbol of the key
          have hw := hl.2.1
          rw [← hx] at hw
          obtain ⟨b, hb1, hb2⟩ := basic_trie.walk_prefix hw
          rw [hwalk] at hb1
          simp only [Option.some.injEq] at hb1
          rw [← hb1] at hb2
          have hkx : pre ++ (p ++ [key_type.kTerminator]) = pre ++ (x ++ r) := by
            rw [← List.append_assoc, ← hpre, hl.1, ← hx, List.append_assoc]
          have hpx := List.append_cancel_left hkx
          cases x with
          | nil =>
            simp only [basic_trie.walk_nil, Option.some.injEq] at hb2
            rw [hb2] at hb
            exact hb hl.2.2
          | cons y x =>
            rw [basic_trie.walk_cons] at hb2
            have hy : deref p = y := by
              cases p with
              | nil =>
                simp only [List.nil_append, List.cons_append, List.cons.injEq] at hpx
                rw [← hpx.1]
                rfl
              | cons c p =>
                simp only [List.cons_append, List.cons.injEq] at hpx
                rw [← hpx.1]
                rfl
            rw [← hy, hstep] at hb2
            cases hb2

end single_trie

/-! ## The tail trie: the suffix array -/

namespace single_trie

@[simp] theorem set_suffix_suffix (st : single_trie) (i v j : Int) :
    (st.set_suffix i v).suffix j = if j = i then v else st.suffix j := rfl

@[simp] theorem set_suffix_trie (st : single_trie) (i v : Int) :
    (st.set_suffix i v).trie = st.trie := rfl

@[simp] theorem set_suffix_next (st : single_trie) (i v : Int) :
    (st.set_suffix i v).next_suffix = st.next_suffix := rfl

theorem reads_congr {st st' : single_trie} :
    ∀ (r : List Int) (n : Int),
      (∀ i, n ≤ i → i < n + r.length → st'.suffix i = st.suffix i) →
      st.reads n r → st'.reads n r := by
  intro r
  induction r with
  | nil => intro _ _ _; trivial
  | cons c r ih =>
    intro n hf hr
    simp only [List.length_cons, Nat.cast_add, Nat.cast_one] at hf
    refine ⟨?_, ih (n + 1) (fun i h1 h2 => hf i (by omega) (by omega)) hr.2⟩
    rw [hf n (le_refl _) (by omega)]
    exact hr.1

/-- The leaf of a key is unique. -/
theorem leaf_unique {st : single_trie} (h : st.trie.wf) {k : key_type} {w w' r r' : List Int}
    {u u' : Int} (h1 : st.leaf_of k w r u) (h2 : st.leaf_of k w' r' u') :
    w = w' ∧ r = r' ∧ u = u' := by
  have hw : w = w' := leaf_word_unique ⟨r, h1.1.symm⟩ ⟨r', h2.1.symm⟩ h1.2.1 h2.2.1
    (leaf_childless h h1) (leaf_childless h h2)
  subst hw
  refine ⟨rfl, ?_, ?_⟩
  · have := h1.1
    rw [h2.1] at this
    exact (List.append_cancel_left this).symm
  · have := h1.2.1
    rw [h2.2.1] at this
    simpa using this.symm

/-- The invariant `stores` from one leaf for every bound key, the leaves
lying in regions that do not overlap. -/
theorem stores_intro {st : single_trie} {M : key_type → Option Int}
    (Reg : key_type → Int → Int → Prop) (hwf : st.trie.wf) (hnext : 1 ≤ st.next_suffix)
    (hks : ∀ k v, M k = some v → k.valid)
    (honly : ∀ w u, st.trie.walk 1 w = some u →
      w = [] ∨ ∃ k v, M k = some v ∧ w <+: k ++ [key_type.kTerminator])
    (hroot : 0 ≤ st.trie.base 1)
    (canon : ∀ k v, M k = some v → ∃ w r u, st.leaf_of k w r u
      ∧ st.reads (-st.trie.base u) r ∧ st.suffix (-st.trie.base u + r.length) = v
      ∧ 1 ≤ -st.trie.base u ∧ -st.trie.base u + r.length < st.next_suffix
      ∧ ∃ lo hi, Reg k lo hi ∧ lo ≤ -st.trie.base u ∧ -st.trie.base u + r.length ≤ hi)
    (hreg : ∀ k1 v1 k2 v2 lo1 hi1 lo2 hi2, M k1 = some v1 → M k2 = some v2 → k1 ≠ k2 →
      Reg k1 lo1 hi1 → Reg k2 lo2 hi2 → hi1 < lo2 ∨ hi2 < lo1) : st.stores M := by
  refine ⟨hwf, hnext, hks, ?_, honly, ?_, hroot⟩
  · intro k v hM
    obtain ⟨w, r, u, h1, h2, h3, h4, h5, _⟩ := canon k v hM
    exact ⟨w, r, u, h1, h2, h3, h4, h5⟩
  · intro k1 v1 k2 v2 w1 r1 u1 w2 r2 u2 hM1 hM2 hne hl1 hl2
    obtain ⟨w, r, u, h1, _, _, _, _, lo1, hi1, hR1, ha1, hb1⟩ := canon k1 v1 hM1
    obtain ⟨w', r', u', h1', _, _, _, _, lo2, hi2, hR2, ha2, hb2⟩ := canon k2 v2 hM2
    obtain ⟨e1, e2, e3⟩ := leaf_unique hwf hl1 h1
    obtain ⟨e1', e2', e3'⟩ := leaf_unique hwf hl2 h1'
    subst e1 e2 e3 e1' e2' e3'
    have := hreg k1 v1 k2 v2 lo1 hi1 lo2 hi2 hM1 hM2 hne hR1 hR2
    omega

/-- The loop of `insert_suffix` appends the symbols and a terminator at
`next_suffix_` and leaves the cells below untouched. -/
theorem insert_suffix_loop_spec :
    ∀ (inputs : List Int) (st : single_trie),
      (insert_suffix_loop inputs st).trie = st.trie
      ∧ (insert_suffix_loop inputs st).next_suffix = st.next_suffix + inputs.length + 1
      ∧ (∀ i, i < st.next_suffix → (insert_suffix_loop inputs st).suffix i = st.suffix i)
      ∧ (insert_suffix_loop inputs st).reads st.next_suffix
          (inputs ++ [key_type.kTerminator]) := by
  intro inputs
  induction inputs with
  | nil =>
    intro st
    simp only [insert_suffix_loop, List.length_nil, Nat.cast_zero, add_zero, List.nil_append,
      reads, and_true]
    refine ⟨?_, ?_, ?_, ?_⟩
    · split_ifs <;> rfl
    · split_ifs <;> rfl
    · intro i hi
      split_ifs <;> simp [resize_suffix] <;> intro e <;> omega
    · split_ifs <;> simp [resize_suffix]
  | cons c rest ih =>
    intro st
    rw [insert_suffix_loop]
    simp only []
    generalize hst1 : (if st.next_suffix + 1 ≥ st.suffix_size
      then st.resize_suffix (st.next_suffix + 1) else st) = st1
    have e1 : st1.trie = st.trie := by rw [← hst1]; split_ifs <;> rfl
    have e2 : st1.next_suffix = st.next_suffix := by rw [← hst1]; split_ifs <;> rfl
    have e3 : st1.suffix = st.suffix := by rw [← hst1]; split_ifs <;> rfl
    obtain ⟨h1, h2, h3, h4⟩ :=
      ih { st1.set_suffix st1.next_suffix c with next_suffix := st1.next_suffix + 1 }
    refine ⟨?_, ?_, ?_, ?_⟩
    · rw [h1]
      exact e1
    · rw [h2]
      simp only [List.length_cons, Nat.cast_add, Nat.cast_one]
      rw [e2]
      omega
    · intro i hi
      rw [h3 i (by simp only []; omega)]
      simp only [set_suffix_suffix]
      rw [if_neg (by omega), e3]
    · refine ⟨?_, ?_⟩
      · rw [h3 st.next_suffix (by simp only []; omega)]
        simp only [set_suffix_suffix]
        rw [if_pos e2.symm]
      · rw [← e2]
        exact h4

/-- The common-string loop of `create_branch`: either the suffix array holds
the whole terminated input, or the loop stops on the first difference. -/
theorem common_loop_spec (st : single_trie) :
    ∀ (inputs common : List Int) (ext : extremum_type) (start : Int),
      (∀ e, common_loop st inputs common ext start = .duplicate e →
        st.reads start (inputs ++ [key_type.kTerminator]) ∧ e = start + inputs.length + 1)
      ∧ (∀ C E e p, common_loop st inputs common ext start = .differ C E e p →
        ∃ c2, C = common ++ c2 ∧ inputs = c2 ++ p ∧ st.reads start c2
          ∧ e = start + c2.length ∧ st.suffix e ≠ deref p
          ∧ E = c2.foldl extremum_type.add ext) := by
  intro inputs
  induction inputs with
  | nil =>
    intro common ext start
    simp only [common_loop]
    constructor
    · intro e he
      by_cases h : st.suffix start ≠ key_type.kTerminator
      · rw [if_pos h] at he
        cases he
      · rw [if_neg h] at he
        simp only [common_result.duplicate.injEq] at he
        simp only [List.nil_append, reads, and_true, List.length_nil, Nat.cast_zero, add_zero]
        exact ⟨not_not.mp h, he.symm⟩
    · intro C E e p he
      by_cases h : st.suffix start ≠ key_type.kTerminator
      · rw [if_pos h] at he
        simp only [common_result.differ.injEq] at he
        obtain ⟨a1, a2, a3, a4⟩ := he
        refine ⟨[], by simp [a1], by simp [a4], trivial, by simp [a3], ?_, by simp [a2]⟩
        rw [← a3, ← a4]
        exact h
      · rw [if_neg h] at he
        cases he
  | cons c rest ih =>
    intro common ext start
    simp only [common_loop]
    by_cases h : st.suffix start ≠ c
    · rw [if_pos h]
      constructor
      · intro e he
        cases he
      · intro C E e p he
        simp only [common_result.differ.injEq] at he
        obtain ⟨a1, a2, a3, a4⟩ := he
        refine ⟨[], by simp [a1], by simp [a4], trivial, by simp [a3], ?_, by simp [a2]⟩
        rw [← a3, ← a4]
        exact h
    · rw [if_neg h]
      obtain ⟨ih1, ih2⟩ := ih (common ++ [c]) (ext.add c) (start + 1)
      constructor
      · intro e he
        obtain ⟨b1, b2⟩ := ih1 e he
        refine ⟨⟨not_not.mp h, b1⟩, ?_⟩
        rw [b2]
        simp only [List.length_cons, Nat.cast_add, Nat.cast_one]
        omega
      · intro C E e p he
        obtain ⟨c2, b1, b2, b3, b4, b5, b6⟩ := ih2 C E e p he
        refine ⟨c :: c2, ?_, ?_, ⟨not_not.mp h, b3⟩, ?_, b5, ?_⟩
        · rw [b1]
          simp
        · rw [b2]
          rfl
        · rw [b4]
          simp only [List.length_cons, Nat.cast_add, Nat.cast_one]
          omega
        · rw [b6]
          rfl

/-- A reading without terminator is a proper beginning of a terminated
reading from the same index. -/
theorem reads_split (st : single_trie) :
    ∀ (C r0 : List Int) (n : Int), st.reads n C → st.reads n (r0 ++ [key_type.kTerminator]) →
      key_type.kTerminator ∉ C →
      ∃ r2, r0 ++ [key_type.kTerminator] = C ++ st.suffix (n + C.length) :: r2 := by
  intro C
  induction C with
  | nil =>
    intro r0 n _ hr _
    cases r0 with
    | nil =>
      refine ⟨[], ?_⟩
      simp only [List.nil_append, reads, and_true] at hr
      simp [hr]
    | cons y r0 =>
      refine ⟨r0 ++ [key_type.kTerminator], ?_⟩
      simp only [List.cons_append, reads] at hr
      simp [hr.1]
  | cons c C ih =>
    intro r0 n hC hr hno
    cases r0 with
    | nil =>
      exfalso
      simp only [List.nil_append, reads, and_true] at hr
      apply hno
      rw [← hr, hC.1]
      exact List.mem_cons_self _ _
    | cons y r0 =>
      simp only [List.cons_append, reads] at hr
      obtain ⟨r2, hr2⟩ := ih r0 (n + 1) hC.2 hr.2 (fun h => hno (List.mem_cons_of_mem _ h))
      refine ⟨r2, ?_⟩
      have hy : y = c := by rw [← hr.1, hC.1]
      simp only [List.cons_append, List.length_cons, Nat.cast_add, Nat.cast_one]
      have e : n + 1 + (C.length : Int) = n + ((C.length : Int) + 1) := by omega
      rw [hr2, hy, e]

/-- Writing a new value into the value cell of a bound key rebinds that key
and nothing else. -/
theorem stores_overwrite {st : single_trie} {M : key_type → Option Int} (S : st.stores M)
    {k : key_type} {v0 : Int} (hM : M k = some v0) {w r : List Int} {u : Int}
    (hl : st.leaf_of k w r u) (v : Int) :
    (st.set_suffix (-st.trie.base u + r.length) v).stores (bind_key M k v) := by
  obtain ⟨w0, r0, u0, hl0, c1, c2, c3, c4⟩ := S.has k v0 hM
  obtain ⟨e1, e2, e3⟩ := leaf_unique S.wf hl hl0
  subst e1 e2 e3
  apply stores_intro
    (fun k2 lo hi => ∃ w2 r2 u2, st.leaf_of k2 w2 r2 u2 ∧ lo = -st.trie.base u2
      ∧ hi = -st.trie.base u2 + r2.length)
    (by exact S.wf) (by exact S.next_pos)
  · intro k2 v2 h2
    unfold bind_key at h2
    by_cases e : k2 = k
    · rw [e]
      exact S.key_sym k v0 hM
    · rw [if_neg e] at h2
      exact S.key_sym k2 v2 h2
  · intro w2 u2 hw2
    rcases S.only w2 u2 hw2 with h0 | ⟨k2, v2, h2, hp⟩
    · left; exact h0
    · right
      by_cases e : k2 = k
      · exact ⟨k2, v, by unfold bind_key; rw [if_pos e], hp⟩
      · exact ⟨k2, v2, by unfold bind_key; rw [if_neg e]; exact h2, hp⟩
  · exact S.root_base
  · intro k2 v2 h2
    unfold bind_key at h2
    by_cases e : k2 = k
    · rw [if_pos e] at h2
      simp only [Option.some.injEq] at h2
      subst e
      refine ⟨w, r, u, hl, ?_, ?_, c3, c4, _, _, ⟨w, r, u, hl, rfl, rfl⟩, le_refl _, le_refl _⟩
      · apply reads_congr r _ _ c1
        intro i _ hi
        simp only [set_suffix_suffix, set_suffix_trie]
        rw [if_neg (by omega)]
      · simp only [set_suffix_suffix, set_suffix_trie, eq_self_iff_true, if_true]
        exact h2
    · rw [if_neg e] at h2
      obtain ⟨w2, r2, u2, hl2, d1, d2, d3, d4⟩ := S.has k2 v2 h2
      have hdis := S.disjoint k2 v2 k v0 w2 r2 u2 w r u h2 hM e hl2 hl
      have hrn : (0 : Int) ≤ r.length := Int.natCast_nonneg _
      have hrn2 : (0 : Int) ≤ r2.length := Int.natCast_nonneg _
      refine ⟨w2, r2, u2, hl2, ?_, ?_, d3, d4, _, _, ⟨w2, r2, u2, hl2, rfl, rfl⟩, le_refl _,
        le_refl _⟩
      · apply reads_congr r2 _ _ d1
        intro i _ hi
        simp only [set_suffix_suffix, set_suffix_trie]
        rw [if_neg (by omega)]
      · simp only [set_suffix_suffix, set_suffix_trie]
        rw [if_neg (by omega)]
        exact d2
  · rintro k1 v1 k2 v2 lo1 hi1 lo2 hi2 h1 h2 hne ⟨w1, r1, u1, hl1, a1, a2⟩
      ⟨w2, r2, u2, hl2, b1, b2⟩
    have hb1 : ∃ v1', M k1 = some v1' := by
      unfold bind_key at h1
      by_cases e : k1 = k
      · exact ⟨v0, by rw [e]; exact hM⟩
      · rw [if_neg e] at h1
        exact ⟨v1, h1⟩
    have hb2 : ∃ v2', M k2 = some v2' := by
      unfold bind_key at h2
      by_cases e : k2 = k
      · exact ⟨v0, by rw [e]; exact hM⟩
      · rw [if_neg e] at h2
        exact ⟨v2, h2⟩
    obtain ⟨v1', h1'⟩ := hb1
    obtain ⟨v2', h2'⟩ := hb2
    have := S.disjoint k1 v1' k2 v2' w1 r1 u1 w2 r2 u2 h1' h2' hne hl1 hl2
    rw [a1, a2, b1, b2]
    exact this

end single_trie

/-! ## The tail trie: a new leaf with its tail -/

namespace basic_trie

/-- The root of a trie with a non-empty word has a positive base. -/
theorem root_base_pos {tr : basic_trie} (h : tr.wf) {w : List Int} {u : Int} (hw : w ≠ [])
    (hwalk : tr.walk 1 w = some u) : 0 < tr.base 1 := by
  cases w with
  | nil => exact absurd rfl hw
  | cons x w =>
    rw [walk_cons] at hwalk
    cases hs : tr.step 1 x with
    | none => rw [hs] at hwalk; cases hwalk
    | some z =>
      rw [step_eq_some] at hs
      have := (h.link z (by omega)).1
      rw [hs.2.2.2.2] at this
      exact this

/-- The end of a non-empty word is not the root. -/
theorem walk_ne_root {tr : basic_trie} (h : tr.wf) {w : List Int} {u : Int} (hw : w ≠ [])
    (hwalk : tr.walk 1 w = some u) : u ≠ 1 := by
  intro e
  rw [e] at hwalk
  exact hw (walk_inj h w [] 1 hwalk rfl)

end basic_trie

namespace single_trie

/-- A fresh leaf `t` below the end of `pre`, with the rest of the key written
at `next_suffix_` and followed by the value, binds the key. -/
theorem stores_attach {st st' : single_trie} {M : key_type → Option Int} (S : st.stores M)
    {k : key_type} {pre : List Int} (tail : List Int) {s y t : Int} {tr1 : basic_trie}
    (hk : k.valid)
    (hK : k ++ [key_type.kTerminator] = pre ++ y :: tail)
    (hwalk : st.trie.walk 1 pre = some s) (hb : 0 ≤ st.trie.base s)
    (G : basic_trie.grown st.trie tr1 pre [y] t) (v : Int)
    (h1 : st'.trie = tr1.set_base t (-st.next_suffix))
    (h2 : ∀ i, i < st.next_suffix → st'.suffix i = st.suffix i)
    (h3 : st'.reads st.next_suffix tail)
    (h4 : st'.suffix (st.next_suffix + tail.length) = v)
    (h5 : st'.next_suffix = st.next_suffix + tail.length + 1) :
    st'.stores (bind_key M k v) := by
  have hn := S.next_pos
  have htl : tr1.live t := basic_trie.walk_live (basic_trie.live_root tr1) G.path
  obtain ⟨hwf', hsteps⟩ := basic_trie.set_base_leaf G.wf' htl G.leaf.1 (-st.next_suffix)
  have hwalks : ∀ w, st'.trie.walk 1 w = tr1.walk 1 w := by
    intro w
    rw [h1]
    exact basic_trie.walk_congr hsteps 1 w
  have hbase : ∀ a, st'.trie.base a = if a = t then -st.next_suffix else tr1.base a := by
    intro a
    rw [h1]
    rfl
  have habs : st.trie.walk 1 (pre ++ [y]) = none := G.absent [y] (by simp) (List.prefix_refl _)
  have htn : (0 : Int) ≤ tail.length := Int.natCast_nonneg _
  -- the leaves of the other keys stay
  have hold : ∀ k2 v2, M k2 = some v2 → k2 ≠ k → ∃ w r u u0, st'.leaf_of k2 w r u
      ∧ st.leaf_of k2 w r u0 ∧ st'.trie.base u = st.trie.base u0
      ∧ st.reads (-st.trie.base u0) r ∧ st.suffix (-st.trie.base u0 + r.length) = v2
      ∧ 1 ≤ -st.trie.base u0 ∧ -st.trie.base u0 + r.length < st.next_suffix := by
    intro k2 v2 hM2 _
    obtain ⟨w2, r2, u2, hl2, d1, d2, d3, d4⟩ := S.has k2 v2 hM2
    have hne : w2 ≠ pre := by
      intro e
      have := hl2.2.1
      rw [e, hwalk] at this
      simp only [Option.some.injEq] at this
      have hb2 := hl2.2.2
      rw [← this] at hb2
      omega
    obtain ⟨u', hu', hp⟩ := G.old w2 u2 hl2.2.1
    obtain ⟨hb', _⟩ := hp (leaf_childless S.wf hl2) hne
    have hut : u' ≠ t := by
      intro e
      rw [e] at hu'
      have := basic_trie.walk_inj G.wf' _ _ _ hu' G.path
      have h := hl2.2.1
      rw [this, habs] at h
      cases h
    have hbu : st'.trie.base u' = st.trie.base u2 := by
      rw [hbase, if_neg hut, hb']
    refine ⟨w2, r2, u', u2, ⟨hl2.1, by rw [hwalks]; exact hu', ?_⟩, hl2, hbu, d1, d2, d3, d4⟩
    rw [hbu]
    exact hl2.2.2
  apply stores_intro
    (fun k2 lo hi => (k2 = k ∧ lo = st.next_suffix)
      ∨ (k2 ≠ k ∧ ∃ w2 r2 u2, st.leaf_of k2 w2 r2 u2 ∧ lo = -st.trie.base u2
          ∧ hi = -st.trie.base u2 + r2.length ∧ hi < st.next_suffix))
    (by rw [h1]; exact hwf') (by omega)
  · intro k2 v2 hM2
    unfold bind_key at hM2
    by_cases e : k2 = k
    · rw [e]
      exact hk
    · rw [if_neg e] at hM2
      exact S.key_sym k2 v2 hM2
  · intro w u hw
    rw [hwalks] at hw
    rcases G.only w u hw with ⟨u0, hu0⟩ | ⟨q', hq', hpq, hwq⟩
    · rcases S.only w u0 hu0 with h0 | ⟨k2, v2, hM2, hp⟩
      · left; exact h0
      · right
        by_cases e : k2 = k
        · exact ⟨k2, v, by unfold bind_key; rw [if_pos e], hp⟩
        · exact ⟨k2, v2, by unfold bind_key; rw [if_neg e]; exact hM2, hp⟩
    · right
      refine ⟨k, v, by unfold bind_key; rw [if_pos rfl], ?_⟩
      rw [hwq, hK]
      exact (List.prefix_append_right_inj pre).mpr
        (hpq.trans ⟨tail, rfl⟩)
  · rw [hbase, if_neg (basic_trie.walk_ne_root G.wf' (by simp) G.path).symm]
    exact le_of_lt (basic_trie.root_base_pos G.wf' (by simp) G.path)
  · intro k2 v2 hM2
    unfold bind_key at hM2
    by_cases e : k2 = k
    · rw [if_pos e] at hM2
      simp only [Option.some.injEq] at hM2
      subst e
      have hbt : st'.trie.base t = -st.next_suffix := by
        rw [hbase, if_pos rfl]
      refine ⟨pre ++ [y], tail, t, ⟨?_, ?_, ?_⟩, ?_, ?_, ?_, ?_, st.next_suffix,
        st.next_suffix + tail.length, Or.inl ⟨rfl, rfl⟩, ?_, ?_⟩
      · rw [hK]
        simp
      · rw [hwalks]
        exact G.path
      · rw [hbt]
        omega
      · rw [hbt, neg_neg]
        exact h3
      · rw [hbt, neg_neg, h4, hM2]
      · rw [hbt]
        omega
      · rw [hbt, h5]
        omega
      · rw [hbt]
        omega
      · rw [hbt]
        omega
    · rw [if_neg e] at hM2
      obtain ⟨w2, r2, u, u0, hl', hl0, hbu, d1, d2, d3, d4⟩ := hold k2 v2 hM2 e
      have hrn : (0 : Int) ≤ r2.length := Int.natCast_nonneg _
      refine ⟨w2, r2, u, hl', ?_, ?_, ?_, ?_, -st.trie.base u0,
        -st.trie.base u0 + r2.length, Or.inr ⟨e, w2, r2, u0, hl0, rfl, rfl, d4⟩, ?_, ?_⟩
      · rw [hbu]
        apply reads_congr r2 _ _ d1
        intro i _ hi
        exact h2 i (by omega)
      · rw [hbu, h2 _ d4]
        exact d2
      · rw [hbu]
        exact d3
      · rw [hbu, h5]
        omega
      · rw [hbu]
      · rw [hbu]
  · rintro k1 v1 k2 v2 lo1 hi1 lo2 hi2 hM1 hM2 hne (⟨a1, a2⟩ | ⟨a1, w1, r1, u1, hl1, a2, a3, a4⟩)
      (⟨b1, b2⟩ | ⟨b1, w2, r2, u2, hl2, b2, b3, b4⟩)
    · exact absurd (a1.trans b1.symm) hne
    · right
      omega
    · left
      omega
    · unfold bind_key at hM1 hM2
      rw [if_neg a1] at hM1
      rw [if_neg b1] at hM2
      have := S.disjoint k1 v1 k2 v2 w1 r1 u1 w2 r2 u2 hM1 hM2 hne hl1 hl2
      omega

end single_trie

/-! ## The tail trie: splitting a tail -/

namespace basic_trie

/-- No word leaves a childless state. -/
theorem walk_none_of_childless {tr : basic_trie} {pre : List Int} {s : Int}
    (hpre : tr.walk 1 pre = some s) (hch : tr.childless s) (q : List Int) (hq : q ≠ []) :
    tr.walk 1 (pre ++ q) = none := by
  cases h : tr.walk 1 (pre ++ q) with
  | none => rfl
  | some u =>
    exfalso
    obtain ⟨b, hb1, hb2⟩ := walk_prefix h
    rw [hpre] at hb1
    simp only [Option.some.injEq] at hb1
    rw [← hb1] at hb2
    exact hq (walk_childless hch hb2)

/-- A trie is grown by the empty path below a childless state of base `0`. -/
theorem grown_refl {tr : basic_trie} (h : tr.wf) {pre : List Int} {s : Int}
    (hpre : tr.walk 1 pre = some s) (hch : tr.childless s) (hb : tr.base s = 0) :
    grown tr tr pre [] s := by
  refine ⟨h, ?_, ?_, ?_, ?_, ⟨hch, hb⟩⟩
  · intro q' hq' hpq
    exact absurd (List.prefix_nil.mp hpq) hq'
  · intro w u hw
    exact ⟨u, hw, fun hc _ => ⟨rfl, hc⟩⟩
  · rw [List.append_nil]
    exact hpre
  · intro w u' hw
    left
    exact ⟨u', hw⟩

/-- Growth from a trie with the same edges and the same bases, the base of
the end of `pre` apart. -/
theorem grown_congr {tr trS trA : basic_trie} (h : tr.wf) {pre q : List Int} {s t : Int}
    (hpre : tr.walk 1 pre = some s)
    (hs : ∀ a x, trS.step a x = tr.step a x) (hc : trS.check = tr.check)
    (hb : ∀ a, a ≠ s → trS.base a = tr.base a) (G : grown trS trA pre q t) :
    grown tr trA pre q t := by
  have hw := fun w => walk_congr hs 1 w
  refine ⟨G.wf', ?_, ?_, G.path, ?_, G.leaf⟩
  · intro q' hq' hpq
    rw [← hw]
    exact G.absent q' hq' hpq
  · intro w u hwu
    obtain ⟨u', hu', hp⟩ := G.old w u (by rw [hw]; exact hwu)
    refine ⟨u', hu', ?_⟩
    intro hch hne
    obtain ⟨h1, h2⟩ := hp ((childless_congr hc u).mpr hch) hne
    refine ⟨?_, h2⟩
    rw [h1]
    apply hb
    intro e
    rw [e] at hwu
    exact hne (walk_inj h _ _ _ hwu hpre)
  · intro w u' hwu
    rcases G.only w u' hwu with ⟨u, hu⟩ | h2
    · left
      rw [hw] at hu
      exact ⟨u, hu⟩
    · right
      exact h2

/-- Growing by a path, possibly empty, and then by a second path below its end. -/
theorem grown_append {tr tr1 tr2 : basic_trie} {pre q1 q2 : List Int} {t1 t2 : Int}
    (G1 : grown tr tr1 pre q1 t1) (G2 : grown tr1 tr2 (pre ++ q1) q2 t2)
    (habs : ∀ q', q' ≠ [] → tr.walk 1 (pre ++ q') = none) :
    grown tr tr2 pre (q1 ++ q2) t2 := by
  refine ⟨G2.wf', ?_, ?_, ?_, ?_, G2.leaf⟩
  · intro q' hq' _
    exact habs q' hq'
  · intro w u hw
    obtain ⟨u1, hu1, hp1⟩ := G1.old w u hw
    obtain ⟨u2, hu2, hp2⟩ := G2.old w u1 hu1
    refine ⟨u2, hu2, ?_⟩
    intro hch hwp
    obtain ⟨hb1, hc1⟩ := hp1 hch hwp
    have hne : w ≠ pre ++ q1 := by
      intro e
      by_cases hq1 : q1 = []
      · rw [hq1, List.append_nil] at e
        exact hwp e
      · rw [e, habs q1 hq1] at hw
        cases hw
    obtain ⟨hb2, hc2⟩ := hp2 hc1 hne
    exact ⟨by rw [hb2, hb1], hc2⟩
  · have := G2.path
    rw [List.append_assoc] at this
    exact this
  · intro w u' hw
    rcases G2.only w u' hw with ⟨u1, hu1⟩ | ⟨q', hq', hpq, hwq⟩
    · rcases G1.only w u1 hu1 with ⟨u, hu⟩ | ⟨q', hq', hpq, hwq⟩
      · left; exact ⟨u, hu⟩
      · right
        exact ⟨q', hq', hpq.trans (List.prefix_append q1 q2), hwq⟩
    · right
      refine ⟨q1 ++ q', ?_, ?_, ?_⟩
      · intro e
        exact hq' (List.append_eq_nil.mp e).2
      · exact (List.prefix_append_right_inj q1).mpr hpq
      · rw [hwq, List.append_assoc]

end basic_trie

namespace single_trie

/-- The first part of `create_branch` (lines 849-862): the leaf `s` gets a
base for the common string and the common string is threaded below it. -/
theorem branch_stem {tr : basic_trie} (h : tr.wf) {pre : List Int} {s : Int}
    (hpre : tr.walk 1 pre = some s) (hch : tr.childless s) (C : List Int)
    (hC : ∀ c ∈ C, 1 ≤ c ∧ c ≤ 257) :
    ∃ trA s1,
      (if C ≠ [] then
        match tr.find_base C (C.foldl extremum_type.add ⟨0, 0⟩) with
        | .error f => .error f
        | .ok (tr1, b) => common_transitions C (tr1.set_base s b) s
      else (.ok (tr.set_base s 0, s) : Except fault (basic_trie × Int))) = .ok (trA, s1)
      ∧ basic_trie.grown tr trA pre C s1 := by
  have hsl : tr.live s := basic_trie.walk_live (basic_trie.live_root tr) hpre
  by_cases hne : C ≠ []
  · rw [if_pos hne]
    have hcov := basic_trie.covers_foldl C (fun c hc => (hC c hc).1) ⟨0, 0⟩ []
      ⟨le_refl _, le_refl _, by simp⟩
    obtain ⟨trf, b, hfb, f1, f2, f3, f4, f5, f6, _, _⟩ :=
      basic_trie.find_base_spec h C (C.foldl extremum_type.add ⟨0, 0⟩) hcov.1 hcov.2.1
        (fun c hc => by have := (hC c hc).1; omega)
    rw [hfb]
    simp only []
    have hwff : trf.wf := basic_trie.wf_of_cells h f1 f2 f3 f4 f5
    have hstepf := basic_trie.step_of_cells h hwff f1 f2
    have hslf : trf.live s := (basic_trie.live_congr f2 s).mpr hsl
    have hchf : trf.childless s := (basic_trie.childless_congr f2 s).mpr hch
    obtain ⟨hwfS, hstepS⟩ := basic_trie.set_base_leaf hwff hslf hchf b
    have hsteps : ∀ a x, (trf.set_base s b).step a x = tr.step a x := by
      intro a x
      rw [hstepS, hstepf]
    have hpreS : (trf.set_base s b).walk 1 pre = some s := by
      rw [basic_trie.walk_congr hsteps]
      exact hpre
    obtain ⟨trA, s1, hct, G⟩ := common_transitions_spec C (trf.set_base s b) s pre hne hC hwfS
      hpreS (by simp only [basic_trie.set_base_base, eq_self_iff_true, if_true]; omega)
      (by rw [hsteps]; exact basic_trie.childless_step hch _)
    refine ⟨trA, s1, hct, ?_⟩
    apply basic_trie.grown_congr h hpre hsteps (by simp only [basic_trie.set_base_check]; exact f2)
      _ G
    intro a ha
    simp only [basic_trie.set_base_base]
    rw [if_neg ha, f1]
  · rw [if_neg hne]
    have hC0 : C = [] := not_not.mp hne
    subst hC0
    refine ⟨_, s, rfl, ?_⟩
    obtain ⟨hwfS, hstepS⟩ := basic_trie.set_base_leaf h hsl hch 0
    have hpreS : (tr.set_base s 0).walk 1 pre = some s := by
      rw [basic_trie.walk_congr hstepS]
      exact hpre
    apply basic_trie.grown_congr h hpre hstepS (by simp only [basic_trie.set_base_check]) _
      (basic_trie.grown_refl hwfS hpreS
        ((basic_trie.childless_congr (by simp only [basic_trie.set_base_check]) s).mpr hch)
        (by simp only [basic_trie.set_base_base, eq_self_iff_true, if_true]))
    intro a ha
    simp only [basic_trie.set_base_base]
    rw [if_neg ha]

/-- The leaf of a bound key moved to the end of a fresh path along the
beginning of its tail: the tail trie stores the same map. -/
theorem stores_move {st : single_trie} {M : key_type → Option Int} (S : st.stores M)
    {k' : key_type} {v' : Int} (hM : M k' = some v') {pre C r2 : List Int} {s x t : Int}
    (hl : st.leaf_of k' pre (C ++ x :: r2) s) {tr2 : basic_trie}
    (G : basic_trie.grown st.trie tr2 pre (C ++ [x]) t) :
    ({ st with trie := tr2.set_base t (-(-st.trie.base s + C.length + 1)) } :
      single_trie).stores M := by
  obtain ⟨w0, r0, u0, hl0, c1, c2, c3, c4⟩ := S.has k' v' hM
  obtain ⟨e1, e2, e3⟩ := leaf_unique S.wf hl hl0
  subst e1 e2 e3
  clear hl0
  have hn := S.next_pos
  have hCn : (0 : Int) ≤ C.length := Int.natCast_nonneg _
  have hrn : (0 : Int) ≤ r2.length := Int.natCast_nonneg _
  have htl : tr2.live t := basic_trie.walk_live (basic_trie.live_root tr2) G.path
  obtain ⟨hwf', hsteps⟩ := basic_trie.set_base_leaf G.wf' htl G.leaf.1
    (-(-st.trie.base s + C.length + 1))
  have hwalks := fun w => basic_trie.walk_congr hsteps 1 w
  have habs : st.trie.walk 1 (pre ++ (C ++ [x])) = none :=
    G.absent (C ++ [x]) (by simp) (List.prefix_refl _)
  have hne_nil : pre ++ (C ++ [x]) ≠ [] := by simp
  apply stores_intro
    (fun k2 lo hi => ∃ w2 r2 u2, st.leaf_of k2 w2 r2 u2 ∧ lo = -st.trie.base u2
      ∧ hi = -st.trie.base u2 + r2.length)
    (by exact hwf') (by exact S.next_pos) S.key_sym
  · intro w u hw
    simp only [] at hw
    rw [hwalks] at hw
    rcases G.only w u hw with ⟨u1, hu1⟩ | ⟨q', hq', hpq, hwq⟩
    · exact S.only w u1 hu1
    · right
      refine ⟨k', v', hM, ?_⟩
      rw [hwq, hl.1]
      exact (List.prefix_append_right_inj pre).mpr
        (hpq.trans ⟨r2, by simp⟩)
  · simp only [basic_trie.set_base_base]
    rw [if_neg (basic_trie.walk_ne_root G.wf' hne_nil G.path).symm]
    exact le_of_lt (basic_trie.root_base_pos G.wf' hne_nil G.path)
  · intro k2 v2 hM2
    by_cases e : k2 = k'
    · subst e
      rw [hM] at hM2
      simp only [Option.some.injEq] at hM2
      simp only [List.length_append, List.length_cons, Nat.cast_add, Nat.cast_one] at c2 c4
      rw [reads_append] at c1
      refine ⟨pre ++ (C ++ [x]), r2, t, ⟨?_, ?_, ?_⟩, ?_, ?_, ?_, ?_, -st.trie.base s,
        -st.trie.base s + (C ++ x :: r2).length, ⟨pre, C ++ x :: r2, s, hl, rfl, rfl⟩, ?_, ?_⟩
      · rw [hl.1]
        simp
      · simp only []
        rw [hwalks]
        exact G.path
      · simp only [basic_trie.set_base_base, eq_self_iff_true, if_true]
        omega
      · simp only [basic_trie.set_base_base, eq_self_iff_true, if_true, neg_neg]
        exact @reads_congr st _ r2 _ (fun _ _ _ => rfl) c1.2.2
      · simp only [basic_trie.set_base_base, eq_self_iff_true, if_true, neg_neg]
        rw [← hM2, ← c2]
        congr 1
        omega
      · simp only [basic_trie.set_base_base, eq_self_iff_true, if_true]
        omega
      · simp only [basic_trie.set_base_base, eq_self_iff_true, if_true, neg_neg]
        omega
      · simp only [basic_trie.set_base_base, eq_self_iff_true, if_true, neg_neg]
        omega
      · simp only [basic_trie.set_base_base, eq_self_iff_true, if_true, neg_neg,
          List.length_append, List.length_cons, Nat.cast_add, Nat.cast_one]
        omega
    · obtain ⟨w2, r2', u2, hl2, d1, d2, d3, d4⟩ := S.has k2 v2 hM2
      have hdis := S.disjoint k2 v2 k' v' w2 r2' u2 pre (C ++ x :: r2) s hM2 hM e hl2 hl
      have hrn2 : (0 : Int) ≤ r2'.length := Int.natCast_nonneg _
      have hrn3 : (0 : Int) ≤ (C ++ x :: r2).length := Int.natCast_nonneg _
      have hne : w2 ≠ pre := by
        intro e2
        have := hl2.2.1
        rw [e2, hl.2.1] at this
        simp only [Option.some.injEq] at this
        rw [this] at hdis
        omega
      obtain ⟨u', hu', hp⟩ := G.old w2 u2 hl2.2.1
      obtain ⟨hb', _⟩ := hp (leaf_childless S.wf hl2) hne
      have hut : u' ≠ t := by
        intro e2
        rw [e2] at hu'
        have := basic_trie.walk_inj G.wf' _ _ _ hu' G.path
        have h := hl2.2.1
        rw [this, habs] at h
        cases h
      have hbu : (tr2.set_base t (-(-st.trie.base s + C.length + 1))).base u'
          = st.trie.base u2 := by
        simp only [basic_trie.set_base_base]
        rw [if_neg hut, hb']
      refine ⟨w2, r2', u', ⟨hl2.1, ?_, ?_⟩, ?_, ?_, ?_, ?_, -st.trie.base u2,
        -st.trie.base u2 + r2'.length, ⟨w2, r2', u2, hl2, rfl, rfl⟩, ?_, ?_⟩
      · simp only []
        rw [hwalks]
        exact hu'
      · simp only []
        rw [hbu]
        exact hl2.2.2
      · simp only []
        rw [hbu]
        exact @reads_congr st _ r2' _ (fun _ _ _ => rfl) d1
      · simp only []
        rw [hbu]
        exact d2
      · simp only []
        rw [hbu]
        exact d3
      · simp only []
        rw [hbu]
        exact d4
      · simp only []
        rw [hbu]
      · simp only []
        rw [hbu]
  · rintro k1 v1 k2 v2 lo1 hi1 lo2 hi2 h1 h2 hne ⟨w1, r1, u1, hl1, a1, a2⟩
      ⟨w2, r2, u2, hl2, b1, b2⟩
    have := S.disjoint k1 v1 k2 v2 w1 r1 u1 w2 r2 u2 h1 h2 hne hl1 hl2
    rw [a1, a2, b1, b2]
    exact this

end single_trie

/-! ## The tail trie: `insert` -/

namespace single_trie

/-- The tail of a leaf of a valid key ends in the terminator. -/
theorem tail_terminated {st : single_trie} {k : key_type} {pre r : List Int} {s : Int}
    (hl : st.leaf_of k pre r s) (hk : k.valid) (hpre : key_type.kTerminator ∉ pre) :
    ∃ r0, r = r0 ++ [key_type.kTerminator] ∧ k = pre ++ r0 ∧ key_type.kTerminator ∉ r0 := by
  have hno := key_type.terminator_not_mem hk
  rcases List.eq_nil_or_concat r with hnil | ⟨L, y, hL⟩
  · exfalso
    have e := hl.1
    rw [hnil, List.append_nil] at e
    apply hpre
    rw [← e]
    simp
  · rw [List.concat_eq_append] at hL
    have h1 := hl.1
    rw [hL, ← List.append_assoc] at h1
    have h2 := List.append_inj' h1 rfl
    have hy : y = key_type.kTerminator := by
      have := h2.2
      simp only [List.cons.injEq, and_true] at this
      exact this.symm
    refine ⟨L, by rw [hL, hy], h2.1, ?_⟩
    intro hm
    apply hno
    rw [h2.1]
    exact List.mem_append_right _ hm

theorem deref_range {k : key_type} (hk : k.valid) {pre p : List Int} (hpre : k = pre ++ p) :
    1 ≤ deref p ∧ deref p ≤ 257 := by
  cases p with
  | nil => simp [deref, key_type.kTerminator]
  | cons c p =>
    have := hk c (by rw [hpre]; simp)
    simp only [deref, List.headD_cons]
    omega

/-- The end of `insert` and of `create_branch`: a new edge on the next symbol
of the key, a leaf at its end, and the rest of the key with the value in the
suffix array. -/
theorem insert_leaf_spec {st : single_trie} {M : key_type → Option Int} (S : st.stores M)
    {k : key_type} {pre p : List Int} {s : Int} (hk : k.valid) (hpre : k = pre ++ p)
    (hwalk : st.trie.walk 1 pre = some s) (hb : 0 ≤ st.trie.base s)
    (hstep : st.trie.step s (deref p) = none) (v : Int) :
    ∃ tr1 t moved, st.trie.create_transition s (deref p) = .ok (tr1, t, moved)
      ∧ (match p with
        | [] => ({ ({ st with trie := tr1.set_base t (-st.next_suffix) } :
            single_trie).set_suffix st.next_suffix v with
              next_suffix := st.next_suffix + 1 } : single_trie)
        | _ :: rest => insert_suffix { st with trie := tr1 } t rest v).stores
          (bind_key M k v) := by
  have hsl : st.trie.live s := basic_trie.walk_live (basic_trie.live_root _) hwalk
  have hy := deref_range hk hpre
  obtain ⟨tr1, t, moved, ρ, hct, Csim⟩ :=
    basic_trie.create_transition_spec S.wf hsl hb hy.1 hy.2
  have G := basic_trie.grown_of_ct S.wf Csim hstep hwalk
  refine ⟨tr1, t, moved, hct, ?_⟩
  cases p with
  | nil =>
    simp only []
    refine stores_attach S [] hk ?_ hwalk hb G v rfl ?_ trivial ?_ ?_
    · rw [hpre]
      simp [deref]
    · intro i hi
      simp only [set_suffix_suffix]
      rw [if_neg (by omega)]
    · simp only [set_suffix_suffix, List.length_nil, Nat.cast_zero, add_zero, eq_self_iff_true,
        if_true]
    · simp only [List.length_nil, Nat.cast_zero, add_zero]
  | cons c rest =>
    simp only []
    obtain ⟨l1, l2, l3, l4⟩ := insert_suffix_loop_spec rest
      { st with trie := tr1.set_base t (-st.next_suffix) }
    simp only [] at l1 l2 l3 l4
    refine stores_attach S (rest ++ [key_type.kTerminator]) hk ?_ hwalk hb G v ?_ ?_ ?_
      ?_ ?_
    · rw [hpre]
      simp [deref]
    · simp only [insert_suffix, set_suffix_trie]
      exact l1
    · intro i hi
      simp only [insert_suffix, set_suffix_suffix]
      rw [l2, if_neg (by have : (0 : Int) ≤ rest.length := Int.natCast_nonneg _; omega)]
      exact l3 i hi
    · apply reads_congr _ _ _ l4
      intro i _ hi
      simp only [List.length_append, List.length_singleton, Nat.cast_add, Nat.cast_one] at hi
      simp only [insert_suffix, set_suffix_suffix]
      rw [l2, if_neg (by omega)]
    · simp only [insert_suffix, set_suffix_suffix, List.length_append, List.length_singleton,
        Nat.cast_add, Nat.cast_one]
      rw [l2, if_pos (by omega)]
    · simp only [insert_suffix, List.length_append, List.length_singleton,
        Nat.cast_add, Nat.cast_one]
      rw [l2]
      omega

end single_trie

/-! ## The tail trie: `insert` keeps the stored map -/

namespace single_trie

/-- A write to `suffix_` without a capacity test either falls outside the
array or stores the value. -/
theorem write_suffix_cases (st : single_trie) (i v : Int) :
    st.write_suffix i v = .error .out_of_bounds ∨ st.write_suffix i v = .ok (st.set_suffix i v) := by
  unfold write_suffix
  by_cases h : 0 ≤ i ∧ i < st.suffix_size
  · rw [if_pos h]
    exact Or.inr rfl
  · rw [if_neg h]
    exact Or.inl rfl

/-- The function `create_branch` on the leaf `s` of a bound key: unless a
write falls outside `suffix_`, the new key is bound, by overwriting the value
when it is the key of the leaf, by splitting the tail otherwise. -/
theorem create_branch_spec {st : single_trie} {M : key_type → Option Int} (S : st.stores M)
    {k : key_type} (hk : k.valid) {pre p : List Int} {s : Int} (hpre : k = pre ++ p)
    (hwalk : st.trie.walk 1 pre = some s) (hb : st.trie.base s < 0) (v : Int) :
    st.create_branch s p v = .error .out_of_bounds
      ∨ ∃ st', st.create_branch s p v = .ok st' ∧ st'.stores (bind_key M k v) := by
  have hnoterm := key_type.terminator_not_mem hk
  have hpre_no : key_type.kTerminator ∉ pre := by
    intro hm
    apply hnoterm
    rw [hpre]
    exact List.mem_append_left _ hm
  have hp_no : key_type.kTerminator ∉ p := by
    intro hm
    apply hnoterm
    rw [hpre]
    exact List.mem_append_right _ hm
  -- the leaf belongs to a bound key
  rcases S.only _ _ hwalk with h0 | ⟨k', v', hM, hp⟩
  · exfalso
    subst h0
    simp only [basic_trie.walk_nil, Option.some.injEq] at hwalk
    rw [← hwalk] at hb
    have := S.root_base
    omega
  obtain ⟨r, hl, h1, h2, h3, h4⟩ := stores_leaf S hM hwalk hb hp
  have hk'v := S.key_sym k' v' hM
  obtain ⟨r0, hr0, hk'eq, hr0_no⟩ := tail_terminated hl hk'v hpre_no
  subst hr0
  have hsl : st.trie.live s := basic_trie.walk_live (basic_trie.live_root _) hwalk
  have hchs : st.trie.childless s := leaf_childless S.wf hl
  unfold create_branch
  cases hcl : common_loop st p [] ⟨0, 0⟩ (-st.trie.base s) with
  | duplicate e =>
    simp only []
    obtain ⟨a1, a2⟩ := (common_loop_spec st p [] ⟨0, 0⟩ (-st.trie.base s)).1 e hcl
    have hpr := reads_unique st p r0 _ a1 h1 hp_no hr0_no
    subst hpr
    have hkk : k = k' := by rw [hpre, hk'eq]
    subst hkk
    rcases write_suffix_cases st e v with hw | hw
    · exact Or.inl hw
    right
    refine ⟨_, hw, ?_⟩
    have := stores_overwrite S hM hl v
    simp only [List.length_append, List.length_singleton, Nat.cast_add, Nat.cast_one] at this
    rw [a2]
    have e2 : -st.trie.base s + (p.length : Int) + 1 = -st.trie.base s + ((p.length : Int) + 1) := by
      omega
    rw [e2]
    exact this
  | differ C E e p' =>
    simp only []
    obtain ⟨c2, b1, b2, b3, b4, b5, b6⟩ :=
      (common_loop_spec st p [] ⟨0, 0⟩ (-st.trie.base s)).2 C E e p' hcl
    simp only [List.nil_append] at b1
    subst b1
    have hC_no : key_type.kTerminator ∉ C := by
      intro hm
      apply hp_no
      rw [b2]
      exact List.mem_append_left _ hm
    obtain ⟨r2, hr2⟩ := reads_split st C r0 _ b3 h1 hC_no
    rw [← b4] at hr2
    have hl' : st.leaf_of k' pre (C ++ st.suffix e :: r2) s := by
      rw [← hr2]
      exact hl
    have hC : ∀ c ∈ C, 1 ≤ c ∧ c ≤ 257 := by
      intro c hc
      have := hk c (by rw [hpre, b2]; simp [hc])
      omega
    have hx : 1 ≤ st.suffix e ∧ st.suffix e ≤ 257 := by
      have hmem : st.suffix e ∈ r0 ++ [key_type.kTerminator] := by
        rw [hr2]
        simp
      rcases List.mem_append.mp hmem with hm | hm
      · have := hk'v _ (by rw [hk'eq]; exact List.mem_append_right _ hm)
        omega
      · simp only [List.mem_singleton] at hm
        rw [hm]
        simp [key_type.kTerminator]
    -- the stem
    obtain ⟨trA, s1, hr, GA⟩ := branch_stem S.wf hwalk hchs C hC
    rw [b6]
    erw [hr]
    simp only []
    -- the twig of the old key
    have hs1l : trA.live s1 := basic_trie.walk_live (basic_trie.live_root _) GA.path
    obtain ⟨tr2, t, moved, ρ, hct, Csim⟩ :=
      basic_trie.create_transition_spec GA.wf' hs1l (by rw [GA.leaf.2]) hx.1 hx.2
    have hnew : trA.step s1 (st.suffix e) = none := basic_trie.childless_step GA.leaf.1 _
    have G2 := basic_trie.grown_of_ct GA.wf' Csim hnew GA.path
    obtain ⟨hw1, hst1⟩ := basic_trie.ct_start Csim GA.path GA.leaf.1
    have habs := basic_trie.walk_none_of_childless hwalk hchs
    have GG := basic_trie.grown_append GA G2 habs
    rw [hct]
    simp only []
    have S2 := stores_move S hM hl' GG
    rw [← b4] at S2
    -- the state below which the two twigs hang
    have htl : tr2.live t := basic_trie.walk_live (basic_trie.live_root tr2) GG.path
    obtain ⟨_, hsteps⟩ := basic_trie.set_base_leaf GG.wf' htl GG.leaf.1 (-(e + 1))
    have hwB : (tr2.set_base t (-(e + 1))).walk 1 (pre ++ C) = some s1 := by
      rw [basic_trie.walk_congr hsteps]
      exact hw1
    have hst1' := hst1
    rw [basic_trie.step_eq_some] at hst1'
    have hs1t : s1 ≠ t := by
      intro e2
      have := GG.wf'.no_self t (by omega)
      rw [hst1'.2.2.2.2] at this
      exact this e2
    have hbB : 0 ≤ (tr2.set_base t (-(e + 1))).base s1 := by
      simp only [basic_trie.set_base_base]
      rw [if_neg hs1t]
      have := (GG.wf'.link t (by omega)).1
      rw [hst1'.2.2.2.2] at this
      omega
    have hstepB : (tr2.set_base t (-(e + 1))).step s1 (deref p') = none := by
      rw [hsteps]
      cases hz : tr2.step s1 (deref p') with
      | none => rfl
      | some z =>
        exfalso
        have hwz : tr2.walk 1 ((pre ++ C) ++ [deref p']) = some z :=
          basic_trie.walk_snoc.mpr ⟨s1, hw1, hz⟩
        rcases GG.only _ _ hwz with ⟨u, hu⟩ | ⟨q', _, hpq, hwq⟩
        · rw [List.append_assoc, habs (C ++ [deref p']) (by simp)] at hu
          cases hu
        · rw [List.append_assoc] at hwq
          have hq := List.append_cancel_left hwq
          rw [← hq] at hpq
          have := List.IsPrefix.eq_of_length hpq (by simp)
          have := List.append_cancel_left this
          simp only [List.cons.injEq, and_true] at this
          exact b5 this.symm
    have hkB : k = (pre ++ C) ++ p' := by
      rw [hpre, b2, List.append_assoc]
    obtain ⟨tr3, t3, moved3, hct3, S3⟩ := insert_leaf_spec S2 hk hkB hwB hbB hstepB v
    simp only [] at hct3
    rw [hct3]
    simp only []
    cases p' with
    | nil =>
      rcases write_suffix_cases
        ({ st with trie := tr3.set_base t3 (-st.next_suffix) } : single_trie) st.next_suffix v
        with hw | hw
      · left
        simp only [] at hw ⊢
        rw [hw]
      · right
        simp only [] at hw ⊢
        rw [hw]
        exact ⟨_, rfl, S3⟩
    | cons c rest => exact Or.inr ⟨_, rfl, S3⟩

/-- The body of `single_trie::insert` either writes outside `suffix_` or
returns a tail trie that stores the map with the key bound to the value. -/
theorem insert_core_spec {st : single_trie} {M : key_type → Option Int} (S : st.stores M)
    {k : key_type} (hk : k.valid) (v : Int) :
    st.insert_core k v = .error .out_of_bounds
      ∨ ∃ st', st.insert_core k v = .ok st' ∧ st'.stores (bind_key M k v) := by
  unfold insert_core
  rw [key_type.data_valid hk]
  rcases hgf : st.trie.go_forward 1 k with ⟨s, p⟩
  simp only []
  by_cases hb : st.trie.base s < 0
  · rw [if_pos hb]
    cases p with
    | none =>
      simp only []
      have hw := (basic_trie.go_forward_spec st.trie 1 k).1 s hgf
      rcases S.only _ _ hw with h0 | ⟨k', v', hM, hp⟩
      · simp at h0
      · have hkk := key_type.eq_of_prefix (S.key_sym k' v' hM) hp
        subst hkk
        obtain ⟨r, hl, _⟩ := stores_leaf S hM hw hb (List.prefix_refl _)
        have hr : r = [] := by
          have := hl.1
          simpa using this
        subst hr
        rcases write_suffix_cases st (-st.trie.base s) v with hw | hw
        · exact Or.inl hw
        right
        refine ⟨_, hw, ?_⟩
        have := stores_overwrite S hM hl v
        simp only [List.length_nil, Nat.cast_zero, add_zero] at this
        exact this
    | some p =>
      simp only []
      obtain ⟨pre, hpre, hwalk, _⟩ := (basic_trie.go_forward_spec st.trie 1 k).2 s p hgf
      exact create_branch_spec S hk hpre hwalk hb v
  · rw [if_neg hb]
    cases p with
    | none =>
      exfalso
      have hw := (basic_trie.go_forward_spec st.trie 1 k).1 s hgf
      rcases S.only _ _ hw with h0 | ⟨k', v', hM, hp⟩
      · simp at h0
      · obtain ⟨w, r, u, hl, _⟩ := S.has k' v' hM
        have hpw : w <+: k ++ [key_type.kTerminator] := by
          have hkk := key_type.eq_of_prefix (S.key_sym k' v' hM) hp
          rw [hkk]
          exact ⟨r, hl.1.symm⟩
        obtain ⟨x, hx⟩ := hpw
        rw [← hx] at hw
        obtain ⟨b, hb1, hb2⟩ := basic_trie.walk_prefix hw
        rw [hl.2.1] at hb1
        simp only [Option.some.injEq] at hb1
        rw [← hb1] at hb2
        have := basic_trie.walk_childless (leaf_childless S.wf hl) hb2
        rw [this] at hb2
        simp only [basic_trie.walk_nil, Option.some.injEq] at hb2
        rw [← hb2] at hb
        exact hb hl.2.2
    | some p =>
      simp only []
      obtain ⟨pre, hpre, hwalk, hstep⟩ := (basic_trie.go_forward_spec st.trie 1 k).2 s p hgf
      obtain ⟨tr1, t, moved, hct, S1⟩ :=
        insert_leaf_spec S hk hpre hwalk (by omega) hstep v
      rw [hct]
      simp only []
      cases p with
      | nil =>
        rcases write_suffix_cases
          ({ st with trie := tr1.set_base t (-st.next_suffix) } : single_trie) st.next_suffix v
          with hw | hw
        · left
          simp only [] at hw ⊢
          rw [hw]
        · right
          simp only [] at hw ⊢
          rw [hw]
          exact ⟨_, rfl, S1⟩
      | cons c rest => exact Or.inr ⟨_, rfl, S1⟩

/-- The function `single_trie::insert` either writes outside `suffix_` or
completes and binds the key. -/
theorem tail_insert_spec {st : single_trie} {M : key_type → Option Int} (S : st.stores M)
    {k : key_type} (hk : k.valid) (v : Int) :
    st.insert k v = .crashed .out_of_bounds
      ∨ ∃ st', st.insert k v = .done st' ∧ st'.stores (bind_key M k v) := by
  rcases insert_core_spec S hk v with h1 | ⟨st', h1, h2⟩
  · left
    unfold insert
    rw [h1]
  · right
    refine ⟨st', ?_, h2⟩
    unfold insert
    rw [h1]

/-- A fresh tail trie stores nothing. -/
theorem tail_stores_create (size : Int) : (create size).stores (fun _ => none) := by
  have B := basic_trie.stores_create size
  refine ⟨B.wf, le_refl _, ?_, ?_, B.only, ?_, B.root_base⟩
  · intro k v h
    cases h
  · intro k v h
    cases h
  · intro k1 v1 k2 v2 w1 r1 u1 w2 r2 u2 h
    cases h

/-- A sequence of `insert` calls on a tail trie either stops at a write
outside `suffix_`, or completes and binds every key to its last value. -/
theorem tail_insert_all_spec :
    ∀ (seq : List (List (Fin 256) × Int)) (st : single_trie) (M : key_type → Option Int),
      st.stores M →
      st.insert_all (calls seq) = .crashed .out_of_bounds
        ∨ ∃ st', st.insert_all (calls seq) = .done st' ∧ st'.stores (bind_all M seq) := by
  intro seq
  induction seq with
  | nil =>
    intro st M S
    exact Or.inr ⟨st, rfl, S⟩
  | cons e rest ih =>
    intro st M S
    rcases tail_insert_spec S (key_type.valid_assign e.1) e.2 with h1 | ⟨st1, h1, S1⟩
    · left
      simp only [calls, List.map_cons, single_trie.insert_all]
      rw [h1]
    rcases ih st1 (bind_key M (key_type.assign e.1) e.2) S1 with h2 | ⟨st', h2, S2⟩
    · left
      simp only [calls, List.map_cons, single_trie.insert_all]
      rw [h1]
      exact h2
    · right
      refine ⟨st', ?_, S2⟩
      simp only [calls, List.map_cons, single_trie.insert_all]
      rw [h1]
      exact h2

end single_trie

/-! ## Sequences of inserts -/

theorem last_insert_of_occurs {seq : List (List (Fin 256) × Int)} {k : List (Fin 256)}
    (hk : k ∈ seq.map (fun e => e.1)) : ∃ v, last_insert seq k = some v := by
  induction seq with
  | nil => cases hk
  | cons e rest ih =>
    rw [last_insert_cons]
    cases h : last_insert rest k with
    | some v => exact ⟨v, rfl⟩
    | none =>
      simp only []
      by_cases he : e.1 = k
      · rw [if_pos he]
        exact ⟨e.2, rfl⟩
      · exfalso
        rw [List.map_cons, List.mem_cons] at hk
        rcases hk with h1 | h1
        · exact he h1.symm
        · obtain ⟨v, hv⟩ := ih h1
          rw [hv] at h
          cases h

theorem calls_regress_pairs : calls regress_pairs = regress_dict := rfl

/-! ## Further facts about the basic trie and the suffix array -/

namespace basic_trie

/-- The function `insert` on a key the trie stores: `go_forward` consumes the
whole key and the loop reads through the null pointer. -/
theorem insert_bound_null {tr : basic_trie} {M : key_type → Option Int} (S : stores tr M)
    {k : key_type} {v : Int} (hM : M k = some v) {v2 : Int} (hv : 1 ≤ v2) :
    tr.insert k v2 = .crashed .null_dereference := by
  have hk := S.key_sym k v hM
  unfold insert
  rw [if_neg (by omega), key_type.data_valid hk]
  rcases hgf : tr.go_forward 1 k with ⟨s, _ | p⟩
  · rfl
  · exfalso
    obtain ⟨pre, hpre, hwalk, hstep⟩ := (go_forward_spec tr 1 k).2 s p hgf
    obtain ⟨u, hu, _⟩ := S.has k v hM
    rw [hpre, List.append_assoc] at hu
    obtain ⟨b, hb1, hb2⟩ := walk_prefix hu
    rw [hwalk] at hb1
    simp only [Option.some.injEq] at hb1
    rw [← hb1, walk_deref_none hstep] at hb2
    cases hb2

/-- Every candidate the scan of `find_base` passes over fails the test. -/
theorem find_base_loop_least (inputs : List Int) (e : extremum_type) (chk : Int → Int) :
    ∀ (fuel : Nat) (tr : basic_trie) (i : Int) (tr' : basic_trie) (b : Int),
      tr.check = chk → find_base_loop inputs e fuel tr i = .ok (tr', b) →
      ∀ j, i < j → j < b →
        ¬ (chk (j + e.min) ≤ 0 ∧ chk (j + e.max) ≤ 0 ∧ ∀ c ∈ inputs, chk (j + c) ≤ 0) := by
  intro fuel
  induction fuel with
  | zero =>
    intro tr i tr' b _ h
    simp only [find_base_loop] at h
    cases h
  | succ fuel ih =>
    intro tr i tr' b hc h j hij hjb
    unfold find_base_loop at h
    simp only [] at h
    generalize htr1 : (if i + 1 + e.max ≥ tr.size then tr.resize_state e.max else tr) = tr1 at h
    have hc1 : tr1.check = chk := by
      rw [← htr1]; split_ifs <;> simp [hc]
    by_cases hcond : tr1.check (i + 1 + e.min) ≤ 0 ∧ tr1.check (i + 1 + e.max) ≤ 0
        ∧ inputs.all (fun c => decide (tr1.check (i + 1 + c) ≤ 0)) = true
    · rw [if_pos hcond] at h
      simp only [Except.ok.injEq, Prod.mk.injEq] at h
      omega
    · rw [if_neg hcond] at h
      by_cases hj : j = i + 1
      · subst hj
        intro hfree
        apply hcond
        rw [hc1]
        refine ⟨hfree.1, hfree.2.1, ?_⟩
        rw [List.all_eq_true]
        intro c hcm
        simpa using hfree.2.2 c hcm
      · exact ih tr1 (i + 1) tr' b hc1 h j (by omega) hjb

/-- The base `find_base` returns is the least one above `last_base_` whose
cells are free. -/
theorem find_base_least {tr : basic_trie} {inputs : List Int} {e : extremum_type}
    {tr' : basic_trie} {b : Int} (h : tr.find_base inputs e = .ok (tr', b)) :
    ∀ j, tr.last_base < j → j < b →
      ¬ (tr.check (j + e.min) ≤ 0 ∧ tr.check (j + e.max) ≤ 0
        ∧ ∀ c ∈ inputs, tr.check (j + c) ≤ 0) := by
  unfold find_base at h
  cases hl : find_base_loop inputs e ((tr.size - tr.last_base).toNat + 1) tr tr.last_base with
  | error f => rw [hl] at h; cases h
  | ok r =>
    obtain ⟨tr1, b1⟩ := r
    rw [hl] at h
    simp only [Except.ok.injEq, Prod.mk.injEq] at h
    rw [← h.2]
    exact find_base_loop_least inputs e tr.check _ tr tr.last_base tr1 b1 rfl hl

/-- The value `find_base` leaves in `last_base_`. -/
theorem find_base_last_base_eq {tr : basic_trie} {inputs : List Int} {e : extremum_type}
    {tr' : basic_trie} {b : Int} (h : tr.find_base inputs e = .ok (tr', b)) :
    tr'.last_base = if b > 256 then b - 255 else b := by
  unfold find_base at h
  cases hl : find_base_loop inputs e ((tr.size - tr.last_base).toNat + 1) tr tr.last_base with
  | error f => rw [hl] at h; cases h
  | ok r =>
    obtain ⟨tr1, b1⟩ := r
    rw [hl] at h
    simp only [Except.ok.injEq, Prod.mk.injEq] at h
    rw [← h.1, ← h.2]

/-- Words of the new trie after `create_transition`: old words, or the word of
`s` followed by `c`. -/
theorem ct_walk_back {tr tr' : basic_trie} {s c t : Int} {ρ : Int → Int}
    (C : ct_sim tr tr' s c t ρ) {a u' : Int} {w : List Int}
    (ha : tr.live a) (hw : tr'.walk (ρ a) w = some u') :
    (∃ u, tr.walk a w = some u ∧ u' = ρ u)
      ∨ (∃ pre, w = pre ++ [c] ∧ tr.walk a pre = some s ∧ u' = t) := by
  by_cases hnew : tr.step s c = none
  · exact ct_walk_bwd C hnew ha hw
  · left
    induction w generalizing a with
    | nil =>
      simp only [walk_nil, Option.some.injEq] at hw
      exact ⟨a, rfl, hw.symm⟩
    | cons x w ih =>
      rw [walk_cons] at hw
      cases hs : tr'.step (ρ a) x with
      | none => rw [hs] at hw; cases hw
      | some b' =>
        rw [hs] at hw
        simp only [Option.some_bind] at hw
        rcases C.bwd a x b' ha hs with ⟨b, hb, hbb⟩ | ⟨_, _, _, h4⟩
        · rw [hbb] at hw
          obtain ⟨u, hu, huu⟩ := ih (step_live hb) hw
          refine ⟨u, ?_, huu⟩
          rw [walk_cons, hb]
          exact hu
        · exact absurd h4 hnew

/-- The predicate `wf` contains the check-link predicate. -/
theorem check_link_of_wf {tr : basic_trie} (h : tr.wf) : tr.check_link := by
  intro t ht
  obtain ⟨h1, h2, h3, h4⟩ := h.link t ht
  refine ⟨h1, h4, t - tr.base (tr.check t), ⟨h2, h3, by omega⟩, ?_⟩
  rintro c' ⟨_, _, h5⟩
  omega

end basic_trie

namespace single_trie

/-- A reading of the suffix array, cell by cell. -/
theorem reads_getD (st : single_trie) :
    ∀ (r : List Int) (n : Int), st.reads n r →
      ∀ i : Nat, i < r.length → st.suffix (n + i) = r.getD i 0 := by
  intro r
  induction r with
  | nil =>
    intro n _ i hi
    simp at hi
  | cons c r ih =>
    intro n hr i hi
    cases i with
    | zero =>
      simp only [Nat.cast_zero, add_zero, List.getD_cons_zero]
      exact hr.1
    | succ i =>
      simp only [List.length_cons, Nat.succ_lt_succ_iff] at hi
      have := ih (n + 1) hr.2 i hi
      simp only [List.getD_cons_succ, Nat.cast_succ]
      rw [← this]
      congr 1
      omega

end single_trie

namespace basic_trie

/-- The base `relocate` gives the state `q` is the one `find_base` returned. -/
theorem relocate_new_base {tr : basic_trie} {stand q : Int} {inputs : List Int}
    {e : extremum_type} {tr' : basic_trie} {stand' : Int} {moved : List (Int × Int)}
    (h : tr.relocate stand q inputs e = .ok (tr', stand', moved)) :
    ∃ tr1, tr.find_base inputs e = .ok (tr1, tr'.base q) := by
  unfold relocate at h
  cases hfb : tr.find_base inputs e with
  | error f =>
    rw [hfb] at h
    cases h
  | ok r =>
    obtain ⟨tr1, nbase⟩ := r
    rw [hfb] at h
    simp only [Except.ok.injEq, Prod.mk.injEq] at h
    refine ⟨tr1, ?_⟩
    rw [← h.1]
    simp

end basic_trie

/-- A key bound after a sequence of calls was bound before or is a key of the
sequence, bound to the value of its last call. -/
theorem bind_all_some {seq : List (List (Fin 256) × Int)} {M : key_type → Option Int}
    {k' : key_type} {v : Int} (h : bind_all M seq k' = some v) :
    M k' = some v ∨ ∃ k, k' = key_type.assign k ∧ last_insert seq k = some v := by
  by_cases hk : ∃ k, key_type.assign k = k'
  · obtain ⟨k, rfl⟩ := hk
    rw [bind_all_eq] at h
    cases hl : last_insert seq k with
    | none =>
      rw [hl] at h
      left
      exact h
    | some v' =>
      rw [hl] at h
      right
      exact ⟨k, rfl, by rw [hl]; exact h⟩
  · left
    have key : ∀ (seq : List (List (Fin 256) × Int)) (M : key_type → Option Int),
        bind_all M seq k' = M k' := by
      intro seq
      induction seq with
      | nil => intro M; rfl
      | cons e rest ih =>
        intro M
        rw [bind_all, ih]
        unfold bind_key
        rw [if_neg]
        intro he
        exact hk ⟨e.1, he.symm⟩
    rw [key] at h
    exact h

namespace basic_trie

/-- The scan of `find_base` ends: when every cell from `N` on is free, the
scan from `i` returns a base not beyond `max (i + 1) N`, the same one for
every bound on the number of rounds that reaches `N`. -/
theorem find_base_loop_total (chk : Int → Int) (inputs : List Int) (e : extremum_type)
    (N : Int) (hfin : ∀ t, N ≤ t → chk t ≤ 0) (he1 : 0 ≤ e.min) (he2 : 0 ≤ e.max)
    (hin : ∀ c ∈ inputs, 0 ≤ c) :
    ∀ (fuel : Nat) (tr : basic_trie) (i : Int), tr.check = chk → N ≤ i + fuel → 0 < fuel →
      ∃ tr' b, (∀ k : Nat, fuel ≤ k → find_base_loop inputs e k tr i = .ok (tr', b))
        ∧ i < b ∧ b ≤ max (i + 1) N := by
  intro fuel
  induction fuel with
  | zero => intro tr i _ _ h; omega
  | succ fuel ih =>
    intro tr i hc hN _
    generalize htr1 : (if i + 1 + e.max ≥ tr.size then tr.resize_state e.max else tr) = tr1
    have hc1 : tr1.check = chk := by
      rw [← htr1]; split_ifs <;> simp [hc]
    by_cases hcond : tr1.check (i + 1 + e.min) ≤ 0 ∧ tr1.check (i + 1 + e.max) ≤ 0
        ∧ inputs.all (fun c => decide (tr1.check (i + 1 + c) ≤ 0)) = true
    · refine ⟨tr1, i + 1, ?_, by omega, le_max_left _ _⟩
      intro k hk
      cases k with
      | zero => omega
      | succ k =>
        unfold find_base_loop
        simp only []
        rw [htr1, if_pos hcond]
    · have hlt : i + 1 < N := by
        by_contra hge
        apply hcond
        rw [hc1]
        refine ⟨hfin _ (by omega), hfin _ (by omega), ?_⟩
        rw [List.all_eq_true]
        intro c hcm
        have := hin c hcm
        have := hfin (i + 1 + c) (by omega)
        simpa using this
      obtain ⟨tr', b, hr, h1, h2⟩ := ih tr1 (i + 1) hc1 (by push_cast at hN; omega)
        (by push_cast at hN; omega)
      refine ⟨tr', b, ?_, by omega, ?_⟩
      · intro k hk
        cases k with
        | zero => omega
        | succ k =>
          unfold find_base_loop
          simp only []
          rw [htr1, if_neg hcond]
          exact hr k (by omega)
      · have : max (i + 1 + 1) N = N := max_eq_right (by omega)
        rw [this] at h2
        exact le_trans h2 (le_max_right _ _)

end basic_trie

namespace basic_trie

/-- The function `create_transition(s, c)` on an edge that exists: the children of `s` are
moved by one distance `d`, `s` keeps its cell and gets the base moved by `d`,
and the state returned is the child on `c` in its new cell. -/
theorem create_transition_on_edge {tr : basic_trie} (h : tr.wf) {s c t0 : Int}
    (hs : tr.live s) (hc1 : 1 ≤ c) (hc2 : c ≤ 257) (he : tr.step s c = some t0) :
    ∃ tr' d moved, tr.create_transition s c = .ok (tr', t0 + d, moved)
      ∧ ct_sim tr tr' s c (t0 + d) (rename tr s d)
      ∧ tr'.base s = tr.base s + d
      ∧ (∀ a, tr.live a → a ≠ s → tr'.base (rename tr s d a) = tr.base a)
      ∧ moved_rel tr (rename tr s d) moved := by
  have hs1 := live_pos h hs
  have hstep := he
  rw [step_some_iff h hs1] at he
  obtain ⟨ht0, hck⟩ := he
  have hrange := h.check_range t0 (by rw [hck]; omega)
  have hmem := fun c' => mem_find_exist_target h (a := s) (c := c') hs1
  have hcin : c ∈ (tr.find_exist_target s).1 :=
    (hmem c).mpr ⟨⟨hc1, hc2⟩, by rw [← ht0]; exact hck⟩
  have hpos : 0 < (tr.find_exist_target s).1.length := List.length_pos_of_mem hcin
  have hnotcl : ¬ tr.childless s := fun hch => hch t0 hck
  unfold create_transition
  simp only [next]
  rw [← ht0]
  rw [if_neg (not_le.mpr hrange.2)]
  rw [if_neg (show ¬ (tr.base s > 0 ∧ tr.check t0 ≤ 0) from fun hh => by
    have := hh.2
    omega)]
  rw [if_pos (show tr.check t0 ≠ 0 by omega), hck]
  rw [if_pos ⟨hpos, by omega⟩]
  obtain ⟨tr', stand', moved, d, cur, tr1, hrel, hwf1, hb1, hc1', hs1', R, htr', hnb, hst,
      hfree, hmv⟩ :=
    @relocate_spec _ h s s hs (tr.find_exist_target s).1
      (tr.find_exist_target s).2 (covers_find_exist_target tr s)
      (fun c' hc' => ((hmem c').mp hc').1.1) (find_exist_target_nodup tr s)
      (fun x hx => find_exist_target_complete h hs1 hx)
      (fun _ c' hc' => by rw [((hmem c').mp hc').2]; exact hs1)
  rw [hrel]
  simp only []
  have hq1 : tr1.live s := (live_congr hc1' s).mpr hs
  have hren : rename tr1 s d = rename tr s d := funext (rename_congr hc1' s d)
  have hnb1 : 1 ≤ tr1.base s + d := by rw [hb1]; exact hnb
  have S1 := sim_of_relocd (s := s) hwf1 hq1 R hnb1 (Or.inl rfl)
  rw [hb1, ← htr', hren] at S1
  have S : sim tr tr' s (rename tr s d) := sim_of_cells h hwf1 hb1 hc1' S1
  have hrs : rename tr s d s = s := rename_self h hs
  rw [hrs] at hst
  have hbq : tr'.base s = tr.base s + d := by
    rw [htr']
    simp only [set_base_base, eq_self_iff_true, if_true]
  rw [hst, hbq]
  have e1 : tr.base s + d + c = t0 + d := by omega
  rw [e1]
  obtain ⟨hb2, hc2', hwf2, hsz2⟩ := resize_if_facts S.wfF (t := t0 + d) (by omega)
  have hmoved : moved_rel tr (rename tr s d) moved :=
    moved_rel_of_relocate rfl rfl hs1 (find_exist_target_nodup tr s)
      (fun x hx => find_exist_target_complete h hs1 hx)
      (fun c' hc' => (hfree c' hc').1)
      (fun x hx => (R.child x (by rw [hc1']; exact hx)).2.2.2.2.2.1) hmv
  have hbase : ∀ a, tr.live a → a ≠ s → tr'.base (rename tr s d a) = tr.base a := by
    intro a ha has
    rw [htr', ← hren, ← hb1]
    exact relocd_base hwf1 R _ ((live_congr hc1' a).mpr ha) has
  have hrt : rename tr s d t0 = t0 + d := by
    unfold rename
    rw [if_pos hck]
  have key := ct_finish (t := t0 + d) h S hs (by rw [hrs, hbq]; exact hnb)
    (by rw [hrs, hbq]; omega) hc1 hc2 (Or.inr ⟨t0, hstep, hrt.symm⟩)
    (fun hch => absurd hch hnotcl) hb2 hc2' hwf2 hsz2
  rw [hrs] at key
  refine ⟨_, d, moved, rfl, key, ?_, ?_, hmoved⟩
  · simp only [set_check_base]
    rw [hb2]
    exact hbq
  · intro a ha has
    simp only [set_check_base]
    rw [hb2]
    exact hbase a ha has

end basic_trie

/-- The trie with one edge is well formed. -/
theorem edge_trie_wf : edge_trie.wf := by
  obtain ⟨tr', t, moved, ρ, hct, C⟩ :=
    basic_trie.create_transition_spec (basic_trie.wf_create 0) (basic_trie.live_root _)
      (by decide : (0 : Int) ≤ (basic_trie.create 0).base 1) (by decide : (1 : Int) ≤ 2)
      (by decide : (2 : Int) ≤ 257)
  unfold edge_trie
  rw [hct]
  exact C.wf'

/-! ## The map `refer_` and the tables of the two-trie -/

namespace double_trie

theorem find_refer_set_refer (dt : double_trie) (u : Int) (e : refer_type) (t : Int) :
    (dt.set_refer u e).find_refer t = if t = u then some e else dt.find_refer t := by
  unfold find_refer set_refer
  simp only [List.find?_cons]
  by_cases h : t = u
  · subst h
    simp
  · have h' : u ≠ t := fun e => h e.symm
    simp only [h, h', decide_False, if_false]
    congr 1
    induction dt.refer with
    | nil => rfl
    | cons x l ih =>
      by_cases hx : x.1 = u
      · rw [List.filter_cons_of_neg (by simpa using hx)]
        rw [List.find?_cons_of_neg _ (by simp [hx, h'])]
        exact ih
      · rw [List.filter_cons_of_pos (by simpa using hx)]
        by_cases hxt : x.1 = t
        · simp [hxt]
        · rw [List.find?_cons_of_neg _ (by simpa using hxt),
            List.find?_cons_of_neg _ (by simpa using hxt)]
          exact ih

theorem find_refer_erase_refer (dt : double_trie) (u t : Int) :
    (dt.erase_refer u).find_refer t = if t = u then none else dt.find_refer t := by
  unfold find_refer erase_refer
  simp only []
  by_cases h : t = u
  · subst h
    rw [if_pos rfl]
    simp only [Option.map_eq_none']
    rw [List.find?_eq_none]
    intro x hx
    rw [List.mem_filter] at hx
    simpa using hx.2
  · rw [if_neg h]
    congr 1
    induction dt.refer with
    | nil => rfl
    | cons x l ih =>
      by_cases hx : x.1 = u
      · rw [List.filter_cons_of_neg (by simpa using hx)]
        have hxt : ¬ x.1 = t := fun e => h (e.symm.trans hx)
        rw [List.find?_cons_of_neg _ (by simpa using hxt)]
        exact ih
      · rw [List.filter_cons_of_pos (by simpa using hx)]
        by_cases hxt : x.1 = t
        · simp [hxt]
        · rw [List.find?_cons_of_neg _ (by simpa using hxt),
            List.find?_cons_of_neg _ (by simpa using hxt)]
          exact ih

@[simp] theorem find_refer_set_accept (dt : double_trie) (k v t : Int) :
    (dt.set_accept k v).find_refer t = dt.find_refer t := rfl

@[simp] theorem find_refer_set_index (dt : double_trie) (i v t : Int) :
    (dt.set_index i v).find_refer t = dt.find_refer t := rfl

@[simp] theorem find_refer_set_data (dt : double_trie) (i v t : Int) :
    (dt.set_data i v).find_refer t = dt.find_refer t := rfl

end double_trie

/-! ## The two-trie: transitions of the front trie -/

namespace double_trie

theorem relocate_front_frame (dt : double_trie) (o n : Int) :
    dt.relocate_front o n = { dt with refer := (dt.relocate_front o n).refer } := by
  unfold relocate_front
  split_ifs
  · simp only []
    cases dt.find_refer (dt.link_state n) with
    | none => rfl
    | some e => rfl
  · rfl

theorem relocate_front_fold_frame (L : List (Int × Int)) (dt : double_trie) :
    L.foldl (fun dt m => dt.relocate_front m.1 m.2) dt
      = { dt with refer := (L.foldl (fun dt m => dt.relocate_front m.1 m.2) dt).refer } := by
  induction L generalizing dt with
  | nil => rfl
  | cons m L ih =>
    simp only [List.foldl_cons]
    have h1 := ih (dt.relocate_front m.1 m.2)
    have h2 := relocate_front_frame dt m.1 m.2
    rw [h1]
    generalize (L.foldl (fun dt m => dt.relocate_front m.1 m.2) (dt.relocate_front m.1 m.2)).refer
      = R
    rw [h2]

/-- One call of the front callback renames `o` in the referers of the rear
state the new cell `n` is linked to. -/
theorem find_refer_relocate_front (dt : double_trie) (o n t : Int) :
    (dt.relocate_front o n).find_refer t
      = (dt.find_refer t).map (fun e =>
          if dt.lhs.base n < 0 ∧ (dt.index (-dt.lhs.base n)).index > 0 ∧ dt.link_state n = t
          then { e with referer := e.referer.map (fun x => if x = o then n else x) } else e) := by
  unfold relocate_front
  by_cases hc : dt.lhs.base n < 0 ∧ (dt.index (-dt.lhs.base n)).index > 0
  · rw [if_pos hc]
    simp only []
    cases hr : dt.find_refer (dt.link_state n) with
    | none =>
      simp only []
      by_cases ht : dt.link_state n = t
      · rw [← ht, hr]
        rfl
      · cases dt.find_refer t with
        | none => rfl
        | some e =>
          simp only [Option.map_some']
          rw [if_neg (fun h => ht h.2.2)]
    | some e =>
      simp only []
      rw [find_refer_set_refer]
      by_cases ht : t = dt.link_state n
      · rw [if_pos ht, ht, hr]
        simp only [Option.map_some']
        rw [if_pos ⟨hc.1, hc.2, trivial⟩]
      · rw [if_neg ht]
        cases dt.find_refer t with
        | none => rfl
        | some e =>
          simp only [Option.map_some']
          rw [if_neg (fun h => ht h.2.2.symm)]
  · rw [if_neg hc]
    cases dt.find_refer t with
    | none => rfl
    | some e =>
      simp only [Option.map_some']
      rw [if_neg (fun h => hc ⟨h.1, h.2.1⟩)]

/-- The calls of the front callback for the relocations `L` rename the moved
separators in the referers of the rear states they are linked to. -/
theorem find_refer_front_fold (ρ : Int → Int) (chk : Int → Int) :
    ∀ (L : List (Int × Int)) (dt : double_trie),
      (L.map Prod.fst).Nodup → (∀ o n, (o, n) ∈ L → 0 < chk o ∧ chk n = 0 ∧ ρ o = n) →
      (∀ t e x, dt.find_refer t = some e → x ∈ e.referer → 0 < chk x) →
      (∀ o n, (o, n) ∈ L → ∀ t e, dt.find_refer t = some e → o ∈ e.referer →
        dt.lhs.base n < 0 ∧ (dt.index (-dt.lhs.base n)).index > 0 ∧ dt.link_state n = t) →
      ∀ t, (L.foldl (fun dt m => dt.relocate_front m.1 m.2) dt).find_refer t
        = (dt.find_refer t).map (fun e =>
            { e with referer := (e.referer.map
                (fun x => if x ∈ L.map Prod.fst then ρ x else x)) }) := by
  intro L
  induction L using List.reverseRecOn with
  | nil =>
    intro dt _ _ _ _ t
    simp only [List.foldl_nil, List.map_nil, List.not_mem_nil, if_false, List.map_id']
    cases dt.find_refer t <;> rfl
  | append_singleton L m ih =>
    intro dt hnd hL hlive hlink t
    obtain ⟨o, n⟩ := m
    rw [List.map_append, List.nodup_append] at hnd
    obtain ⟨hnd1, _, hdisj⟩ := hnd
    have ho : o ∉ L.map Prod.fst := by
      intro h
      exact hdisj h (by simp)
    have hL1 : ∀ o' n', (o', n') ∈ L → 0 < chk o' ∧ chk n' = 0 ∧ ρ o' = n' :=
      fun o' n' h => hL o' n' (List.mem_append_left _ h)
    have hon := hL o n (by simp)
    have IH := ih dt hnd1 hL1 hlive
      (fun o' n' h => hlink o' n' (List.mem_append_left _ h))
    rw [List.foldl_append]
    simp only [List.foldl_cons, List.foldl_nil]
    rw [find_refer_relocate_front, IH t]
    have hfr := relocate_front_fold_frame L dt
    generalize hD : L.foldl (fun dt m => dt.relocate_front m.1 m.2) dt = D at hfr
    have e1 : D.lhs = dt.lhs := by rw [hfr]
    have e2 : D.index = dt.index := by rw [hfr]
    have e3 : D.link_state n = dt.link_state n := by
      unfold link_state
      rw [hfr]
    rw [e1, e2, e3]
    cases hr : dt.find_refer t with
    | none => rfl
    | some e =>
      simp only [Option.map_some', Option.some.injEq]
      by_cases hc : dt.lhs.base n < 0 ∧ (dt.index (-dt.lhs.base n)).index > 0
          ∧ dt.link_state n = t
      · rw [if_pos hc]
        congr 1
        simp only [List.map_map]
        apply List.map_congr_left
        intro x hx
        simp only [Function.comp, List.map_append, List.map_cons, List.map_nil,
          List.mem_append, List.mem_singleton]
        by_cases hxo : x = o
        · subst hxo
          rw [if_neg ho, if_pos rfl, if_pos (Or.inr rfl)]
          exact hon.2.2.symm
        · by_cases hxL : x ∈ L.map Prod.fst
          · rw [if_pos hxL, if_pos (Or.inl hxL)]
            -- ρ x is a free cell, o is not
            have hρ : ρ x ≠ o := by
              intro h
              obtain ⟨⟨o', n'⟩, hm, hfst⟩ := List.mem_map.mp hxL
              simp only at hfst
              subst hfst
              have := hL1 o' n' hm
              rw [this.2.2] at h
              rw [h] at this
              omega
            rw [if_neg hρ]
          · rw [if_neg hxL, if_neg hxo, if_neg (by
              rintro (h | h)
              · exact hxL h
              · exact hxo h)]
      · rw [if_neg hc]
        congr 1
        apply List.map_congr_left
        intro x hx
        simp only [List.map_append, List.map_cons, List.map_nil, List.mem_append,
          List.mem_singleton]
        have hxo : x ≠ o := by
          intro h
          subst h
          exact hc (hlink x n (by simp) t e hr hx)
        by_cases hxL : x ∈ L.map Prod.fst
        · rw [if_pos hxL, if_pos (Or.inl hxL)]
        · rw [if_neg hxL, if_neg (by
            rintro (h | h)
            · exact hxL h
            · exact hxo h)]

end double_trie

/-! ## States of a trie and `create_transition` -/

namespace basic_trie

theorem reach_root (tr : basic_trie) : tr.reach 1 := ⟨[], rfl⟩

theorem reach_live {tr : basic_trie} {a : Int} (h : tr.reach a) : tr.live a := by
  obtain ⟨w, hw⟩ := h
  exact walk_live (live_root tr) hw

theorem reach_step {tr : basic_trie} {a x b : Int} (h : tr.reach a)
    (hs : tr.step a x = some b) : tr.reach b := by
  obtain ⟨w, hw⟩ := h
  exact ⟨w ++ [x], walk_snoc.mpr ⟨a, hw, hs⟩⟩

/-- The parent of a state other than the root is a state, and the state is its child. -/
theorem reach_prev {tr : basic_trie} (h : tr.wf) {y : Int} (hy : tr.reach y) (h1 : y ≠ 1) :
    tr.reach (tr.check y) ∧ 0 < tr.check y
      ∧ tr.step (tr.check y) (y - tr.base (tr.check y)) = some y := by
  obtain ⟨w, hw⟩ := hy
  rcases List.eq_nil_or_concat w with rfl | ⟨w0, x, rfl⟩
  · simp only [walk_nil, Option.some.injEq] at hw
    exact absurd hw.symm h1
  · rw [List.concat_eq_append] at hw
    obtain ⟨b, hb, hs⟩ := walk_snoc.mp hw
    have hs' := hs
    rw [step_eq_some] at hs
    obtain ⟨e1, hb0, _, _, e2⟩ := hs
    rw [e2]
    refine ⟨⟨w0, hb⟩, hb0, ?_⟩
    have : y - tr.base b = x := by omega
    rw [this]
    exact hs'

/-- The states after `create_transition` are the renamed states, and the target of the new
edge. -/
theorem ct_reach_fwd {tr tr' : basic_trie} {s c t : Int} {ρ : Int → Int}
    (C : ct_sim tr tr' s c t ρ) {a : Int} (h : tr.reach a) : tr'.reach (ρ a) := by
  obtain ⟨w, hw⟩ := h
  have := ct_walk_fwd C (live_root tr) hw
  rw [C.root] at this
  exact ⟨w, this⟩

theorem ct_reach_bwd {tr tr' : basic_trie} {s c t : Int} {ρ : Int → Int}
    (C : ct_sim tr tr' s c t ρ) {y : Int} (h : tr'.reach y) :
    (∃ a, tr.reach a ∧ y = ρ a) ∨ (y = t ∧ tr.step s c = none ∧ tr.reach s) := by
  obtain ⟨w, hw⟩ := h
  rw [← C.root] at hw
  rcases ct_walk_back C (live_root tr) hw with ⟨u, hu, e⟩ | ⟨pre, _, hpre, e⟩
  · left
    exact ⟨u, ⟨w, hu⟩, e⟩
  · cases hst : tr.step s c with
    | none => right; exact ⟨e, rfl, ⟨pre, hpre⟩⟩
    | some t0 =>
      left
      refine ⟨t0, reach_step ⟨pre, hpre⟩ hst, ?_⟩
      have h1 := C.fwd s c t0 (walk_live (live_root tr) hpre) hst
      rw [C.edge] at h1
      simp only [Option.some.injEq] at h1
      rw [e, h1]

/-- A live state keeps its children, renamed, and gets no other than the new edge. -/
theorem ct_step {tr tr' : basic_trie} {s c t : Int} {ρ : Int → Int}
    (C : ct_sim tr tr' s c t ρ) {a : Int} (ha : tr.live a) (x : Int)
    (hx : a ≠ s ∨ x ≠ c) : tr'.step (ρ a) x = (tr.step a x).map ρ := by
  cases hst : tr.step a x with
  | some b => exact C.fwd a x b ha hst
  | none =>
    cases hst' : tr'.step (ρ a) x with
    | none => rfl
    | some b' =>
      exfalso
      rcases C.bwd a x b' ha hst' with ⟨b, hb, _⟩ | ⟨h1, h2, _, _⟩
      · rw [hb] at hst
        cases hst
      · rcases hx with hx | hx
        · exact hx h1
        · exact hx h2

/-- No state has a negative base after `create_transition` on a trie without
negative bases. -/
theorem ct_base_nonneg {tr tr' : basic_trie} {s c t : Int} {ρ : Int → Int} (h : tr.wf)
    (C : ct_sim tr tr' s c t ρ) (hs : tr.reach s)
    (hb : ∀ y, tr.reach y → 0 ≤ tr.base y) : ∀ y, tr'.reach y → 0 ≤ tr'.base y := by
  intro y hy
  have hedge := C.edge
  have hsl := reach_live hs
  have hps := live_pos C.wf' (C.live' s hsl)
  rcases ct_reach_bwd C hy with ⟨a, ha, rfl⟩ | ⟨rfl, hnew, _⟩
  · by_cases hch : tr.childless a ∧ a ≠ s
    · rw [C.base_leaf a (reach_live ha) hch.1 hch.2]
      exact hb a ha
    · have hne : ∃ x b, tr'.step (ρ a) x = some b := by
        by_cases has : a = s
        · subst has
          exact ⟨c, t, hedge⟩
        · have hnc : ¬ tr.childless a := fun hc => hch ⟨hc, has⟩
          rw [childless_iff_step h (live_pos h (reach_live ha))] at hnc
          push_neg at hnc
          obtain ⟨x, hx⟩ := hnc
          obtain ⟨b, hb'⟩ := Option.ne_none_iff_exists'.mp hx
          exact ⟨x, ρ b, C.fwd a x b (reach_live ha) hb'⟩
      obtain ⟨x, b, hxb⟩ := hne
      rw [step_eq_some] at hxb
      have := (C.wf'.link b (by omega)).1
      rw [hxb.2.2.2.2] at this
      omega
  · rw [(C.fresh hnew).1]

end basic_trie

/-! ## The two-trie: the callback of the rear trie -/

namespace double_trie

/-- The fields the rear callback does not touch. -/
structure rear_frame (dt D : double_trie) : Prop where
  lhs : D.lhs = dt.lhs
  rhs : D.rhs = dt.rhs
  index : D.index = dt.index
  next_index : D.next_index = dt.next_index
  next_accept : D.next_accept = dt.next_accept
  free_index : D.free_index = dt.free_index
  free_accept : D.free_accept = dt.free_accept

theorem rear_frame_refl (dt : double_trie) : rear_frame dt dt :=
  ⟨rfl, rfl, rfl, rfl, rfl, rfl, rfl⟩

theorem rear_frame_trans {a b c : double_trie} (h1 : rear_frame a b) (h2 : rear_frame b c) :
    rear_frame a c :=
  ⟨h2.lhs.trans h1.lhs, h2.rhs.trans h1.rhs, h2.index.trans h1.index,
    h2.next_index.trans h1.next_index, h2.next_accept.trans h1.next_accept,
    h2.free_index.trans h1.free_index, h2.free_accept.trans h1.free_accept⟩

theorem relocate_rear_frame (dt : double_trie) (o n : Int) :
    rear_frame dt (dt.relocate_rear o n) := by
  unfold relocate_rear
  simp only []
  cases find_refer _ o with
  | none => exact ⟨rfl, rfl, rfl, rfl, rfl, rfl, rfl⟩
  | some e => exact ⟨rfl, rfl, rfl, rfl, rfl, rfl, rfl⟩

theorem relocate_rear_watcher0 (dt : double_trie) (o n : Int) :
    (dt.relocate_rear o n).watcher0 = if dt.watcher0 = o then n else dt.watcher0 := by
  unfold relocate_rear
  simp only []
  cases find_refer _ o with
  | none => rfl
  | some e => rfl

theorem relocate_rear_watcher1 (dt : double_trie) (o n : Int) :
    (dt.relocate_rear o n).watcher1 = if dt.watcher1 = o then n else dt.watcher1 := by
  unfold relocate_rear
  simp only []
  cases find_refer _ o with
  | none => rfl
  | some e => rfl

theorem relocate_rear_find_refer (dt : double_trie) (o n y : Int) :
    (dt.relocate_rear o n).find_refer y
      = match dt.find_refer o with
        | none => dt.find_refer y
        | some e => if y = n then some e else if y = o then none else dt.find_refer y := by
  unfold relocate_rear
  simp only []
  have e0 : ∀ (w0 w1 : Int),
      ({ dt with watcher0 := w0, watcher1 := w1 } : double_trie).find_refer o
        = dt.find_refer o := fun _ _ => rfl
  rw [e0]
  cases hr : dt.find_refer o with
  | none => rfl
  | some e =>
    simp only []
    rw [find_refer_set_refer, find_refer_erase_refer]
    rfl

theorem relocate_rear_accept (dt : double_trie) (o n k : Int) :
    (dt.relocate_rear o n).accept k
      = match dt.find_refer o with
        | none => dt.accept k
        | some e => if k = e.accept_index then n else dt.accept k := by
  unfold relocate_rear
  simp only []
  have e0 : ∀ (w0 w1 : Int),
      ({ dt with watcher0 := w0, watcher1 := w1 } : double_trie).find_refer o
        = dt.find_refer o := fun _ _ => rfl
  rw [e0]
  cases hr : dt.find_refer o with
  | none => rfl
  | some e => rfl

/-- The calls of the rear callback for the relocations `L` rename the moved
rear states in `refer_`, in the accept entries and in the watchers. -/
theorem relocate_rear_fold (ρ : Int → Int) (chk : Int → Int) :
    ∀ (L : List (Int × Int)) (dt : double_trie),
      (L.map Prod.fst).Nodup → (∀ o n, (o, n) ∈ L → 0 < chk o ∧ chk n = 0 ∧ ρ o = n) →
      (∀ o1 o2 n, (o1, n) ∈ L → (o2, n) ∈ L → o1 = o2) →
      (∀ a e, dt.find_refer a = some e → 0 < chk a) →
      (∀ a e, dt.find_refer a = some e → dt.accept e.accept_index = a) →
      rear_frame dt (L.foldl (fun dt m => dt.relocate_rear m.1 m.2) dt)
      ∧ (∀ a e, dt.find_refer a = some e →
          (L.foldl (fun dt m => dt.relocate_rear m.1 m.2) dt).find_refer
              (if a ∈ L.map Prod.fst then ρ a else a) = some e
          ∧ (L.foldl (fun dt m => dt.relocate_rear m.1 m.2) dt).accept e.accept_index
              = (if a ∈ L.map Prod.fst then ρ a else a))
      ∧ (∀ y e, (L.foldl (fun dt m => dt.relocate_rear m.1 m.2) dt).find_refer y = some e →
          ∃ a, dt.find_refer a = some e ∧ y = (if a ∈ L.map Prod.fst then ρ a else a))
      ∧ (∀ k, (∀ a e, dt.find_refer a = some e → e.accept_index ≠ k) →
          (L.foldl (fun dt m => dt.relocate_rear m.1 m.2) dt).accept k = dt.accept k)
      ∧ (L.foldl (fun dt m => dt.relocate_rear m.1 m.2) dt).watcher0
          = (if dt.watcher0 ∈ L.map Prod.fst then ρ dt.watcher0 else dt.watcher0)
      ∧ (L.foldl (fun dt m => dt.relocate_rear m.1 m.2) dt).watcher1
          = (if dt.watcher1 ∈ L.map Prod.fst then ρ dt.watcher1 else dt.watcher1) := by
  intro L
  induction L using List.reverseRecOn with
  | nil =>
    intro dt _ _ _ _ hacc
    simp only [List.foldl_nil, List.map_nil, List.not_mem_nil, if_false]
    refine ⟨rear_frame_refl dt, fun a e h => ⟨h, hacc a e h⟩, fun y e h => ⟨y, h, rfl⟩, ?_⟩
    simp
  | append_singleton L m ih =>
    intro dt hnd hL hsec hkey hacc
    have hinj : ∀ a e a' e', dt.find_refer a = some e → dt.find_refer a' = some e' →
        e.accept_index = e'.accept_index → a = a' := by
      intro a e a' e' h1 h2 h3
      rw [← hacc a e h1, ← hacc a' e' h2, h3]
    obtain ⟨o, n⟩ := m
    rw [List.map_append, List.nodup_append] at hnd
    obtain ⟨hnd1, _, hdisj⟩ := hnd
    have ho : o ∉ L.map Prod.fst := fun h => hdisj h (by simp)
    have hL1 : ∀ o' n', (o', n') ∈ L → 0 < chk o' ∧ chk n' = 0 ∧ ρ o' = n' :=
      fun o' n' h => hL o' n' (List.mem_append_left _ h)
    have hon := hL o n (by simp)
    obtain ⟨F, R1, R2, R4, W0, W1⟩ := ih dt hnd1 hL1
      (fun o1 o2 n' h1 h2 => hsec o1 o2 n' (List.mem_append_left _ h1)
        (List.mem_append_left _ h2)) hkey hacc
    rw [List.foldl_append]
    simp only [List.foldl_cons, List.foldl_nil]
    generalize hD : L.foldl (fun dt m => dt.relocate_rear m.1 m.2) dt = D at F R1 R2 R4 W0 W1
    -- a renamed old state of `L` is a free cell
    have hfree : ∀ a, a ∈ L.map Prod.fst → chk (ρ a) = 0 ∧ (a, ρ a) ∈ L := by
      intro a ha
      obtain ⟨⟨o', n'⟩, hm, hfst⟩ := List.mem_map.mp ha
      simp only at hfst
      subst hfst
      have := hL1 o' n' hm
      rw [this.2.2]
      exact ⟨this.2.1, hm⟩
    have hmem : ∀ a, a ∈ (L ++ [(o, n)]).map Prod.fst ↔ a ∈ L.map Prod.fst ∨ a = o := by
      intro a
      simp only [List.map_append, List.map_cons, List.map_nil, List.mem_append,
        List.mem_singleton]
    -- the entry of `o` is the old one
    have hDo : D.find_refer o = dt.find_refer o := by
      cases hX : dt.find_refer o with
      | some e =>
        have := (R1 o e hX).1
        rw [if_neg ho] at this
        exact this
      | none =>
        cases hY : D.find_refer o with
        | none => rfl
        | some e' =>
          exfalso
          obtain ⟨a, ha, hoa⟩ := R2 o e' hY
          by_cases hm : a ∈ L.map Prod.fst
          · rw [if_pos hm] at hoa
            have := (hfree a hm).1
            rw [← hoa] at this
            omega
          · rw [if_neg hm] at hoa
            rw [← hoa, hX] at ha
            cases ha
    have hrn : ∀ a e, dt.find_refer a = some e → a ≠ o →
        (if a ∈ L.map Prod.fst then ρ a else a) ≠ n
        ∧ (if a ∈ L.map Prod.fst then ρ a else a) ≠ o := by
      intro a e ha hao
      by_cases hm : a ∈ L.map Prod.fst
      · rw [if_pos hm]
        constructor
        · intro h
          have h1 := (hfree a hm).2
          rw [h] at h1
          exact hao (hsec a o n (List.mem_append_left _ h1) (by simp))
        · intro h
          have := (hfree a hm).1
          rw [h] at this
          omega
      · rw [if_neg hm]
        refine ⟨?_, hao⟩
        intro h
        have := hkey a e ha
        rw [h] at this
        omega
    refine ⟨rear_frame_trans F (relocate_rear_frame D o n), ?_, ?_, ?_, ?_, ?_⟩
    · intro a e ha
      rw [relocate_rear_find_refer, relocate_rear_accept, hDo]
      by_cases hao : a = o
      · subst hao
        rw [ha]
        have hr : (if a ∈ (L ++ [(a, n)]).map Prod.fst then ρ a else a) = n := by
          rw [if_pos ((hmem a).mpr (Or.inr rfl)), hon.2.2]
        rw [hr]
        simp
      · have hr : (if a ∈ (L ++ [(o, n)]).map Prod.fst then ρ a else a)
            = (if a ∈ L.map Prod.fst then ρ a else a) := by
          by_cases hm : a ∈ L.map Prod.fst
          · rw [if_pos hm, if_pos ((hmem a).mpr (Or.inl hm))]
          · rw [if_neg hm, if_neg (fun h => by
              rcases (hmem a).mp h with h | h
              · exact hm h
              · exact hao h)]
        rw [hr]
        obtain ⟨n1, n2⟩ := hrn a e ha hao
        cases hX : dt.find_refer o with
        | none => exact R1 a e ha
        | some eo =>
          simp only []
          rw [if_neg n1, if_neg n2]
          refine ⟨(R1 a e ha).1, ?_⟩
          rw [if_neg (fun h => hao (hinj a e o eo ha hX h))]
          exact (R1 a e ha).2
    · intro y e hy
      rw [relocate_rear_find_refer, hDo] at hy
      cases hX : dt.find_refer o with
      | none =>
        rw [hX] at hy
        obtain ⟨a, ha, hya⟩ := R2 y e hy
        refine ⟨a, ha, ?_⟩
        have hao : a ≠ o := by
          intro h
          rw [h, hX] at ha
          cases ha
        rw [hya]
        by_cases hm : a ∈ L.map Prod.fst
        · rw [if_pos hm, if_pos ((hmem a).mpr (Or.inl hm))]
        · rw [if_neg hm, if_neg (fun h => by
            rcases (hmem a).mp h with h | h
            · exact hm h
            · exact hao h)]
      | some eo =>
        rw [hX] at hy
        simp only [] at hy
        by_cases hyn : y = n
        · rw [if_pos hyn] at hy
          simp only [Option.some.injEq] at hy
          refine ⟨o, by rw [hX, hy], ?_⟩
          rw [if_pos ((hmem o).mpr (Or.inr rfl)), hon.2.2, hyn]
        · rw [if_neg hyn] at hy
          by_cases hyo : y = o
          · rw [if_pos hyo] at hy
            cases hy
          · rw [if_neg hyo] at hy
            obtain ⟨a, ha, hya⟩ := R2 y e hy
            have hao : a ≠ o := by
              intro h
              rw [h, if_neg ho] at hya
              exact hyo hya
            refine ⟨a, ha, ?_⟩
            rw [hya]
            by_cases hm : a ∈ L.map Prod.fst
            · rw [if_pos hm, if_pos ((hmem a).mpr (Or.inl hm))]
            · rw [if_neg hm, if_neg (fun h => by
                rcases (hmem a).mp h with h | h
                · exact hm h
                · exact hao h)]
    · intro k hk
      rw [relocate_rear_accept, hDo]
      cases hX : dt.find_refer o with
      | none => exact R4 k hk
      | some eo =>
        simp only []
        rw [if_neg (fun h => hk o eo hX h.symm)]
        exact R4 k hk
    · rw [relocate_rear_watcher0, W0]
      by_cases hw : dt.watcher0 = o
      · rw [hw, if_neg ho, if_pos rfl, if_pos ((hmem o).mpr (Or.inr rfl)), hon.2.2]
      · by_cases hm : dt.watcher0 ∈ L.map Prod.fst
        · rw [if_pos hm, if_pos ((hmem _).mpr (Or.inl hm)), if_neg]
          intro h
          have := (hfree _ hm).1
          rw [h] at this
          omega
        · rw [if_neg hm, if_neg hw, if_neg (fun h => by
            rcases (hmem _).mp h with h | h
            · exact hm h
            · exact hw h)]
    · rw [relocate_rear_watcher1, W1]
      by_cases hw : dt.watcher1 = o
      · rw [hw, if_neg ho, if_pos rfl, if_pos ((hmem o).mpr (Or.inr rfl)), hon.2.2]
      · by_cases hm : dt.watcher1 ∈ L.map Prod.fst
        · rw [if_pos hm, if_pos ((hmem _).mpr (Or.inl hm)), if_neg]
          intro h
          have := (hfree _ hm).1
          rw [h] at this
          omega
        · rw [if_neg hm, if_neg hw, if_neg (fun h => by
            rcases (hmem _).mp h with h | h
            · exact hm h
            · exact hw h)]

end double_trie

/-! ## The two-trie: transitions of the rear trie -/

namespace basic_trie

/-- The root keeps having terminator edges only. -/
theorem ct_rootR {tr tr' : basic_trie} {s c t : Int} {ρ : Int → Int}
    (C : ct_sim tr tr' s c t ρ) (hroot : s = 1 → c = key_type.kTerminator)
    (h : ∀ x b, tr.step 1 x = some b → x = key_type.kTerminator) :
    ∀ x b, tr'.step 1 x = some b → x = key_type.kTerminator := by
  intro x b hx
  rw [← C.root] at hx
  rcases C.bwd 1 x b (live_root tr) hx with ⟨b0, hb0, _⟩ | ⟨h1, h2, _, _⟩
  · exact h x b0 hb0
  · rw [h2]
    exact hroot h1.symm

/-- The terminator children of the states other than the root keep the base `0`, when `s` is
none of them. -/
theorem ct_dummy {tr tr' : basic_trie} {s c t : Int} {ρ : Int → Int} (hwf : tr.wf)
    (C : ct_sim tr tr' s c t ρ)
    (h : ∀ y d, tr.reach y → y ≠ 1 → tr.step y key_type.kTerminator = some d → tr.base d = 0)
    (hnd : ∀ y, tr.reach y → y ≠ 1 → tr.step y key_type.kTerminator ≠ some s) :
    ∀ y d, tr'.reach y → y ≠ 1 → tr'.step y key_type.kTerminator = some d →
      tr'.base d = 0 := by
  intro y d hy hy1 hst
  rcases ct_reach_bwd C hy with ⟨a, ha, rfl⟩ | ⟨rfl, hnew, _⟩
  · have ha1 : a ≠ 1 := by
      intro e
      rw [e, C.root] at hy1
      exact hy1 rfl
    rcases C.bwd a _ d (reach_live ha) hst with ⟨d0, hd0, rfl⟩ | ⟨_, _, rfl, hnew⟩
    · have hb := h a d0 ha ha1 hd0
      have hl := step_live hd0
      have hch : tr.childless d0 :=
        childless_of_base_nonpos hwf (live_pos hwf hl) (by omega)
      have hne : d0 ≠ s := by
        intro e
        rw [e] at hd0
        exact hnd a ha ha1 hd0
      rw [C.base_leaf d0 hl hch hne]
      exact hb
    · exact (C.fresh hnew).1
  · have := childless_step (C.fresh hnew).2 key_type.kTerminator
    rw [this] at hst
    cases hst

/-- A state with a child is no terminator child of a state other than the root. -/
theorem not_dummy_of_child {tr : basic_trie} (hwf : tr.wf)
    (h : ∀ y d, tr.reach y → y ≠ 1 → tr.step y key_type.kTerminator = some d → tr.base d = 0)
    {s : Int} (hs : ¬ tr.childless s) :
    ∀ y, tr.reach y → y ≠ 1 → tr.step y key_type.kTerminator ≠ some s := by
  intro y hy hy1 hst
  have hb := h y s hy hy1 hst
  exact hs (childless_of_base_nonpos hwf (live_pos hwf (step_live hst)) (by omega))

/-- The target of an edge from the root, or on a symbol other than the terminator, is no
terminator child of a state other than the root. -/
theorem ct_target_not_dummy {tr tr' : basic_trie} {s c t : Int} {ρ : Int → Int}
    (C : ct_sim tr tr' s c t ρ) (hs : tr.live s) (hc : c ≠ key_type.kTerminator ∨ s = 1) :
    ∀ y, tr'.reach y → y ≠ 1 → tr'.step y key_type.kTerminator ≠ some t := by
  intro y _ hy1 hst
  have hedge := C.edge
  rw [step_eq_some] at hst hedge
  have e1 : y = ρ s := by rw [← hst.2.2.2.2, hedge.2.2.2.2]
  rcases hc with hc | hc
  · apply hc
    have := hst.1
    rw [e1, hedge.1] at this
    omega
  · rw [hc, C.root] at e1
    exact hy1 e1

/-- The renaming of a live state, read off the moved cells. -/
theorem moved_rel_rename {tr : basic_trie} {ρ : Int → Int} {moved : List (Int × Int)}
    (M : moved_rel tr ρ moved) {a : Int} (ha : tr.live a) :
    (if a ∈ moved.map Prod.fst then ρ a else a) = ρ a := by
  by_cases hm : a ∈ moved.map Prod.fst
  · rw [if_pos hm]
  · rw [if_neg hm]
    by_contra hne
    apply hm
    have := M.2.2 a ha (fun e => hne e.symm)
    exact List.mem_map.mpr ⟨(a, ρ a), this, rfl⟩

end basic_trie

namespace double_trie

theorem rinvx_key_pos {dt : double_trie} {a0 : Int} (I : dt.rinvx a0) {a : Int}
    {e : refer_type} (h : dt.find_refer a = some e) : 2 ≤ a ∧ 0 < dt.rhs.check a := by
  obtain ⟨_, _, hr, h1⟩ := I.ref a e h
  rcases basic_trie.reach_live hr with h2 | h2
  · exact absurd h2 h1
  · exact ⟨(I.wfR.check_range a (by omega)).1, h2⟩

/-- The call `rhs_->create_transition(s, c)` with its callback keeps the link invariant: `s` is
a state of the rear trie, the root only for the terminator, and no terminator
child of a state other than the root. -/
theorem rhs_ct_spec {dt : double_trie} (I : dt.rinv) {s c : Int} (hs : dt.rhs.reach s)
    (hc1 : 1 ≤ c) (hc2 : c ≤ 257) (hroot : s = 1 → c = key_type.kTerminator)
    (hnd : ∀ y, dt.rhs.reach y → y ≠ 1 → dt.rhs.step y key_type.kTerminator ≠ some s) :
    ∃ dt' t ρ, dt.rhs_create_transition s c = .ok (dt', t) ∧ dt'.rinv
      ∧ basic_trie.ct_sim dt.rhs dt'.rhs s c t ρ
      ∧ dt'.lhs = dt.lhs ∧ dt'.index = dt.index
      ∧ (dt.rhs.reach dt.watcher0 → dt'.watcher0 = ρ dt.watcher0)
      ∧ (dt.rhs.reach dt.watcher1 → dt'.watcher1 = ρ dt.watcher1) := by
  have hsl := basic_trie.reach_live hs
  obtain ⟨tr', t, moved, ρ, hct, C, Mv⟩ :=
    basic_trie.create_transition_moved I.wfR hsl (I.baseR s hs) hc1 hc2
  unfold rhs_create_transition
  rw [hct]
  simp only [basic_trie.relocator_calls, if_true]
  have hkey : ∀ a e, ({ dt with rhs := tr' } : double_trie).find_refer a = some e →
      0 < dt.rhs.check a := fun a e h => (rinvx_key_pos I h).2
  have hacc0 : ∀ a e, ({ dt with rhs := tr' } : double_trie).find_refer a = some e →
      ({ dt with rhs := tr' } : double_trie).accept e.accept_index = a :=
    fun a e h => (I.ref a e h).1
  obtain ⟨F, R1, R2, R4, W0, W1⟩ := relocate_rear_fold ρ dt.rhs.check moved
    ({ dt with rhs := tr' } : double_trie) Mv.1
    (fun o n h => ⟨(Mv.2.1 o n h).1, (Mv.2.1 o n h).2.1, (Mv.2.1 o n h).2.2.2⟩)
    (by
      intro o1 o2 n h1 h2
      have a1 := Mv.2.1 o1 n h1
      have a2 := Mv.2.1 o2 n h2
      exact C.inj o1 o2 (Or.inr a1.1) (Or.inr a2.1) (by rw [a1.2.2.2, a2.2.2.2]))
    hkey hacc0
  generalize hD : moved.foldl (fun dt m => dt.relocate_rear m.1 m.2)
    ({ dt with rhs := tr' } : double_trie) = D at F R1 R2 R4 W0 W1
  have hlhs : D.lhs = dt.lhs := F.lhs
  have hrhs : D.rhs = tr' := F.rhs
  have hidx : D.index = dt.index := F.index
  have hni : D.next_index = dt.next_index := F.next_index
  have hna : D.next_accept = dt.next_accept := F.next_accept
  have hfi : D.free_index = dt.free_index := F.free_index
  have hfa : D.free_accept = dt.free_accept := F.free_accept
  have hren : ∀ a, dt.rhs.live a → (if a ∈ moved.map Prod.fst then ρ a else a) = ρ a :=
    fun a ha => basic_trie.moved_rel_rename Mv ha
  have huse : ∀ k, D.in_use k ↔ dt.in_use k := by
    intro k
    unfold in_use
    rw [hna, hfa]
  have hiref : ∀ x, D.index_ref x = dt.index_ref x := by
    intro x
    unfold index_ref
    rw [hlhs, hidx]
  -- the entries after the call
  have hR1 : ∀ a e, dt.find_refer a = some e →
      D.find_refer (ρ a) = some e ∧ D.accept e.accept_index = ρ a := by
    intro a e h
    have hl : dt.rhs.live a := Or.inr (rinvx_key_pos I h).2
    have := R1 a e h
    rw [hren a hl] at this
    exact this
  have hR2 : ∀ y e, D.find_refer y = some e → ∃ a, dt.find_refer a = some e ∧ y = ρ a := by
    intro y e h
    obtain ⟨a, ha, hy⟩ := R2 y e h
    have hl : dt.rhs.live a := Or.inr (rinvx_key_pos I ha).2
    rw [hren a hl] at hy
    exact ⟨a, ha, hy⟩
  refine ⟨D, t, ρ, rfl, ?_, by rw [hrhs]; exact C, hlhs, hidx, ?_, ?_⟩
  · refine ⟨by rw [hlhs]; exact I.wfF, by rw [hrhs]; exact C.wf', by rw [hlhs]; exact I.rootF,
      ?_, ?_, ?_, ?_, ?_, by rw [hfi]; exact I.free_index_nodup, ?_,
      by rw [hni]; exact I.next_index_pos, by rw [hfa]; exact I.free_accept_nodup, ?_,
      by rw [hna]; exact I.next_accept_pos, ?_, ?_, ?_, ?_⟩
    · rw [hrhs]
      exact basic_trie.ct_base_nonneg I.wfR C hs I.baseR
    · rw [hrhs]
      exact basic_trie.ct_rootR C hroot I.rootR
    · rw [hrhs]
      exact basic_trie.ct_dummy I.wfR C I.dummy hnd
    · rw [hlhs, hni, hfi]
      exact I.slot_range
    · rw [hlhs]
      exact I.slot_inj
    · rw [hfi, hni]
      exact I.free_index_range
    · rw [hfa, hna]
      exact I.free_accept_range
    · intro k hk
      obtain ⟨e, he, hek⟩ := I.acc k ((huse k).mp hk)
      obtain ⟨h1, h2⟩ := hR1 _ e he
      rw [hek] at h2
      rw [h2]
      exact ⟨e, h1, hek⟩
    · intro y e hy
      obtain ⟨a, ha, rfl⟩ := hR2 y e hy
      obtain ⟨_, q2, q3, q4⟩ := I.ref a e ha
      refine ⟨(hR1 a e ha).2, (huse _).mpr q2, ?_, ?_⟩
      · rw [hrhs]
        exact basic_trie.ct_reach_fwd C q3
      · intro e1
        rw [← C.root] at e1
        exact q4 (C.inj a 1 (basic_trie.reach_live q3) (basic_trie.live_root _) e1)
    · intro y e x hy hx
      obtain ⟨a, ha, rfl⟩ := hR2 y e hy
      obtain ⟨q1, q2, q3⟩ := I.referer a e x ha hx
      rw [hlhs, hiref]
      refine ⟨q1, q2, fun _ => q3 ?_⟩
      have := (rinvx_key_pos I ha).1
      omega
    · intro x hx hb hi
      rw [hlhs] at hx hb
      rw [hiref] at hi ⊢
      obtain ⟨q1, e, q2, q3⟩ := I.linked x hx hb hi
      refine ⟨(huse _).mpr q1, e, ?_, q3⟩
      obtain ⟨e0, he0, hk0⟩ := I.acc _ q1
      rw [q2] at he0
      simp only [Option.some.injEq] at he0
      rw [← he0] at hk0
      obtain ⟨h1, h2⟩ := hR1 _ e q2
      rw [hk0] at h2
      rw [h2]
      exact h1
  · intro hw
    rw [W0]
    exact hren _ (basic_trie.reach_live hw)
  · intro hw
    rw [W1]
    exact hren _ (basic_trie.reach_live hw)

end double_trie

/-! ## The two-trie: transitions of the front trie and the link invariant -/

namespace basic_trie

/-- After `create_transition` the source of the new edge and every state with a child has a
positive base. -/
theorem ct_base_pos {tr tr' : basic_trie} {s c t : Int} {ρ : Int → Int} (h : tr.wf)
    (C : ct_sim tr tr' s c t ρ) {a : Int} (ha : tr.live a)
    (hch : ¬ (tr.childless a ∧ a ≠ s)) : 0 < tr'.base (ρ a) := by
  have hne : ∃ x b, tr'.step (ρ a) x = some b := by
    by_cases has : a = s
    · subst has
      exact ⟨c, t, C.edge⟩
    · have hnc : ¬ tr.childless a := fun hc => hch ⟨hc, has⟩
      rw [childless_iff_step h (live_pos h ha)] at hnc
      push_neg at hnc
      obtain ⟨x, hx⟩ := hnc
      obtain ⟨b, hb'⟩ := Option.ne_none_iff_exists'.mp hx
      exact ⟨x, ρ b, C.fwd a x b ha hb'⟩
  obtain ⟨x, b, hxb⟩ := hne
  rw [step_eq_some] at hxb
  have := (C.wf'.link b (by omega)).1
  rw [hxb.2.2.2.2] at this
  exact this

/-- The sign of the base of a state after `create_transition` from a state without a
negative base. -/
theorem ct_base_sign {tr tr' : basic_trie} {s c t : Int} {ρ : Int → Int} (h : tr.wf)
    (C : ct_sim tr tr' s c t ρ) (hb : 0 ≤ tr.base s) {a : Int} (ha : tr.live a) :
    (tr.base a < 0 → tr'.base (ρ a) = tr.base a)
    ∧ (0 ≤ tr.base a → 0 ≤ tr'.base (ρ a)) := by
  constructor
  · intro hn
    have hch : tr.childless a := childless_of_base_nonpos h (live_pos h ha) (by omega)
    have has : a ≠ s := by
      intro e
      rw [e] at hn
      omega
    exact C.base_leaf a ha hch has
  · intro hp
    by_cases hch : tr.childless a ∧ a ≠ s
    · rw [C.base_leaf a ha hch.1 hch.2]
      exact hp
    · exact le_of_lt (ct_base_pos h C ha hch)

/-- A state with a negative base after `create_transition` is a renamed state with that
base. -/
theorem ct_separator {tr tr' : basic_trie} {s c t : Int} {ρ : Int → Int} (h : tr.wf)
    (C : ct_sim tr tr' s c t ρ) (hb : 0 ≤ tr.base s) {y : Int} (hy : tr'.reach y)
    (hn : tr'.base y < 0) : ∃ a, tr.reach a ∧ y = ρ a ∧ tr.base a = tr'.base y := by
  rcases ct_reach_bwd C hy with ⟨a, ha, rfl⟩ | ⟨rfl, hnew, _⟩
  · refine ⟨a, ha, rfl, ?_⟩
    obtain ⟨h1, h2⟩ := ct_base_sign h C hb (reach_live ha)
    by_cases hs : tr.base a < 0
    · exact (h1 hs).symm
    · have := h2 (by omega)
      omega
  · rw [(C.fresh hnew).1] at hn
    omega

end basic_trie

namespace double_trie

/-- The call `lhs_->create_transition(s, c)` with its callback keeps the link invariant, for a
state `s` of the front trie that is no separator. -/
theorem lhs_ct_spec {dt : double_trie} (I : dt.rinv) {s c : Int} (hs : dt.lhs.reach s)
    (hb : 0 ≤ dt.lhs.base s) (hc1 : 1 ≤ c) (hc2 : c ≤ 257) :
    ∃ dt' t ρ, dt.lhs_create_transition s c = .ok (dt', t) ∧ dt'.rinv
      ∧ basic_trie.ct_sim dt.lhs dt'.lhs s c t ρ
      ∧ dt'.rhs = dt.rhs ∧ dt'.index = dt.index ∧ dt'.accept = dt.accept
      ∧ dt'.watcher0 = dt.watcher0 ∧ dt'.watcher1 = dt.watcher1
      ∧ dt'.next_index = dt.next_index ∧ dt'.free_index = dt.free_index := by
  have hsl := basic_trie.reach_live hs
  obtain ⟨tr', t, moved, ρ, hct, C, Mv⟩ :=
    basic_trie.create_transition_moved I.wfF hsl hb hc1 hc2
  unfold lhs_create_transition
  rw [hct]
  simp only [basic_trie.relocator_calls, if_true]
  have hsepl : ∀ x, dt.lhs.reach x → dt.lhs.base x < 0 →
      dt.lhs.live x ∧ 0 < dt.lhs.check x ∧ tr'.base (ρ x) = dt.lhs.base x := by
    intro x hx hxb
    have hl := basic_trie.reach_live hx
    refine ⟨hl, ?_, (basic_trie.ct_base_sign I.wfF C hb hl).1 hxb⟩
    rcases hl with h1 | h1
    · rw [h1] at hxb
      have := I.rootF
      omega
    · exact h1
  have hfold := find_refer_front_fold ρ dt.lhs.check moved
    ({ dt with lhs := tr' } : double_trie) Mv.1
    (fun o n h => ⟨(Mv.2.1 o n h).1, (Mv.2.1 o n h).2.1, (Mv.2.1 o n h).2.2.2⟩)
    (by
      intro a e x ha hx
      obtain ⟨q1, q2, _⟩ := I.referer a e x ha hx
      exact (hsepl x q1 q2).2.1)
    (by
      intro o n hon a e ha ho
      obtain ⟨q1, q2, q3⟩ := I.referer a e o ha ho
      have hρ := (Mv.2.1 o n hon).2.2.2
      have hbn := (hsepl o q1 q2).2.2
      rw [hρ] at hbn
      have hk := (rinvx_key_pos I ha).1
      have hi := q3 (by omega)
      unfold index_ref at hi
      obtain ⟨r1, r2, _, _⟩ := I.ref a e ha
      refine ⟨by show tr'.base n < 0; omega, ?_, ?_⟩
      · show (dt.index (-tr'.base n)).index > 0
        rw [hbn, hi]
        exact r2.1
      · show dt.accept (dt.index (-tr'.base n)).index = a
        rw [hbn, hi]
        exact r1)
  have hframe := relocate_front_fold_frame moved ({ dt with lhs := tr' } : double_trie)
  generalize hD : moved.foldl (fun dt m => dt.relocate_front m.1 m.2)
    ({ dt with lhs := tr' } : double_trie) = D at hfold hframe
  have hlhs : D.lhs = tr' := by rw [hframe]
  have hrhs : D.rhs = dt.rhs := by rw [hframe]
  have hidx : D.index = dt.index := by rw [hframe]
  have hacc : D.accept = dt.accept := by rw [hframe]
  have hni : D.next_index = dt.next_index := by rw [hframe]
  have hna : D.next_accept = dt.next_accept := by rw [hframe]
  have hfi : D.free_index = dt.free_index := by rw [hframe]
  have hfa : D.free_accept = dt.free_accept := by rw [hframe]
  have hw0 : D.watcher0 = dt.watcher0 := by rw [hframe]
  have hw1 : D.watcher1 = dt.watcher1 := by rw [hframe]
  have hfind : ∀ y, D.find_refer y = (dt.find_refer y).map (fun e =>
      { e with referer := (e.referer.map
          (fun x => if x ∈ moved.map Prod.fst then ρ x else x)) }) := hfold
  have huse : ∀ k, D.in_use k ↔ dt.in_use k := by
    intro k
    unfold in_use
    rw [hna, hfa]
  -- a separator after the call
  have hsep : ∀ y, D.lhs.reach y → D.lhs.base y < 0 →
      ∃ a, dt.lhs.reach a ∧ y = ρ a ∧ dt.lhs.base a = D.lhs.base y
        ∧ D.index_ref y = dt.index_ref a := by
    intro y hy hyb
    rw [hlhs] at hy hyb
    obtain ⟨a, ha, e1, e2⟩ := basic_trie.ct_separator I.wfF C hb hy hyb
    refine ⟨a, ha, e1, by rw [hlhs]; exact e2, ?_⟩
    unfold index_ref
    rw [hlhs, hidx, e2]
  refine ⟨D, t, ρ, rfl, ?_, by rw [hlhs]; exact C, hrhs, hidx, hacc, hw0, hw1, hni, hfi⟩
  refine ⟨by rw [hlhs]; exact C.wf', by rw [hrhs]; exact I.wfR, ?_,
    by rw [hrhs]; exact I.baseR, by rw [hrhs]; exact I.rootR, by rw [hrhs]; exact I.dummy,
    ?_, ?_, by rw [hfi]; exact I.free_index_nodup, by rw [hfi, hni]; exact I.free_index_range,
    by rw [hni]; exact I.next_index_pos, by rw [hfa]; exact I.free_accept_nodup,
    by rw [hfa, hna]; exact I.free_accept_range, by rw [hna]; exact I.next_accept_pos,
    ?_, ?_, ?_, ?_⟩
  · rw [hlhs]
    have := (basic_trie.ct_base_sign I.wfF C hb (basic_trie.live_root dt.lhs)).2 I.rootF
    rw [C.root] at this
    exact this
  · intro y hy hyb
    obtain ⟨a, ha, _, e2, _⟩ := hsep y hy hyb
    rw [hni, hfi, ← e2]
    exact I.slot_range a ha (by omega)
  · intro y1 y2 h1 h2 hb1 he
    obtain ⟨a1, ha1, e1, b1, _⟩ := hsep y1 h1 hb1
    obtain ⟨a2, ha2, e2, b2, _⟩ := hsep y2 h2 (by omega)
    have := I.slot_inj a1 a2 ha1 ha2 (by omega) (by omega)
    rw [e1, e2, this]
  · intro k hk
    obtain ⟨e, he, hek⟩ := I.acc k ((huse k).mp hk)
    rw [hacc, hfind, he]
    exact ⟨_, rfl, hek⟩
  · intro a e' ha
    rw [hfind] at ha
    cases he : dt.find_refer a with
    | none => rw [he] at ha; cases ha
    | some e =>
      rw [he] at ha
      simp only [Option.map_some', Option.some.injEq] at ha
      obtain ⟨q1, q2, q3, q4⟩ := I.ref a e he
      rw [← ha, hacc, hrhs]
      exact ⟨q1, (huse _).mpr q2, q3, q4⟩
  · intro a e' x' ha hx'
    rw [hfind] at ha
    cases he : dt.find_refer a with
    | none => rw [he] at ha; cases ha
    | some e =>
      rw [he] at ha
      simp only [Option.map_some', Option.some.injEq] at ha
      rw [← ha] at hx' ⊢
      obtain ⟨x, hx, rfl⟩ := List.mem_map.mp hx'
      obtain ⟨q1, q2, q3⟩ := I.referer a e x he hx
      obtain ⟨l1, _, l3⟩ := hsepl x q1 q2
      dsimp only
      rw [basic_trie.moved_rel_rename Mv l1, hlhs]
      refine ⟨basic_trie.ct_reach_fwd C q1, by omega, ?_⟩
      intro h0
      have := q3 h0
      unfold index_ref at this ⊢
      rw [hlhs, hidx, l3]
      exact this
  · intro y hy hyb hi
    obtain ⟨a, ha, e1, e2, e3⟩ := hsep y hy hyb
    rw [e3] at hi ⊢
    obtain ⟨q1, e, q2, q3⟩ := I.linked a ha (by omega) hi
    refine ⟨(huse _).mpr q1, { e with referer := (e.referer.map
      (fun x => if x ∈ moved.map Prod.fst then ρ x else x)) }, ?_, ?_⟩
    · rw [hacc, hfind, q2]
      rfl
    · apply List.mem_map.mpr
      refine ⟨a, q3, ?_⟩
      dsimp only
      rw [basic_trie.moved_rel_rename Mv (basic_trie.reach_live ha), e1]

end double_trie

/-! ## The two-trie: index slots and links -/

namespace basic_trie

theorem reach_congr {tr tr' : basic_trie} (hs : ∀ a x, tr'.step a x = tr.step a x) (y : Int) :
    tr'.reach y ↔ tr.reach y := by
  unfold reach
  constructor
  · rintro ⟨w, hw⟩
    exact ⟨w, by rw [← walk_congr hs]; exact hw⟩
  · rintro ⟨w, hw⟩
    exact ⟨w, by rw [walk_congr hs]; exact hw⟩

end basic_trie

namespace double_trie

theorem set_link_eq (dt : double_trie) (s t : Int) :
    dt.set_link s t
      = ((dt.find_index_entry s).1.link_entry s t (dt.find_index_entry s).2,
          (dt.find_index_entry s).2) := rfl

/-- What `find_index_entry` does for a state that is no separator. -/
theorem find_index_entry_alloc (dt : double_trie) (s : Int) (hb : 0 ≤ dt.lhs.base s) :
    ∃ i fi ni isz, dt.find_index_entry s
        = ({ dt with free_index := fi, next_index := ni, index_size := isz,
                     lhs := dt.lhs.set_base s (-i) }, i)
      ∧ ((dt.free_index = i :: fi ∧ ni = dt.next_index)
          ∨ (dt.free_index = [] ∧ fi = [] ∧ i = dt.next_index ∧ ni = dt.next_index + 1)) := by
  unfold find_index_entry
  rw [if_neg (by omega)]
  cases hf : dt.free_index with
  | cons i rest =>
    exact ⟨i, rest, dt.next_index, dt.index_size, rfl, Or.inl ⟨rfl, rfl⟩⟩
  | nil =>
    simp only []
    by_cases hsz : dt.next_index + 1 ≥ dt.index_size
    · rw [if_pos hsz]
      exact ⟨dt.next_index, [], dt.next_index + 1, 2 * dt.index_size + 1, rfl,
        Or.inr ⟨trivial, rfl, rfl, rfl⟩⟩
    · rw [if_neg hsz]
      exact ⟨dt.next_index, [], dt.next_index + 1, dt.index_size, rfl,
        Or.inr ⟨trivial, rfl, rfl, rfl⟩⟩

/-- A fresh state of the front trie gets an index slot of its own that refers to no accept
entry. -/
theorem slot_spec {dt : double_trie} {a0 : Int} (I : dt.rinvx a0) {s : Int}
    (hs : dt.lhs.reach s) (hs1 : s ≠ 1) (hch : dt.lhs.childless s) (hb : 0 ≤ dt.lhs.base s) :
    ∃ D i, dt.find_index_entry s = (D, i)
      ∧ (D.set_index i 0).rinvx a0 ∧ D.lhs.base s = -i ∧ 1 ≤ i
      ∧ (∀ a x, D.lhs.step a x = dt.lhs.step a x)
      ∧ (∀ x, x ≠ s → D.lhs.base x = dt.lhs.base x)
      ∧ D.rhs = dt.rhs ∧ D.refer = dt.refer ∧ D.accept = dt.accept
      ∧ D.next_accept = dt.next_accept ∧ D.free_accept = dt.free_accept
      ∧ D.watcher0 = dt.watcher0 ∧ D.watcher1 = dt.watcher1
      ∧ (∀ x, dt.lhs.reach x → dt.lhs.base x < 0 → -dt.lhs.base x ≠ i) := by
  obtain ⟨i, fi, ni, isz, hfie, hcase⟩ := find_index_entry_alloc dt s hb
  have hsl := basic_trie.reach_live hs
  obtain ⟨hwf', hstep⟩ := basic_trie.set_base_leaf I.wfF hsl hch (-i)
  have hi1 : 1 ≤ i := by
    rcases hcase with ⟨h1, _⟩ | ⟨_, _, h3, _⟩
    · exact (I.free_index_range i (by rw [h1]; simp)).1
    · rw [h3]; exact I.next_index_pos
  have hfresh : ∀ x, dt.lhs.reach x → dt.lhs.base x < 0 → -dt.lhs.base x ≠ i := by
    intro x hx hxb e
    obtain ⟨q1, q2⟩ := I.slot_range x hx hxb
    rcases hcase with ⟨h1, _⟩ | ⟨_, _, h3, _⟩
    · apply q2
      rw [e, h1]
      simp
    · omega
  have hnlt : dt.next_index ≤ ni := by
    rcases hcase with ⟨_, h2⟩ | ⟨_, _, _, h4⟩ <;> omega
  have hsub : ∀ j, j ∈ fi → j ∈ dt.free_index := by
    intro j hj
    rcases hcase with ⟨h1, _⟩ | ⟨_, h2, _, _⟩
    · rw [h1]
      exact List.mem_cons_of_mem _ hj
    · rw [h2] at hj
      cases hj
  have hinfi : i ∉ fi ∧ i < ni := by
    rcases hcase with ⟨h1, h2⟩ | ⟨_, h2, h3, h4⟩
    · have := I.free_index_nodup
      rw [h1, List.nodup_cons] at this
      have r := I.free_index_range i (by rw [h1]; simp)
      exact ⟨this.1, by omega⟩
    · rw [h2]
      exact ⟨by simp, by omega⟩
  have hreach : ∀ y, (dt.lhs.set_base s (-i)).reach y ↔ dt.lhs.reach y :=
    basic_trie.reach_congr hstep
  have hbase : ∀ x, (dt.lhs.set_base s (-i)).base x = if x = s then -i else dt.lhs.base x :=
    fun x => rfl
  have hiref : ∀ x, dt.lhs.reach x → dt.lhs.base x < 0 →
      (({ dt with free_index := fi, next_index := ni, index_size := isz,
                  lhs := dt.lhs.set_base s (-i) } : double_trie).set_index i 0).index_ref x
        = dt.index_ref x := by
    intro x hx hxb
    have hxs : x ≠ s := by
      intro e
      rw [e] at hxb
      omega
    unfold index_ref set_index
    simp only [hbase, if_neg hxs]
    rw [if_neg (hfresh x hx hxb)]
  refine ⟨_, i, hfie, ?_, by simp, hi1, hstep, fun x hx => by simp [hx], rfl, rfl, rfl, rfl, rfl,
    rfl, rfl, hfresh⟩
  refine ⟨hwf', I.wfR, ?_, I.baseR, I.rootR, I.dummy, ?_, ?_, ?_, ?_, by
    show 1 ≤ ni
    have := I.next_index_pos
    omega, I.free_accept_nodup, I.free_accept_range, I.next_accept_pos, I.acc, I.ref, ?_, ?_⟩
  · show 0 ≤ (dt.lhs.set_base s (-i)).base 1
    rw [hbase, if_neg (fun e => hs1 e.symm)]
    exact I.rootF
  · intro x hx hxb
    have hx' := (hreach x).mp hx
    show -(dt.lhs.set_base s (-i)).base x < ni ∧ -(dt.lhs.set_base s (-i)).base x ∉ fi
    have hxb' : (dt.lhs.set_base s (-i)).base x < 0 := hxb
    rw [hbase] at hxb' ⊢
    by_cases hxs : x = s
    · rw [if_pos hxs]
      simp only [neg_neg]
      exact ⟨hinfi.2, hinfi.1⟩
    · rw [if_neg hxs] at hxb' ⊢
      obtain ⟨q1, q2⟩ := I.slot_range x hx' hxb'
      exact ⟨by omega, fun h => q2 (hsub _ h)⟩
  · intro x1 x2 h1 h2 hb1 he
    have h1' := (hreach x1).mp h1
    have h2' := (hreach x2).mp h2
    have hb1' : (dt.lhs.set_base s (-i)).base x1 < 0 := hb1
    have he' : (dt.lhs.set_base s (-i)).base x1 = (dt.lhs.set_base s (-i)).base x2 := he
    rw [hbase] at hb1'
    rw [hbase, hbase] at he'
    by_cases e1 : x1 = s
    · by_cases e2 : x2 = s
      · rw [e1, e2]
      · rw [if_pos e1, if_neg e2] at he'
        exact absurd (by omega) (hfresh x2 h2' (by omega))
    · by_cases e2 : x2 = s
      · rw [if_neg e1, if_pos e2] at he'
        rw [if_neg e1] at hb1'
        exact absurd (by omega) (hfresh x1 h1' hb1')
      · rw [if_neg e1, if_neg e2] at he'
        rw [if_neg e1] at hb1'
        exact I.slot_inj x1 x2 h1' h2' hb1' he'
  · show fi.Nodup
    rcases hcase with ⟨h1, _⟩ | ⟨_, h2, _, _⟩
    · have := I.free_index_nodup
      rw [h1, List.nodup_cons] at this
      exact this.2
    · rw [h2]
      exact List.nodup_nil
  · intro j hj
    have hj' : j ∈ fi := hj
    have := I.free_index_range j (hsub j hj')
    show 1 ≤ j ∧ j < ni
    omega
  · intro a e x ha hx
    obtain ⟨q1, q2, q3⟩ := I.referer a e x ha hx
    have hxs : x ≠ s := by
      intro e
      rw [e] at q2
      omega
    refine ⟨(hreach x).mpr q1, ?_, ?_⟩
    · show (dt.lhs.set_base s (-i)).base x < 0
      rw [hbase, if_neg hxs]
      exact q2
    · intro h0
      rw [hiref x q1 q2]
      exact q3 h0
  · intro x hx hxb hi
    have hx' := (hreach x).mp hx
    have hxb' : (dt.lhs.set_base s (-i)).base x < 0 := hxb
    rw [hbase] at hxb'
    by_cases hxs : x = s
    · exfalso
      subst hxs
      unfold index_ref set_index at hi
      simp only [hbase, if_true, neg_neg] at hi
      omega
    · rw [if_neg hxs] at hxb'
      rw [hiref x hx' hxb'] at hi ⊢
      exact I.linked x hx' hxb' hi

end double_trie

namespace double_trie

/-- What `find_accept_entry` does. -/
theorem find_accept_entry_cases (dt : double_trie) (t : Int) :
    ∃ D k, dt.find_accept_entry t = (D, k)
      ∧ D.lhs = dt.lhs ∧ D.rhs = dt.rhs ∧ D.index = dt.index
      ∧ D.free_index = dt.free_index ∧ D.next_index = dt.next_index
      ∧ D.watcher0 = dt.watcher0 ∧ D.watcher1 = dt.watcher1
      ∧ ((∃ e, dt.find_refer t = some e ∧ D = dt ∧ k = e.accept_index)
        ∨ (dt.find_refer t = none
            ∧ (∀ a, D.find_refer a = if a = t then some ⟨k, []⟩ else dt.find_refer a)
            ∧ (∀ j, D.accept j = if j = k then t else dt.accept j)
            ∧ ((dt.free_accept = k :: D.free_accept ∧ D.next_accept = dt.next_accept)
              ∨ (dt.free_accept = [] ∧ D.free_accept = [] ∧ k = dt.next_accept
                  ∧ D.next_accept = dt.next_accept + 1)))) := by
  unfold find_accept_entry
  cases hf : dt.find_refer t with
  | some e => exact ⟨dt, e.accept_index, rfl, rfl, rfl, rfl, rfl, rfl, rfl, rfl,
      Or.inl ⟨e, rfl, rfl, rfl⟩⟩
  | none =>
    cases hfa : dt.free_accept with
    | cons k rest =>
      refine ⟨_, k, rfl, rfl, rfl, rfl, rfl, rfl, rfl, rfl, Or.inr ⟨rfl, ?_, fun j => rfl,
        Or.inl ⟨rfl, rfl⟩⟩⟩
      intro a
      rw [find_refer_set_refer]
      by_cases h : a = t
      · rw [if_pos h, if_pos h]
      · rw [if_neg h, if_neg h]
        rfl
    | nil =>
      simp only []
      by_cases hsz : dt.next_accept + 1 ≥ dt.accept_size
      · rw [if_pos hsz]
        refine ⟨_, dt.next_accept, rfl, rfl, rfl, rfl, rfl, rfl, rfl, rfl, Or.inr ⟨trivial, ?_,
          fun j => rfl, Or.inr ⟨trivial, rfl, rfl, rfl⟩⟩⟩
        intro a
        rw [find_refer_set_refer]
        by_cases h : a = t
        · rw [if_pos h, if_pos h]
        · rw [if_neg h, if_neg h]
          rfl
      · rw [if_neg hsz]
        refine ⟨_, dt.next_accept, rfl, rfl, rfl, rfl, rfl, rfl, rfl, rfl, Or.inr ⟨trivial, ?_,
          fun j => rfl, Or.inr ⟨trivial, rfl, rfl, rfl⟩⟩⟩
        intro a
        rw [find_refer_set_refer]
        by_cases h : a = t
        · rw [if_pos h, if_pos h]
        · rw [if_neg h, if_neg h]
          rfl

/-- The invariant depends on the two tries, the index references, the accept table and the
referer lists only. -/
theorem rinvx_congr {dt D : double_trie} {a0 : Int} (I : dt.rinvx a0)
    (h1 : D.lhs = dt.lhs) (h2 : D.rhs = dt.rhs) (h3 : ∀ j, (D.index j).index = (dt.index j).index)
    (h4 : D.accept = dt.accept) (h5 : ∀ a, D.find_refer a = dt.find_refer a)
    (h6 : D.next_index = dt.next_index) (h7 : D.free_index = dt.free_index)
    (h8 : D.next_accept = dt.next_accept) (h9 : D.free_accept = dt.free_accept) :
    D.rinvx a0 := by
  have hiu : ∀ k, D.in_use k ↔ dt.in_use k := by
    intro k
    unfold in_use
    rw [h8, h9]
  have hir : ∀ s, D.index_ref s = dt.index_ref s := by
    intro s
    unfold index_ref
    rw [h1, h3]
  constructor
  · rw [h1]; exact I.wfF
  · rw [h2]; exact I.wfR
  · rw [h1]; exact I.rootF
  · rw [h2]; exact I.baseR
  · rw [h2]; exact I.rootR
  · rw [h2]; exact I.dummy
  · rw [h1, h6, h7]; exact I.slot_range
  · rw [h1]; exact I.slot_inj
  · rw [h7]; exact I.free_index_nodup
  · rw [h6, h7]; exact I.free_index_range
  · rw [h6]; exact I.next_index_pos
  · rw [h9]; exact I.free_accept_nodup
  · rw [h8, h9]; exact I.free_accept_range
  · rw [h8]; exact I.next_accept_pos
  · intro k hk
    rw [h4, h5]
    exact I.acc k ((hiu k).mp hk)
  · intro a e he
    rw [h5] at he
    rw [h4, hiu, h2]
    exact I.ref a e he
  · intro a e x he hx
    rw [h5] at he
    rw [h1, hir]
    exact I.referer a e x he hx
  · intro s hs hb hi
    rw [h1] at hs hb
    rw [hir] at hi
    rw [hiu, hir, h4]
    obtain ⟨q1, e, q2, q3⟩ := I.linked s hs hb hi
    exact ⟨q1, e, by rw [h5]; exact q2, q3⟩

theorem rinvx_set_data {dt : double_trie} {a0 : Int} (I : dt.rinvx a0) (i v : Int) :
    (dt.set_data i v).rinvx a0 := by
  refine rinvx_congr I rfl rfl ?_ rfl (fun a => rfl) rfl rfl rfl rfl
  intro j
  unfold set_data
  simp only []
  split <;> rfl

/-- The accept entry of a rear state is found or made without harm to the invariant. -/
theorem find_accept_entry_spec {dt : double_trie} {a0 : Int} (I : dt.rinvx a0) {t : Int}
    (ht : dt.rhs.reach t) (ht1 : t ≠ 1) :
    ∃ D k e, dt.find_accept_entry t = (D, k) ∧ D.rinvx a0
      ∧ D.lhs = dt.lhs ∧ D.rhs = dt.rhs ∧ D.index = dt.index
      ∧ D.watcher0 = dt.watcher0 ∧ D.watcher1 = dt.watcher1
      ∧ D.find_refer t = some e ∧ e.accept_index = k
      ∧ (∀ a, a ≠ t → D.find_refer a = dt.find_refer a)
      ∧ ((dt.find_refer t = none ∧ e.referer = []) ∨ dt.find_refer t = some e) := by
  obtain ⟨D, k, hfa, h1, h2, h3, h4, h5, h6, h7, hc⟩ := find_accept_entry_cases dt t
  rcases hc with ⟨e, he, hD, hk⟩ | ⟨hn, hfr, hacc, hfree⟩
  · subst D
    exact ⟨dt, k, e, hfa, I, rfl, rfl, rfl, rfl, rfl, he, hk.symm, fun a _ => rfl, Or.inr he⟩
  · have hfrt : D.find_refer t = some ⟨k, []⟩ := by rw [hfr, if_pos rfl]
    have hfro : ∀ a, a ≠ t → D.find_refer a = dt.find_refer a := by
      intro a ha
      rw [hfr, if_neg ha]
    have hknew : ¬ dt.in_use k := by
      unfold in_use
      rcases hfree with ⟨q1, q2⟩ | ⟨q1, q2, q3, q4⟩
      · rw [q1]
        simp
      · omega
    have hiu : ∀ j, D.in_use j ↔ (dt.in_use j ∨ j = k) := by
      intro j
      unfold in_use
      rcases hfree with ⟨q1, q2⟩ | ⟨q1, q2, q3, q4⟩
      · rw [q1, q2]
        have hr := I.free_accept_range k (by rw [q1]; simp)
        have hnd := I.free_accept_nodup
        rw [q1, List.nodup_cons] at hnd
        constructor
        · rintro ⟨a, b, c⟩
          by_cases hjk : j = k
          · exact Or.inr hjk
          · exact Or.inl ⟨a, b, by simp [hjk, c]⟩
        · rintro (⟨a, b, c⟩ | e)
          · simp only [List.mem_cons, not_or] at c
            exact ⟨a, b, c.2⟩
          · rw [e]
            exact ⟨hr.1, hr.2, hnd.1⟩
      · rw [q1, q2, q4]
        have := I.next_accept_pos
        constructor
        · rintro ⟨a, b, c⟩
          by_cases hjk : j = k
          · exact Or.inr hjk
          · exact Or.inl ⟨a, by omega, by simp⟩
        · rintro (⟨a, b, c⟩ | e)
          · exact ⟨a, by omega, by simp⟩
          · exact ⟨by omega, by omega, by simp⟩
    have hir : ∀ s, D.index_ref s = dt.index_ref s := by
      intro s
      unfold index_ref
      rw [h1, h3]
    refine ⟨D, k, ⟨k, []⟩, hfa, ?_, h1, h2, h3, h6, h7, hfrt, rfl, hfro, Or.inl ⟨hn, rfl⟩⟩
    constructor
    · rw [h1]; exact I.wfF
    · rw [h2]; exact I.wfR
    · rw [h1]; exact I.rootF
    · rw [h2]; exact I.baseR
    · rw [h2]; exact I.rootR
    · rw [h2]; exact I.dummy
    · rw [h1, h4, h5]; exact I.slot_range
    · rw [h1]; exact I.slot_inj
    · rw [h4]; exact I.free_index_nodup
    · rw [h4, h5]; exact I.free_index_range
    · rw [h5]; exact I.next_index_pos
    · rcases hfree with ⟨q1, q2⟩ | ⟨q1, q2, q3, q4⟩
      · have hnd := I.free_accept_nodup
        rw [q1, List.nodup_cons] at hnd
        exact hnd.2
      · rw [q2]
        exact List.nodup_nil
    · intro j hj
      rcases hfree with ⟨q1, q2⟩ | ⟨q1, q2, q3, q4⟩
      · rw [q2]
        exact I.free_accept_range j (by rw [q1]; exact List.mem_cons_of_mem _ hj)
      · rw [q2] at hj
        cases hj
    · have := I.next_accept_pos
      rcases hfree with ⟨q1, q2⟩ | ⟨q1, q2, q3, q4⟩ <;> omega
    · intro j hj
      rw [hacc]
      by_cases hjk : j = k
      · rw [if_pos hjk, hfrt, hjk]
        exact ⟨_, rfl, rfl⟩
      · rw [if_neg hjk]
        have hj' : dt.in_use j := by
          rcases (hiu j).mp hj with h | h
          · exact h
          · exact absurd h hjk
        obtain ⟨e, q1, q2⟩ := I.acc j hj'
        have hne : dt.accept j ≠ t := by
          intro e'
          rw [e', hn] at q1
          cases q1
        rw [hfro _ hne]
        exact ⟨e, q1, q2⟩
    · intro a e he
      by_cases hat : a = t
      · rw [hat, hfrt] at he
        cases he
        rw [hat, h2]
        refine ⟨?_, (hiu k).mpr (Or.inr rfl), ht, ht1⟩
        rw [hacc, if_pos rfl]
      · rw [hfro a hat] at he
        obtain ⟨q1, q2, q3, q4⟩ := I.ref a e he
        have hne : e.accept_index ≠ k := by
          intro e'
          rw [e'] at q2
          exact hknew q2
        rw [h2]
        refine ⟨?_, (hiu _).mpr (Or.inl q2), q3, q4⟩
        rw [hacc, if_neg hne]
        exact q1
    · intro a e x he hx
      by_cases hat : a = t
      · rw [hat, hfrt] at he
        cases he
        cases hx
      · rw [hfro a hat] at he
        rw [h1, hir]
        exact I.referer a e x he hx
    · intro s hs hb hi
      rw [h1] at hs hb
      rw [hir] at hi ⊢
      obtain ⟨q1, e, q2, q3⟩ := I.linked s hs hb hi
      have hne : dt.index_ref s ≠ k := by
        intro e'
        rw [e'] at q1
        exact hknew q1
      have hne2 : dt.accept (dt.index_ref s) ≠ t := by
        intro e'
        rw [e', hn] at q2
        cases q2
      refine ⟨(hiu _).mpr (Or.inl q1), e, ?_, q3⟩
      rw [hacc, if_neg hne, hfro _ hne2]
      exact q2

end double_trie

namespace double_trie

theorem set_index_twice (dt : double_trie) (i v k : Int) :
    (dt.set_index i v).set_index i k = dt.set_index i k := by
  unfold set_index
  simp only []
  congr 1
  funext j
  by_cases h : j = i
  · rw [if_pos h, if_pos h, if_pos h]
  · rw [if_neg h, if_neg h, if_neg h]

theorem find_accept_entry_set_index (dt : double_trie) (i v t : Int) :
    (dt.set_index i v).find_accept_entry t
      = ((dt.find_accept_entry t).1.set_index i v, (dt.find_accept_entry t).2) := by
  unfold find_accept_entry
  rw [find_refer_set_index]
  cases dt.find_refer t with
  | some e => rfl
  | none =>
    simp only []
    show (match dt.free_accept with
      | k :: rest => _
      | [] => _) = _
    cases hfa : dt.free_accept with
    | cons k rest => rfl
    | nil =>
      simp only []
      show (((if dt.next_accept + 1 ≥ dt.accept_size then _ else _ : double_trie).set_accept _ _
        ).set_refer _ _, _) = _
      by_cases hsz : dt.next_accept + 1 ≥ dt.accept_size
      · rw [if_pos hsz, if_pos hsz]
        simp [set_index, set_accept, set_refer, hfa]
      · rw [if_neg hsz, if_neg hsz]
        simp [set_index, set_accept, set_refer, hfa]

theorem link_entry_set_index (dt : double_trie) (s t i v : Int) :
    (dt.set_index i v).link_entry s t i = dt.link_entry s t i := by
  unfold link_entry
  rw [find_accept_entry_set_index]
  simp only [set_index_twice]

theorem link_entry_eq (dt : double_trie) (s t i : Int) {D : double_trie} {k : Int}
    {e : refer_type} (hfa : dt.find_accept_entry t = (D, k)) (he : D.find_refer t = some e) :
    dt.link_entry s t i = (D.set_index i k).set_refer t
      (if s ∈ e.referer then e else { e with referer := e.referer ++ [s] }) := by
  unfold link_entry
  rw [hfa]
  simp only [find_refer_set_index, he, Option.getD_some]

/-- The index slot of a separator is made to refer to an accept entry, and the separator joins
the referers of the rear state of that entry. -/
theorem add_referer_spec {dt : double_trie} {a0 : Int} (I : dt.rinvx a0) {s t k i : Int}
    {e : refer_type} (hs : dt.lhs.reach s) (hb : dt.lhs.base s < 0) (hi : i = -dt.lhs.base s)
    (he : dt.find_refer t = some e) (hk : e.accept_index = k)
    (hstale : ∀ a e1, dt.find_refer a = some e1 → s ∈ e1.referer → a = a0 ∨ a = t)
    (e' : refer_type)
    (he' : e' = if s ∈ e.referer then e else { e with referer := e.referer ++ [s] }) :
    ((dt.set_index i k).set_refer t e').rinvx a0
      ∧ ((dt.set_index i k).set_refer t e').index_ref s = k
      ∧ (∀ x, dt.lhs.reach x → dt.lhs.base x < 0 → x ≠ s →
          ((dt.set_index i k).set_refer t e').index_ref x = dt.index_ref x)
      ∧ e'.accept_index = k ∧ s ∈ e'.referer
      ∧ (∀ x, x ∈ e'.referer ↔ (x ∈ e.referer ∨ x = s)) := by
  have hfr : ∀ a, ((dt.set_index i k).set_refer t e').find_refer a
      = if a = t then some e' else dt.find_refer a := by
    intro a
    rw [find_refer_set_refer, find_refer_set_index]
  have hai : e'.accept_index = k := by
    rw [he']
    split
    · exact hk
    · exact hk
  have hmem : ∀ x, x ∈ e'.referer ↔ (x ∈ e.referer ∨ x = s) := by
    intro x
    rw [he']
    by_cases h : s ∈ e.referer
    · rw [if_pos h]
      constructor
      · exact Or.inl
      · rintro (h1 | h1)
        · exact h1
        · rw [h1]; exact h
    · rw [if_neg h]
      simp
  have hsm : s ∈ e'.referer := (hmem s).mpr (Or.inr rfl)
  have hir : ∀ x, dt.lhs.reach x → dt.lhs.base x < 0 →
      ((dt.set_index i k).set_refer t e').index_ref x = if x = s then k else dt.index_ref x := by
    intro x hx hxb
    show ((dt.set_index i k).index (-dt.lhs.base x)).index = _
    unfold set_index
    simp only []
    by_cases hxs : x = s
    · rw [if_pos hxs, hxs, if_pos hi.symm]
    · rw [if_neg hxs, if_neg]
      · rfl
      · intro e1
        apply hxs
        exact I.slot_inj x s hx hs hxb (by omega)
  have hacct : dt.accept k = t := by
    rw [← hk]
    exact (I.ref t e he).1
  have hku : dt.in_use k := by
    rw [← hk]
    exact (I.ref t e he).2.1
  refine ⟨?_, by rw [hir s hs hb, if_pos rfl], fun x hx hxb hxs => by rw [hir x hx hxb, if_neg hxs],
    hai, hsm, hmem⟩
  refine ⟨I.wfF, I.wfR, I.rootF, I.baseR, I.rootR, I.dummy, I.slot_range, I.slot_inj,
    I.free_index_nodup, I.free_index_range, I.next_index_pos, I.free_accept_nodup,
    I.free_accept_range, I.next_accept_pos, ?_, ?_, ?_, ?_⟩
  · intro j hj
    obtain ⟨e1, q1, q2⟩ := I.acc j hj
    show ∃ e2, ((dt.set_index i k).set_refer t e').find_refer (dt.accept j) = some e2 ∧ _
    rw [hfr]
    by_cases h : dt.accept j = t
    · rw [if_pos h]
      rw [h, he] at q1
      cases q1
      exact ⟨e', rfl, by rw [hai, ← q2, hk]⟩
    · rw [if_neg h]
      exact ⟨e1, q1, q2⟩
  · intro a e1 he1
    rw [hfr] at he1
    by_cases h : a = t
    · rw [if_pos h] at he1
      cases he1
      rw [h, hai]
      exact ⟨hacct, hku, (I.ref t e he).2.2⟩
    · rw [if_neg h] at he1
      exact I.ref a e1 he1
  · intro a e1 x he1 hx
    rw [hfr] at he1
    by_cases h : a = t
    · rw [if_pos h] at he1
      cases he1
      rcases (hmem x).mp hx with hx1 | hx1
      · obtain ⟨q1, q2, q3⟩ := I.referer t e x he hx1
        refine ⟨q1, q2, ?_⟩
        intro h0
        rw [hir x q1 q2, hai]
        by_cases hxs : x = s
        · rw [if_pos hxs]
        · rw [if_neg hxs, q3 (by rw [← h]; exact h0), hk]
      · rw [hx1]
        refine ⟨hs, hb, fun _ => ?_⟩
        rw [hir s hs hb, if_pos rfl, hai]
    · rw [if_neg h] at he1
      obtain ⟨q1, q2, q3⟩ := I.referer a e1 x he1 hx
      refine ⟨q1, q2, ?_⟩
      intro h0
      rw [hir x q1 q2]
      by_cases hxs : x = s
      · exfalso
        rw [hxs] at hx
        rcases hstale a e1 he1 hx with h1 | h1
        · exact h0 h1
        · exact h h1
      · rw [if_neg hxs]
        exact q3 h0
  · intro x hx hxb hpos
    have hx' : dt.lhs.reach x := hx
    have hxb' : dt.lhs.base x < 0 := hxb
    rw [hir x hx' hxb'] at hpos ⊢
    show dt.in_use _ ∧ ∃ e2, ((dt.set_index i k).set_refer t e').find_refer (dt.accept _)
      = some e2 ∧ _
    by_cases hxs : x = s
    · rw [if_pos hxs, hacct, hfr, if_pos rfl, hxs]
      exact ⟨hku, e', rfl, hsm⟩
    · rw [if_neg hxs] at hpos ⊢
      obtain ⟨q1, e1, q2, q3⟩ := I.linked x hx' hxb' hpos
      refine ⟨q1, ?_⟩
      rw [hfr]
      by_cases h : dt.accept (dt.index_ref x) = t
      · rw [if_pos h]
        rw [h, he] at q2
        cases q2
        exact ⟨e', rfl, (hmem x).mpr (Or.inl q3)⟩
      · rw [if_neg h]
        exact ⟨e1, q2, q3⟩

end double_trie

namespace double_trie

theorem find_index_entry_sep (dt : double_trie) (s : Int) (hb : dt.lhs.base s < 0) :
    dt.find_index_entry s = (dt, -dt.lhs.base s) := by
  unfold find_index_entry
  rw [if_pos hb]

/-- The call `set_link(s, t)` on a separator `s`: the separator is moved to the referers of `t`.
The invariant allows for the entry that is left in the referers of `a0`. -/
theorem set_link_sep {dt : double_trie} {a0 : Int} (I : dt.rinvx a0) {s t : Int}
    (hs : dt.lhs.reach s) (hb : dt.lhs.base s < 0) (ht : dt.rhs.reach t) (ht1 : t ≠ 1)
    (hstale : ∀ a e1, dt.find_refer a = some e1 → s ∈ e1.referer → a = a0 ∨ a = t) :
    ∃ D e', (dt.set_link s t).1 = D ∧ D.rinvx a0 ∧ D.lhs = dt.lhs ∧ D.rhs = dt.rhs
      ∧ D.watcher0 = dt.watcher0 ∧ D.watcher1 = dt.watcher1
      ∧ (∀ a, a ≠ t → D.find_refer a = dt.find_refer a)
      ∧ D.find_refer t = some e' ∧ D.index_ref s = e'.accept_index
      ∧ (∀ x, dt.lhs.reach x → dt.lhs.base x < 0 → x ≠ s → D.index_ref x = dt.index_ref x)
      ∧ (∀ e, dt.find_refer t = some e → e'.accept_index = e.accept_index) := by
  obtain ⟨D2, k, e, hfa, I2, l1, l2, l3, l4, l5, l6, l7, l8, l9⟩ := find_accept_entry_spec I ht ht1
  have hir2 : ∀ x, D2.index_ref x = dt.index_ref x := by
    intro x
    unfold index_ref
    rw [l1, l3]
  have hst2 : ∀ a e1, D2.find_refer a = some e1 → s ∈ e1.referer → a = a0 ∨ a = t := by
    intro a e1 h1 h2
    by_cases hat : a = t
    · exact Or.inr hat
    · rw [l8 a hat] at h1
      exact hstale a e1 h1 h2
  obtain ⟨J, j1, j2, j3, j4, j5⟩ := add_referer_spec I2 (by rw [l1]; exact hs)
    (by rw [l1]; exact hb) (i := -dt.lhs.base s) (by rw [l1]) l6 l7 hst2 _ rfl
  have heq : (dt.set_link s t).1 = (D2.set_index (-dt.lhs.base s) k).set_refer t
      (if s ∈ e.referer then e else { e with referer := e.referer ++ [s] }) := by
    rw [set_link_eq, find_index_entry_sep dt s hb]
    exact link_entry_eq dt s t _ hfa l6
  refine ⟨(D2.set_index (-dt.lhs.base s) k).set_refer t
      (if s ∈ e.referer then e else { e with referer := e.referer ++ [s] }),
    (if s ∈ e.referer then e else { e with referer := e.referer ++ [s] }),
    heq, J, l1, l2, l4, l5, ?_, ?_, ?_, ?_, ?_⟩
  · intro a hat
    rw [find_refer_set_refer, if_neg hat, find_refer_set_index]
    exact l8 a hat
  · rw [find_refer_set_refer, if_pos rfl]
  · rw [j1, j3]
  · intro x hx hxb hxs
    rw [j2 x (by rw [l1]; exact hx) (by rw [l1]; exact hxb) hxs, hir2]
  · intro e0 he0
    rw [j3, ← l7]
    rcases l9 with ⟨q1, _⟩ | q1
    · rw [q1] at he0
      cases he0
    · rw [q1] at he0
      cases he0
      rfl

/-- The call `set_link(s, t)` on a fresh state `s` of the front trie: the state becomes a
separator that is linked to `t`. -/
theorem set_link_fresh {dt : double_trie} {a0 : Int} (I : dt.rinvx a0) {s t : Int}
    (hs : dt.lhs.reach s) (hs1 : s ≠ 1) (hch : dt.lhs.childless s) (hb : 0 ≤ dt.lhs.base s)
    (ht : dt.rhs.reach t) (ht1 : t ≠ 1) :
    ∃ D i, dt.set_link s t = (D, i) ∧ D.rinvx a0 ∧ D.rhs = dt.rhs
      ∧ D.watcher0 = dt.watcher0 ∧ D.watcher1 = dt.watcher1
      ∧ (∀ a x, D.lhs.step a x = dt.lhs.step a x)
      ∧ (∀ x, x ≠ s → D.lhs.base x = dt.lhs.base x) ∧ D.lhs.base s < 0
      ∧ (∀ a, a ≠ t → D.find_refer a = dt.find_refer a) := by
  obtain ⟨D1, i, hfie, I1, m1, m2, m3, m4, m5, m6, m7, m8, m9, m10, m11, m12⟩ :=
    slot_spec I hs hs1 hch hb
  have hreach : ∀ y, D1.lhs.reach y ↔ dt.lhs.reach y := basic_trie.reach_congr m3
  have hfr1 : ∀ a, (D1.set_index i 0).find_refer a = dt.find_refer a := by
    intro a
    rw [find_refer_set_index]
    unfold find_refer
    rw [m6]
  obtain ⟨D2, k, e, hfa, I2, l1, l2, l3, l4, l5, l6, l7, l8, l9⟩ :=
    find_accept_entry_spec I1 (t := t) (by
      show D1.rhs.reach t
      rw [m5]
      exact ht) ht1
  have hl1 : D2.lhs = D1.lhs := l1
  have hst2 : ∀ a e1, D2.find_refer a = some e1 → s ∈ e1.referer → a = a0 ∨ a = t := by
    intro a e1 h1 h2
    by_cases hat : a = t
    · exact Or.inr hat
    · exfalso
      rw [l8 a hat, hfr1] at h1
      have := (I.referer a e1 s h1 h2).2.1
      omega
  obtain ⟨J, j1, j2, j3, j4, j5⟩ := add_referer_spec I2 (s := s) (by
      rw [hl1]
      exact (hreach s).mpr hs)
    (by rw [hl1, m1]; omega) (i := i) (by rw [hl1, m1]; omega) l6 l7 hst2 _ rfl
  have heq : dt.set_link s t = ((D2.set_index i k).set_refer t
      (if s ∈ e.referer then e else { e with referer := e.referer ++ [s] }), i) := by
    rw [set_link_eq, hfie]
    show (D1.link_entry s t i, i) = _
    rw [← link_entry_set_index D1 s t i 0, link_entry_eq _ s t i hfa l6]
  refine ⟨_, i, heq, J, ?_, ?_, ?_, ?_, ?_, ?_, ?_⟩
  · show D2.rhs = dt.rhs
    rw [l2]
    exact m5
  · show D2.watcher0 = dt.watcher0
    rw [l4]
    exact m10
  · show D2.watcher1 = dt.watcher1
    rw [l5]
    exact m11
  · intro a x
    show D2.lhs.step a x = _
    rw [hl1]
    exact m3 a x
  · intro x hx
    show D2.lhs.base x = _
    rw [hl1]
    exact m4 x hx
  · show D2.lhs.base s < 0
    rw [hl1, m1]
    omega
  · intro a hat
    rw [find_refer_set_refer, if_neg hat, find_refer_set_index, l8 a hat, hfr1]

end double_trie

/-! ## The two-trie: freeing an accept entry and removing a rear leaf -/

namespace basic_trie

/-- Clearing the cell of a childless state removes the edge into it and nothing else. -/
theorem remove_leaf {tr : basic_trie} (h : tr.wf) {a : Int} (ha : 0 < tr.check a)
    (hch : tr.childless a) :
    ((tr.set_base a 0).set_check a 0).wf
      ∧ (∀ y x, ((tr.set_base a 0).set_check a 0).step y x
          = if tr.step y x = some a then none else tr.step y x)
      ∧ (∀ y, y ≠ a → ((tr.set_base a 0).set_check a 0).base y = tr.base y) := by
  have hck : ∀ t, ((tr.set_base a 0).set_check a 0).check t = if t = a then 0 else tr.check t :=
    fun t => rfl
  have hbs : ∀ t, ((tr.set_base a 0).set_check a 0).base t = if t = a then 0 else tr.base t :=
    fun t => rfl
  have hsz : ((tr.set_base a 0).set_check a 0).size = tr.size := rfl
  have ha2 := (h.check_range a (by omega)).1
  refine ⟨⟨h.size_ge, h.last_base_ge, h.last_base_lt, ?_, ?_, ?_, ?_, ?_⟩, ?_, ?_⟩
  · intro t ht
    rw [hck] at ht
    by_cases e : t = a
    · rw [if_pos e] at ht
      exact absurd rfl ht
    · rw [if_neg e] at ht
      exact h.check_range t ht
  · intro t
    rw [hck]
    split
    · exact le_refl _
    · exact h.check_nonneg t
  · intro t ht
    rw [hck] at ht ⊢
    by_cases e : t = a
    · rw [if_pos e] at ht
      omega
    · rw [if_neg e] at ht ⊢
      have hl := h.link t ht
      have hne : tr.check t ≠ a := hch t
      rw [hbs, if_neg hne]
      refine ⟨hl.1, hl.2.1, hl.2.2.1, ?_⟩
      rcases hl.2.2.2 with h1 | h1
      · exact Or.inl h1
      · right
        rw [hck, if_neg hne]
        exact h1
  · intro t ht1 ht
    rw [hck] at ht
    rw [hbs]
    by_cases e : t = a
    · rw [if_pos e]
    · rw [if_neg e] at ht ⊢
      exact h.free_base t ht1 ht
  · intro t ht
    rw [hck] at ht ⊢
    by_cases e : t = a
    · rw [if_pos e] at ht
      omega
    · rw [if_neg e] at ht ⊢
      exact h.no_self t ht
  · intro y x
    by_cases hya : y = a
    · rw [hya, childless_step hch]
      simp only [reduceCtorEq, if_false]
      rw [step_eq_none]
      rintro ⟨_, _, _, h4⟩
      rw [hck] at h4
      split at h4
      · omega
      · exact hch _ h4
    · cases hs : tr.step y x with
      | none =>
        simp only [reduceCtorEq, if_false]
        rw [step_eq_none] at hs ⊢
        intro ⟨h1, h2, h3, h4⟩
        rw [hbs, if_neg hya] at h2 h3 h4
        rw [hck] at h4
        split at h4
        · omega
        · exact hs ⟨h1, h2, h3, h4⟩
      | some b =>
        by_cases hba : b = a
        · rw [if_pos (by rw [hba])]
          rw [step_eq_some] at hs
          rw [step_eq_none]
          intro ⟨h1, h2, h3, h4⟩
          rw [hbs, if_neg hya] at h4
          rw [hck, if_pos (by omega)] at h4
          omega
        · rw [if_neg (by simpa using hba)]
          rw [step_eq_some] at hs ⊢
          rw [hbs, if_neg hya, hck, if_neg hba]
          exact hs
  · intro y hy
    rw [hbs, if_neg hy]

/-- The states of the trie without the leaf `a` are the other states. -/
theorem remove_leaf_reach {tr tr' : basic_trie} {a : Int} (ha1 : a ≠ 1)
    (hch : tr.childless a)
    (hstep : ∀ y x, tr'.step y x = if tr.step y x = some a then none else tr.step y x) (y : Int) :
    tr'.reach y ↔ (tr.reach y ∧ y ≠ a) := by
  constructor
  · rintro ⟨w, hw⟩
    rcases List.eq_nil_or_concat w with e | ⟨w0, x, e⟩
    · rw [e] at hw
      cases hw
      exact ⟨reach_root tr, fun e => ha1 e.symm⟩
    · rw [e, List.concat_eq_append] at hw
      have hsub : ∀ (w : List Int) (z u : Int), tr'.walk z w = some u → tr.walk z w = some u := by
        intro w
        induction w with
        | nil => intro z u h; exact h
        | cons x w ih =>
          intro z u h
          rw [walk_cons] at h ⊢
          cases hs : tr'.step z x with
          | none => rw [hs] at h; cases h
          | some b =>
            rw [hs] at h
            rw [hstep] at hs
            split at hs
            · cases hs
            · rw [hs]
              exact ih b u h
      refine ⟨⟨_, hsub _ _ _ hw⟩, ?_⟩
      obtain ⟨b, _, hs⟩ := walk_snoc.mp hw
      rw [hstep] at hs
      split at hs
      · cases hs
      · rename_i hne
        intro e
        rw [e] at hs
        exact hne hs
  · rintro ⟨⟨w, hw⟩, hya⟩
    refine ⟨w, ?_⟩
    have key : ∀ (w : List Int) (z : Int), tr.walk z w = some y → tr'.walk z w = some y := by
      intro w
      induction w with
      | nil => intro z h; exact h
      | cons x w ih =>
        intro z h
        rw [walk_cons] at h ⊢
        cases hs : tr.step z x with
        | none => rw [hs] at h; cases h
        | some b =>
          rw [hs] at h
          have hba : b ≠ a := by
            intro e
            rw [e] at h
            have h' : tr.walk a w = some y := h
            have := walk_childless hch h'
            rw [this] at h'
            cases h'
            exact hya rfl
          rw [hstep, hs, if_neg (by simpa using hba)]
          exact ih b h
    exact key w 1 hw

end basic_trie

namespace double_trie

theorem free_accept_entry_rhs (dt : double_trie) (r : basic_trie) (a : Int) :
    ({ dt with rhs := r } : double_trie).free_accept_entry a
      = { dt.free_accept_entry a with rhs := r } := by
  unfold free_accept_entry
  show (match dt.find_refer a with
    | none => _
    | some e => _) = _
  cases dt.find_refer a with
  | none => rfl
  | some e => rfl

/-- The accept entry of a rear state no separator refers to is freed. -/
theorem free_accept_entry_spec {dt : double_trie} {a0 : Int} (I : dt.rinvx a0) {a : Int}
    (hno : ∀ e, dt.find_refer a = some e → ∀ s, dt.lhs.reach s → dt.lhs.base s < 0 →
      dt.index_ref s ≠ e.accept_index)
    (b : Int) (hb : b = a0 ∨ a0 = a) :
    (dt.free_accept_entry a).rinvx b
      ∧ (dt.free_accept_entry a).lhs = dt.lhs ∧ (dt.free_accept_entry a).rhs = dt.rhs
      ∧ (dt.free_accept_entry a).index = dt.index
      ∧ (dt.free_accept_entry a).watcher0 = dt.watcher0
      ∧ (dt.free_accept_entry a).watcher1 = dt.watcher1
      ∧ (∀ x, (dt.free_accept_entry a).find_refer x
          = if x = a then none else dt.find_refer x) := by
  unfold free_accept_entry
  cases hf : dt.find_refer a with
  | none =>
    refine ⟨?_, rfl, rfl, rfl, rfl, rfl, ?_⟩
    · refine ⟨I.wfF, I.wfR, I.rootF, I.baseR, I.rootR, I.dummy, I.slot_range, I.slot_inj,
        I.free_index_nodup, I.free_index_range, I.next_index_pos, I.free_accept_nodup,
        I.free_accept_range, I.next_accept_pos, I.acc, I.ref, ?_, I.linked⟩
      intro x e y hx hy
      obtain ⟨q1, q2, q3⟩ := I.referer x e y hx hy
      refine ⟨q1, q2, fun hne => q3 ?_⟩
      rcases hb with hb | hb
      · rw [← hb]; exact hne
      · rw [hb]
        intro e1
        rw [e1, hf] at hx
        cases hx
    · intro x
      by_cases hxa : x = a
      · rw [if_pos hxa, hxa, hf]
      · rw [if_neg hxa]
  | some e =>
    simp only []
    have hka := (I.ref a e hf).1
    have hku := (I.ref a e hf).2.1
    have hfr : ∀ x, (({ dt.set_accept e.accept_index 0 with
        free_accept := (dt.set_accept e.accept_index 0).free_accept ++ [e.accept_index] }
          : double_trie).erase_refer a).find_refer x = if x = a then none else dt.find_refer x := by
      intro x
      rw [find_refer_erase_refer]
      rfl
    have hiu : ∀ j, (({ dt.set_accept e.accept_index 0 with
        free_accept := (dt.set_accept e.accept_index 0).free_accept ++ [e.accept_index] }
          : double_trie).erase_refer a).in_use j ↔ (dt.in_use j ∧ j ≠ e.accept_index) := by
      intro j
      unfold in_use
      show (1 ≤ j ∧ j < dt.next_accept ∧ j ∉ dt.free_accept ++ [e.accept_index]) ↔ _
      simp only [List.mem_append, List.mem_singleton, not_or]
      tauto
    have hac : ∀ j, (({ dt.set_accept e.accept_index 0 with
        free_accept := (dt.set_accept e.accept_index 0).free_accept ++ [e.accept_index] }
          : double_trie).erase_refer a).accept j
          = if j = e.accept_index then 0 else dt.accept j := fun j => rfl
    have huniq : ∀ j e1, dt.in_use j → dt.find_refer (dt.accept j) = some e1 →
        j ≠ e.accept_index → dt.accept j ≠ a := by
      intro j e1 hj h1 hne e2
      obtain ⟨e3, q1, q2⟩ := I.acc j hj
      rw [e2, hf] at q1
      cases q1
      exact hne q2.symm
    refine ⟨?_, rfl, rfl, rfl, rfl, rfl, hfr⟩
    refine ⟨I.wfF, I.wfR, I.rootF, I.baseR, I.rootR, I.dummy, I.slot_range, I.slot_inj,
      I.free_index_nodup, I.free_index_range, I.next_index_pos, ?_, ?_, I.next_accept_pos,
      ?_, ?_, ?_, ?_⟩
    · show (dt.free_accept ++ [e.accept_index]).Nodup
      rw [List.nodup_append]
      refine ⟨I.free_accept_nodup, List.nodup_singleton _, ?_⟩
      intro x hx hx2
      rw [List.mem_singleton] at hx2
      rw [hx2] at hx
      exact hku.2.2 hx
    · intro j hj
      have hj' : j ∈ dt.free_accept ++ [e.accept_index] := hj
      rw [List.mem_append, List.mem_singleton] at hj'
      rcases hj' with h1 | h1
      · exact I.free_accept_range j h1
      · rw [h1]
        exact ⟨hku.1, hku.2.1⟩
    · intro j hj
      obtain ⟨q1, q2⟩ := (hiu j).mp hj
      obtain ⟨e1, q3, q4⟩ := I.acc j q1
      rw [hac, if_neg q2, hfr, if_neg (huniq j e1 q1 q3 q2)]
      exact ⟨e1, q3, q4⟩
    · intro x e1 hx
      rw [hfr] at hx
      by_cases hxa : x = a
      · rw [if_pos hxa] at hx
        cases hx
      · rw [if_neg hxa] at hx
        obtain ⟨q1, q2, q3, q4⟩ := I.ref x e1 hx
        have hne : e1.accept_index ≠ e.accept_index := by
          intro e2
          rw [e2, hka] at q1
          exact hxa q1.symm
        rw [hac, if_neg hne, hiu]
        exact ⟨q1, ⟨q2, hne⟩, q3, q4⟩
    · intro x e1 y hx hy
      rw [hfr] at hx
      by_cases hxa : x = a
      · rw [if_pos hxa] at hx
        cases hx
      · rw [if_neg hxa] at hx
        obtain ⟨q1, q2, q3⟩ := I.referer x e1 y hx hy
        refine ⟨q1, q2, fun hne => q3 ?_⟩
        rcases hb with hb | hb
        · rw [← hb]; exact hne
        · rw [hb]; exact hxa
    · intro s hs hsb hpos
      have hs' : dt.lhs.reach s := hs
      have hsb' : dt.lhs.base s < 0 := hsb
      have hpos' : 0 < dt.index_ref s := hpos
      obtain ⟨q1, e1, q2, q3⟩ := I.linked s hs' hsb' hpos'
      have hne : dt.index_ref s ≠ e.accept_index := hno e hf s hs' hsb'
      show (({ dt.set_accept e.accept_index 0 with
        free_accept := (dt.set_accept e.accept_index 0).free_accept ++ [e.accept_index] }
          : double_trie).erase_refer a).in_use (dt.index_ref s) ∧ ∃ e2,
        (({ dt.set_accept e.accept_index 0 with
        free_accept := (dt.set_accept e.accept_index 0).free_accept ++ [e.accept_index] }
          : double_trie).erase_refer a).find_refer
          ((({ dt.set_accept e.accept_index 0 with
        free_accept := (dt.set_accept e.accept_index 0).free_accept ++ [e.accept_index] }
          : double_trie).erase_refer a).accept (dt.index_ref s)) = some e2 ∧ s ∈ e2.referer
      rw [hiu, hac, if_neg hne, hfr, if_neg (huniq _ e1 q1 q2 hne)]
      exact ⟨⟨q1, hne⟩, e1, q2, q3⟩

/-- A childless rear state no separator refers to is removed. -/
theorem remove_accept_state_spec {dt : double_trie} {a0 : Int} (I : dt.rinvx a0) {a : Int}
    (ha : dt.rhs.reach a) (ha1 : a ≠ 1) (hch : dt.rhs.childless a)
    (hno : ∀ e, dt.find_refer a = some e → ∀ s, dt.lhs.reach s → dt.lhs.base s < 0 →
      dt.index_ref s ≠ e.accept_index)
    (b : Int) (hb : b = a0 ∨ a0 = a) :
    (dt.remove_accept_state a).rinvx b
      ∧ (dt.remove_accept_state a).lhs = dt.lhs
      ∧ (dt.remove_accept_state a).index = dt.index
      ∧ (dt.remove_accept_state a).watcher0 = dt.watcher0
      ∧ (dt.remove_accept_state a).watcher1 = dt.watcher1
      ∧ (∀ y, (dt.remove_accept_state a).rhs.reach y ↔ (dt.rhs.reach y ∧ y ≠ a))
      ∧ (∀ y x, (dt.remove_accept_state a).rhs.step y x
          = if dt.rhs.step y x = some a then none else dt.rhs.step y x)
      ∧ (∀ y, y ≠ a → (dt.remove_accept_state a).rhs.base y = dt.rhs.base y)
      ∧ (∀ y, y ≠ a → (dt.remove_accept_state a).rhs.check y = dt.rhs.check y) := by
  have hck : 0 < dt.rhs.check a := by
    rcases basic_trie.reach_live ha with h | h
    · exact absurd h ha1
    · exact h
  obtain ⟨hwf', hstep, hbase⟩ := basic_trie.remove_leaf I.wfR hck hch
  have hreach := basic_trie.remove_leaf_reach ha1 hch hstep
  obtain ⟨J, j1, j2, j3, j4, j5, j6⟩ := free_accept_entry_spec I hno b hb
  have heq : dt.remove_accept_state a
      = { dt.free_accept_entry a with rhs := (dt.rhs.set_base a 0).set_check a 0 } := by
    unfold remove_accept_state
    exact free_accept_entry_rhs dt _ a
  rw [heq]
  refine ⟨?_, j1, j3, j4, j5, hreach, hstep, hbase, ?_⟩
  · refine ⟨J.wfF, hwf', J.rootF, ?_, ?_, ?_, J.slot_range, J.slot_inj,
      J.free_index_nodup, J.free_index_range, J.next_index_pos, J.free_accept_nodup,
      J.free_accept_range, J.next_accept_pos, J.acc, ?_, J.referer, J.linked⟩
    · intro y hy
      obtain ⟨q1, q2⟩ := (hreach y).mp hy
      show 0 ≤ ((dt.rhs.set_base a 0).set_check a 0).base y
      rw [hbase y q2]
      exact I.baseR y q1
    · intro c t hs
      have hs' : ((dt.rhs.set_base a 0).set_check a 0).step 1 c = some t := hs
      rw [hstep] at hs'
      split at hs'
      · cases hs'
      · exact I.rootR c t hs'
    · intro y d hy hy1 hs
      obtain ⟨q1, q2⟩ := (hreach y).mp hy
      have hs' : ((dt.rhs.set_base a 0).set_check a 0).step y key_type.kTerminator = some d := hs
      rw [hstep] at hs'
      split at hs'
      · cases hs'
      · rename_i hne
        have hda : d ≠ a := by
          intro e
          rw [e] at hs'
          exact hne hs'
        show ((dt.rhs.set_base a 0).set_check a 0).base d = 0
        rw [hbase d hda]
        exact I.dummy y d q1 hy1 hs'
    · intro x e hx
      obtain ⟨q1, q2, q3, q4⟩ := J.ref x e hx
      refine ⟨q1, q2, ?_, q4⟩
      have hxa : x ≠ a := by
        intro e1
        have hx' : (dt.free_accept_entry a).find_refer x = some e := hx
        rw [j6, if_pos e1] at hx'
        cases hx'
      have q3' : dt.rhs.reach x := by
        rw [← j2]
        exact q3
      exact (hreach x).mpr ⟨q3', hxa⟩
  · intro y hy
    show (if y = a then 0 else dt.rhs.check y) = _
    rw [if_neg hy]

end double_trie

/-! ## The two-trie: moving the referers of a rear state -/

namespace double_trie

/-- The loop that links every referer of the rear state `a` to the rear state `t`. -/
theorem relink_fold (a t : Int) (e : refer_type) (ht1 : t ≠ 1) (hta : t ≠ a) :
    ∀ (l : List Int) (dt : double_trie), dt.rinvx a → dt.find_refer a = some e →
      dt.rhs.reach t → (∀ x ∈ l, x ∈ e.referer) →
      (∀ x ∈ e.referer, ∀ a1 e1, dt.find_refer a1 = some e1 → x ∈ e1.referer →
        a1 = a ∨ a1 = t) →
      (l.foldl (fun dt x => (dt.set_link x t).1) dt).rinvx a
        ∧ (l.foldl (fun dt x => (dt.set_link x t).1) dt).lhs = dt.lhs
        ∧ (l.foldl (fun dt x => (dt.set_link x t).1) dt).rhs = dt.rhs
        ∧ (l.foldl (fun dt x => (dt.set_link x t).1) dt).watcher0 = dt.watcher0
        ∧ (l.foldl (fun dt x => (dt.set_link x t).1) dt).watcher1 = dt.watcher1
        ∧ (∀ a1, a1 ≠ t →
            (l.foldl (fun dt x => (dt.set_link x t).1) dt).find_refer a1 = dt.find_refer a1)
        ∧ (∀ x, x ∈ l → ∃ et, (l.foldl (fun dt x => (dt.set_link x t).1) dt).find_refer t
              = some et
            ∧ (l.foldl (fun dt x => (dt.set_link x t).1) dt).index_ref x = et.accept_index)
        ∧ (∀ x, dt.lhs.reach x → dt.lhs.base x < 0 → x ∉ l →
            (l.foldl (fun dt x => (dt.set_link x t).1) dt).index_ref x = dt.index_ref x)
        ∧ (∀ e0, dt.find_refer t = some e0 →
            ∃ et, (l.foldl (fun dt x => (dt.set_link x t).1) dt).find_refer t = some et
              ∧ et.accept_index = e0.accept_index) := by
  intro l
  induction l with
  | nil =>
    intro dt I hf ht hl hst
    refine ⟨I, rfl, rfl, rfl, rfl, fun _ _ => rfl, ?_, fun _ _ _ _ => rfl, ?_⟩
    · intro x hx
      cases hx
    · intro e0 he0
      exact ⟨e0, he0, rfl⟩
  | cons x l ih =>
    intro dt I hf ht hl hst
    have hxe : x ∈ e.referer := hl x (List.mem_cons_self _ _)
    obtain ⟨hxr, hxb, _⟩ := I.referer a e x hf hxe
    obtain ⟨D1, e', hD1, I1, l1, l2, l3, l4, l5, l6, l7, l8, l9⟩ :=
      set_link_sep I hxr hxb ht ht1 (hst x hxe)
    have hf1 : D1.find_refer a = some e := by
      rw [l5 a (fun h => hta h.symm)]
      exact hf
    have hst1 : ∀ y ∈ e.referer, ∀ a1 e1, D1.find_refer a1 = some e1 → y ∈ e1.referer →
        a1 = a ∨ a1 = t := by
      intro y hy a1 e1 h1 h2
      by_cases hat : a1 = t
      · exact Or.inr hat
      · rw [l5 a1 hat] at h1
        exact hst y hy a1 e1 h1 h2
    obtain ⟨J, j1, j2, j3, j4, j5, j6, j7, j8⟩ := ih D1 I1 hf1 (by rw [l2]; exact ht)
      (fun y hy => hl y (List.mem_cons_of_mem _ hy)) hst1
    rw [List.foldl_cons, hD1]
    refine ⟨J, by rw [j1, l1], by rw [j2, l2], by rw [j3, l3], by rw [j4, l4], ?_, ?_, ?_, ?_⟩
    · intro a1 ha1
      rw [j5 a1 ha1, l5 a1 ha1]
    · intro y hy
      by_cases hyl : y ∈ l
      · exact j6 y hyl
      · have hyx : y = x := by
          rcases List.mem_cons.mp hy with h | h
          · exact h
          · exact absurd h hyl
        obtain ⟨et, q1, q2⟩ := j8 e' l6
        refine ⟨et, q1, ?_⟩
        rw [hyx, j7 x (by rw [l1]; exact hxr) (by rw [l1]; exact hxb) (by rw [← hyx]; exact hyl),
          l7, q2]
    · intro y hy hyb hyl
      rw [List.mem_cons, not_or] at hyl
      rw [j7 y (by rw [l1]; exact hy) (by rw [l1]; exact hyb) hyl.2, l8 y hy hyb hyl.1]
    · intro e0 he0
      obtain ⟨et, q1, q2⟩ := j8 e' l6
      exact ⟨et, q1, by rw [q2, l9 e0 he0]⟩

/-- Under the invariant every referer of a rear state is a referer of that state only. -/
theorem referer_unique {dt : double_trie} (I : dt.rinv) {a : Int} {e : refer_type}
    (hf : dt.find_refer a = some e) :
    ∀ x ∈ e.referer, ∀ a1 e1, dt.find_refer a1 = some e1 → x ∈ e1.referer → a1 = a := by
  intro x hx a1 e1 h1 h2
  have ha : a ≠ 0 := by
    have := (rinvx_key_pos I hf).1
    omega
  have ha1 : a1 ≠ 0 := by
    have := (rinvx_key_pos I h1).1
    omega
  have q1 := (I.referer a e x hf hx).2.2 ha
  have q2 := (I.referer a1 e1 x h1 h2).2.2 ha1
  rw [← (I.ref a e hf).1, ← (I.ref a1 e1 h1).1, ← q1, ← q2]

/-- After the loop no separator refers to the accept entry of `a` any more: the entry can be
freed. -/
theorem relink_all {dt : double_trie} (I : dt.rinv) {a t : Int} {e : refer_type}
    (hf : dt.find_refer a = some e) (ht : dt.rhs.reach t) (ht1 : t ≠ 1) (hta : t ≠ a) :
    (e.referer.foldl (fun dt x => (dt.set_link x t).1) dt).rinvx a
      ∧ (e.referer.foldl (fun dt x => (dt.set_link x t).1) dt).lhs = dt.lhs
      ∧ (e.referer.foldl (fun dt x => (dt.set_link x t).1) dt).rhs = dt.rhs
      ∧ (e.referer.foldl (fun dt x => (dt.set_link x t).1) dt).watcher0 = dt.watcher0
      ∧ (e.referer.foldl (fun dt x => (dt.set_link x t).1) dt).watcher1 = dt.watcher1
      ∧ (e.referer.foldl (fun dt x => (dt.set_link x t).1) dt).find_refer a = some e
      ∧ (∀ e2, (e.referer.foldl (fun dt x => (dt.set_link x t).1) dt).find_refer a = some e2 →
          ∀ s, (e.referer.foldl (fun dt x => (dt.set_link x t).1) dt).lhs.reach s →
            (e.referer.foldl (fun dt x => (dt.set_link x t).1) dt).lhs.base s < 0 →
            (e.referer.foldl (fun dt x => (dt.set_link x t).1) dt).index_ref s
              ≠ e2.accept_index) := by
  have I0 : dt.rinvx a := by
    refine ⟨I.wfF, I.wfR, I.rootF, I.baseR, I.rootR, I.dummy, I.slot_range, I.slot_inj,
      I.free_index_nodup, I.free_index_range, I.next_index_pos, I.free_accept_nodup,
      I.free_accept_range, I.next_accept_pos, I.acc, I.ref, ?_, I.linked⟩
    intro a1 e1 x h1 h2
    obtain ⟨q1, q2, q3⟩ := I.referer a1 e1 x h1 h2
    exact ⟨q1, q2, fun _ => q3 (by
      have := (rinvx_key_pos I h1).1
      omega)⟩
  obtain ⟨J, j1, j2, j3, j4, j5, j6, j7, j8⟩ := relink_fold a t e ht1 hta e.referer dt I0 hf ht
    (fun x hx => hx) (fun x hx a1 e1 h1 h2 => Or.inl (referer_unique I hf x hx a1 e1 h1 h2))
  have hfa : (e.referer.foldl (fun dt x => (dt.set_link x t).1) dt).find_refer a = some e := by
    rw [j5 a (fun h => hta h.symm)]
    exact hf
  refine ⟨J, j1, j2, j3, j4, hfa, ?_⟩
  intro e2 he2 s hs hsb heq
  rw [hfa] at he2
  cases he2
  obtain ⟨r1, r2, r3, r4⟩ := J.ref a e hfa
  have hpos : 0 < (e.referer.foldl (fun dt x => (dt.set_link x t).1) dt).index_ref s := by
    rw [heq]
    have := r2.1
    omega
  obtain ⟨q1, e1, q2, q3⟩ := J.linked s hs hsb hpos
  rw [heq, r1, hfa] at q2
  cases q2
  obtain ⟨et, p1, p2⟩ := j6 s q3
  have := (J.ref t et p1).1
  rw [← p2, heq, r1] at this
  exact hta this.symm

end double_trie

/-! ## The two-trie: `rhs_append` -/

namespace basic_trie

/-- The function `go_forward_reverse` ends at the end of the longest beginning of its input
that is a word of the trie. -/
theorem go_forward_reverse_spec (tr : basic_trie) (a : Int) (l : List Int) :
    (∀ s, tr.go_forward_reverse a l = (s, none) → tr.walk a l = some s)
    ∧ (∀ s p, tr.go_forward_reverse a l = (s, some p) →
        ∃ pre, l = pre ++ p ∧ p ≠ [] ∧ tr.walk a pre = some s ∧ tr.step s (deref p) = none) := by
  induction l generalizing a with
  | nil =>
    constructor
    · intro s hs
      rw [go_forward_reverse] at hs
      cases hs
      rfl
    · intro s p hs
      rw [go_forward_reverse] at hs
      cases hs
  | cons c l ih =>
    rw [go_forward_reverse]
    by_cases hc : tr.check_transition a (tr.next a c) = true
    · rw [if_pos hc]
      have hst : tr.step a c = some (tr.next a c) := by
        unfold step
        rw [if_pos hc]
      constructor
      · intro s hs
        rw [walk_cons, hst]
        exact (ih (tr.next a c)).1 s hs
      · intro s p hs
        obtain ⟨pre, h1, h2, h3, h4⟩ := (ih (tr.next a c)).2 s p hs
        refine ⟨c :: pre, by rw [h1]; rfl, h2, ?_, h4⟩
        rw [walk_cons, hst]
        exact h3
    · rw [if_neg hc]
      constructor
      · intro s hs
        cases hs
      · intro s p hs
        simp only [Prod.mk.injEq, Option.some.injEq] at hs
        obtain ⟨h1, h2⟩ := hs
        subst h1 h2
        refine ⟨[], rfl, by simp, rfl, ?_⟩
        simp only [step, deref, List.headD_cons, if_neg hc]

theorem check_root {tr : basic_trie} (h : tr.wf) : tr.check 1 = 0 := by
  by_contra hne
  have := (h.check_range 1 hne).1
  omega

theorem step_ne_root {tr : basic_trie} (h : tr.wf) {a x b : Int} (hs : tr.step a x = some b) :
    b ≠ 1 := by
  intro e
  rw [step_eq_some] at hs
  rw [e, check_root h] at hs
  omega

theorem step_parent {tr : basic_trie} {a x b : Int} (hs : tr.step a x = some b) :
    tr.check b = a ∧ b - tr.base a = x := by
  rw [step_eq_some] at hs
  omega

/-- A state entered from the root, or on a symbol other than the terminator, is no terminator
child of a state other than the root. -/
theorem not_dummy_of_step {tr : basic_trie} {a x s : Int} (hs : tr.step a x = some s)
    (hx : x ≠ key_type.kTerminator ∨ a = 1) :
    ∀ y, tr.reach y → y ≠ 1 → tr.step y key_type.kTerminator ≠ some s := by
  intro y _ hy1 hst
  obtain ⟨p1, p2⟩ := step_parent hs
  obtain ⟨q1, q2⟩ := step_parent hst
  have e1 : y = a := by rw [← q1, p1]
  rcases hx with hx | hx
  · apply hx
    rw [e1] at q2
    omega
  · rw [hx] at e1
    exact hy1 e1

theorem not_dummy_root {tr : basic_trie} (h : tr.wf) :
    ∀ y, tr.reach y → y ≠ 1 → tr.step y key_type.kTerminator ≠ some 1 := by
  intro y _ _ hst
  exact step_ne_root h hst rfl

/-- The end of a word that starts with the terminator and goes on without it is no terminator
child of a state other than the root. -/
theorem not_dummy_of_walk {tr : basic_trie} (h : tr.wf) {w : List Int} {s : Int}
    (hw : tr.walk 1 w = some s) (hT : ∀ c ∈ w.tail, c ≠ key_type.kTerminator) :
    ∀ y, tr.reach y → y ≠ 1 → tr.step y key_type.kTerminator ≠ some s := by
  rcases List.eq_nil_or_concat w with e | ⟨w0, x, e⟩
  · rw [e] at hw
    cases hw
    exact not_dummy_root h
  · rw [e, List.concat_eq_append] at hw hT
    obtain ⟨b, hb, hs⟩ := walk_snoc.mp hw
    apply not_dummy_of_step hs
    cases w0 with
    | nil =>
      right
      cases hb
      rfl
    | cons c w1 =>
      left
      apply hT
      simp

end basic_trie

namespace double_trie

theorem outdegree_zero_iff {dt : double_trie} (h : dt.rhs.wf) {s : Int} (hs : 0 < s) :
    dt.outdegree s = 0 ↔ dt.rhs.childless s := by
  unfold outdegree
  rw [List.length_eq_zero]
  exact basic_trie.find_exist_target_nil_iff h hs

/-- The renaming of a transition keeps the states other than the root apart from the root. -/
theorem ct_watch {tr tr' : basic_trie} {s c t : Int} {ρ : Int → Int}
    (C : basic_trie.ct_sim tr tr' s c t ρ) {w : Int} (hw : tr.reach w) (hw1 : w ≠ 1) :
    tr'.reach (ρ w) ∧ ρ w ≠ 1 := by
  refine ⟨basic_trie.ct_reach_fwd C hw, ?_⟩
  intro e
  rw [← C.root] at e
  exact hw1 (C.inj w 1 (basic_trie.reach_live hw) (basic_trie.live_root tr) e)

/-- The loop of `rhs_append` that appends the rest of the reversed buffer to the rear trie. -/
theorem rhs_chain_spec : ∀ (p : List Int) (dt : double_trie) (s : Int), dt.rinv →
    dt.rhs.reach s → (∀ c ∈ p, 1 ≤ c ∧ c ≤ 257) →
    (∀ c, p.head? = some c → (s = 1 ↔ c = key_type.kTerminator)) →
    (∀ c ∈ p.tail, c ≠ key_type.kTerminator) →
    (∀ y, dt.rhs.reach y → y ≠ 1 → dt.rhs.step y key_type.kTerminator ≠ some s) →
    ∃ dt' a, p.foldlM (fun (acc : double_trie × Int) c => acc.1.rhs_create_transition acc.2 c)
        (dt, s) = .ok (dt', a)
      ∧ dt'.rinv ∧ dt'.lhs = dt.lhs ∧ dt'.rhs.reach a ∧ (p ≠ [] → a ≠ 1)
      ∧ (dt.rhs.reach dt.watcher0 → dt.watcher0 ≠ 1 →
          dt'.rhs.reach dt'.watcher0 ∧ dt'.watcher0 ≠ 1)
      ∧ (dt.rhs.reach dt.watcher1 → dt.watcher1 ≠ 1 →
          dt'.rhs.reach dt'.watcher1 ∧ dt'.watcher1 ≠ 1) := by
  intro p
  induction p with
  | nil =>
    intro dt s I hs _ _ _ _
    exact ⟨dt, s, rfl, I, rfl, hs, fun h => absurd rfl h, fun h1 h2 => ⟨h1, h2⟩,
      fun h1 h2 => ⟨h1, h2⟩⟩
  | cons c p ih =>
    intro dt s I hs hr hh ht hnd
    have hiff := hh c rfl
    obtain ⟨dt1, t, ρ, hct, I1, C, l1, l2, hw0, hw1⟩ :=
      rhs_ct_spec I hs (hr c (List.mem_cons_self _ _)).1 (hr c (List.mem_cons_self _ _)).2
        hiff.mp hnd
    have hsl := basic_trie.reach_live hs
    have ht1 : t ≠ 1 := basic_trie.step_ne_root C.wf' C.edge
    have htr : dt1.rhs.reach t := basic_trie.reach_step (basic_trie.ct_reach_fwd C hs) C.edge
    have hndt := basic_trie.ct_target_not_dummy C hsl (by
      by_cases hc : c = key_type.kTerminator
      · exact Or.inr (hiff.mpr hc)
      · exact Or.inl hc)
    obtain ⟨dt2, a, hfold, I2, m1, m2, m3, m4, m5⟩ := ih dt1 t I1 htr
      (fun c' hc' => hr c' (List.mem_cons_of_mem _ hc'))
      (by
        intro c' hc'
        have : c' ∈ p := List.mem_of_mem_head? hc'
        have hne := ht c' this
        constructor
        · intro e
          exact absurd e ht1
        · intro e
          exact absurd e hne)
      (fun c' hc' => ht c' (List.mem_of_mem_tail hc')) hndt
    refine ⟨dt2, a, ?_, I2, by rw [m1, l1], m2, ?_, ?_, ?_⟩
    · rw [List.foldlM_cons]
      show (dt.rhs_create_transition s c >>= _) = _
      rw [hct]
      exact hfold
    · intro _
      by_cases hp : p = []
      · subst hp
        cases hfold
        exact ht1
      · exact m3 hp
    · intro h1 h2
      obtain ⟨q1, q2⟩ := ct_watch C h1 h2
      rw [← hw0 h1] at q1 q2
      exact m4 q1 q2
    · intro h1 h2
      obtain ⟨q1, q2⟩ := ct_watch C h1 h2
      rw [← hw1 h1] at q1 q2
      exact m5 q1 q2

end double_trie

/-! ## The two-trie: the referers of the rear states in `refer_` -/

namespace double_trie

theorem find_index_entry_find_refer (dt : double_trie) (s a : Int) :
    (dt.find_index_entry s).1.find_refer a = dt.find_refer a := by
  unfold find_index_entry
  split
  · rfl
  · split
    · rfl
    · simp only []
      split <;> rfl

theorem link_entry_find_refer (dt : double_trie) (s t i : Int) :
    ∃ e', (dt.link_entry s t i).find_refer t = some e' ∧ s ∈ e'.referer
      ∧ ∀ a, a ≠ t → (dt.link_entry s t i).find_refer a = dt.find_refer a := by
  obtain ⟨D, k, hfa, _, _, _, _, _, _, _, hc⟩ := find_accept_entry_cases dt t
  have hD : ∃ e, D.find_refer t = some e ∧ ∀ a, a ≠ t → D.find_refer a = dt.find_refer a := by
    rcases hc with ⟨e, he, hDe, _⟩ | ⟨_, hfr, _⟩
    · exact ⟨e, by rw [hDe]; exact he, fun a _ => by rw [hDe]⟩
    · exact ⟨⟨k, []⟩, by rw [hfr, if_pos rfl], fun a ha => by rw [hfr, if_neg ha]⟩
  obtain ⟨e, he, hoth⟩ := hD
  rw [link_entry_eq dt s t i hfa he]
  refine ⟨_, by rw [find_refer_set_refer, if_pos rfl], ?_, ?_⟩
  · by_cases h : s ∈ e.referer
    · rw [if_pos h]
      exact h
    · rw [if_neg h]
      simp
  · intro a ha
    rw [find_refer_set_refer, if_neg ha, find_refer_set_index]
    exact hoth a ha

/-- After `set_link(s, t)` the state `s` is a referer of `t`, and the other rear states are in
`refer_` as before. -/
theorem set_link_find_refer (dt : double_trie) (s t : Int) :
    ∃ e', (dt.set_link s t).1.find_refer t = some e' ∧ s ∈ e'.referer
      ∧ ∀ a, a ≠ t → (dt.set_link s t).1.find_refer a = dt.find_refer a := by
  rw [set_link_eq]
  obtain ⟨e', h1, h2, h3⟩ :=
    link_entry_find_refer (dt.find_index_entry s).1 s t (dt.find_index_entry s).2
  exact ⟨e', h1, h2, fun a ha => by rw [h3 a ha, find_index_entry_find_refer]⟩

theorem referer_ne_set_link {dt : double_trie} (N : dt.referer_ne) (s t : Int) :
    (dt.set_link s t).1.referer_ne := by
  obtain ⟨e', h1, h2, h3⟩ := set_link_find_refer dt s t
  intro a e he
  by_cases ha : a = t
  · rw [ha, h1] at he
    cases he
    exact List.ne_nil_of_mem h2
  · rw [h3 a ha] at he
    exact N a e he

theorem referer_ne_relink (t : Int) : ∀ (l : List Int) (dt : double_trie), dt.referer_ne →
    (l.foldl (fun dt x => (dt.set_link x t).1) dt).referer_ne := by
  intro l
  induction l with
  | nil =>
    intro dt N
    exact N
  | cons x l ih =>
    intro dt N
    exact ih _ (referer_ne_set_link N x t)

theorem free_accept_entry_find_refer (dt : double_trie) (a x : Int) :
    (dt.free_accept_entry a).find_refer x = if x = a then none else dt.find_refer x := by
  unfold free_accept_entry
  cases hf : dt.find_refer a with
  | none =>
    by_cases h : x = a
    · rw [if_pos h, h]
      exact hf
    · rw [if_neg h]
  | some e =>
    simp only []
    rw [find_refer_erase_refer]
    rfl

theorem remove_accept_state_find_refer (dt : double_trie) (a x : Int) :
    (dt.remove_accept_state a).find_refer x = if x = a then none else dt.find_refer x := by
  have heq : dt.remove_accept_state a
      = { dt.free_accept_entry a with rhs := (dt.rhs.set_base a 0).set_check a 0 } := by
    unfold remove_accept_state
    exact free_accept_entry_rhs dt _ a
  rw [heq]
  exact free_accept_entry_find_refer dt a x

theorem referer_ne_free_accept_entry {dt : double_trie} (N : dt.referer_ne) (a : Int) :
    (dt.free_accept_entry a).referer_ne := by
  intro x e he
  rw [free_accept_entry_find_refer] at he
  split at he
  · cases he
  · exact N x e he

theorem referer_ne_remove_accept_state {dt : double_trie} (N : dt.referer_ne) (a : Int) :
    (dt.remove_accept_state a).referer_ne := by
  intro x e he
  rw [remove_accept_state_find_refer] at he
  split at he
  · cases he
  · exact N x e he

theorem referer_ne_relocate_front {dt : double_trie} (N : dt.referer_ne) (o n : Int) :
    (dt.relocate_front o n).referer_ne := by
  intro a e he
  rw [find_refer_relocate_front] at he
  cases hf : dt.find_refer a with
  | none =>
    rw [hf] at he
    cases he
  | some e0 =>
    rw [hf] at he
    simp only [Option.map_some', Option.some.injEq] at he
    have h0 := N a e0 hf
    rw [← he]
    split
    · intro h
      exact h0 (List.map_eq_nil_iff.mp h)
    · exact h0

theorem referer_ne_front_fold : ∀ (L : List (Int × Int)) (dt : double_trie), dt.referer_ne →
    (L.foldl (fun dt m => dt.relocate_front m.1 m.2) dt).referer_ne := by
  intro L
  induction L with
  | nil =>
    intro dt N
    exact N
  | cons m L ih =>
    intro dt N
    exact ih _ (referer_ne_relocate_front N m.1 m.2)

theorem referer_ne_relocate_rear {dt : double_trie} (N : dt.referer_ne) (o n : Int) :
    (dt.relocate_rear o n).referer_ne := by
  intro a e he
  rw [relocate_rear_find_refer] at he
  cases hf : dt.find_refer o with
  | none =>
    rw [hf] at he
    exact N a e he
  | some e0 =>
    rw [hf] at he
    simp only [] at he
    split at he
    · cases he
      exact N o e hf
    · split at he
      · cases he
      · exact N a e he

theorem referer_ne_rear_fold : ∀ (L : List (Int × Int)) (dt : double_trie), dt.referer_ne →
    (L.foldl (fun dt m => dt.relocate_rear m.1 m.2) dt).referer_ne := by
  intro L
  induction L with
  | nil =>
    intro dt N
    exact N
  | cons m L ih =>
    intro dt N
    exact ih _ (referer_ne_relocate_rear N m.1 m.2)

theorem referer_ne_lhs_ct {dt : double_trie} (N : dt.referer_ne) {s c : Int}
    {dt' : double_trie} {t : Int} (h : dt.lhs_create_transition s c = .ok (dt', t)) :
    dt'.referer_ne := by
  unfold lhs_create_transition at h
  cases hct : dt.lhs.create_transition s c with
  | error f =>
    rw [hct] at h
    cases h
  | ok r =>
    obtain ⟨tr, t', moved⟩ := r
    rw [hct] at h
    simp only [Except.ok.injEq, Prod.mk.injEq] at h
    rw [← h.1]
    exact referer_ne_front_fold _ _ (fun a e he => N a e he)

theorem referer_ne_rhs_ct {dt : double_trie} (N : dt.referer_ne) {s c : Int}
    {dt' : double_trie} {t : Int} (h : dt.rhs_create_transition s c = .ok (dt', t)) :
    dt'.referer_ne := by
  unfold rhs_create_transition at h
  cases hct : dt.rhs.create_transition s c with
  | error f =>
    rw [hct] at h
    cases h
  | ok r =>
    obtain ⟨tr, t', moved⟩ := r
    rw [hct] at h
    simp only [Except.ok.injEq, Prod.mk.injEq] at h
    rw [← h.1]
    exact referer_ne_rear_fold _ _ (fun a e he => N a e he)

theorem referer_ne_rhs_chain : ∀ (p : List Int) (dt : double_trie) (s : Int)
    (dt' : double_trie) (a : Int), dt.referer_ne →
    p.foldlM (fun (acc : double_trie × Int) c => acc.1.rhs_create_transition acc.2 c) (dt, s)
      = .ok (dt', a) → dt'.referer_ne := by
  intro p
  induction p with
  | nil =>
    intro dt s dt' a N h
    cases h
    exact N
  | cons c p ih =>
    intro dt s dt' a N h
    rw [List.foldlM_cons] at h
    cases hct : dt.rhs_create_transition s c with
    | error f =>
      have h' : (dt.rhs_create_transition s c >>= fun x => p.foldlM
        (fun (acc : double_trie × Int) c => acc.1.rhs_create_transition acc.2 c) x)
          = .ok (dt', a) := h
      rw [hct] at h'
      cases h'
    | ok r =>
      obtain ⟨dt1, t⟩ := r
      have h' : (dt.rhs_create_transition s c >>= fun x => p.foldlM
        (fun (acc : double_trie × Int) c => acc.1.rhs_create_transition acc.2 c) x)
          = .ok (dt', a) := h
      rw [hct] at h'
      exact ih dt1 t dt' a (referer_ne_rhs_ct N hct) h'

theorem referer_ne_rhs_append {dt : double_trie} (N : dt.referer_ne) {inputs : List Int}
    {dt' : double_trie} {a : Int} (h : dt.rhs_append inputs = .ok (dt', a)) :
    dt'.referer_ne := by
  unfold rhs_append at h
  cases hg : dt.rhs.go_forward_reverse 1 (key_type.kTerminator :: inputs.reverse) with
  | mk s o =>
    rw [hg] at h
    cases o with
    | none =>
      simp only [] at h
      split at h
      · cases h
        exact N
      · split at h
        · exact referer_ne_rhs_ct N h
        · cases h
          exact N
    | some p =>
      simp only [] at h
      by_cases hod : dt.outdegree s = 0
      · rw [if_pos hod] at h
        cases hct : dt.rhs_create_transition s key_type.kTerminator with
        | error f =>
          rw [hct] at h
          cases h
        | ok r =>
          obtain ⟨dt1, t⟩ := r
          rw [hct] at h
          simp only [] at h
          have N1 := referer_ne_rhs_ct N hct
          cases hf : dt1.find_refer s with
          | none =>
            rw [hf] at h
            exact referer_ne_rhs_chain _ _ _ _ _ N1 h
          | some e =>
            rw [hf] at h
            exact referer_ne_rhs_chain _ _ _ _ _
              (referer_ne_free_accept_entry (referer_ne_relink _ _ _ N1) _) h
      · rw [if_neg hod] at h
        exact referer_ne_rhs_chain _ _ _ _ _ N h

theorem referer_ne_congr {dt D : double_trie} (N : dt.referer_ne)
    (h : ∀ a, D.find_refer a = dt.find_refer a) : D.referer_ne := by
  intro a e he
  rw [h] at he
  exact N a e he

theorem referer_ne_match : ∀ (matched : List Int) (dt : double_trie) (s : Int)
    (dt' : double_trie) (s' : Int), dt.referer_ne →
    match_transitions matched dt s = .ok (dt', s') → dt'.referer_ne := by
  intro matched
  induction matched with
  | nil =>
    intro dt s dt' s' N h
    cases h
    exact N
  | cons c matched ih =>
    intro dt s dt' s' N h
    rw [match_transitions] at h
    cases hct : dt.lhs_create_transition s c with
    | error f =>
      rw [hct] at h
      cases h
    | ok r =>
      obtain ⟨dt1, t⟩ := r
      rw [hct] at h
      exact ih dt1 t dt' s' (referer_ne_lhs_ct N hct) h

theorem referer_ne_lhs_insert {dt : double_trie} (N : dt.referer_ne) {s : Int}
    {inputs : List Int} {value : Int} {dt' : double_trie}
    (h : dt.lhs_insert s inputs value = .ok dt') : dt'.referer_ne := by
  unfold lhs_insert at h
  cases hct : dt.lhs_create_transition s (deref inputs) with
  | error f =>
    rw [hct] at h
    cases h
  | ok r =>
    obtain ⟨dt1, t⟩ := r
    rw [hct] at h
    simp only [] at h
    have N1 := referer_ne_lhs_ct N hct
    cases inputs with
    | nil =>
      simp only [] at h
      cases h
      exact referer_ne_congr N1 (fun a => find_index_entry_find_refer dt1 t a)
    | cons c rest =>
      simp only [] at h
      cases hra : dt1.rhs_append rest with
      | error f =>
        rw [hra] at h
        cases h
      | ok r2 =>
        obtain ⟨dt2, a⟩ := r2
        rw [hra] at h
        simp only [] at h
        cases h
        exact referer_ne_set_link (referer_ne_rhs_append N1 hra) t a

theorem referer_ne_link_rest {dt : double_trie} (N : dt.referer_ne) {t : Int}
    {remain : List Int} {value : Int} {dt' : double_trie}
    (h : dt.link_rest t remain value = .ok dt') : dt'.referer_ne := by
  unfold link_rest at h
  cases remain with
  | nil =>
    simp only [] at h
    cases h
    exact referer_ne_congr N (fun a => find_index_entry_find_refer dt t a)
  | cons c rest =>
    simp only [] at h
    cases hra : dt.rhs_append rest with
    | error f =>
      rw [hra] at h
      cases h
    | ok r2 =>
      obtain ⟨dt2, a⟩ := r2
      rw [hra] at h
      simp only [] at h
      split at h
      · cases h
      · cases h
        exact referer_ne_set_link (referer_ne_rhs_append N hra) t a

theorem referer_ne_unlink {dt : double_trie} (N : dt.referer_ne) (s r : Int) :
    (dt.unlink s r).referer_ne := by
  unfold unlink
  simp only []
  split
  · exact fun a e he => N a e he
  · rename_i e hf
    split
    · intro a e1 he
      rw [free_accept_entry_find_refer] at he
      split at he
      · cases he
      · rename_i hne
        rw [find_refer_set_refer, if_neg hne] at he
        exact N a e1 he
    · rename_i hl
      intro a e1 he
      rw [find_refer_set_refer] at he
      split at he
      · cases he
        intro hnil
        apply hl
        simp only [] at hnil ⊢
        rw [hnil]
        rfl
      · exact N a e1 he

end double_trie

/-! ## The two-trie: the index cells of the separators, and the length of a word -/

namespace basic_trie

/-- A word of the trie is shorter than the capacity: its beginnings end in different states. -/
theorem walk_length_lt {tr : basic_trie} (h : tr.wf) {w : List Int} {s : Int}
    (hw : tr.walk 1 w = some s) : (w.length : Int) < tr.size := by
  have hf : ∀ i, i ≤ w.length →
      tr.walk 1 (w.take i) = some ((tr.walk 1 (w.take i)).getD 0) := by
    intro i _
    have e : w = w.take i ++ w.drop i := (List.take_append_drop i w).symm
    rw [e] at hw
    obtain ⟨b, hb, _⟩ := walk_prefix hw
    rw [hb]
    rfl
  have hmaps : ∀ i ∈ Finset.range (w.length + 1),
      (fun i => (tr.walk 1 (w.take i)).getD 0) i ∈ Finset.Ico (1 : Int) tr.size := by
    intro i hi
    rw [Finset.mem_range] at hi
    have hl := walk_live (live_root tr) (hf i (by omega))
    rw [Finset.mem_Ico]
    exact ⟨live_pos h hl, live_lt_size h hl⟩
  have hinj : Set.InjOn (fun i => (tr.walk 1 (w.take i)).getD 0)
      (Finset.range (w.length + 1) : Set Nat) := by
    intro i hi j hj hij
    simp only [Finset.coe_range, Set.mem_Iio] at hi hj
    have h1 := hf i (by omega)
    have h2 := hf j (by omega)
    simp only [] at hij
    rw [hij] at h1
    have := walk_inj h _ _ _ h1 h2
    have hl := congrArg List.length this
    simp only [List.length_take] at hl
    omega
  have hcard := Finset.card_le_card_of_injOn _ hmaps hinj
  rw [Finset.card_range, Int.card_Ico] at hcard
  have hs := h.size_ge
  have e2 : ((tr.size - 1).toNat : Int) = tr.size - 1 := Int.toNat_of_nonneg (by omega)
  have e3 : ((w.length + 1 : Nat) : Int) ≤ ((tr.size - 1).toNat : Int) := by exact_mod_cast hcard
  push_cast at e3
  omega

/-- The words of the trie without the leaf `a` that do not end in `a`. -/
theorem remove_leaf_walk {tr tr' : basic_trie} {a : Int} (hch : tr.childless a)
    (hstep : ∀ y x, tr'.step y x = if tr.step y x = some a then none else tr.step y x) :
    ∀ (w : List Int) (y : Int), tr.walk 1 w = some y → y ≠ a → tr'.walk 1 w = some y := by
  intro w
  induction w using List.reverseRecOn with
  | nil =>
    intro y hw _
    exact hw
  | append_singleton w x ih =>
    intro y hw hy
    obtain ⟨b, hb, hs⟩ := walk_snoc.mp hw
    have hba : b ≠ a := by
      intro e
      rw [e, childless_step hch] at hs
      cases hs
    refine walk_snoc.mpr ⟨b, ih b hb hba, ?_⟩
    rw [hstep, if_neg, hs]
    rw [hs]
    intro e
    exact hy (Option.some.inj e)

end basic_trie

namespace double_trie

theorem sep_index_congr {dt D : double_trie} (J : dt.sep_index) (h1 : D.lhs = dt.lhs)
    (h2 : ∀ j, (D.index j).index = (dt.index j).index) : D.sep_index := by
  intro s hs hb
  rw [h1] at hs hb
  have := J s hs hb
  unfold index_ref at this ⊢
  rw [h2, h1]
  exact this

/-- The call `lhs_->create_transition(s, c)` keeps the index cells of the separators. -/
theorem sep_index_lhs_ct {dt dt' : double_trie} {s c t : Int} {ρ : Int → Int}
    (hwf : dt.lhs.wf) (C : basic_trie.ct_sim dt.lhs dt'.lhs s c t ρ) (hb : 0 ≤ dt.lhs.base s)
    (hidx : dt'.index = dt.index) (J : dt.sep_index) : dt'.sep_index := by
  intro y hy hby
  obtain ⟨a, ha, hya, hba⟩ := basic_trie.ct_separator hwf C hb hy hby
  rcases J a ha (by omega) with h | ⟨p, hp⟩
  · left
    unfold index_ref at h ⊢
    rw [hidx, ← hba]
    exact h
  · right
    have hp' := hp
    rw [basic_trie.step_eq_some] at hp'
    have hpl : dt.lhs.live p := by
      have := (hwf.link a (by rw [hp'.2.2.2.2]; exact hp'.2.1)).2.2.2
      rw [hp'.2.2.2.2] at this
      exact this
    exact ⟨ρ p, by rw [hya]; exact C.fwd p _ a hpl hp⟩

theorem find_index_entry_index (dt : double_trie) (s : Int) :
    (dt.find_index_entry s).1.index = dt.index := by
  unfold find_index_entry
  split
  · rfl
  · split
    · rfl
    · simp only []
      split <;> rfl

theorem find_index_entry_slot (dt : double_trie) (s : Int) :
    (dt.find_index_entry s).1.lhs.base s = -(dt.find_index_entry s).2 := by
  unfold find_index_entry
  split
  · simp
  · split
    · simp [basic_trie.set_base_base]
    · simp only []
      split <;> simp [basic_trie.set_base_base]

theorem link_entry_lhs (dt : double_trie) (s t i : Int) : (dt.link_entry s t i).lhs = dt.lhs := by
  obtain ⟨D, k, hfa, h1, _⟩ := find_accept_entry_cases dt t
  unfold link_entry
  rw [hfa]
  exact h1

theorem link_entry_index (dt : double_trie) (s t i j : Int) (hj : j ≠ i) :
    ((dt.link_entry s t i).index j).index = (dt.index j).index := by
  obtain ⟨D, k, hfa, _, _, h3, _⟩ := find_accept_entry_cases dt t
  unfold link_entry
  rw [hfa]
  show ((D.set_index i k).index j).index = _
  unfold set_index
  simp only []
  rw [if_neg hj, h3]

theorem set_link_index (dt : double_trie) (s t j : Int) (hj : j ≠ (dt.set_link s t).2) :
    ((dt.set_link s t).1.index j).index = (dt.index j).index := by
  rw [set_link_eq] at hj ⊢
  simp only [] at hj ⊢
  rw [link_entry_index _ _ _ _ _ hj, find_index_entry_index]

theorem set_link_slot (dt : double_trie) (s t : Int) :
    (dt.set_link s t).1.lhs.base s = -(dt.set_link s t).2 := by
  rw [set_link_eq]
  simp only []
  rw [link_entry_lhs]
  exact find_index_entry_slot dt s

/-- After `set_link(s, t)` the index cell of `s` refers to an accept entry, and the index cells
of the other separators are as before. -/
theorem sep_index_set_link {dt : double_trie} {s t a0 : Int}
    (ID : (dt.set_link s t).1.rinvx a0) (hta : t ≠ a0)
    (hstep : ∀ a x, (dt.set_link s t).1.lhs.step a x = dt.lhs.step a x)
    (hbase : ∀ x, x ≠ s → (dt.set_link s t).1.lhs.base x = dt.lhs.base x)
    (J : dt.sep_index) : (dt.set_link s t).1.sep_index := by
  obtain ⟨e', h1, h2, _⟩ := set_link_find_refer dt s t
  obtain ⟨q1, q2, q3⟩ := ID.referer t e' s h1 h2
  intro x hx hbx
  by_cases hxs : x = s
  · left
    rw [hxs, q3 hta]
    have := (ID.ref t e' h1).2.1.1
    omega
  · have hx' : dt.lhs.reach x := (basic_trie.reach_congr hstep x).mp hx
    have hbx' : dt.lhs.base x < 0 := by
      rw [← hbase x hxs]
      exact hbx
    have hslot := set_link_slot dt s t
    have hne : -(dt.set_link s t).1.lhs.base x ≠ (dt.set_link s t).2 := by
      intro e1
      apply hxs
      exact ID.slot_inj x s hx q1 hbx (by omega)
    rcases J x hx' hbx' with h | ⟨p, hp⟩
    · left
      unfold index_ref at h ⊢
      rw [set_link_index dt s t _ hne, hbase x hxs]
      exact h
    · right
      exact ⟨p, by rw [hstep]; exact hp⟩

/-- A fresh state entered on the terminator gets an index cell that refers to no accept
entry. -/
theorem sep_index_slot {dt : double_trie} {a0 : Int} (I : dt.rinvx a0) {t : Int}
    (ht : dt.lhs.reach t) (ht1 : t ≠ 1) (hch : dt.lhs.childless t) (hb : 0 ≤ dt.lhs.base t)
    (hp : ∃ p, dt.lhs.step p key_type.kTerminator = some t) (J : dt.sep_index) :
    ((dt.find_index_entry t).1.set_index (dt.find_index_entry t).2 0).sep_index := by
  obtain ⟨D, i, hfie, I1, m1, m2, m3, m4, m5, m6, m7, m8, m9, m10, m11, m12⟩ :=
    slot_spec I ht ht1 hch hb
  have hidx := find_index_entry_index dt t
  rw [hfie] at hidx ⊢
  simp only [] at hidx ⊢
  intro x hx hbx
  have hx' : dt.lhs.reach x := (basic_trie.reach_congr m3 x).mp hx
  by_cases hxt : x = t
  · right
    obtain ⟨p, hp⟩ := hp
    exact ⟨p, by rw [hxt]; show D.lhs.step p _ = _; rw [m3]; exact hp⟩
  · have hbx' : dt.lhs.base x < 0 := by
      rw [← m4 x hxt]
      exact hbx
    rcases J x hx' hbx' with h | ⟨p, hp⟩
    · left
      unfold index_ref at h ⊢
      show 0 < ((D.set_index i 0).index (-D.lhs.base x)).index
      unfold set_index
      simp only []
      rw [if_neg, hidx, m4 x hxt]
      · exact h
      · rw [m4 x hxt]
        exact m12 x hx' hbx'
    · right
      exact ⟨p, by show D.lhs.step p _ = _; rw [m3]; exact hp⟩

theorem free_accept_entry_lhs (dt : double_trie) (a : Int) :
    (dt.free_accept_entry a).lhs = dt.lhs := by
  unfold free_accept_entry
  split <;> rfl

theorem free_accept_entry_index (dt : double_trie) (a : Int) :
    (dt.free_accept_entry a).index = dt.index := by
  unfold free_accept_entry
  split <;> rfl

theorem remove_accept_state_lhs (dt : double_trie) (a : Int) :
    (dt.remove_accept_state a).lhs = dt.lhs := by
  unfold remove_accept_state
  exact free_accept_entry_lhs _ a

theorem remove_accept_state_index (dt : double_trie) (a : Int) :
    (dt.remove_accept_state a).index = dt.index := by
  unfold remove_accept_state
  exact free_accept_entry_index _ a

theorem sep_index_remove {dt : double_trie} (J : dt.sep_index) (a : Int) :
    (dt.remove_accept_state a).sep_index :=
  sep_index_congr J (remove_accept_state_lhs dt a)
    (fun j => by rw [remove_accept_state_index])

theorem sep_index_free {dt : double_trie} (J : dt.sep_index) (a : Int) :
    (dt.free_accept_entry a).sep_index :=
  sep_index_congr J (free_accept_entry_lhs dt a) (fun j => by rw [free_accept_entry_index])

theorem unlink_lhs (dt : double_trie) (s r : Int) :
    (dt.unlink s r).lhs = dt.lhs.set_base s 0 := by
  unfold unlink
  simp only []
  split
  · rfl
  · split
    · rw [free_accept_entry_lhs]
      rfl
    · rfl

theorem unlink_index (dt : double_trie) (s r j : Int) :
    ((dt.unlink s r).index j).index
      = if j = -dt.lhs.base s then 0 else (dt.index j).index := by
  have key : ((((dt.set_index (-dt.lhs.base s) 0).set_data (-dt.lhs.base s) 0).index j).index)
      = if j = -dt.lhs.base s then 0 else (dt.index j).index := by
    unfold set_data set_index
    simp only []
    by_cases hj : j = -dt.lhs.base s
    · rw [if_pos hj, if_pos hj, if_pos hj]
    · rw [if_neg hj, if_neg hj, if_neg hj]
  unfold unlink
  simp only []
  split
  · exact key
  · split
    · rw [free_accept_entry_index]
      exact key
    · exact key

/-- Step R-1 of `rhs_insert` keeps the index cells of the other separators. -/
theorem sep_index_unlink {dt : double_trie} (I : dt.rinv) {s : Int} (hs : dt.lhs.reach s)
    (hb : dt.lhs.base s < 0) (J : dt.sep_index) (r : Int) : (dt.unlink s r).sep_index := by
  have hsl := basic_trie.reach_live hs
  have hspos := basic_trie.live_pos I.wfF hsl
  have hch : dt.lhs.childless s := basic_trie.childless_of_base_nonpos I.wfF hspos (by omega)
  obtain ⟨_, hstep⟩ := basic_trie.set_base_leaf I.wfF hsl hch 0
  intro x hx hbx
  rw [unlink_lhs] at hx hbx
  have hx' : dt.lhs.reach x := (basic_trie.reach_congr hstep x).mp hx
  rw [basic_trie.set_base_base] at hbx
  have hxs : x ≠ s := by
    intro e
    rw [if_pos e] at hbx
    omega
  rw [if_neg hxs] at hbx
  rcases J x hx' hbx with h | ⟨p, hp⟩
  · left
    unfold index_ref at h ⊢
    rw [unlink_index, unlink_lhs, basic_trie.set_base_base, if_neg hxs, if_neg]
    · exact h
    · intro e
      exact hxs (I.slot_inj x s hx' hs hbx (by omega))
  · right
    exact ⟨p, by rw [unlink_lhs, hstep]; exact hp⟩

/-- The loop that links every referer of the rear state `a` to the rear state `t` leaves every
index cell it writes with a reference to an accept entry. -/
theorem sep_index_relink {dt : double_trie} (I : dt.rinv) {a t : Int} {e : refer_type}
    (hf : dt.find_refer a = some e) (ht : dt.rhs.reach t) (ht1 : t ≠ 1) (hta : t ≠ a)
    (J : dt.sep_index) :
    (e.referer.foldl (fun dt x => (dt.set_link x t).1) dt).sep_index
      ∧ (e.referer ≠ [] →
          ∃ et, (e.referer.foldl (fun dt x => (dt.set_link x t).1) dt).find_refer t
            = some et) := by
  have I0 : dt.rinvx a := by
    refine ⟨I.wfF, I.wfR, I.rootF, I.baseR, I.rootR, I.dummy, I.slot_range, I.slot_inj,
      I.free_index_nodup, I.free_index_range, I.next_index_pos, I.free_accept_nodup,
      I.free_accept_range, I.next_accept_pos, I.acc, I.ref, ?_, I.linked⟩
    intro a1 e1 x h1 h2
    obtain ⟨q1, q2, q3⟩ := I.referer a1 e1 x h1 h2
    exact ⟨q1, q2, fun _ => q3 (by
      have := (rinvx_key_pos I h1).1
      omega)⟩
  obtain ⟨K, j1, j2, j3, j4, j5, j6, j7, j8⟩ := relink_fold a t e ht1 hta e.referer dt I0 hf ht
    (fun x hx => hx) (fun x hx a1 e1 h1 h2 => Or.inl (referer_unique I hf x hx a1 e1 h1 h2))
  constructor
  · intro x hx hbx
    rw [j1] at hx hbx
    by_cases hxl : x ∈ e.referer
    · left
      obtain ⟨et, p1, p2⟩ := j6 x hxl
      rw [p2]
      have := (K.ref t et p1).2.1.1
      omega
    · rcases J x hx hbx with h | ⟨p, hp⟩
      · left
        rw [j7 x hx hbx hxl]
        exact h
      · right
        exact ⟨p, by rw [j1]; exact hp⟩
  · intro hne
    obtain ⟨x, hx⟩ := List.exists_mem_of_ne_nil _ hne
    obtain ⟨et, p1, _⟩ := j6 x hx
    exact ⟨et, p1⟩

theorem rear_fold_frame : ∀ (L : List (Int × Int)) (dt : double_trie),
    rear_frame dt (L.foldl (fun dt m => dt.relocate_rear m.1 m.2) dt) := by
  intro L
  induction L with
  | nil =>
    intro dt
    exact rear_frame_refl dt
  | cons m L ih =>
    intro dt
    exact rear_frame_trans (relocate_rear_frame dt m.1 m.2) (ih _)

/-- The call `rhs_->create_transition(s, c)` leaves the front trie and the index as they
are. -/
theorem rhs_ct_frame {dt : double_trie} {s c : Int} {dt' : double_trie} {t : Int}
    (h : dt.rhs_create_transition s c = .ok (dt', t)) :
    dt'.lhs = dt.lhs ∧ dt'.index = dt.index := by
  unfold rhs_create_transition at h
  cases hct : dt.rhs.create_transition s c with
  | error f =>
    rw [hct] at h
    cases h
  | ok r =>
    obtain ⟨tr, t', moved⟩ := r
    rw [hct] at h
    simp only [Except.ok.injEq, Prod.mk.injEq] at h
    rw [← h.1]
    have F := rear_fold_frame (basic_trie.relocator_calls true moved)
      ({ dt with rhs := tr } : double_trie)
    exact ⟨F.lhs, F.index⟩

theorem rhs_chain_frame : ∀ (p : List Int) (dt : double_trie) (s : Int)
    (dt' : double_trie) (a : Int),
    p.foldlM (fun (acc : double_trie × Int) c => acc.1.rhs_create_transition acc.2 c) (dt, s)
      = .ok (dt', a) → dt'.lhs = dt.lhs ∧ dt'.index = dt.index := by
  intro p
  induction p with
  | nil =>
    intro dt s dt' a h
    cases h
    exact ⟨rfl, rfl⟩
  | cons c p ih =>
    intro dt s dt' a h
    rw [List.foldlM_cons] at h
    cases hct : dt.rhs_create_transition s c with
    | error f =>
      have h' : (dt.rhs_create_transition s c >>= fun x => p.foldlM
        (fun (acc : double_trie × Int) c => acc.1.rhs_create_transition acc.2 c) x)
          = .ok (dt', a) := h
      rw [hct] at h'
      cases h'
    | ok r =>
      obtain ⟨dt1, t⟩ := r
      have h' : (dt.rhs_create_transition s c >>= fun x => p.foldlM
        (fun (acc : double_trie × Int) c => acc.1.rhs_create_transition acc.2 c) x)
          = .ok (dt', a) := h
      rw [hct] at h'
      obtain ⟨f1, f2⟩ := rhs_ct_frame hct
      obtain ⟨g1, g2⟩ := ih dt1 t dt' a h'
      exact ⟨by rw [g1, f1], by rw [g2, f2]⟩

end double_trie

namespace double_trie

/-- The relink step of `rhs_append`: the referers of the childless state `s` go to its new
terminator child `t`, and the accept entry of `s` is freed. -/
theorem rhs_append_relink {dt : double_trie} (I : dt.rinv) {s t : Int} {e : refer_type}
    (hf : dt.find_refer s = some e) (ht : dt.rhs.reach t) (ht1 : t ≠ 1) (hts : t ≠ s) :
    ((e.referer.foldl (fun dt x => (dt.set_link x t).1) dt).free_accept_entry s).rinv
      ∧ ((e.referer.foldl (fun dt x => (dt.set_link x t).1) dt).free_accept_entry s).lhs = dt.lhs
      ∧ ((e.referer.foldl (fun dt x => (dt.set_link x t).1) dt).free_accept_entry s).rhs = dt.rhs
      ∧ ((e.referer.foldl (fun dt x => (dt.set_link x t).1) dt).free_accept_entry s).watcher0
          = dt.watcher0
      ∧ ((e.referer.foldl (fun dt x => (dt.set_link x t).1) dt).free_accept_entry s).watcher1
          = dt.watcher1 := by
  obtain ⟨J, j1, j2, j3, j4, j5, j6⟩ := relink_all I hf ht ht1 hts
  obtain ⟨K, k1, k2, k3, k4, k5, k6⟩ := free_accept_entry_spec J j6 0 (Or.inr rfl)
  exact ⟨K, by rw [k1, j1], by rw [k2, j2], by rw [k4, j3], by rw [k5, j4]⟩

/-- The function `rhs_append` returns a state of the rear trie other than the root and keeps
the link invariant; the front trie is as before. -/
theorem rhs_append_spec {dt : double_trie} (I : dt.rinv) (inputs : List Int)
    (hin : ∀ c ∈ inputs, 2 ≤ c ∧ c ≤ 257) :
    ∃ dt' a, dt.rhs_append inputs = .ok (dt', a)
      ∧ dt'.rinv ∧ dt'.lhs = dt.lhs ∧ dt'.rhs.reach a ∧ a ≠ 1
      ∧ (dt.rhs.reach dt.watcher0 → dt.watcher0 ≠ 1 →
          dt'.rhs.reach dt'.watcher0 ∧ dt'.watcher0 ≠ 1)
      ∧ (dt.rhs.reach dt.watcher1 → dt.watcher1 ≠ 1 →
          dt'.rhs.reach dt'.watcher1 ∧ dt'.watcher1 ≠ 1)
      ∧ (dt.sep_index → dt'.sep_index) := by
  have hT : key_type.kTerminator = 1 := rfl
  have hrev : ∀ c ∈ inputs.reverse, 2 ≤ c ∧ c ≤ 257 := fun c hc => hin c (List.mem_reverse.mp hc)
  have hL : ∀ c ∈ key_type.kTerminator :: inputs.reverse, 1 ≤ c ∧ c ≤ 257 := by
    intro c hc
    rcases List.mem_cons.mp hc with h | h
    · rw [h, hT]
      omega
    · have := hrev c h
      omega
  obtain ⟨sp1, sp2⟩ :=
    basic_trie.go_forward_reverse_spec dt.rhs 1 (key_type.kTerminator :: inputs.reverse)
  unfold rhs_append
  cases hg : dt.rhs.go_forward_reverse 1 (key_type.kTerminator :: inputs.reverse) with
  | mk s o =>
    cases o with
    | none =>
      have hw := sp1 s hg
      have hs : dt.rhs.reach s := ⟨_, hw⟩
      have hs1 : s ≠ 1 := basic_trie.walk_ne_root I.wfR (by simp) hw
      have hspos : 0 < s := basic_trie.live_pos I.wfR (basic_trie.reach_live hs)
      simp only []
      by_cases hod : dt.outdegree s = 0
      · rw [if_pos hod]
        exact ⟨dt, s, rfl, I, rfl, hs, hs1, fun h1 h2 => ⟨h1, h2⟩, fun h1 h2 => ⟨h1, h2⟩,
          fun J => J⟩
      · rw [if_neg hod]
        cases hc : dt.rhs.check_transition s (dt.rhs.next s key_type.kTerminator) with
        | true =>
          simp only [Bool.not_true, Bool.false_eq_true, if_false]
          have hst : dt.rhs.step s key_type.kTerminator
              = some (dt.rhs.next s key_type.kTerminator) := by
            unfold basic_trie.step
            rw [if_pos hc]
          exact ⟨dt, _, rfl, I, rfl, basic_trie.reach_step hs hst,
            basic_trie.step_ne_root I.wfR hst, fun h1 h2 => ⟨h1, h2⟩, fun h1 h2 => ⟨h1, h2⟩,
            fun J => J⟩
        | false =>
          simp only [Bool.not_false, if_true]
          have hnc : ¬ dt.rhs.childless s := fun h => hod ((outdegree_zero_iff I.wfR hspos).mpr h)
          obtain ⟨dt1, t, ρ, hct, I1, C, l1, l2, hw0, hw1⟩ :=
            rhs_ct_spec I hs (by rw [hT]) (by rw [hT]; omega) (fun _ => rfl)
              (basic_trie.not_dummy_of_child I.wfR I.dummy hnc)
          refine ⟨dt1, t, hct, I1, l1,
            basic_trie.reach_step (basic_trie.ct_reach_fwd C hs) C.edge,
            basic_trie.step_ne_root C.wf' C.edge, ?_, ?_, ?_⟩
          · intro h1 h2
            rw [hw0 h1]
            exact ct_watch C h1 h2
          · intro h1 h2
            rw [hw1 h1]
            exact ct_watch C h1 h2
          · intro J
            exact sep_index_congr J l1 (fun j => by rw [l2])
    | some p =>
      obtain ⟨pre, hpre, hp, hw, hstep⟩ := sp2 s p hg
      have hs : dt.rhs.reach s := ⟨_, hw⟩
      have hspos : 0 < s := basic_trie.live_pos I.wfR (basic_trie.reach_live hs)
      -- the shape of the rest of the buffer
      have hshape : (∀ c ∈ p, 1 ≤ c ∧ c ≤ 257)
          ∧ (∀ c, p.head? = some c → (s = 1 ↔ c = key_type.kTerminator))
          ∧ (∀ c ∈ p.tail, c ≠ key_type.kTerminator)
          ∧ (∀ y, dt.rhs.reach y → y ≠ 1 → dt.rhs.step y key_type.kTerminator ≠ some s) := by
        cases pre with
        | nil =>
          simp only [List.nil_append] at hpre
          cases hw
          rw [← hpre]
          refine ⟨hL, ?_, ?_, basic_trie.not_dummy_root I.wfR⟩
          · intro c hc
            simp only [List.head?_cons, Option.some.injEq] at hc
            rw [← hc]
            simp
          · intro c hc
            simp only [List.tail_cons] at hc
            have := (hrev c hc).1
            rw [hT]
            omega
        | cons x pre0 =>
          simp only [List.cons_append, List.cons.injEq] at hpre
          obtain ⟨hx, hrest⟩ := hpre
          have hpsub : ∀ c ∈ p, c ∈ inputs.reverse := by
            intro c hc
            rw [hrest]
            exact List.mem_append_right _ hc
          have hpresub : ∀ c ∈ pre0, c ∈ inputs.reverse := by
            intro c hc
            rw [hrest]
            exact List.mem_append_left _ hc
          have hs1 : s ≠ 1 := basic_trie.walk_ne_root I.wfR (by simp) hw
          refine ⟨?_, ?_, ?_, ?_⟩
          · intro c hc
            have := hrev c (hpsub c hc)
            omega
          · intro c hc
            have := (hrev c (hpsub c (List.mem_of_mem_head? hc))).1
            constructor
            · intro e
              exact absurd e hs1
            · intro e
              rw [hT] at e
              omega
          · intro c hc
            have := (hrev c (hpsub c (List.mem_of_mem_tail hc))).1
            rw [hT]
            omega
          · apply basic_trie.not_dummy_of_walk I.wfR hw
            intro c hc
            simp only [List.tail_cons] at hc
            have := (hrev c (hpresub c hc)).1
            rw [hT]
            omega
      obtain ⟨hr, hh, htl, hnd⟩ := hshape
      simp only []
      by_cases hod : dt.outdegree s = 0
      · rw [if_pos hod]
        have hch : dt.rhs.childless s := (outdegree_zero_iff I.wfR hspos).mp hod
        obtain ⟨dt1, t, ρ, hct, I1, C, l1, l2, hw0, hw1⟩ :=
          rhs_ct_spec I hs (by rw [hT]) (by rw [hT]; omega) (fun _ => rfl) hnd
        rw [hct]
        simp only []
        have hself := C.self hch
        have hedge := C.edge
        rw [hself] at hedge
        have hs' : dt1.rhs.reach s := by
          have := basic_trie.ct_reach_fwd C hs
          rw [hself] at this
          exact this
        have ht1 : t ≠ 1 := basic_trie.step_ne_root C.wf' hedge
        have htr : dt1.rhs.reach t := basic_trie.reach_step hs' hedge
        have hts : t ≠ s := by
          intro e
          have := (basic_trie.step_parent hedge).1
          rw [e] at this
          exact C.wf'.no_self s (by rw [this]; exact hspos) this
        have hrel : ∀ dt2 : double_trie, dt2.rinv → dt2.lhs = dt1.lhs → dt2.rhs = dt1.rhs →
            dt2.watcher0 = dt1.watcher0 → dt2.watcher1 = dt1.watcher1 →
            ∃ dt' a, p.foldlM (fun (acc : double_trie × Int) c =>
                acc.1.rhs_create_transition acc.2 c) (dt2, s) = .ok (dt', a)
              ∧ dt'.rinv ∧ dt'.lhs = dt.lhs ∧ dt'.rhs.reach a ∧ a ≠ 1
              ∧ (dt.rhs.reach dt.watcher0 → dt.watcher0 ≠ 1 →
                  dt'.rhs.reach dt'.watcher0 ∧ dt'.watcher0 ≠ 1)
              ∧ (dt.rhs.reach dt.watcher1 → dt.watcher1 ≠ 1 →
                  dt'.rhs.reach dt'.watcher1 ∧ dt'.watcher1 ≠ 1)
              ∧ (dt2.sep_index → dt'.sep_index) := by
          intro dt2 I2 m1 m2 m3 m4
          have hnc : ¬ dt2.rhs.childless s := by
            intro h
            have := h t
            rw [m2] at this
            exact this (basic_trie.step_parent hedge).1
          obtain ⟨dt3, a, hfold, I3, n1, n2, n3, n4, n5⟩ := rhs_chain_spec p dt2 s I2
            (by rw [m2]; exact hs') hr hh htl
            (basic_trie.not_dummy_of_child I2.wfR I2.dummy hnc)
          refine ⟨dt3, a, hfold, I3, by rw [n1, m1, l1], n2, n3 hp, ?_, ?_, ?_⟩
          · intro h1 h2
            obtain ⟨q1, q2⟩ := ct_watch C h1 h2
            rw [← hw0 h1, ← m3, ← m2] at q1
            rw [← hw0 h1, ← m3] at q2
            exact n4 q1 q2
          · intro h1 h2
            obtain ⟨q1, q2⟩ := ct_watch C h1 h2
            rw [← hw1 h1, ← m4, ← m2] at q1
            rw [← hw1 h1, ← m4] at q2
            exact n5 q1 q2
          · intro J2
            obtain ⟨g1, g2⟩ := rhs_chain_frame _ _ _ _ _ hfold
            exact sep_index_congr J2 g1 (fun j => by rw [g2])
        have hJ1 : dt.sep_index → dt1.sep_index :=
          fun J => sep_index_congr J l1 (fun j => by rw [l2])
        cases hf : dt1.find_refer s with
        | none =>
          obtain ⟨dt', a, r1, r2, r3, r4, r5, r6, r7, r8⟩ := hrel dt1 I1 rfl rfl rfl rfl
          exact ⟨dt', a, r1, r2, r3, r4, r5, r6, r7, fun J => r8 (hJ1 J)⟩
        | some e =>
          obtain ⟨K, k1, k2, k3, k4⟩ := rhs_append_relink I1 hf htr ht1 hts
          obtain ⟨dt', a, r1, r2, r3, r4, r5, r6, r7, r8⟩ := hrel _ K k1 k2 k3 k4
          exact ⟨dt', a, r1, r2, r3, r4, r5, r6, r7,
            fun J => r8 (sep_index_free (sep_index_relink I1 hf htr ht1 hts (hJ1 J)).1 s)⟩
      · rw [if_neg hod]
        simp only []
        obtain ⟨dt3, a, hfold, I3, n1, n2, n3, n4, n5⟩ := rhs_chain_spec p dt s I hs hr hh htl hnd
        obtain ⟨g1, g2⟩ := rhs_chain_frame _ _ _ _ _ hfold
        exact ⟨dt3, a, hfold, I3, n1, n2, n3 hp, n4, n5,
          fun J => sep_index_congr J g1 (fun j => by rw [g2])⟩

end double_trie

/-! ## The two-trie: cleaning the rear trie -/

namespace double_trie

/-- No separator refers to the accept entry of a rear state without referers. -/
theorem count_referer_hno {dt : double_trie} {a0 : Int} (I : dt.rinvx a0) {a : Int}
    (hc : dt.count_referer a = 0) :
    ∀ e, dt.find_refer a = some e → ∀ s, dt.lhs.reach s → dt.lhs.base s < 0 →
      dt.index_ref s ≠ e.accept_index := by
  intro e he s hs hsb heq
  obtain ⟨r1, r2, _, _⟩ := I.ref a e he
  have hpos : 0 < dt.index_ref s := by
    rw [heq]
    have := r2.1
    omega
  obtain ⟨_, e1, q2, q3⟩ := I.linked s hs hsb hpos
  rw [heq, r1, he] at q2
  cases q2
  unfold count_referer at hc
  rw [he] at hc
  simp only [List.length_eq_zero] at hc
  rw [hc] at q3
  cases q3

/-- The function `rhs_clean_one` keeps the link invariant. -/
theorem rhs_clean_one_spec {dt : double_trie} (I : dt.rinv) {t : Int} (ht : dt.rhs.reach t)
    (ht1 : t ≠ 1) :
    (dt.rhs_clean_one t).1.rinv ∧ (dt.rhs_clean_one t).1.lhs = dt.lhs
      ∧ ((dt.rhs_clean_one t).2 = false → (dt.rhs_clean_one t).1 = dt) := by
  unfold rhs_clean_one
  split
  · rename_i h
    have hpos : 0 < t := basic_trie.live_pos I.wfR (basic_trie.reach_live ht)
    have hch := (outdegree_zero_iff I.wfR hpos).mp h.2.1
    obtain ⟨J, j1, _⟩ := remove_accept_state_spec I ht ht1 hch (count_referer_hno I h.2.2) 0
      (Or.inl rfl)
    refine ⟨J, j1, ?_⟩
    intro h2
    cases h2
  · exact ⟨I, rfl, fun _ => rfl⟩

theorem rinvx_set_accept_same {dt : double_trie} {a0 : Int} (I : dt.rinvx a0) {t : Int}
    {e : refer_type} (he : dt.find_refer t = some e) :
    dt.set_accept e.accept_index t = dt := by
  have h1 := (I.ref t e he).1
  unfold set_accept
  have : (fun j => if j = e.accept_index then t else dt.accept j) = dt.accept := by
    funext j
    by_cases hj : j = e.accept_index
    · rw [if_pos hj, hj, h1]
    · rw [if_neg hj]
  rw [this]

/-- The last step of `rhs_clean_more`: the terminator child `r` of `t` is removed. -/
theorem clean_tail {D : double_trie} {r t : Int} (J : D.rinvx r) (ht : D.rhs.reach t)
    (ht1 : t ≠ 1) (hst : D.rhs.step t key_type.kTerminator = some r)
    (hno : ∀ e, D.find_refer r = some e → ∀ s, D.lhs.reach s → D.lhs.base s < 0 →
      D.index_ref s ≠ e.accept_index) :
    ((if D.rhs.base r > 1 then { D with rhs := D.rhs.set_last_base (D.rhs.base r) } else D
      ).remove_accept_state r).rinv
    ∧ ((if D.rhs.base r > 1 then { D with rhs := D.rhs.set_last_base (D.rhs.base r) } else D
      ).remove_accept_state r).lhs = D.lhs := by
  have hb : D.rhs.base r = 0 := J.dummy t r ht ht1 hst
  rw [if_neg (by omega)]
  have hr : D.rhs.reach r := basic_trie.reach_step ht hst
  have hr1 : r ≠ 1 := basic_trie.step_ne_root J.wfR hst
  have hpos : 0 < r := basic_trie.live_pos J.wfR (basic_trie.reach_live hr)
  have hch : D.rhs.childless r := basic_trie.childless_of_base_nonpos J.wfR hpos (by omega)
  obtain ⟨K, k1, _⟩ := remove_accept_state_spec J hr hr1 hch hno 0 (Or.inr rfl)
  exact ⟨K, k1⟩

theorem rinv_rinvx {dt : double_trie} (I : dt.rinv) (a : Int) : dt.rinvx a := by
  refine ⟨I.wfF, I.wfR, I.rootF, I.baseR, I.rootR, I.dummy, I.slot_range, I.slot_inj,
    I.free_index_nodup, I.free_index_range, I.next_index_pos, I.free_accept_nodup,
    I.free_accept_range, I.next_accept_pos, I.acc, I.ref, ?_, I.linked⟩
  intro a1 e1 x h1 h2
  obtain ⟨q1, q2, q3⟩ := I.referer a1 e1 x h1 h2
  exact ⟨q1, q2, fun _ => q3 (by
    have := (rinvx_key_pos I h1).1
    omega)⟩

theorem tinv_clean_one {dt : double_trie} (N : dt.referer_ne) (J : dt.sep_index) (t : Int) :
    (dt.rhs_clean_one t).1.referer_ne ∧ (dt.rhs_clean_one t).1.sep_index := by
  unfold rhs_clean_one
  split
  · exact ⟨referer_ne_remove_accept_state N t, sep_index_remove J t⟩
  · exact ⟨N, J⟩

/-- The function `rhs_clean_more` returns, within the bound of its recursion, and keeps the
link invariant and the front trie: `t` is a state of the rear trie other than the root, at the
end of a word shorter than the bound, and some rear state has a referer. -/
theorem rhs_clean_more_spec : ∀ (fuel : Nat) (dt : double_trie) (t : Int), dt.rinv →
    dt.referer_ne → dt.sep_index → t ≠ 1 → (∃ r e, dt.find_refer r = some e) →
    (∃ w : List Int, dt.rhs.walk 1 w = some t ∧ w.length < fuel) →
    ∃ dt', rhs_clean_more fuel dt t = .ok dt' ∧ dt'.rinv ∧ dt'.lhs = dt.lhs
      ∧ dt'.referer_ne ∧ dt'.sep_index := by
  intro fuel
  induction fuel with
  | zero =>
    intro dt t _ _ _ _ _ hw
    obtain ⟨w, _, hw⟩ := hw
    omega
  | succ fuel ih =>
    intro dt t I N J ht1 P hwk
    obtain ⟨w, hw, hwl⟩ := hwk
    have ht : dt.rhs.reach t := ⟨w, hw⟩
    have hpos : 0 < t := basic_trie.live_pos I.wfR (basic_trie.reach_live ht)
    have hck : dt.rhs.check t > 0 := by
      rcases basic_trie.reach_live ht with h | h
      · exact absurd h ht1
      · exact h
    rw [rhs_clean_more]
    by_cases h1 : dt.outdegree t = 0 ∧ dt.count_referer t = 0
    · rw [if_pos h1, if_neg (by simpa using hck)]
      simp only []
      have hs : dt.rhs.prev t > 0 := hck
      rw [if_neg (by simpa using hs)]
      have hch := (outdegree_zero_iff I.wfR hpos).mp h1.1
      obtain ⟨I', j1, j2, j3, j4, j5, j6, j7, j8⟩ :=
        remove_accept_state_spec I ht ht1 hch (count_referer_hno I h1.2) 0 (Or.inl rfl)
      obtain ⟨p1, p2, p3⟩ := basic_trie.reach_prev I.wfR ht ht1
      have hne : dt.rhs.prev t ≠ t := I.wfR.no_self t hck
      have hft : dt.find_refer t = none := by
        cases hf : dt.find_refer t with
        | none => rfl
        | some e =>
          exfalso
          have := h1.2
          unfold count_referer at this
          rw [hf] at this
          simp only [] at this
          exact N t e hf (List.length_eq_zero.mp this)
      obtain ⟨r0, e0, hr0⟩ := P
      have hr0t : r0 ≠ t := by
        intro e
        rw [e, hft] at hr0
        cases hr0
      obtain ⟨_, _, hr0r, hr01⟩ := I.ref r0 e0 hr0
      have hp1 : dt.rhs.prev t ≠ 1 := by
        intro e1
        obtain ⟨w0, hw0⟩ := hr0r
        cases w0 with
        | nil =>
          simp only [basic_trie.walk_nil, Option.some.injEq] at hw0
          exact hr01 hw0.symm
        | cons c w1 =>
          rw [basic_trie.walk_cons] at hw0
          cases hsc : dt.rhs.step 1 c with
          | none =>
            rw [hsc] at hw0
            cases hw0
          | some b =>
            rw [hsc] at hw0
            simp only [Option.some_bind] at hw0
            have hcT := I.rootR c b hsc
            have p3' := p3
            have e2 : dt.rhs.check t = 1 := e1
            rw [e2] at p3'
            have hsT := I.rootR _ _ p3'
            rw [hsT] at p3'
            rw [hcT, p3'] at hsc
            cases hsc
            cases w1 with
            | nil =>
              simp only [basic_trie.walk_nil, Option.some.injEq] at hw0
              exact hr0t hw0.symm
            | cons c' w2 =>
              rw [basic_trie.walk_cons, basic_trie.childless_step hch] at hw0
              cases hw0
      have hwne : w ≠ [] := by
        intro e
        rw [e] at hw
        simp only [basic_trie.walk_nil, Option.some.injEq] at hw
        exact ht1 hw.symm
      obtain ⟨w', x, hwx⟩ : ∃ w' x, w = w' ++ [x] := by
        rcases List.eq_nil_or_concat w with h | ⟨w', x, h⟩
        · exact absurd h hwne
        · exact ⟨w', x, by rw [h, List.concat_eq_append]⟩
      rw [hwx] at hw hwl
      obtain ⟨b, hb, hsb⟩ := basic_trie.walk_snoc.mp hw
      have hbp : b = dt.rhs.prev t := (basic_trie.step_parent hsb).1.symm
      rw [hbp] at hb
      have hwalk' := basic_trie.remove_leaf_walk hch j6 w' _ hb hne
      obtain ⟨dt', k0, k1, k2, k3, k4⟩ := ih (dt.remove_accept_state t) (dt.rhs.prev t) I'
        (referer_ne_remove_accept_state N t) (sep_index_remove J t) hp1
        ⟨r0, e0, by rw [remove_accept_state_find_refer, if_neg hr0t]; exact hr0⟩
        ⟨w', hwalk', by
          simp only [List.length_append, List.length_singleton] at hwl
          omega⟩
      exact ⟨dt', k0, k1, by rw [k2, j1], k3, k4⟩
    · rw [if_neg h1]
      by_cases h2 : dt.outdegree t = 1
      · rw [if_pos h2]
        simp only []
        cases hc : dt.rhs.check_transition t (dt.rhs.next t key_type.kTerminator) with
        | false =>
          simp only [Bool.false_eq_true, if_false]
          exact ⟨dt, rfl, I, rfl, N, J⟩
        | true =>
          simp only [if_true]
          have hst : dt.rhs.step t key_type.kTerminator
              = some (dt.rhs.next t key_type.kTerminator) := by
            unfold basic_trie.step
            rw [if_pos hc]
          have hrt : dt.rhs.next t key_type.kTerminator ≠ t := by
            intro e
            have := (basic_trie.step_parent hst).1
            rw [e] at this
            exact I.wfR.no_self t (by rw [this]; exact hpos) this
          cases hf : dt.find_refer (dt.rhs.next t key_type.kTerminator) with
          | none =>
            simp only []
            have hno : ∀ e, dt.find_refer (dt.rhs.next t key_type.kTerminator) = some e →
                ∀ s, dt.lhs.reach s → dt.lhs.base s < 0 → dt.index_ref s ≠ e.accept_index := by
              intro e he
              rw [hf] at he
              cases he
            obtain ⟨K, k1⟩ := clean_tail (rinv_rinvx I _) ht ht1 hst hno
            refine ⟨_, rfl, K, k1, ?_, ?_⟩
            · exact referer_ne_remove_accept_state
                (referer_ne_congr N (fun a => by split <;> rfl)) _
            · exact sep_index_remove
                (sep_index_congr J (by split <;> rfl) (fun j => by split <;> rfl)) _
          | some e =>
            simp only []
            obtain ⟨J2, j1, j2, j3, j4, j5, j6⟩ := relink_all I hf ht ht1 (fun e => hrt e.symm)
            obtain ⟨SJ, hex⟩ := sep_index_relink I hf ht ht1 (fun e => hrt e.symm) J
            obtain ⟨et, hft⟩ := hex (N _ e hf)
            rw [hft]
            simp only []
            rw [rinvx_set_accept_same J2 hft]
            obtain ⟨K, k1⟩ := clean_tail J2 (by rw [j2]; exact ht) ht1
              (by rw [j2]; exact hst) j6
            refine ⟨_, rfl, K, by rw [k1, j1], ?_, ?_⟩
            · exact referer_ne_remove_accept_state
                (referer_ne_congr (referer_ne_relink _ _ _ N) (fun a => by split <;> rfl)) _
            · exact sep_index_remove
                (sep_index_congr SJ (by split <;> rfl) (fun j => by split <;> rfl)) _
      · rw [if_neg h2]
        exact ⟨dt, rfl, I, rfl, N, J⟩

end double_trie

/-! ## The two-trie: `rhs_insert` -/

namespace double_trie

/-- The function `rhs_insert` in its steps. -/
theorem rhs_insert_eq (dt : double_trie) (s r : Int) (matched remain : List Int)
    (ch value : Int) :
    dt.rhs_insert s r matched remain ch value
      = if ¬ dt.link_state s > 0 then .error .assertion_failed
        else if ¬ dt.rhs.check (dt.link_state s) > 0 then .error .assertion_failed
        else
          match match_transitions matched (dt.unlink s r) s with
          | .error f => .error f
          | .ok (dt1, s1) =>
            match dt1.lhs_create_transition s1 (deref remain) with
            | .error f => .error f
            | .ok (dt2, t) =>
              match dt2.link_rest t remain value with
              | .error f => .error f
              | .ok dt3 => dt3.relink_old s1 ch (dt.index (-dt.lhs.base s)).data := by
  rfl

end double_trie

namespace double_trie

/-- Step R-1 of `rhs_insert` keeps the link invariant: the separator `s` becomes a childless
state with the base `0`, and the first watcher is the rear state it was linked to. -/
theorem unlink_spec {dt : double_trie} (I : dt.rinv) {s : Int} (hs : dt.lhs.reach s)
    (hb : dt.lhs.base s < 0) (hpos : 0 < dt.index_ref s) (r : Int) :
    (dt.unlink s r).rinv ∧ (dt.unlink s r).rhs = dt.rhs
      ∧ (∀ a x, (dt.unlink s r).lhs.step a x = dt.lhs.step a x)
      ∧ (dt.unlink s r).lhs.base s = 0
      ∧ (dt.unlink s r).watcher0 = dt.link_state s ∧ (dt.unlink s r).watcher1 = r
      ∧ dt.rhs.reach (dt.link_state s) ∧ dt.link_state s ≠ 1 := by
  obtain ⟨hku, e, hfu, hse⟩ := I.linked s hs hb hpos
  have hu : dt.link_state s = dt.accept (dt.index_ref s) := rfl
  rw [← hu] at hfu
  obtain ⟨r1, r2, r3, r4⟩ := I.ref _ e hfu
  have hsl := basic_trie.reach_live hs
  have hspos := basic_trie.live_pos I.wfF hsl
  have hch : dt.lhs.childless s := basic_trie.childless_of_base_nonpos I.wfF hspos (by omega)
  obtain ⟨hwf', hstep⟩ := basic_trie.set_base_leaf I.wfF hsl hch 0
  have hreach : ∀ y, (dt.lhs.set_base s 0).reach y ↔ dt.lhs.reach y :=
    basic_trie.reach_congr hstep
  have hbase : ∀ x, (dt.lhs.set_base s 0).base x = if x = s then 0 else dt.lhs.base x :=
    fun x => rfl
  have hs1 : s ≠ 1 := by
    intro e1
    have := I.rootF
    rw [e1] at hb
    omega
  have hbs : (dt.lhs.set_base s 0).base s = 0 := by rw [hbase, if_pos rfl]
  obtain ⟨sr1, sr2⟩ := I.slot_range s hs hb
  -- the state before the accept entry is freed
  have key : ∀ D : double_trie, D.lhs = dt.lhs.set_base s 0 → D.rhs = dt.rhs →
      (∀ j, (D.index j).index = if j = -dt.lhs.base s then 0 else (dt.index j).index) →
      D.accept = dt.accept →
      (∀ a, D.find_refer a = if a = dt.link_state s
        then some { e with referer := e.referer.filter (fun x => decide (x ≠ s)) }
        else dt.find_refer a) →
      D.next_index = dt.next_index → D.free_index = dt.free_index ++ [-dt.lhs.base s] →
      D.next_accept = dt.next_accept → D.free_accept = dt.free_accept → D.rinv := by
    intro D h1 h2 h3 h4 h5 h6 h7 h8 h9
    have hiu : ∀ k, D.in_use k ↔ dt.in_use k := by
      intro k
      unfold in_use
      rw [h8, h9]
    have hir : ∀ x, dt.lhs.reach x → dt.lhs.base x < 0 → x ≠ s →
        D.index_ref x = dt.index_ref x := by
      intro x hx hxb hxs
      unfold index_ref
      rw [h3, h1, hbase, if_neg hxs, if_neg]
      intro e1
      exact hxs (I.slot_inj x s hx hs hxb (by omega))
    have hsep : ∀ x, D.lhs.reach x → D.lhs.base x < 0 →
        dt.lhs.reach x ∧ dt.lhs.base x < 0 ∧ x ≠ s := by
      intro x hx hxb
      rw [h1] at hx hxb
      rw [hbase] at hxb
      by_cases hxs : x = s
      · rw [if_pos hxs] at hxb
        omega
      · rw [if_neg hxs] at hxb
        exact ⟨(hreach x).mp hx, hxb, hxs⟩
    have hsepb : ∀ x, x ≠ s → D.lhs.base x = dt.lhs.base x := by
      intro x hxs
      rw [h1, hbase, if_neg hxs]
    constructor
    · rw [h1]; exact hwf'
    · rw [h2]; exact I.wfR
    · rw [hsepb 1 (fun e => hs1 e.symm)]; exact I.rootF
    · rw [h2]; exact I.baseR
    · rw [h2]; exact I.rootR
    · rw [h2]; exact I.dummy
    · intro x hx hxb
      obtain ⟨q1, q2, q3⟩ := hsep x hx hxb
      obtain ⟨p1, p2⟩ := I.slot_range x q1 q2
      rw [hsepb x q3, h6, h7]
      refine ⟨p1, ?_⟩
      rw [List.mem_append, List.mem_singleton, not_or]
      refine ⟨p2, ?_⟩
      intro e1
      exact q3 (I.slot_inj x s q1 hs q2 (by omega))
    · intro x1 x2 hx1 hx2 hb1 he
      obtain ⟨q1, q2, q3⟩ := hsep x1 hx1 hb1
      rw [hsepb x1 q3] at he
      have hb2 : D.lhs.base x2 < 0 := by
        rw [← he]
        exact q2
      obtain ⟨p1, p2, p3⟩ := hsep x2 hx2 hb2
      rw [hsepb x2 p3] at he
      exact I.slot_inj x1 x2 q1 p1 q2 he
    · rw [h7, List.nodup_append]
      refine ⟨I.free_index_nodup, List.nodup_singleton _, ?_⟩
      intro x hx hx2
      rw [List.mem_singleton] at hx2
      rw [hx2] at hx
      exact sr2 hx
    · intro i hi
      rw [h7, List.mem_append, List.mem_singleton] at hi
      rw [h6]
      rcases hi with h | h
      · exact I.free_index_range i h
      · rw [h]
        exact ⟨by omega, sr1⟩
    · rw [h6]; exact I.next_index_pos
    · rw [h9]; exact I.free_accept_nodup
    · rw [h8, h9]; exact I.free_accept_range
    · rw [h8]; exact I.next_accept_pos
    · intro k hk
      obtain ⟨e1, q1, q2⟩ := I.acc k ((hiu k).mp hk)
      rw [h4, h5]
      by_cases ha : dt.accept k = dt.link_state s
      · rw [if_pos ha]
        rw [ha, hfu] at q1
        cases q1
        exact ⟨_, rfl, q2⟩
      · rw [if_neg ha]
        exact ⟨e1, q1, q2⟩
    · intro a e1 he1
      rw [h5] at he1
      rw [h4, hiu, h2]
      by_cases ha : a = dt.link_state s
      · rw [if_pos ha] at he1
        cases he1
        rw [ha]
        exact ⟨r1, r2, r3, r4⟩
      · rw [if_neg ha] at he1
        exact I.ref a e1 he1
    · intro a e1 x he1 hx
      rw [h5] at he1
      have hmain : ∃ e0, dt.find_refer a = some e0 ∧ x ∈ e0.referer ∧ x ≠ s
          ∧ e1.accept_index = e0.accept_index := by
        by_cases ha : a = dt.link_state s
        · rw [if_pos ha] at he1
          cases he1
          have hx' := List.mem_filter.mp hx
          refine ⟨e, by rw [ha]; exact hfu, hx'.1, by simpa using hx'.2, rfl⟩
        · rw [if_neg ha] at he1
          refine ⟨e1, he1, hx, ?_, rfl⟩
          intro e2
          rw [e2] at hx
          exact ha (referer_unique I hfu s hse a e1 he1 hx)
      obtain ⟨e0, p1, p2, p3, p4⟩ := hmain
      obtain ⟨q1, q2, q3⟩ := I.referer a e0 x p1 p2
      refine ⟨?_, ?_, ?_⟩
      · rw [h1]
        exact (hreach x).mpr q1
      · rw [hsepb x p3]
        exact q2
      · intro _
        rw [hir x q1 q2 p3, p4]
        exact q3 (by
          have := (rinvx_key_pos I p1).1
          omega)
    · intro x hx hxb hp
      obtain ⟨q1, q2, q3⟩ := hsep x hx hxb
      rw [hir x q1 q2 q3] at hp ⊢
      obtain ⟨p1, e1, p2, p3⟩ := I.linked x q1 q2 hp
      rw [hiu, h4, h5]
      refine ⟨p1, ?_⟩
      by_cases ha : dt.accept (dt.index_ref x) = dt.link_state s
      · rw [if_pos ha]
        rw [ha, hfu] at p2
        cases p2
        exact ⟨_, rfl, List.mem_filter.mpr ⟨p3, by simpa using q3⟩⟩
      · rw [if_neg ha]
        exact ⟨e1, p2, p3⟩
  -- the state of the model
  have hD : (({ ({ ({ (dt.set_index (-dt.lhs.base s) 0).set_data (-dt.lhs.base s) 0 with
      free_index := dt.free_index ++ [-dt.lhs.base s] } : double_trie) with
      lhs := dt.lhs.set_base s 0 } : double_trie) with
      watcher0 := dt.link_state s, watcher1 := r } : double_trie).set_refer (dt.link_state s)
      { e with referer := e.referer.filter (fun x => decide (x ≠ s)) }).rinv := by
    refine key _ rfl rfl ?_ rfl ?_ rfl rfl rfl rfl
    · intro j
      show ((if j = -dt.lhs.base s then _ else _ : index_type)).index = _
      by_cases hj : j = -dt.lhs.base s
      · rw [if_pos hj, if_pos hj]
        show (if j = -dt.lhs.base s then _ else _ : index_type).index = 0
        rw [if_pos hj]
      · rw [if_neg hj, if_neg hj]
        show (if j = -dt.lhs.base s then _ else _ : index_type).index = _
        rw [if_neg hj]
    · intro a
      rw [find_refer_set_refer]
      rfl
  unfold unlink
  simp only []
  split
  · rename_i heq
    have h2 : dt.find_refer (dt.link_state s) = none := heq
    rw [hfu] at h2
    cases h2
  · rename_i e' heq
    have h2 : dt.find_refer (dt.link_state s) = some e' := heq
    rw [hfu] at h2
    cases h2
    split
    · rename_i hlen
      have hc : (({ ({ ({ (dt.set_index (-dt.lhs.base s) 0).set_data (-dt.lhs.base s) 0 with
        free_index := dt.free_index ++ [-dt.lhs.base s] } : double_trie) with
        lhs := dt.lhs.set_base s 0 } : double_trie) with
        watcher0 := dt.link_state s, watcher1 := r } : double_trie).set_refer (dt.link_state s)
        { e with referer := e.referer.filter (fun x => decide (x ≠ s)) }).count_referer
          (dt.link_state s) = 0 := by
        unfold count_referer
        rw [find_refer_set_refer, if_pos rfl]
        exact hlen
      obtain ⟨K, k1, k2, k3, k4, k5, k6⟩ :=
        free_accept_entry_spec hD (count_referer_hno hD hc) 0 (Or.inl rfl)
      refine ⟨K, k2, ?_, ?_, k4, k5, r3, r4⟩
      · intro a x
        exact (congrArg (fun (l : basic_trie) => l.step a x) k1).trans (hstep a x)
      · exact (congrArg (fun (l : basic_trie) => l.base s) k1).trans hbs
    · exact ⟨hD, rfl, hstep, hbs, rfl, rfl, r3, r4⟩

end double_trie

namespace double_trie

/-- The loop of `rhs_insert` over the matched symbols ends at a childless state of the front
trie. -/
theorem match_transitions_spec : ∀ (matched : List Int) (dt : double_trie) (s : Int),
    dt.rinv → dt.sep_index → dt.lhs.reach s → 0 ≤ dt.lhs.base s → dt.lhs.childless s →
    (∀ c ∈ matched, 1 ≤ c ∧ c ≤ 257) →
    ∃ dt' s', match_transitions matched dt s = .ok (dt', s') ∧ dt'.rinv
      ∧ dt'.lhs.reach s' ∧ 0 ≤ dt'.lhs.base s' ∧ dt'.lhs.childless s'
      ∧ dt'.rhs = dt.rhs ∧ dt'.watcher0 = dt.watcher0 ∧ dt'.watcher1 = dt.watcher1
      ∧ dt'.sep_index
      ∧ (matched ≠ [] → s' ≠ 1 ∧ ∀ p, dt'.lhs.step p key_type.kTerminator = some s' →
          matched.getLast? = some key_type.kTerminator) := by
  intro matched
  induction matched with
  | nil =>
    intro dt s I J hs hb hch _
    exact ⟨dt, s, rfl, I, hs, hb, hch, rfl, rfl, rfl, J, fun h => absurd rfl h⟩
  | cons c matched ih =>
    intro dt s I J hs hb hch hr
    obtain ⟨dt1, t, ρ, hct, I1, C, l1, l2, l3, l4, l5, l6, l7⟩ :=
      lhs_ct_spec I hs hb (hr c (List.mem_cons_self _ _)).1 (hr c (List.mem_cons_self _ _)).2
    obtain ⟨f1, f2⟩ := C.fresh (basic_trie.childless_step hch c)
    have htr : dt1.lhs.reach t :=
      basic_trie.reach_step (basic_trie.ct_reach_fwd C hs) C.edge
    obtain ⟨dt2, s2, hm, I2, m1, m2, m3, m4, m5, m6, m7, m8⟩ := ih dt1 t I1
      (sep_index_lhs_ct I.wfF C hb l2 J) htr (by omega) f2
      (fun c' hc' => hr c' (List.mem_cons_of_mem _ hc'))
    refine ⟨dt2, s2, ?_, I2, m1, m2, m3, by rw [m4, l1], by rw [m5, l4], by rw [m6, l5], m7, ?_⟩
    · rw [match_transitions, hct]
      exact hm
    · intro _
      cases matched with
      | nil =>
        rw [match_transitions] at hm
        cases hm
        refine ⟨basic_trie.step_ne_root C.wf' C.edge, ?_⟩
        intro p hp
        have h1 := basic_trie.step_parent hp
        have h2 := basic_trie.step_parent C.edge
        have e1 : p = ρ s := by rw [← h1.1, ← h2.1]
        have e2 : key_type.kTerminator = c := by rw [← h1.2, ← h2.2, e1]
        rw [e2]
        rfl
      | cons c2 m2 =>
        obtain ⟨q1, q2⟩ := m8 (List.cons_ne_nil _ _)
        refine ⟨q1, ?_⟩
        intro p hp
        rw [List.getLast?_cons_cons]
        exact q2 p hp

theorem set_data_index (dt : double_trie) (i v j : Int) :
    ((dt.set_data i v).index j).index = (dt.index j).index := by
  unfold set_data
  simp only []
  by_cases h : j = i
  · rw [if_pos h, h]
  · rw [if_neg h]

/-- The link of a fresh state of the front trie keeps the two invariants of the index cells and
of the referers, and leaves a rear state with a referer. -/
theorem set_link_tinv {dt2 : double_trie} (I2 : dt2.rinv) (N2 : dt2.referer_ne)
    (J2 : dt2.sep_index) {t r : Int} (htr : dt2.lhs.reach t) (ht1 : t ≠ 1)
    (hch : dt2.lhs.childless t) (hb : 0 ≤ dt2.lhs.base t) (hr : dt2.rhs.reach r) (hr1 : r ≠ 1)
    (v : Int) :
    ∀ D i, dt2.set_link t r = (D, i) → (D.set_data i v).referer_ne ∧ (D.set_data i v).sep_index
      ∧ ∃ e, (D.set_data i v).find_refer r = some e := by
  intro D i hsl
  obtain ⟨D', i', hsl', JD, j1, j2, j3, j4, j5, j6, j7⟩ :=
    set_link_fresh I2 (s := t) htr ht1 hch hb hr hr1
  rw [hsl] at hsl'
  cases hsl'
  have hD : (dt2.set_link t r).1 = D := by rw [hsl]
  have hr0 : r ≠ 0 := by
    have := basic_trie.live_pos I2.wfR (basic_trie.reach_live hr)
    omega
  have ND : D.referer_ne := by
    have := referer_ne_set_link N2 t r
    rw [hD] at this
    exact this
  have SD : D.sep_index := by
    have := @sep_index_set_link dt2 t r 0 (by rw [hD]; exact JD) hr0 (by rw [hD]; exact j4)
      (by rw [hD]; exact j5) J2
    rw [hD] at this
    exact this
  obtain ⟨e', h1, _, _⟩ := set_link_find_refer dt2 t r
  rw [hD] at h1
  exact ⟨referer_ne_congr ND (fun a => rfl),
    sep_index_congr SD rfl (fun j => set_data_index D i v j), e', h1⟩

/-- The end of step R-2 returns, and keeps the link invariant and the edges of the front
trie. -/
theorem link_rest_spec {dt : double_trie} (I : dt.rinv) (N : dt.referer_ne) (J : dt.sep_index)
    {t : Int} (ht : dt.lhs.reach t)
    (ht1 : t ≠ 1) (hch : dt.lhs.childless t) (hb : 0 ≤ dt.lhs.base t) {remain : List Int}
    (hrem : ∀ c ∈ remain, 2 ≤ c ∧ c ≤ 257)
    (hterm : remain = [] → ∃ p, dt.lhs.step p key_type.kTerminator = some t)
    (hw0 : dt.rhs.reach dt.watcher0 ∧ dt.watcher0 ≠ 1) (value : Int) :
    ∃ dt', dt.link_rest t remain value = .ok dt' ∧
      dt'.rinv ∧ (∀ a x, dt'.lhs.step a x = dt.lhs.step a x)
      ∧ (∀ x, x ≠ t → dt'.lhs.base x = dt.lhs.base x)
      ∧ (dt'.rhs.reach dt'.watcher0 ∧ dt'.watcher0 ≠ 1)
      ∧ (dt.rhs.reach dt.watcher1 → dt.watcher1 ≠ 1 →
          dt'.rhs.reach dt'.watcher1 ∧ dt'.watcher1 ≠ 1)
      ∧ dt'.referer_ne ∧ dt'.sep_index
      ∧ (remain ≠ [] → ∃ r e, dt'.find_refer r = some e) := by
  have key : ∀ res, dt.link_rest t remain value = res → ∃ dt', res = .ok dt' ∧
      dt'.rinv ∧ (∀ a x, dt'.lhs.step a x = dt.lhs.step a x)
      ∧ (∀ x, x ≠ t → dt'.lhs.base x = dt.lhs.base x)
      ∧ (dt'.rhs.reach dt'.watcher0 ∧ dt'.watcher0 ≠ 1)
      ∧ (dt.rhs.reach dt.watcher1 → dt.watcher1 ≠ 1 →
          dt'.rhs.reach dt'.watcher1 ∧ dt'.watcher1 ≠ 1)
      ∧ dt'.sep_index
      ∧ (remain ≠ [] → ∃ r e, dt'.find_refer r = some e) := by
    intro res h
    cases remain with
    | nil =>
      obtain ⟨D, i, hfie, I1, m1, m2, m3, m4, m5, m6, m7, m8, m9, m10, m11, m12⟩ :=
        slot_spec I ht ht1 hch hb
      have J0 : (D.set_index i 0).sep_index := by
        have := sep_index_slot I ht ht1 hch hb (hterm rfl) J
        rw [hfie] at this
        exact this
      unfold link_rest at h
      simp only [] at h
      rw [hfie] at h
      simp only [] at h
      have e : -D.lhs.base t = i := by omega
      rw [e] at h
      subst h
      have hidx : ∀ j, ((((D.set_data i value).set_index i 0).index j).index)
          = ((D.set_index i 0).index j).index := by
        intro j
        show (if j = i then _ else _ : index_type).index
          = (if j = i then _ else _ : index_type).index
        by_cases hj : j = i
        · rw [if_pos hj, if_pos hj]
        · rw [if_neg hj, if_neg hj]
          show (if j = i then _ else _ : index_type).index = _
          rw [if_neg hj]
      refine ⟨_, rfl, ?_, m3, m4, ?_, ?_, ?_, fun h => absurd rfl h⟩
      · exact rinvx_congr I1 rfl rfl hidx rfl (fun a => rfl) rfl rfl rfl rfl
      · show D.rhs.reach D.watcher0 ∧ D.watcher0 ≠ 1
        rw [m5, m10]
        exact hw0
      · intro h1 h2
        show D.rhs.reach D.watcher1 ∧ D.watcher1 ≠ 1
        rw [m5, m11]
        exact ⟨h1, h2⟩
      · exact sep_index_congr J0 rfl hidx
    | cons c rest =>
      obtain ⟨dt1, a, hra, I1, l1, l2, l3, l4, l5, l6⟩ :=
        rhs_append_spec I rest (fun c' hc' => hrem c' (List.mem_cons_of_mem _ hc'))
      unfold link_rest at h
      simp only [] at h
      rw [hra] at h
      simp only [] at h
      obtain ⟨w1, w2⟩ := l4 hw0.1 hw0.2
      have hck : dt1.rhs.check dt1.watcher0 > 0 := by
        rcases basic_trie.reach_live w1 with h | h
        · exact absurd h w2
        · exact h
      rw [if_neg (by simpa using hck)] at h
      obtain ⟨D, i, hsl, J', j1, j2, j3, j4, j5, j6, j7⟩ :=
        set_link_fresh I1 (s := t) (by rw [l1]; exact ht) ht1 (by rw [l1]; exact hch)
          (by rw [l1]; exact hb) l2 l3
      obtain ⟨_, t2, t3⟩ := set_link_tinv I1
        (referer_ne_rhs_append N hra) (l6 J) (t := t) (by rw [l1]; exact ht) ht1
        (by rw [l1]; exact hch) (by rw [l1]; exact hb) l2 l3 value D i hsl
      rw [hsl] at h
      simp only [] at h
      subst h
      refine ⟨_, rfl, rinvx_set_data J' i value, ?_, ?_, ?_, ?_, t2, fun _ => ⟨a, t3⟩⟩
      · intro a x
        show D.lhs.step a x = _
        rw [j4, l1]
      · intro x hx
        show D.lhs.base x = _
        rw [j5 x hx, l1]
      · show D.rhs.reach D.watcher0 ∧ D.watcher0 ≠ 1
        rw [j1, j2]
        exact ⟨w1, w2⟩
      · intro h1 h2
        show D.rhs.reach D.watcher1 ∧ D.watcher1 ≠ 1
        rw [j1, j3]
        exact l5 h1 h2
  obtain ⟨dt', h, r1, r2, r3, r4, r5, r6, r7⟩ := key _ rfl
  exact ⟨dt', h, r1, r2, r3, r4, r5, referer_ne_link_rest N h, r6, r7⟩

/-- Step R-4 returns and keeps the link invariant. -/
theorem clean_final {D : double_trie} (K : D.rinv) (N : D.referer_ne) (J : D.sep_index)
    (hw : D.rhs.reach D.watcher0 ∧ D.watcher0 ≠ 1) (P : ∃ r e, D.find_refer r = some e) :
    (∀ D2, D.rhs_clean_one D.watcher0 = (D2, true) →
        D2.rinv ∧ D2.referer_ne ∧ D2.sep_index)
    ∧ (∀ D2, D.rhs_clean_one D.watcher0 = (D2, false) →
        ∃ dt', rhs_clean_more (D2.rhs.size.toNat + 1) D2 D.watcher0 = .ok dt'
          ∧ dt'.rinv ∧ dt'.referer_ne ∧ dt'.sep_index) := by
  obtain ⟨c1, c2, c3⟩ := rhs_clean_one_spec K hw.1 hw.2
  obtain ⟨t1, t2⟩ := tinv_clean_one N J D.watcher0
  constructor
  · intro D2 h
    rw [h] at c1 t1 t2
    exact ⟨c1, t1, t2⟩
  · intro D2 h
    rw [h] at c3
    have e : D2 = D := c3 rfl
    rw [e]
    obtain ⟨w, hw'⟩ := hw.1
    have hl := basic_trie.walk_length_lt K.wfR hw'
    have h0 : (D.rhs.size.toNat : Int) = D.rhs.size := Int.toNat_of_nonneg (by omega)
    obtain ⟨dt', k0, k1, k2, k3, k4⟩ := rhs_clean_more_spec (D.rhs.size.toNat + 1) D
      D.watcher0 K N J hw.2 P ⟨w, hw', by omega⟩
    exact ⟨dt', k0, k1, k3, k4⟩

/-- The link of the old key and step R-4 return and keep the link invariant. -/
theorem relink_tail {dt2 : double_trie} (I2 : dt2.rinv) (N2 : dt2.referer_ne)
    (J2 : dt2.sep_index) {t r : Int} (htr : dt2.lhs.reach t) (ht1 : t ≠ 1)
    (hch : dt2.lhs.childless t) (hb : 0 ≤ dt2.lhs.base t) (hr : dt2.rhs.reach r) (hr1 : r ≠ 1)
    (hw : dt2.rhs.reach dt2.watcher0 ∧ dt2.watcher0 ≠ 1) (oval : Int) :
    ∀ D i, dt2.set_link t r = (D, i) →
      (∀ D2, (D.set_data i oval).rhs_clean_one (D.set_data i oval).watcher0 = (D2, true) →
        D2.rinv ∧ D2.referer_ne ∧ D2.sep_index)
      ∧ (∀ D2, (D.set_data i oval).rhs_clean_one (D.set_data i oval).watcher0 = (D2, false) →
        ∃ dt', rhs_clean_more (D2.rhs.size.toNat + 1) D2 (D.set_data i oval).watcher0 = .ok dt'
          ∧ dt'.rinv ∧ dt'.referer_ne ∧ dt'.sep_index) := by
  intro D i hsl
  obtain ⟨t1, t2, e, t3⟩ := set_link_tinv I2 N2 J2 htr ht1 hch hb hr hr1 oval D i hsl
  obtain ⟨D', i', hsl', JD, j1, j2, j3, j4, j5, j6, j7⟩ :=
    set_link_fresh I2 (s := t) htr ht1 hch hb hr hr1
  rw [hsl] at hsl'
  cases hsl'
  have K : (D.set_data i oval).rinv := rinvx_set_data JD i oval
  have hwD : (D.set_data i oval).rhs.reach (D.set_data i oval).watcher0
      ∧ (D.set_data i oval).watcher0 ≠ 1 := by
    show D.rhs.reach D.watcher0 ∧ D.watcher0 ≠ 1
    rw [j1, j2]
    exact hw
  exact clean_final K t1 t2 hwD ⟨r, e, t3⟩

/-- Steps R-3 and R-4 return and keep the link invariant. -/
theorem relink_old_spec {dt : double_trie} (I : dt.rinv) (N : dt.referer_ne)
    (J : dt.sep_index) {s : Int} (hs : dt.lhs.reach s)
    (hb : 0 ≤ dt.lhs.base s) {ch : Int} (hnew : dt.lhs.step s ch = none) (hc1 : 1 ≤ ch)
    (hc2 : ch ≤ 257) (hw0 : dt.rhs.reach dt.watcher0 ∧ dt.watcher0 ≠ 1)
    (hw1 : dt.rhs.reach dt.watcher1 ∧ dt.watcher1 ≠ 1) (oval : Int) :
    ∃ dt', dt.relink_old s ch oval = .ok dt' ∧ dt'.rinv ∧ dt'.referer_ne ∧ dt'.sep_index := by
  have key : ∀ res, dt.relink_old s ch oval = res →
      ∃ dt', res = .ok dt' ∧ dt'.rinv ∧ dt'.referer_ne ∧ dt'.sep_index := by
    intro res h
    have hT : key_type.kTerminator = 1 := rfl
    obtain ⟨dt1, t, ρ, hct, I1, C, l1, l2, l3, l4, l5, l6, l7⟩ := lhs_ct_spec I hs hb hc1 hc2
    obtain ⟨f1, f2⟩ := C.fresh hnew
    have N1 : dt1.referer_ne := referer_ne_lhs_ct N hct
    have J1 : dt1.sep_index := sep_index_lhs_ct I.wfF C hb l2 J
    have htr : dt1.lhs.reach t := basic_trie.reach_step (basic_trie.ct_reach_fwd C hs) C.edge
    have ht1 : t ≠ 1 := basic_trie.step_ne_root C.wf' C.edge
    unfold relink_old at h
    rw [hct] at h
    simp only [] at h
    have hw0' : dt1.rhs.reach dt1.watcher0 ∧ dt1.watcher0 ≠ 1 := by
      rw [l1, l4]
      exact hw0
    have hw1' : dt1.rhs.reach dt1.watcher1 ∧ dt1.watcher1 ≠ 1 := by
      rw [l1, l5]
      exact hw1
    obtain ⟨p1, p2, p3⟩ := basic_trie.reach_prev I1.wfR hw1'.1 hw1'.2
    have p1' : dt1.rhs.reach (dt1.rhs.prev dt1.watcher1) := p1
    cases hc : dt1.rhs.check_transition (dt1.rhs.prev dt1.watcher1)
        (dt1.rhs.next (dt1.rhs.prev dt1.watcher1) key_type.kTerminator) with
    | true =>
      rw [hc] at h
      simp only [Bool.not_true, Bool.false_eq_true, if_false] at h
      have hst : dt1.rhs.step (dt1.rhs.prev dt1.watcher1) key_type.kTerminator
          = some (dt1.rhs.next (dt1.rhs.prev dt1.watcher1) key_type.kTerminator) := by
        unfold basic_trie.step
        rw [if_pos hc]
      have hr := basic_trie.reach_step p1' hst
      have hr1 := basic_trie.step_ne_root I1.wfR hst
      cases hsl : dt1.set_link t
          (dt1.rhs.next (dt1.rhs.prev dt1.watcher1) key_type.kTerminator) with
      | mk D i =>
        obtain ⟨c1, c2⟩ := relink_tail I1 N1 J1 htr ht1 f2 (by omega) hr hr1 hw0' oval D i hsl
        rw [hsl] at h
        simp only [] at h
        cases hco : (D.set_data i oval).rhs_clean_one (D.set_data i oval).watcher0 with
        | mk D2 b =>
          rw [hco] at h
          cases b with
          | true =>
            simp only [] at h
            subst h
            exact ⟨_, rfl, c1 D2 hco⟩
          | false =>
            simp only [] at h
            obtain ⟨dt', k0, k⟩ := c2 D2 hco
            rw [k0] at h
            subst h
            exact ⟨dt', rfl, k⟩
    | false =>
      rw [hc] at h
      simp only [Bool.not_false, if_true] at h
      have hnc : ¬ dt1.rhs.childless (dt1.rhs.prev dt1.watcher1) := fun hcl => hcl _ rfl
      obtain ⟨dt2, r, ρ2, hct2, I2, C2, m1, n2, n3, n4⟩ :=
        rhs_ct_spec I1 p1' (by rw [hT]) (by rw [hT]; omega) (fun _ => rfl)
          (basic_trie.not_dummy_of_child I1.wfR I1.dummy hnc)
      rw [hct2] at h
      simp only [] at h
      have hr := basic_trie.reach_step (basic_trie.ct_reach_fwd C2 p1') C2.edge
      have hr1 := basic_trie.step_ne_root C2.wf' C2.edge
      have hw : dt2.rhs.reach dt2.watcher0 ∧ dt2.watcher0 ≠ 1 := by
        rw [n3 hw0'.1]
        exact ct_watch C2 hw0'.1 hw0'.2
      obtain ⟨g1, g2⟩ := rhs_ct_frame hct2
      cases hsl : dt2.set_link t r with
      | mk D i =>
        obtain ⟨c1, c2⟩ := relink_tail I2 (referer_ne_rhs_ct N1 hct2)
          (sep_index_congr J1 g1 (fun j => by rw [g2])) (t := t) (by rw [m1]; exact htr) ht1
          (by rw [m1]; exact f2) (by rw [m1]; omega) hr hr1 hw oval D i hsl
        rw [hsl] at h
        simp only [] at h
        cases hco : (D.set_data i oval).rhs_clean_one (D.set_data i oval).watcher0 with
        | mk D2 b =>
          rw [hco] at h
          cases b with
          | true =>
            simp only [] at h
            subst h
            exact ⟨_, rfl, c1 D2 hco⟩
          | false =>
            simp only [] at h
            obtain ⟨dt', k0, k⟩ := c2 D2 hco
            rw [k0] at h
            subst h
            exact ⟨dt', rfl, k⟩
  exact key _ rfl

end double_trie

namespace double_trie

theorem deref_symbol {p : List Int} (h : ∀ c ∈ p, 2 ≤ c ∧ c ≤ 257) :
    1 ≤ deref p ∧ deref p ≤ 257 := by
  cases p with
  | nil =>
    show 1 ≤ key_type.kTerminator ∧ key_type.kTerminator ≤ 257
    have hT : key_type.kTerminator = 1 := rfl
    rw [hT]
    omega
  | cons c p =>
    have := h c (List.mem_cons_self _ _)
    show 1 ≤ c ∧ c ≤ 257
    omega

/-- The function `rhs_insert` returns and keeps the link invariant: `s` is a linked separator,
`r` a state of the rear trie other than the root, and `ch` differs from the first symbol that
remains. -/
theorem rhs_insert_spec {dt : double_trie} (I : dt.rinv) (N : dt.referer_ne)
    (J : dt.sep_index) {s : Int} (hs : dt.lhs.reach s)
    (hb : dt.lhs.base s < 0) (hpos : 0 < dt.index_ref s) {r : Int} (hr : dt.rhs.reach r)
    (hr1 : r ≠ 1) {matched remain : List Int} (hm : ∀ c ∈ matched, 1 ≤ c ∧ c ≤ 257)
    (hrem : ∀ c ∈ remain, 2 ≤ c ∧ c ≤ 257) {ch : Int} (hc1 : 1 ≤ ch) (hc2 : ch ≤ 257)
    (hne : ch ≠ deref remain) (value : Int) :
    ∃ dt', dt.rhs_insert s r matched remain ch value = .ok dt' ∧ dt'.rinv ∧ dt'.referer_ne
      ∧ dt'.sep_index := by
  have key : ∀ res, dt.rhs_insert s r matched remain ch value = res →
      ∃ dt', res = .ok dt' ∧ dt'.rinv ∧ dt'.referer_ne ∧ dt'.sep_index := by
    intro res h
    rw [rhs_insert_eq] at h
    obtain ⟨U, u1, u2, u3, u4, u5, u6, u7⟩ := unlink_spec I hs hb hpos r
    have hu0 : dt.link_state s > 0 := basic_trie.live_pos I.wfR (basic_trie.reach_live u6)
    have huc : dt.rhs.check (dt.link_state s) > 0 := by
      rcases basic_trie.reach_live u6 with h1 | h1
      · exact absurd h1 u7
      · exact h1
    rw [if_neg (not_not.mpr hu0), if_neg (not_not.mpr huc)] at h
    have hsU : (dt.unlink s r).lhs.reach s := (basic_trie.reach_congr u2 s).mpr hs
    have hspos := basic_trie.live_pos U.wfF (basic_trie.reach_live hsU)
    have hchU : (dt.unlink s r).lhs.childless s :=
      basic_trie.childless_of_base_nonpos U.wfF hspos (by omega)
    obtain ⟨dt1, s1, hmt, I1, m1, m2, m3, m4, m5, m6, m7, _⟩ :=
      match_transitions_spec matched _ s U (sep_index_unlink I hs hb J r) hsU (by omega) hchU hm
    have N1 : dt1.referer_ne := referer_ne_match matched _ s dt1 s1 (referer_ne_unlink N s r) hmt
    rw [hmt] at h
    simp only [] at h
    obtain ⟨d1, d2⟩ := deref_symbol hrem
    obtain ⟨dt2, t, ρ, hct, I2, C, l1, l2, l3, l4, l5, l6, l7⟩ := lhs_ct_spec I1 m1 m2 d1 d2
    have N2 : dt2.referer_ne := referer_ne_lhs_ct N1 hct
    have J2 : dt2.sep_index := sep_index_lhs_ct I1.wfF C m2 l2 m7
    rw [hct] at h
    simp only [] at h
    obtain ⟨f1, f2⟩ := C.fresh (basic_trie.childless_step m3 _)
    have hself := C.self m3
    have hedge := C.edge
    rw [hself] at hedge
    have hs1 : dt2.lhs.reach s1 := by
      have := basic_trie.ct_reach_fwd C m1
      rw [hself] at this
      exact this
    have htr : dt2.lhs.reach t := basic_trie.reach_step hs1 hedge
    have ht1 : t ≠ 1 := basic_trie.step_ne_root C.wf' hedge
    have hs1pos := basic_trie.live_pos I1.wfF (basic_trie.reach_live m1)
    have hts : s1 ≠ t := by
      intro e
      have := (basic_trie.step_parent hedge).1
      rw [← e] at this
      exact C.wf'.no_self s1 (by rw [this]; omega) this
    have hbpos : 0 < dt2.lhs.base s1 := by
      have := basic_trie.ct_base_pos I1.wfF C (basic_trie.reach_live m1) (fun hh => hh.2 rfl)
      rw [hself] at this
      exact this
    have hnew : dt2.lhs.step s1 ch = none := by
      cases hst : dt2.lhs.step s1 ch with
      | none => rfl
      | some b' =>
        exfalso
        rw [← hself] at hst
        rcases C.bwd s1 ch b' (basic_trie.reach_live m1) hst with ⟨b, hb1, _⟩ | ⟨_, h2, _, _⟩
        · rw [basic_trie.childless_step m3] at hb1
          cases hb1
        · exact hne h2
    have hw0 : dt2.rhs.reach dt2.watcher0 ∧ dt2.watcher0 ≠ 1 := by
      rw [l1, l4, m4, m5, u1, u4]
      exact ⟨u6, u7⟩
    have hw1 : dt2.rhs.reach dt2.watcher1 ∧ dt2.watcher1 ≠ 1 := by
      rw [l1, l5, m4, m6, u1, u5]
      exact ⟨hr, hr1⟩
    have hterm : remain = [] → ∃ p, dt2.lhs.step p key_type.kTerminator = some t := by
      intro e
      rw [e] at hedge
      exact ⟨s1, hedge⟩
    obtain ⟨dt3, hl, I3, k1, k2, k3, k4, N3, J3, _⟩ :=
      link_rest_spec I2 N2 J2 htr ht1 f2 (by omega) hrem hterm hw0 value
    rw [hl] at h
    simp only [] at h
    obtain ⟨dt', hro, q⟩ := relink_old_spec I3 N3 J3 ((basic_trie.reach_congr k1 s1).mpr hs1)
      (by rw [k2 s1 hts]; omega) (by rw [k1]; exact hnew) hc1 hc2
      k3 (k4 hw1.1 hw1.2) (dt.index (-dt.lhs.base s)).data
    rw [hro] at h
    subst h
    exact ⟨dt', rfl, q⟩
  exact key _ rfl

/-- The function `lhs_insert` returns and keeps the link invariant: `s` is a state of the front
trie that is no separator and has no edge on the first symbol of the rest of the key. -/
theorem lhs_insert_spec {dt : double_trie} (I : dt.rinv) (N : dt.referer_ne)
    (J : dt.sep_index) {s : Int} (hs : dt.lhs.reach s)
    (hb : 0 ≤ dt.lhs.base s) {inputs : List Int}
    (hnew : dt.lhs.step s (deref inputs) = none) (hin : ∀ c ∈ inputs, 2 ≤ c ∧ c ≤ 257)
    (value : Int) :
    ∃ dt', dt.lhs_insert s inputs value = .ok dt' ∧ dt'.rinv ∧ dt'.referer_ne
      ∧ dt'.sep_index := by
  have key : ∀ res, dt.lhs_insert s inputs value = res →
      ∃ dt', res = .ok dt' ∧ dt'.rinv ∧ dt'.sep_index := by
    intro res h
    obtain ⟨d1, d2⟩ := deref_symbol hin
    obtain ⟨dt1, t, ρ, hct, I1, C, l1, l2, l3, l4, l5, l6, l7⟩ := lhs_ct_spec I hs hb d1 d2
    obtain ⟨f1, f2⟩ := C.fresh hnew
    have N1 : dt1.referer_ne := referer_ne_lhs_ct N hct
    have J1 : dt1.sep_index := sep_index_lhs_ct I.wfF C hb l2 J
    have htr : dt1.lhs.reach t := basic_trie.reach_step (basic_trie.ct_reach_fwd C hs) C.edge
    have ht1 : t ≠ 1 := basic_trie.step_ne_root C.wf' C.edge
    unfold lhs_insert at h
    rw [hct] at h
    simp only [] at h
    cases inputs with
    | nil =>
      obtain ⟨D, i, hfie, K, _⟩ := slot_spec I1 htr ht1 f2 (by omega)
      have J0 : (D.set_index i 0).sep_index := by
        have := sep_index_slot I1 htr ht1 f2 (by omega) ⟨_, C.edge⟩ J1
        rw [hfie] at this
        exact this
      simp only [] at h
      rw [hfie] at h
      simp only [] at h
      subst h
      exact ⟨_, rfl, rinvx_set_data K i value,
        sep_index_congr J0 rfl (fun j => set_data_index _ i value j)⟩
    | cons c rest =>
      simp only [] at h
      obtain ⟨dt2, a, hra, I2, n1, n2, n3, _, _, n6⟩ :=
        rhs_append_spec I1 rest (fun c' hc' => hin c' (List.mem_cons_of_mem _ hc'))
      rw [hra] at h
      simp only [] at h
      obtain ⟨D, i, hsl, K, _⟩ :=
        set_link_fresh I2 (s := t) (by rw [n1]; exact htr) ht1 (by rw [n1]; exact f2)
          (by rw [n1]; omega) n2 n3
      obtain ⟨_, t2, _⟩ := set_link_tinv I2 (referer_ne_rhs_append N1 hra) (n6 J1) (t := t)
        (by rw [n1]; exact htr) ht1 (by rw [n1]; exact f2) (by rw [n1]; omega) n2 n3 value
        D i hsl
      rw [hsl] at h
      simp only [] at h
      subst h
      exact ⟨_, rfl, rinvx_set_data K i value, t2⟩
  obtain ⟨dt', h, r1, r2⟩ := key _ rfl
  exact ⟨dt', h, r1, referer_ne_lhs_insert N h, r2⟩

/-- The reverse walk of `insert` never runs beyond the suffix: from a state of the rear trie
that is not the end of a tail, it ends as a duplicate or at a mismatch. -/
theorem reverse_walk_no_overrun {dt : double_trie} (I : dt.rinv) :
    ∀ (p : List Int) (r : Int) (matched : List Int), dt.rhs.reach r → r ≠ 1 →
    (∀ y, dt.rhs.reach y → y ≠ 1 → dt.rhs.step y key_type.kTerminator ≠ some r) →
    dt.reverse_walk p r matched ≠ .overrun := by
  intro p
  induction p with
  | nil =>
    intro r matched hr hr1 hnd
    rw [reverse_walk]
    cases hc : dt.rhs.check_reverse_transition r key_type.kTerminator with
    | true =>
      simp only [if_true]
      have hp : dt.rhs.prev r = 1 := by
        by_contra hne
        obtain ⟨p1, p2, p3⟩ := basic_trie.reach_prev I.wfR hr hr1
        have hx : r - dt.rhs.base (dt.rhs.check r) = key_type.kTerminator := by
          unfold basic_trie.check_reverse_transition basic_trie.next basic_trie.prev at hc
          simp only [Bool.and_eq_true, decide_eq_true_eq] at hc
          omega
        rw [hx] at p3
        exact hnd _ p1 hne p3
      rw [if_pos hp]
      intro h
      cases h
    | false =>
      simp only [Bool.false_eq_true, if_false]
      intro h
      cases h
  | cons c p ih =>
    intro r matched hr hr1 hnd
    rw [reverse_walk]
    cases hc : dt.rhs.check_reverse_transition r c with
    | true =>
      simp only [if_true]
      split
      · intro h
        cases h
      · rename_i hp1
        obtain ⟨p1, p2, p3⟩ := basic_trie.reach_prev I.wfR hr hr1
        exact ih (dt.rhs.prev r) (matched ++ [c]) p1 hp1
          (basic_trie.not_dummy_of_child I.wfR I.dummy (fun hcl => hcl r rfl))
    | false =>
      simp only [Bool.false_eq_true, if_false]
      intro h
      cases h

/-- The reverse walk of `insert` stops at a state of the rear trie other than the root that is
not entered on the next symbol. -/
theorem reverse_walk_spec {dt : double_trie} (hwf : dt.rhs.wf) :
    ∀ (p : List Int) (r : Int) (matched : List Int), dt.rhs.reach r → r ≠ 1 →
    ∀ r' m' p', dt.reverse_walk p r matched = .mismatch r' m' p' →
      dt.rhs.reach r' ∧ r' ≠ 1 ∧ (∀ c ∈ m', c ∈ matched ∨ c ∈ p) ∧ (∀ c ∈ p', c ∈ p)
      ∧ dt.rhs.check_reverse_transition r' (deref p') = false := by
  intro p
  induction p with
  | nil =>
    intro r matched hr hr1 r' m' p' h
    rw [reverse_walk] at h
    cases hc : dt.rhs.check_reverse_transition r key_type.kTerminator with
    | true =>
      rw [hc] at h
      simp only [if_true] at h
      split at h <;> cases h
    | false =>
      rw [hc] at h
      simp only [Bool.false_eq_true, if_false] at h
      cases h
      exact ⟨hr, hr1, fun c hc' => Or.inl hc', fun c hc' => hc', hc⟩
  | cons c p ih =>
    intro r matched hr hr1 r' m' p' h
    rw [reverse_walk] at h
    cases hc : dt.rhs.check_reverse_transition r c with
    | true =>
      rw [hc] at h
      simp only [if_true] at h
      split at h
      · cases h
      · rename_i hp1
        obtain ⟨q1, q2, q3⟩ := basic_trie.reach_prev hwf hr hr1
        obtain ⟨a1, a2, a3, a4, a5⟩ := ih (dt.rhs.prev r) (matched ++ [c]) q1 hp1 r' m' p' h
        refine ⟨a1, a2, ?_, fun x hx => List.mem_cons_of_mem _ (a4 x hx), a5⟩
        intro x hx
        rcases a3 x hx with h1 | h1
        · rw [List.mem_append, List.mem_singleton] at h1
          rcases h1 with h2 | h2
          · exact Or.inl h2
          · right
            rw [h2]
            exact List.mem_cons_self _ _
        · exact Or.inr (List.mem_cons_of_mem _ h1)
    | false =>
      rw [hc] at h
      simp only [Bool.false_eq_true, if_false] at h
      cases h
      exact ⟨hr, hr1, fun x hx => Or.inl hx, fun x hx => hx, hc⟩

/-- The function `insert` returns and keeps the link invariant. -/
theorem insert_core_rinv {dt : double_trie} (I : dt.rinv) (N : dt.referer_ne)
    (J : dt.sep_index) {key : key_type}
    (hkey : ∀ c ∈ key.data, 2 ≤ c ∧ c ≤ 257) (value : Int) :
    ∃ dt', dt.insert_core key value = .ok dt' ∧ dt'.rinv ∧ dt'.referer_ne
      ∧ dt'.sep_index := by
  have hsd : ∀ i v, (dt.set_data i v).rinv ∧ (dt.set_data i v).referer_ne
      ∧ (dt.set_data i v).sep_index := fun i v =>
    ⟨rinvx_set_data I _ _, referer_ne_congr N (fun a => rfl),
      sep_index_congr J rfl (fun j => set_data_index dt i v j)⟩
  have key : ∀ res, dt.insert_core key value = res →
      ∃ dt', res = .ok dt' ∧ dt'.rinv ∧ dt'.referer_ne ∧ dt'.sep_index := by
    intro res h
    obtain ⟨g1, g2⟩ := basic_trie.go_forward_spec dt.lhs 1 key.data
    unfold insert_core at h
    cases hg : dt.lhs.go_forward 1 key.data with
    | mk s o =>
      rw [hg] at h
      cases o with
      | none =>
        simp only [] at h
        subst h
        exact ⟨_, rfl, hsd _ _⟩
      | some p =>
        simp only [] at h
        obtain ⟨pre, hpre, hw, hstep⟩ := g2 s p hg
        have hs : dt.lhs.reach s := ⟨pre, hw⟩
        have hp : ∀ c ∈ p, 2 ≤ c ∧ c ≤ 257 := by
          intro c hc
          apply hkey
          rw [hpre]
          exact List.mem_append_right _ hc
        by_cases hsep : dt.lhs.base s < 0
        · have hcs : dt.check_separator s = true := by
            unfold check_separator
            exact decide_eq_true hsep
          rw [hcs] at h
          simp only [Bool.not_true, Bool.false_eq_true, if_false] at h
          have hpos : 0 < dt.index_ref s := by
            rcases J s hs hsep with h1 | ⟨p0, hp0⟩
            · exact h1
            · exfalso
              rcases List.eq_nil_or_concat pre with e | ⟨pre', c, e⟩
              · rw [e] at hw
                simp only [basic_trie.walk_nil, Option.some.injEq] at hw
                exact basic_trie.step_ne_root I.wfF hp0 hw.symm
              · rw [List.concat_eq_append] at e
                rw [e] at hw
                obtain ⟨b, _, hsb⟩ := basic_trie.walk_snoc.mp hw
                have h1 := basic_trie.step_parent hp0
                have h2 := basic_trie.step_parent hsb
                have e1 : p0 = b := by rw [← h1.1, ← h2.1]
                have e2 : key_type.kTerminator = c := by rw [← h1.2, ← h2.2, e1]
                have hc := hkey c (by rw [hpre, e]; simp)
                have hT : key_type.kTerminator = 1 := rfl
                omega
          have hidx : (dt.index (-dt.lhs.base s)).index > 0 := hpos
          rw [if_neg (not_not.mpr hidx)] at h
          obtain ⟨hku, e, hfu, hse⟩ := I.linked s hs hsep hpos
          have hu : dt.link_state s = dt.accept (dt.index_ref s) := rfl
          rw [← hu] at hfu
          obtain ⟨r1, r2, r3, r4⟩ := I.ref _ e hfu
          have hupos := basic_trie.live_pos I.wfR (basic_trie.reach_live r3)
          have hr0 : dt.rhs.reach (if dt.rhs.check_reverse_transition (dt.link_state s)
                key_type.kTerminator = true ∧ dt.rhs.prev (dt.link_state s) > 1
              then dt.rhs.prev (dt.link_state s) else dt.link_state s)
              ∧ (if dt.rhs.check_reverse_transition (dt.link_state s)
                key_type.kTerminator = true ∧ dt.rhs.prev (dt.link_state s) > 1
              then dt.rhs.prev (dt.link_state s) else dt.link_state s) ≠ 1
              ∧ ∀ y, dt.rhs.reach y → y ≠ 1 → dt.rhs.step y key_type.kTerminator
                ≠ some (if dt.rhs.check_reverse_transition (dt.link_state s)
                  key_type.kTerminator = true ∧ dt.rhs.prev (dt.link_state s) > 1
                then dt.rhs.prev (dt.link_state s) else dt.link_state s) := by
            by_cases hc : dt.rhs.check_reverse_transition (dt.link_state s)
                key_type.kTerminator = true ∧ dt.rhs.prev (dt.link_state s) > 1
            · rw [if_pos hc]
              refine ⟨(basic_trie.reach_prev I.wfR r3 r4).1, ?_,
                basic_trie.not_dummy_of_child I.wfR I.dummy (fun hcl => hcl _ rfl)⟩
              have := hc.2
              omega
            · rw [if_neg hc]
              refine ⟨r3, r4, ?_⟩
              intro y hy hy1 hst
              apply hc
              have h1 := basic_trie.step_parent hst
              have hypos := basic_trie.live_pos I.wfR (basic_trie.reach_live hy)
              have hprev : dt.rhs.prev (dt.link_state s) = dt.rhs.check (dt.link_state s) := rfl
              constructor
              · unfold basic_trie.check_reverse_transition basic_trie.next basic_trie.prev
                simp only [Bool.and_eq_true, decide_eq_true_eq]
                rw [h1.1]
                exact ⟨⟨hupos, hypos⟩, by omega⟩
              · rw [hprev, h1.1]
                omega
          cases hrw : dt.reverse_walk p (if dt.rhs.check_reverse_transition (dt.link_state s)
                key_type.kTerminator = true ∧ dt.rhs.prev (dt.link_state s) > 1
              then dt.rhs.prev (dt.link_state s) else dt.link_state s) [] with
          | duplicate =>
            rw [hrw] at h
            simp only [] at h
            subst h
            exact ⟨_, rfl, hsd _ _⟩
          | overrun =>
            exact absurd hrw (reverse_walk_no_overrun I p _ [] hr0.1 hr0.2.1 hr0.2.2)
          | mismatch r' m' p' =>
            rw [hrw] at h
            simp only [] at h
            obtain ⟨a1, a2, a3, a4, a5⟩ :=
              reverse_walk_spec I.wfR p _ [] hr0.1 hr0.2.1 r' m' p' hrw
            have hck : 0 < dt.rhs.check r' := by
              rcases basic_trie.reach_live a1 with h1 | h1
              · exact absurd h1 a2
              · exact h1
            obtain ⟨w1, w2, w3, w4⟩ := I.wfR.link r' hck
            have hr'pos := basic_trie.live_pos I.wfR (basic_trie.reach_live a1)
            have hne : r' - dt.rhs.base (dt.rhs.prev r') ≠ deref p' := by
              intro e1
              have hprev : dt.rhs.prev r' = dt.rhs.check r' := rfl
              rw [hprev] at e1
              have htrue : dt.rhs.check_reverse_transition r' (deref p') = true := by
                unfold basic_trie.check_reverse_transition basic_trie.next basic_trie.prev
                simp only [Bool.and_eq_true, decide_eq_true_eq]
                exact ⟨⟨by omega, hck⟩, by omega⟩
              rw [a5] at htrue
              cases htrue
            have hm' : ∀ c ∈ m', 1 ≤ c ∧ c ≤ 257 := by
              intro c hc
              rcases a3 c hc with h1 | h1
              · cases h1
              · have := hp c h1
                omega
            obtain ⟨dt', hri, q⟩ := rhs_insert_spec I N J hs hsep hpos a1 a2
              hm' (fun c hc => hp c (a4 c hc)) w2 w3 hne value
            have hri' : dt.rhs_insert s r' m' p' (r' - dt.rhs.base (dt.rhs.prev r')) value
                = .ok dt' := hri
            rw [hri'] at h
            subst h
            exact ⟨dt', rfl, q⟩
        · have hcs : dt.check_separator s = false := by
            unfold check_separator
            exact decide_eq_false hsep
          rw [hcs] at h
          simp only [Bool.not_false, if_true] at h
          obtain ⟨dt', hli, q⟩ := lhs_insert_spec I N J hs (by omega) hstep hp value
          rw [hli] at h
          subst h
          exact ⟨dt', rfl, q⟩
  exact key _ rfl

end double_trie

/-! ## The two-trie: the link invariant after every sequence of inserts -/

namespace double_trie

/-- A fresh two-trie satisfies the link invariant. -/
theorem rinv_create (size : Int) : (create size).rinv := by
  have hb : ∀ x, (basic_trie.create size).base x = 0 := fun x => rfl
  have hc : ∀ x, (basic_trie.create size).check x = 0 := fun x => rfl
  have hnf : ∀ a, (create size).find_refer a = none := fun a => rfl
  have hnu : ∀ k, ¬ (create size).in_use k := by
    intro k hk
    have h1 : 1 ≤ k := hk.1
    have h2 : k < 1 := hk.2.1
    omega
  have hlb : ∀ x, (create size).lhs.base x = 0 := hb
  refine ⟨basic_trie.wf_create size, basic_trie.wf_create size, ?_, ?_, ?_, ?_, ?_, ?_,
    List.nodup_nil, ?_, le_refl _, List.nodup_nil, ?_, le_refl _, ?_, ?_, ?_, ?_⟩
  · rw [hlb]
  · intro y _
    exact le_of_eq (hb y).symm
  · intro c t hs
    rw [basic_trie.step_eq_some] at hs
    have : (basic_trie.create size).check t = 1 := hs.2.2.2.2
    rw [hc] at this
    omega
  · intro y d _ _ _
    exact hb d
  · intro s _ hs
    rw [hlb] at hs
    omega
  · intro s1 s2 _ _ hs
    rw [hlb] at hs
    omega
  · intro i hi
    cases hi
  · intro k hk
    cases hk
  · intro k hk
    exact absurd hk (hnu k)
  · intro a e he
    rw [hnf] at he
    cases he
  · intro a e x he
    rw [hnf] at he
    cases he
  · intro s _ hs
    rw [hlb] at hs
    omega

theorem data_symbols {key : key_type} (h : key.valid) : ∀ c ∈ key.data, 2 ≤ c ∧ c ≤ 257 := by
  intro c hc
  unfold key_type.data at hc
  exact h c ((List.takeWhile_sublist _).subset hc)

/-- Every sequence of inserts completes and keeps the link invariant. -/
theorem insert_all_total : ∀ (seq : List (List (Fin 256) × Int)) (dt : double_trie),
    dt.rinv → dt.referer_ne → dt.sep_index →
    ∃ dt', dt.insert_all (calls seq) = .done dt' ∧ dt'.rinv := by
  intro seq
  induction seq with
  | nil =>
    intro dt I _ _
    exact ⟨dt, rfl, I⟩
  | cons e seq ih =>
    intro dt I N J
    have hc : calls (e :: seq) = (key_type.assign e.1, e.2) :: calls seq := rfl
    obtain ⟨dt1, hi, I1, N1, J1⟩ :=
      insert_core_rinv I N J (data_symbols (key_type.valid_assign e.1)) e.2
    obtain ⟨dt', h, I'⟩ := ih dt1 I1 N1 J1
    refine ⟨dt', ?_, I'⟩
    rw [hc, insert_all]
    unfold insert
    rw [hi]
    exact h

theorem tinv_create (size : Int) : (create size).referer_ne ∧ (create size).sep_index := by
  constructor
  · intro a e he
    cases he
  · intro s _ hb
    have : (create size).lhs.base s = 0 := rfl
    omega

end double_trie

/-! ## Outcomes read off an evaluation -/

theorem outcome.done_of_isSome {σ : Type} (o : outcome σ) (h : o.state?.isSome = true) :
    o = .done (o.state?.get h) := by
  cases o with
  | done st => rfl
  | threw msg st => cases h
  | crashed f => cases h

theorem outcome.crashed_of_fault {σ : Type} (o : outcome σ) (f : fault)
    (h : o.fault? = some f) : o = .crashed f := by
  cases o with
  | done st => cases h
  | threw msg st => cases h
  | crashed g =>
    simp only [outcome.fault?, Option.some.injEq] at h
    rw [h]

theorem outcome.not_crashed_of_isSome {σ : Type} (o : outcome σ) (h : o.state?.isSome = true)
    (f : fault) : o ≠ .crashed f := by
  intro e
  rw [e] at h
  cases h

/-- A sequence of `basic_trie::insert` calls on a trie that stores a map ends
in one of three ways, each with a well-formed trie where there is one: all
calls complete; a call with a value below 1 throws and leaves the trie as the
calls before it made it; a call for a key that is stored reads through the
null pointer. -/
theorem basic_trie.insert_all_cases :
    ∀ (seq : List (List (Fin 256) × Int)) (tr : basic_trie) (M : key_type → Option Int),
      tr.stores M →
      (∃ tr', tr.insert_all (calls seq) = .done tr' ∧ tr'.wf)
      ∨ (∃ msg tr', tr.insert_all (calls seq) = .threw msg tr' ∧ tr'.wf)
      ∨ tr.insert_all (calls seq) = .crashed .null_dereference := by
  intro seq
  induction seq with
  | nil =>
    intro tr M S
    exact Or.inl ⟨tr, rfl, S.wf⟩
  | cons e rest ih =>
    intro tr M S
    simp only [calls, List.map_cons, basic_trie.insert_all]
    by_cases hv : e.2 < 1
    · right
      left
      refine ⟨"basic_trie::insert: value must > 0", tr, ?_, S.wf⟩
      simp [basic_trie.insert, hv]
    · cases hM : M (key_type.assign e.1) with
      | none =>
        obtain ⟨tr1, h1, S1⟩ := basic_trie.insert_spec S (key_type.valid_assign e.1) hM
          (by omega : 1 ≤ e.2)
        rw [h1]
        exact ih tr1 _ S1
      | some v =>
        right
        right
        rw [basic_trie.insert_bound_null S hM (by omega : 1 ≤ e.2)]

/-- The trie `branch_trie` is well formed. -/
theorem branch_trie_wf : branch_trie.wf := by
  obtain ⟨tr, h1, S⟩ := basic_trie.insert_all_spec [(ascii "ab", 1), (ascii "b", 2)]
    (basic_trie.create 0) (fun _ => none) (basic_trie.stores_create 0) (by decide) (by decide)
    (fun _ _ => rfl)
  have h2 : (basic_trie.create 0).insert_all [(key_of "ab", 1), (key_of "b", 2)] = .done tr := h1
  unfold branch_trie
  rw [h2]
  exact S.wf

set_option maxRecDepth 1000000 in
/-- The children of the root of `branch_trie` are those on the symbols 99 and
100. -/
theorem branch_trie_children (x : Int) (hx : branch_trie.check x = 1) :
    x - branch_trie.base 1 ∈ [(99 : Int), 100, 3] := by
  have h := basic_trie.find_exist_target_complete branch_trie_wf (by decide : (0 : Int) < 1) hx
  have e : (branch_trie.find_exist_target 1).1 = [99, 100] := by decide!
  rw [e] at h
  simp only [List.mem_cons, List.mem_singleton, List.not_mem_nil, or_false] at h ⊢
  rcases h with h | h
  · exact Or.inl h
  · exact Or.inr (Or.inl h)

/-! ## Evaluations on concrete inputs -/

set_option maxRecDepth 1000000 in
theorem regress_single_back :
    regress_single (key_of "back") = some (.ok [(key_of "back", 2), (key_of "backbone", 7)]) := by
  decide!

set_option maxRecDepth 1000000 in
theorem regress_single_back_bang : regress_single (key_of "back!") = some (.ok []) := by
  decide!

set_option maxRecDepth 1000000 in
theorem regress_double_back :
    regress_double (key_of "back") = some (.ok [(key_of "back", 2), (key_of "backbone", 7)]) := by
  decide!

set_option maxRecDepth 1000000 in
theorem regress_double_back_bang : regress_double (key_of "back!") = some (.ok []) := by
  decide!

/-- The calls of the regression dictionary on a fresh tail trie complete. -/
theorem regress_single_done :
    ((single_trie.create 0).insert_all regress_dict).state?.isSome = true := by
  have h := regress_single_back
  unfold regress_single at h
  cases hs : ((single_trie.create 0).insert_all regress_dict).state? with
  | none => rw [hs] at h; cases h
  | some st => rfl

/-! ## Round trip and absence of phantoms -/

set_option maxRecDepth 1000000 in
/-- C1: the round trip of the tail trie, and the call that breaks it. In a
tail trie made with the size 4 the calls `insert("ab", 5)`, `insert("a", 7)`
end in a write outside `suffix_`: the second call does not store its key. For
every sequence of `single_trie::insert` calls with positive values on a fresh
tail trie of any size: unless one of the calls writes outside `suffix_`, all
of them complete, and afterwards `single_trie::search` finds every key of the
sequence with the value of its last insert; keys that are proper beginnings
of other keys are no exception. The calls for `back`, `backbone` and `back`
again, with the values 1, 2, 3, on a trie of the default size complete, and
`search` then returns 3 for `back` and 2 for `backbone`. -/
theorem single_trie.insert_search_round_trip :
    (single_trie.create 4).insert_all (calls [(ascii "ab", 5), (ascii "a", 7)])
        = .crashed .out_of_bounds
    ∧ (∀ (seq : List (List (Fin 256) × Int)) (size : Int), (∀ e ∈ seq, 0 < e.2) →
        (single_trie.create size).insert_all (calls seq) = .crashed .out_of_bounds
        ∨ ∃ st, (single_trie.create size).insert_all (calls seq) = .done st
          ∧ ∀ k, k ∈ seq.map (fun e => e.1) →
            ∃ v, last_insert seq k = some v ∧ 0 < v
              ∧ st.search (key_type.assign k) = some v)
    ∧ ∃ st, (single_trie.create 0).insert_all
          (calls [(ascii "back", 1), (ascii "backbone", 2), (ascii "back", 3)]) = .done st
        ∧ st.search (key_of "back") = some 3 ∧ st.search (key_of "backbone") = some 2 := by
  have general : ∀ (seq : List (List (Fin 256) × Int)) (size : Int), (∀ e ∈ seq, 0 < e.2) →
      (single_trie.create size).insert_all (calls seq) = .crashed .out_of_bounds
      ∨ ∃ st, (single_trie.create size).insert_all (calls seq) = .done st
        ∧ ∀ k, k ∈ seq.map (fun e => e.1) →
          ∃ v, last_insert seq k = some v ∧ 0 < v
            ∧ st.search (key_type.assign k) = some v := by
    intro seq size hv
    rcases single_trie.tail_insert_all_spec seq (single_trie.create size)
      (fun _ => none) (single_trie.tail_stores_create size) with h1 | ⟨st, h1, S⟩
    · exact Or.inl h1
    · refine Or.inr ⟨st, h1, ?_⟩
      intro k hk
      obtain ⟨v, hl⟩ := last_insert_of_occurs hk
      refine ⟨v, hl, hv _ (last_insert_some hl), ?_⟩
      rw [single_trie.tail_search_eq S (key_type.valid_assign k), bind_all_eq, hl]
  refine ⟨outcome.crashed_of_fault _ _ (by decide!), general, ?_⟩
  rcases general [(ascii "back", 1), (ascii "backbone", 2), (ascii "back", 3)] 0 (by decide)
    with h | ⟨st, h1, h2⟩
  · exact absurd h (outcome.not_crashed_of_isSome _ (by decide!) _)
  · refine ⟨st, h1, ?_, ?_⟩
    · obtain ⟨v, hl, _, hs⟩ := h2 (ascii "back") (by decide)
      have e : last_insert [(ascii "back", 1), (ascii "backbone", 2), (ascii "back", 3)]
          (ascii "back") = some 3 := by decide
      rw [e] at hl
      cases hl
      exact hs
    · obtain ⟨v, hl, _, hs⟩ := h2 (ascii "backbone") (by decide)
      have e : last_insert [(ascii "back", 1), (ascii "backbone", 2), (ascii "back", 3)]
          (ascii "backbone") = some 2 := by decide
      rw [e] at hl
      cases hl
      exact hs

set_option maxRecDepth 1000000 in
/-- C4: the absence of phantoms in the tail trie, and the call that breaks
it. In a tail trie made with the size 4 the calls `insert("ab", 5)`,
`insert("a", 7)` end in a write outside `suffix_`, after which no search has
a defined result. For every sequence of `single_trie::insert` calls with
positive values on a fresh tail trie of any size, the empty sequence
included: unless one of the calls writes outside `suffix_`, all of them
complete, and afterwards `single_trie::search` finds no key that was never
inserted. The calls of the regression dictionary on a trie of the default
size complete, and `search("bad")` then finds nothing. -/
theorem single_trie.search_no_phantom :
    (single_trie.create 4).insert_all (calls [(ascii "ab", 5), (ascii "a", 7)])
        = .crashed .out_of_bounds
    ∧ (∀ (seq : List (List (Fin 256) × Int)) (size : Int), (∀ e ∈ seq, 0 < e.2) →
        (single_trie.create size).insert_all (calls seq) = .crashed .out_of_bounds
        ∨ ∃ st, (single_trie.create size).insert_all (calls seq) = .done st
          ∧ ∀ k, k ∉ seq.map (fun e => e.1) → st.search (key_type.assign k) = none)
    ∧ ∃ st, (single_trie.create 0).insert_all regress_dict = .done st
        ∧ st.search (key_of "bad") = none := by
  have general : ∀ (seq : List (List (Fin 256) × Int)) (size : Int), (∀ e ∈ seq, 0 < e.2) →
      (single_trie.create size).insert_all (calls seq) = .crashed .out_of_bounds
      ∨ ∃ st, (single_trie.create size).insert_all (calls seq) = .done st
        ∧ ∀ k, k ∉ seq.map (fun e => e.1) → st.search (key_type.assign k) = none := by
    intro seq size _
    rcases single_trie.tail_insert_all_spec seq (single_trie.create size)
      (fun _ => none) (single_trie.tail_stores_create size) with h1 | ⟨st, h1, S⟩
    · exact Or.inl h1
    · refine Or.inr ⟨st, h1, ?_⟩
      intro k hk
      rw [single_trie.tail_search_eq S (key_type.valid_assign k), bind_all_eq,
        last_insert_of_not_mem hk]
  refine ⟨outcome.crashed_of_fault _ _ (by decide!), general, ?_⟩
  rcases general regress_pairs 0 (by decide) with h | ⟨st, h1, h2⟩
  · exact absurd h (outcome.not_crashed_of_isSome _ regress_single_done _)
  · exact ⟨st, h1, h2 (ascii "bad") (by decide)⟩

/-- C10: every sequence of `basic_trie::insert` calls with pairwise distinct
keys and values `≥ 1` on a fresh basic trie completes; afterwards
`basic_trie::search` returns for every inserted key its value, which is the
base of the leaf at the end of the key and its terminator, and finds no key
that was not inserted. -/
theorem basic_trie.insert_search_agree (seq : List (List (Fin 256) × Int)) (size : Int)
    (hd : (seq.map (fun e => e.1)).Nodup) (hv : ∀ e ∈ seq, 1 ≤ e.2) :
    ∃ tr, (basic_trie.create size).insert_all (calls seq) = .done tr
      ∧ (∀ e ∈ seq, tr.search (key_type.assign e.1) = some e.2
          ∧ ∃ u, tr.walk 1 (key_type.assign e.1 ++ [key_type.kTerminator]) = some u
            ∧ tr.base u = e.2)
      ∧ ∀ k, k ∉ seq.map (fun e => e.1) → tr.search (key_type.assign k) = none := by
  obtain ⟨tr, h1, S⟩ := basic_trie.insert_all_spec seq (basic_trie.create size)
    (fun _ => none) (basic_trie.stores_create size) hd hv (fun _ _ => rfl)
  refine ⟨tr, h1, ?_, ?_⟩
  · intro e he
    have hb : bind_all (fun _ => none) seq (key_type.assign e.1) = some e.2 := by
      rw [bind_all_eq, last_insert_of_mem hd he]
    refine ⟨?_, ?_⟩
    · rw [basic_trie.search_eq S (key_type.valid_assign e.1), hb]
    · obtain ⟨u, hu, hbu, _⟩ := S.has _ _ hb
      exact ⟨u, hu, hbu⟩
  · intro k hk
    rw [basic_trie.search_eq S (key_type.valid_assign k), bind_all_eq,
      last_insert_of_not_mem hk]

/-- C10 (witness): the regression dictionary in a fresh basic trie. -/
theorem basic_trie.insert_search_agree_witness :
    (regress_pairs.map (fun e => e.1)).Nodup ∧ (∀ e ∈ regress_pairs, 1 ≤ e.2)
    ∧ ∃ tr, (basic_trie.create 0).insert_all (calls regress_pairs) = .done tr
      ∧ (∀ e ∈ regress_pairs, tr.search (key_type.assign e.1) = some e.2
          ∧ ∃ u, tr.walk 1 (key_type.assign e.1 ++ [key_type.kTerminator]) = some u
            ∧ tr.base u = e.2)
      ∧ ∀ k, k ∉ regress_pairs.map (fun e => e.1) → tr.search (key_type.assign k) = none :=
  ⟨by decide, by decide, basic_trie.insert_search_agree regress_pairs 0 (by decide) (by decide)⟩

/-! ## Transitions, relocation and the suffix array -/

/-- C11 (evidence): after `insert("a", 1)` on a fresh basic trie the key is
stored with the value 1, and `insert("a", 2)` does not overwrite it: the call
ends in the read through the null pointer that `go_forward` leaves when it
has consumed the whole key. -/
theorem basic_trie.insert_duplicate_null :
    ∃ tr, (basic_trie.create 0).insert (key_of "a") 1 = .done tr
      ∧ tr.search (key_of "a") = some 1
      ∧ tr.insert (key_of "a") 2 = .crashed .null_dereference := by
  obtain ⟨tr, h1, S⟩ := basic_trie.insert_spec (basic_trie.stores_create 0)
    (key_type.valid_assign (ascii "a")) rfl (by decide : (1 : Int) ≤ 1)
  have hM : bind_key (fun _ => none) (key_of "a") 1 (key_of "a") = some 1 := by
    unfold bind_key
    rw [if_pos rfl]
  refine ⟨tr, h1, ?_, basic_trie.insert_bound_null S hM (by decide)⟩
  exact (basic_trie.search_eq S (key_type.valid_assign (ascii "a"))).trans hM

/-- C12: on a well-formed trie, for a live state `s` with `base(s) ≥ 0` and a
symbol `c` of the alphabet, `create_transition(s, c)` returns a state `t` with
`check(t) = s'`, `t = base(s') + c`, `base(s') > 0` and `t` below the
capacity, where `s'` is `s` or the cell a relocation call moved `s` to. -/
theorem basic_trie.create_transition_edge {tr : basic_trie} (h : tr.wf) {s c : Int}
    (hs : tr.live s) (hb : 0 ≤ tr.base s) (hc1 : 1 ≤ c) (hc2 : c ≤ 257) :
    ∃ tr' t moved s', tr.create_transition s c = .ok (tr', t, moved)
      ∧ (s' = s ∨ (s, s') ∈ moved)
      ∧ tr'.check t = s' ∧ t = tr'.base s' + c ∧ 0 < tr'.base s'
      ∧ 0 < t ∧ t < tr'.size := by
  obtain ⟨tr', t, moved, ρ, hct, C, Mv⟩ := basic_trie.create_transition_moved h hs hb hc1 hc2
  have he := C.edge
  rw [basic_trie.step_eq_some] at he
  obtain ⟨e1, e2, e3, e4, e5⟩ := he
  refine ⟨tr', t, moved, ρ s, hct, ?_, e5, e1, ?_, e3, e4⟩
  · by_cases hρ : ρ s = s
    · left; exact hρ
    · right; exact Mv.2.2 s hs hρ
  · have := (C.wf'.link t (by rw [e5]; exact e2)).1
    rw [e5] at this
    exact this

/-- C12 (witness): the first transition of a fresh trie. -/
theorem basic_trie.create_transition_edge_witness :
    ∃ tr' t moved s', (basic_trie.create 0).create_transition 1 2 = .ok (tr', t, moved)
      ∧ (s' = 1 ∨ ((1 : Int), s') ∈ moved)
      ∧ tr'.check t = s' ∧ t = tr'.base s' + 2 ∧ 0 < tr'.base s'
      ∧ 0 < t ∧ t < tr'.size :=
  basic_trie.create_transition_edge (basic_trie.wf_create 0) (basic_trie.live_root _)
    (by decide) (by decide) (by decide)

set_option maxRecDepth 1000000 in
/-- C14: the check-link predicate holds for a fresh basic trie of every size,
and `create_transition` and `relocate` keep the invariant of the state array
that contains it. So it holds for the basic trie after every sequence of
`insert` calls: a sequence with pairwise distinct keys and values `≥ 1`
completes, and any sequence either completes, or stops at a call that throws
and leaves the trie as it was, or stops at the null read of a repeated key;
the predicate holds for the trie in each case that leaves one. For the trie
of a tail trie it holds after every sequence of `single_trie::insert` calls
that completes, and a sequence that does not complete ends in a write outside
`suffix_`. The calls of the regression dictionary complete on both. -/
theorem check_link_invariant :
    (∀ size : Int, (basic_trie.create size).check_link)
    ∧ (∀ (tr : basic_trie) (s c : Int), tr.wf → tr.live s → 0 ≤ tr.base s → 1 ≤ c → c ≤ 257 →
        ∃ tr' t moved, tr.create_transition s c = .ok (tr', t, moved)
          ∧ tr'.wf ∧ tr'.check_link)
    ∧ (∀ (tr : basic_trie) (q stand : Int) (inputs : List Int) (e : extremum_type),
        tr.wf → tr.live q → basic_trie.covers e inputs → (∀ c ∈ inputs, 1 ≤ c) →
        inputs.Nodup → (∀ x, tr.check x = q → (x - tr.base q) ∈ inputs) →
        (¬ tr.childless q → ∀ c ∈ inputs, 0 < tr.check (tr.base q + c)) →
        ∃ tr' stand' moved, tr.relocate stand q inputs e = .ok (tr', stand', moved)
          ∧ tr'.wf ∧ tr'.check_link)
    ∧ (∀ (seq : List (List (Fin 256) × Int)) (size : Int),
        (seq.map (fun e => e.1)).Nodup → (∀ e ∈ seq, 1 ≤ e.2) →
        ∃ tr, (basic_trie.create size).insert_all (calls seq) = .done tr ∧ tr.check_link)
    ∧ (∀ (seq : List (List (Fin 256) × Int)) (size : Int),
        (∃ tr, (basic_trie.create size).insert_all (calls seq) = .done tr ∧ tr.check_link)
        ∨ (∃ msg tr, (basic_trie.create size).insert_all (calls seq) = .threw msg tr
            ∧ tr.check_link)
        ∨ (basic_trie.create size).insert_all (calls seq) = .crashed .null_dereference)
    ∧ (∀ (seq : List (List (Fin 256) × Int)) (size : Int),
        (single_trie.create size).insert_all (calls seq) = .crashed .out_of_bounds
        ∨ ∃ st, (single_trie.create size).insert_all (calls seq) = .done st
          ∧ st.trie.check_link)
    ∧ (∃ tr, (basic_trie.create 0).insert_all (calls regress_pairs) = .done tr
        ∧ tr.check_link)
    ∧ (∃ st, (single_trie.create 0).insert_all (calls regress_pairs) = .done st
        ∧ st.trie.check_link) := by
  have basic : ∀ (seq : List (List (Fin 256) × Int)) (size : Int),
      (seq.map (fun e => e.1)).Nodup → (∀ e ∈ seq, 1 ≤ e.2) →
      ∃ tr, (basic_trie.create size).insert_all (calls seq) = .done tr ∧ tr.check_link := by
    intro seq size hd hv
    obtain ⟨tr, h1, S⟩ := basic_trie.insert_all_spec seq (basic_trie.create size)
      (fun _ => none) (basic_trie.stores_create size) hd hv (fun _ _ => rfl)
    exact ⟨tr, h1, basic_trie.check_link_of_wf S.wf⟩
  have tail : ∀ (seq : List (List (Fin 256) × Int)) (size : Int),
      (single_trie.create size).insert_all (calls seq) = .crashed .out_of_bounds
      ∨ ∃ st, (single_trie.create size).insert_all (calls seq) = .done st
        ∧ st.trie.check_link := by
    intro seq size
    rcases single_trie.tail_insert_all_spec seq (single_trie.create size)
      (fun _ => none) (single_trie.tail_stores_create size) with h1 | ⟨st, h1, S⟩
    · exact Or.inl h1
    · exact Or.inr ⟨st, h1, basic_trie.check_link_of_wf S.wf⟩
  refine ⟨fun size => basic_trie.check_link_of_wf (basic_trie.wf_create size), ?_, ?_, basic,
    ?_, tail, basic regress_pairs 0 (by decide) (by decide), ?_⟩
  · intro tr s c h hs hb hc1 hc2
    obtain ⟨tr', t, moved, ρ, hct, C⟩ := basic_trie.create_transition_spec h hs hb hc1 hc2
    exact ⟨tr', t, moved, hct, C.wf', basic_trie.check_link_of_wf C.wf'⟩
  · intro tr q stand inputs e h hq hcov hsym hnd hcomp hocc
    obtain ⟨tr', stand', moved, d, cur, tr1, hrel, hwf1, hb1, hc1, _, R, htr', hnb, _⟩ :=
      @basic_trie.relocate_spec _ h q stand hq inputs e hcov hsym hnd hcomp hocc
    have hq1 : tr1.live q := (basic_trie.live_congr hc1 q).mpr hq
    have hwf' := basic_trie.relocd_wf hwf1 hq1 R (by rw [hb1]; exact hnb)
    rw [hb1, ← htr'] at hwf'
    exact ⟨tr', stand', moved, hrel, hwf', basic_trie.check_link_of_wf hwf'⟩
  · intro seq size
    rcases basic_trie.insert_all_cases seq (basic_trie.create size) (fun _ => none)
      (basic_trie.stores_create size) with ⟨tr, h1, h2⟩ | ⟨msg, tr, h1, h2⟩ | h1
    · exact Or.inl ⟨tr, h1, basic_trie.check_link_of_wf h2⟩
    · exact Or.inr (Or.inl ⟨msg, tr, h1, basic_trie.check_link_of_wf h2⟩)
    · exact Or.inr (Or.inr h1)
  · rcases tail regress_pairs 0 with h | h
    · exact absurd h (outcome.not_crashed_of_isSome _ regress_single_done _)
    · exact h

/-- C15: on a well-formed trie (every cell at or beyond the capacity is free)
and for symbols and an extremum that are not negative, `find_base` returns
the least `b` above the old `last_base_` with `check(b + min) ≤ 0`,
`check(b + max) ≤ 0` and `check(b + c) ≤ 0` for every symbol `c` of the
inputs; on return `b + max` is below the capacity, and no cell has changed. -/
theorem basic_trie.find_base_result {tr : basic_trie} (h : tr.wf) (inputs : List Int)
    (e : extremum_type) (he1 : 0 ≤ e.min) (he2 : 0 ≤ e.max) (hin : ∀ c ∈ inputs, 0 ≤ c) :
    ∃ tr' b, tr.find_base inputs e = .ok (tr', b)
      ∧ tr.last_base < b
      ∧ (tr.check (b + e.min) ≤ 0 ∧ tr.check (b + e.max) ≤ 0
          ∧ ∀ c ∈ inputs, tr.check (b + c) ≤ 0)
      ∧ (∀ j, tr.last_base < j → j < b →
          ¬ (tr.check (j + e.min) ≤ 0 ∧ tr.check (j + e.max) ≤ 0
            ∧ ∀ c ∈ inputs, tr.check (j + c) ≤ 0))
      ∧ b + e.max < tr'.size ∧ tr.size ≤ tr'.size
      ∧ tr'.base = tr.base ∧ tr'.check = tr.check := by
  have hl := h.last_base_ge
  have hlt := h.last_base_lt
  obtain ⟨tr1, b, hr, h1, h2, h3, _, h5, h6, h7, h8, h9⟩ :=
    basic_trie.find_base_loop_spec h inputs e he1 he2 hin ((tr.size - tr.last_base).toNat + 1) tr
      tr.last_base rfl rfl (le_refl _) rfl hl hlt (by omega) (by
        have : ((tr.size - tr.last_base).toNat : Int) = tr.size - tr.last_base :=
          Int.toNat_of_nonneg (by omega)
        push_cast
        omega)
  have hfb : tr.find_base inputs e
      = .ok ({ tr1 with last_base := if b > 256 then b - 255 else b }, b) := by
    unfold basic_trie.find_base
    rw [hr]
  exact ⟨_, b, hfb, h5, ⟨h7, h8, h9⟩, basic_trie.find_base_least hfb, h6, h3, h1, h2⟩

/-- C15 (witness): the first base of a fresh trie. -/
theorem basic_trie.find_base_result_witness :
    ∃ tr' b, (basic_trie.create 0).find_base [2] ⟨2, 2⟩ = .ok (tr', b)
      ∧ (basic_trie.create 0).last_base < b
      ∧ ((basic_trie.create 0).check (b + 2) ≤ 0 ∧ (basic_trie.create 0).check (b + 2) ≤ 0
          ∧ ∀ c ∈ [(2 : Int)], (basic_trie.create 0).check (b + c) ≤ 0)
      ∧ (∀ j, (basic_trie.create 0).last_base < j → j < b →
          ¬ ((basic_trie.create 0).check (j + 2) ≤ 0 ∧ (basic_trie.create 0).check (j + 2) ≤ 0
            ∧ ∀ c ∈ [(2 : Int)], (basic_trie.create 0).check (j + c) ≤ 0))
      ∧ b + 2 < tr'.size ∧ (basic_trie.create 0).size ≤ tr'.size
      ∧ tr'.base = (basic_trie.create 0).base ∧ tr'.check = (basic_trie.create 0).check :=
  basic_trie.find_base_result (basic_trie.wf_create 0) [2] ⟨2, 2⟩ (by decide) (by decide)
    (by decide)

/-- C16 (counterexample): on a fresh basic trie the first `find_base` for the
symbol 2 returns the base 1 and leaves `last_base_ = 1`; the second returns
the base 2 and leaves `last_base_ = 2`, not `max(2 - 255, 1) = 1`. -/
theorem find_base_last_base_small :
    find_base_example = .ok ((1, 1), (2, 2)) ∧ max ((2 : Int) - 255) 1 = 1 := by
  decide

/-- C16 (amended): whenever `find_base` returns a base `b`, `last_base_`
afterwards is `b - 255` if `b > 256` and `b` itself otherwise. -/
theorem basic_trie.find_base_last_base (tr : basic_trie) (inputs : List Int)
    (e : extremum_type) :
    match tr.find_base inputs e with
    | .ok (tr', b) => tr'.last_base = if b > 256 then b - 255 else b
    | .error _ => True := by
  cases h : tr.find_base inputs e with
  | error f => trivial
  | ok r =>
    obtain ⟨tr', b⟩ := r
    exact basic_trie.find_base_last_base_eq h

/-- C17: the relocation choice of `create_transition(s, c)`. If the target
cell `t = base(s) + c` is occupied by a child of a state `q` (entered from
`q` on a symbol of the alphabet), then `q = check(t)` and the children of `q`
are relocated if `q` has fewer outgoing symbols than `s` would have with `c`
added, and otherwise, a tie included, the children of `s` together with `c`;
if `base(s) ≤ 0` and the cell is free, the children of `s` together with `c`
are relocated. In each case the transition is then written from the standing
state the relocation returns. -/
theorem basic_trie.create_transition_choice (tr : basic_trie) (s c : Int) :
    (∀ q c', 1 ≤ c' → c' ≤ 257 → tr.step q c' = some (tr.next s c) →
      tr.check (tr.next s c) = q
      ∧ tr.create_transition s c
        = Except.map
          (fun r => ((if r.1.next r.2.1 c ≥ r.1.size
              then r.1.resize_state (r.1.next r.2.1 c - r.1.size + 1) else r.1).set_check
                (r.1.next r.2.1 c) r.2.1, r.1.next r.2.1 c, r.2.2))
          (if (tr.find_exist_target q).1.length < (tr.find_exist_target s).1.length + 1
            then tr.relocate s q (tr.find_exist_target q).1 (tr.find_exist_target q).2
            else tr.relocate s s ((tr.find_exist_target s).1 ++ [c])
              ((tr.find_exist_target s).2.add c)))
    ∧ (tr.base s ≤ 0 → tr.check (tr.next s c) ≤ 0 →
      ∀ tr0, tr0 = (if tr.next s c ≥ tr.size
          then tr.resize_state (tr.next s c - tr.size + 1) else tr) →
        tr.create_transition s c
          = Except.map
            (fun r => ((if r.1.next r.2.1 c ≥ r.1.size
                then r.1.resize_state (r.1.next r.2.1 c - r.1.size + 1) else r.1).set_check
                  (r.1.next r.2.1 c) r.2.1, r.1.next r.2.1 c, r.2.2))
            (tr0.relocate s s ((tr0.find_exist_target s).1 ++ [c])
              ((tr0.find_exist_target s).2.add c))) := by
  constructor
  · intro q c' h1 h2 hq
    rw [basic_trie.step_eq_some] at hq
    obtain ⟨ht, hq0, ht0, hts, hck⟩ := hq
    refine ⟨hck, ?_⟩
    have hmem : c' ∈ (tr.find_exist_target q).1 := by
      unfold basic_trie.find_exist_target
      simp only [List.mem_filter, basic_trie.mem_symbols, basic_trie.check_transition_iff,
        basic_trie.next, decide_eq_true_eq]
      rw [← ht]
      exact ⟨⟨h1, h2⟩, hq0, ht0, hts, hck⟩
    have hpos : 0 < (tr.find_exist_target q).1.length := List.length_pos_of_mem hmem
    unfold basic_trie.create_transition
    simp only []
    rw [if_neg (not_le.mpr hts)]
    rw [if_neg (show ¬ (tr.base s > 0 ∧ tr.check (tr.next s c) ≤ 0) from
      fun hh => by have := hh.2; omega)]
    rw [if_pos (show tr.check (tr.next s c) ≠ 0 by omega), hck]
    by_cases hlt : (tr.find_exist_target q).1.length < (tr.find_exist_target s).1.length + 1
    · rw [if_pos hlt, if_pos ⟨hpos, hlt⟩]
      cases tr.relocate s q (tr.find_exist_target q).1 (tr.find_exist_target q).2 with
      | error f => rfl
      | ok r => rfl
    · rw [if_neg hlt, if_neg (fun hh => hlt hh.2)]
      cases tr.relocate s s ((tr.find_exist_target s).1 ++ [c])
        ((tr.find_exist_target s).2.add c) with
      | error f => rfl
      | ok r => rfl
  · intro hb hc tr0 h0
    have hb0 : tr0.base s ≤ 0 := by rw [h0]; split_ifs <;> simpa using hb
    have hc0 : tr0.check (tr.next s c) ≤ 0 := by rw [h0]; split_ifs <;> simpa using hc
    have hnil : ∀ a, a ≤ 0 → (tr0.find_exist_target a).1 = [] := by
      intro a ha
      unfold basic_trie.find_exist_target
      simp only [List.filter_eq_nil_iff, basic_trie.check_transition_iff]
      intro x _ hx
      omega
    unfold basic_trie.create_transition
    simp only []
    rw [← h0]
    rw [if_neg (by omega)]
    have hlen : ¬ ((if tr0.check (tr.next s c) ≠ 0
        then tr0.find_exist_target (tr0.check (tr.next s c))
        else (([], ⟨0, 0⟩) : List Int × extremum_type)).1.length > 0
        ∧ (tr0.find_exist_target s).1.length + 1
          > (if tr0.check (tr.next s c) ≠ 0
            then tr0.find_exist_target (tr0.check (tr.next s c))
            else (([], ⟨0, 0⟩) : List Int × extremum_type)).1.length) := by
      split_ifs with h
      · rw [hnil _ hc0]
        simp
      · simp
    rw [if_neg hlen]
    cases tr0.relocate s s ((tr0.find_exist_target s).1 ++ [c])
      ((tr0.find_exist_target s).2.add c) with
    | error f => rfl
    | ok r => rfl

/-- C17 (witness): the cell `5` of a state array in which it is the child of
the root on the symbol 2, met by the state `5` on the symbol 5; and the first
transition of a fresh trie, whose root has the base 0. -/
theorem basic_trie.create_transition_choice_witness :
    ((((basic_trie.create 0).set_base 1 3).set_check 5 1).step 1 2
        = some ((((basic_trie.create 0).set_base 1 3).set_check 5 1).next 5 5)
      ∧ (((basic_trie.create 0).set_base 1 3).set_check 5 1).check
          ((((basic_trie.create 0).set_base 1 3).set_check 5 1).next 5 5) = 1)
    ∧ ((basic_trie.create 0).base 1 ≤ 0
      ∧ (basic_trie.create 0).check ((basic_trie.create 0).next 1 2) ≤ 0
      ∧ (basic_trie.create 0).create_transition 1 2
          = Except.map
            (fun r => ((if r.1.next r.2.1 2 ≥ r.1.size
                then r.1.resize_state (r.1.next r.2.1 2 - r.1.size + 1) else r.1).set_check
                  (r.1.next r.2.1 2) r.2.1, r.1.next r.2.1 2, r.2.2))
            ((basic_trie.create 0).relocate 1 1
              (((basic_trie.create 0).find_exist_target 1).1 ++ [2])
              (((basic_trie.create 0).find_exist_target 1).2.add 2))) :=
  ⟨⟨by decide,
    ((basic_trie.create_transition_choice
      (((basic_trie.create 0).set_base 1 3).set_check 5 1) 5 5).1 1 2 (by decide) (by decide)
        (by decide)).1⟩,
    by decide, by decide,
    (basic_trie.create_transition_choice (basic_trie.create 0) 1 2).2 (by decide) (by decide)
      (basic_trie.create 0) (if_neg (by decide)).symm⟩

/-- C18 (counterexample): a call of `relocate` with a symbol whose old cell
is free. On the trie whose root, with the base `o = 1`, has the one child 3 on
the symbol 2, the call `relocate(1, 1, {2, 3})` finds the new base `n = 2`.
Before the call the cell `o + 2 = 3` has the parent 1 and the cell
`o + 3 = 4` is free; after the call the cell `n + 2 = 4` has the parent 0 and
not 1: the child was moved from 3 to 4, which is the old cell of the symbol 3,
and from there to `n + 3 = 5`. -/
theorem relocate_free_cell_moves_twice :
    relocate_free_cell_example = some ((1, 1, 0), 2, (0, 1), [(3, 4), (4, 5)]) := by
  decide

/-- C18 (amended): the cells after `relocate(stand, s, symbols)`, called on a
well-formed trie for a live state `s` with symbols of the alphabet without
repetition, bounded by the extremum, that include the symbol of every child
of `s` and whose old cells are all occupied when `s` has a child (as in both
calls of `create_transition`). With `o = base(s)` before the call and `n` the
base returned by `find_base`: for every symbol `c` with `check(o + c) = s`,
the cell `n + c` has the old base of `o + c` and the parent `s`, every former
child of `o + c` has the parent `n + c`, and the cell `o + c` has base and
check `0`; `base(s) = n`; every cell other than `s`, the old and new child
cells and the grandchildren keeps its base and check. -/
theorem basic_trie.relocate_cells {tr : basic_trie} (h : tr.wf) {s stand : Int}
    (hs : tr.live s) (inputs : List Int) (e : extremum_type)
    (hcov : basic_trie.covers e inputs) (hsym : ∀ c ∈ inputs, 1 ≤ c) (hnd : inputs.Nodup)
    (hcomp : ∀ x, tr.check x = s → (x - tr.base s) ∈ inputs)
    (hocc : ¬ tr.childless s → ∀ c ∈ inputs, 0 < tr.check (tr.base s + c)) :
    ∃ tr' stand' moved tr1 n, tr.find_base inputs e = .ok (tr1, n)
      ∧ tr.relocate stand s inputs e = .ok (tr', stand', moved)
      ∧ (∀ c ∈ inputs, tr.check (tr.base s + c) = s →
          tr'.base (n + c) = tr.base (tr.base s + c) ∧ tr'.check (n + c) = s
          ∧ (∀ g, tr.check g = tr.base s + c → tr'.check g = n + c)
          ∧ tr'.base (tr.base s + c) = 0 ∧ tr'.check (tr.base s + c) = 0)
      ∧ tr'.base s = n
      ∧ (∀ y, y ≠ s →
          (∀ c ∈ inputs, tr.check (tr.base s + c) = s →
            y ≠ tr.base s + c ∧ y ≠ n + c ∧ tr.check y ≠ tr.base s + c) →
          tr'.base y = tr.base y ∧ tr'.check y = tr.check y) := by
  obtain ⟨tr', stand', moved, d, cur, tr1, hrel, hwf1, hb1, hc1, _, R, htr', hnb, _, _, _⟩ :=
    @basic_trie.relocate_spec _ h s stand hs inputs e hcov hsym hnd hcomp hocc
  obtain ⟨tr2, hfb⟩ := basic_trie.relocate_new_base hrel
  have hn : tr'.base s = tr.base s + d := by
    rw [htr']
    simp
  have hbase : ∀ y, y ≠ s → tr'.base y = cur.base y := by
    intro y hy
    rw [htr', basic_trie.set_base_base, if_neg hy]
  have hcheck : tr'.check = cur.check := by
    rw [htr']
    rfl
  refine ⟨tr', stand', moved, tr2, tr'.base s, hfb, hrel, ?_, rfl, ?_⟩
  · intro c _ hc
    have hc' : tr1.check (tr.base s + c) = s := by rw [hc1]; exact hc
    obtain ⟨k1, k2, k3, k4, _, _, _, k8, k9⟩ := R.child (tr.base s + c) hc'
    have e1 : tr'.base s + c = tr.base s + c + d := by rw [hn]; omega
    rw [e1, hcheck, hbase _ k9, hbase _ k8, k1, k2, k3, k4, hb1]
    refine ⟨rfl, rfl, ?_, rfl, rfl⟩
    intro g hg
    have hg' : tr1.check (tr1.check g) = s := by rw [hc1, hg]; exact hc
    rw [(R.grand g hg').1, hc1, hg]
  · intro y hy hyc
    have hd : ∀ x, tr.check x = s → y ≠ x ∧ y ≠ x + d ∧ tr.check y ≠ x := by
      intro x hx
      have hm := hcomp x hx
      have e1 : tr.base s + (x - tr.base s) = x := by omega
      have := hyc (x - tr.base s) hm (by rw [e1]; exact hx)
      rw [e1, hn] at this
      refine ⟨this.1, ?_, this.2.2⟩
      intro hh
      apply this.2.1
      omega
    have o := R.other y
      (by
        rw [hc1]
        intro hh
        apply (hd _ hh).2.1
        omega)
      (by
        rw [hc1]
        intro hh
        exact (hd _ hh).1 rfl)
      (by
        rw [hc1]
        intro hh
        exact (hd _ hh).2.2 rfl)
    rw [hbase y hy, hcheck, o.1, o.2, hb1, hc1]
    exact ⟨rfl, rfl⟩

set_option maxRecDepth 1000000 in
/-- C18 (witness): on `branch_trie`, whose root has the base 1 and the
children 100 and 101, the first with the child 102 and the second with the
leaf 5, the call `relocate(100, 1, {99, 100, 3})`: the cell `1 + 3` is
occupied by a leaf of another state, the children move to the new base. -/
theorem basic_trie.relocate_cells_witness :
    (branch_trie.base 1 = 1 ∧ branch_trie.check 100 = 1 ∧ branch_trie.check 101 = 1
      ∧ branch_trie.check 102 = 100 ∧ branch_trie.check 5 = 101 ∧ branch_trie.check 4 = 102)
    ∧ ∃ tr' stand' moved tr1 n, branch_trie.find_base [99, 100, 3] ⟨100, 3⟩ = .ok (tr1, n)
      ∧ branch_trie.relocate 100 1 [99, 100, 3] ⟨100, 3⟩ = .ok (tr', stand', moved)
      ∧ (∀ c ∈ [(99 : Int), 100, 3], branch_trie.check (branch_trie.base 1 + c) = 1 →
          tr'.base (n + c) = branch_trie.base (branch_trie.base 1 + c) ∧ tr'.check (n + c) = 1
          ∧ (∀ g, branch_trie.check g = branch_trie.base 1 + c → tr'.check g = n + c)
          ∧ tr'.base (branch_trie.base 1 + c) = 0 ∧ tr'.check (branch_trie.base 1 + c) = 0)
      ∧ tr'.base 1 = n
      ∧ (∀ y, y ≠ 1 →
          (∀ c ∈ [(99 : Int), 100, 3], branch_trie.check (branch_trie.base 1 + c) = 1 →
            y ≠ branch_trie.base 1 + c ∧ y ≠ n + c
              ∧ branch_trie.check y ≠ branch_trie.base 1 + c) →
          tr'.base y = branch_trie.base y ∧ tr'.check y = branch_trie.check y) :=
  ⟨by decide!,
    basic_trie.relocate_cells branch_trie_wf (Or.inl rfl) [99, 100, 3] ⟨100, 3⟩
      ⟨by decide, by decide, by decide⟩ (by decide) (by decide) branch_trie_children
      (fun _ => by decide!)⟩

set_option maxRecDepth 1000000 in
/-- C19 (counterexample): a call of `relocate` in a trie whose `relocator_` is
null. On `branch_trie` the call `relocate(100, 1, {99, 100, 3})` moves the
children 100 and 101 of the root to 104 and 105 and returns the state 104,
and the callback is not called for either of them. -/
theorem relocate_without_relocator :
    relocate_null_example = some ([(100, 104), (101, 105)], [], 104) := by
  decide!

/-- C19 (amended): the calls of the callback and the standing state of
`relocate(stand, s, symbols)`, called as in C18. With `o = base(s)` before
the call and `n` the base returned by `find_base`: when `relocator_` is not
null, the calls of the callback are, in the order of the symbols, the pairs
`(o + c, n + c)` of the symbols `c` with `check(o + c) = s`, one for each and
no other; when `relocator_` is null there is no call; the state returned is
`n + c` if `stand = o + c` for such a symbol and `stand` if `stand` is none
of these cells. -/
theorem basic_trie.relocate_calls {tr : basic_trie} (h : tr.wf) {s stand : Int}
    (hs : tr.live s) (inputs : List Int) (e : extremum_type)
    (hcov : basic_trie.covers e inputs) (hsym : ∀ c ∈ inputs, 1 ≤ c) (hnd : inputs.Nodup)
    (hcomp : ∀ x, tr.check x = s → (x - tr.base s) ∈ inputs)
    (hocc : ¬ tr.childless s → ∀ c ∈ inputs, 0 < tr.check (tr.base s + c)) :
    ∃ tr' stand' moved tr1 n, tr.find_base inputs e = .ok (tr1, n)
      ∧ tr.relocate stand s inputs e = .ok (tr', stand', moved)
      ∧ basic_trie.relocator_calls true moved
          = (inputs.filter (fun c => decide (tr.check (tr.base s + c) = s))).map
            (fun c => (tr.base s + c, n + c))
      ∧ basic_trie.relocator_calls false moved = []
      ∧ (∀ c ∈ inputs, tr.check (tr.base s + c) = s → stand = tr.base s + c →
          stand' = n + c)
      ∧ ((∀ c ∈ inputs, tr.check (tr.base s + c) = s → stand ≠ tr.base s + c) →
          stand' = stand) := by
  obtain ⟨tr', stand', moved, d, cur, tr1, hrel, _, _, _, _, _, htr', _, hst, _, hmv⟩ :=
    @basic_trie.relocate_spec _ h s stand hs inputs e hcov hsym hnd hcomp hocc
  obtain ⟨tr2, hfb⟩ := basic_trie.relocate_new_base hrel
  have hn : tr'.base s = tr.base s + d := by
    rw [htr']
    simp
  refine ⟨tr', stand', moved, tr2, tr'.base s, hfb, hrel, ?_, rfl, ?_, ?_⟩
  · rw [hmv, hn]
    rfl
  · intro c _ hc hsc
    rw [hst, hn]
    unfold basic_trie.rename
    rw [hsc, if_pos hc]
    omega
  · intro hno
    rw [hst]
    unfold basic_trie.rename
    rw [if_neg]
    intro hh
    have hm := hcomp stand hh
    have e1 : tr.base s + (stand - tr.base s) = stand := by omega
    exact hno (stand - tr.base s) hm (by rw [e1]; exact hh) e1.symm

set_option maxRecDepth 1000000 in
/-- C19 (witness): on `branch_trie`, whose root has the base 1 and the
children 100 and 101, the call `relocate(100, 1, {99, 100, 3})`, standing on
the child 100. -/
theorem basic_trie.relocate_calls_witness :
    (branch_trie.base 1 = 1 ∧ branch_trie.check 100 = 1 ∧ branch_trie.check 101 = 1
      ∧ 0 < branch_trie.check 4)
    ∧ ∃ tr' stand' moved tr1 n, branch_trie.find_base [99, 100, 3] ⟨100, 3⟩ = .ok (tr1, n)
      ∧ branch_trie.relocate 100 1 [99, 100, 3] ⟨100, 3⟩ = .ok (tr', stand', moved)
      ∧ basic_trie.relocator_calls true moved
          = ([(99 : Int), 100, 3].filter
              (fun c => decide (branch_trie.check (branch_trie.base 1 + c) = 1))).map
            (fun c => (branch_trie.base 1 + c, n + c))
      ∧ basic_trie.relocator_calls false moved = []
      ∧ (∀ c ∈ [(99 : Int), 100, 3], branch_trie.check (branch_trie.base 1 + c) = 1 →
          100 = branch_trie.base 1 + c → stand' = n + c)
      ∧ ((∀ c ∈ [(99 : Int), 100, 3], branch_trie.check (branch_trie.base 1 + c) = 1 →
          100 ≠ branch_trie.base 1 + c) → stand' = 100) :=
  ⟨by decide!,
    basic_trie.relocate_calls branch_trie_wf (Or.inl rfl) [99, 100, 3] ⟨100, 3⟩
      ⟨by decide, by decide, by decide⟩ (by decide) (by decide) branch_trie_children
      (fun _ => by decide!)⟩

/-- C20: the layout written by `insert_suffix(s, input, v)`, for an input
whose symbols before the terminator are `inputs` (none of them the
terminator) and with `n = next_suffix_` before the call: afterwards
`base(s) = -n` and no other cell of the state array has changed, the suffix
array holds the symbols and the terminator from `n` on, the value right after
the terminator, `next_suffix_` is `n + |inputs| + 2`, and no cell below `n`
has changed. -/
theorem single_trie.insert_suffix_layout (st : single_trie) (s : Int) (inputs : List Int)
    (value : Int) (hterm : ∀ c ∈ inputs, c ≠ key_type.kTerminator) :
    (st.insert_suffix s inputs value).trie = st.trie.set_base s (-st.next_suffix)
    ∧ (st.insert_suffix s inputs value).trie.base s = -st.next_suffix
    ∧ (∀ i : Nat, i ≤ inputs.length →
        (st.insert_suffix s inputs value).suffix (st.next_suffix + i)
          = (inputs ++ [key_type.kTerminator]).getD i 0)
    ∧ (st.insert_suffix s inputs value).suffix (st.next_suffix + inputs.length + 1) = value
    ∧ (st.insert_suffix s inputs value).next_suffix = st.next_suffix + inputs.length + 2
    ∧ ∀ j, j < st.next_suffix → (st.insert_suffix s inputs value).suffix j = st.suffix j := by
  obtain ⟨h1, h2, h3, h4⟩ := single_trie.insert_suffix_loop_spec inputs
    ({ st with trie := st.trie.set_base s (-st.next_suffix) } : single_trie)
  simp only [] at h1 h2 h3 h4
  have hg := single_trie.reads_getD _ _ _ h4
  unfold single_trie.insert_suffix
  simp only [single_trie.set_suffix_suffix]
  refine ⟨h1, ?_, ?_, ?_, ?_, ?_⟩
  · show (single_trie.insert_suffix_loop inputs _).trie.base s = _
    rw [h1]
    simp
  · intro i hi
    rw [h2, if_neg (by omega)]
    exact hg i (by simp only [List.length_append, List.length_singleton]; omega)
  · rw [h2, if_pos rfl]
  · show (single_trie.insert_suffix_loop inputs _).next_suffix + 1 = _
    rw [h2]
    omega
  · intro j hj
    rw [h2, if_neg (by omega)]
    exact h3 j hj

/-- C20 (witness): the tail `b` with the value 7 written for the state 3 of a
fresh tail trie. -/
theorem single_trie.insert_suffix_layout_witness :
    (∀ c ∈ [(100 : Int)], c ≠ key_type.kTerminator)
    ∧ ((single_trie.create 0).insert_suffix 3 [100] 7).trie.base 3
        = -(single_trie.create 0).next_suffix
    ∧ ((single_trie.create 0).insert_suffix 3 [100] 7).next_suffix
        = (single_trie.create 0).next_suffix + ([(100 : Int)].length : Int) + 2 :=
  ⟨by decide,
    (single_trie.insert_suffix_layout (single_trie.create 0) 3 [100] 7 (by decide)).2.1,
    (single_trie.insert_suffix_layout (single_trie.create 0) 3 [100] 7 (by decide)).2.2.2.2.1⟩

/-! ## Layout of the tails, filters and invariants of the two-trie -/

set_option maxRecDepth 1000000 in
/-- C21 (counterexample): after `insert("ab", 5)` and `insert("a", 7)` on a
fresh tail trie the leaf of `a`, entered over a terminator edge, is the state
3 with the base `-4`; the cell 4 of the suffix array holds the value 7 and no
terminator, and `next_suffix_` is 5, so that no terminator follows below
`next_suffix_`. The leaf of `ab`, entered over the byte `b`, has the base
`-2`, the terminator in the cell 2 and the value 5 in the cell 3. -/
theorem tail_layout_terminator_leaf :
    tail_layout_example = some (⟨some 3, -4, 7, 0, 5⟩, ⟨some 102, -2, 1, 5, 5⟩) := by
  decide!

/-- C21 (amended): every sequence of `single_trie::insert` calls on a fresh
tail trie either ends in a write outside `suffix_` or completes, and after a
sequence that completes every leaf `u` with `base(u) < 0` at the end of a word
`w` belongs to an inserted key `k`: `w` followed by a rest `r` is the key with
its terminator, the suffix array holds `r` from the index `-base(u)` on and,
right after it and below `next_suffix_`, the value of the last insert of `k`.
If `w` ends with the terminator, `r` is empty and the cell `-base(u)` holds
the value itself; otherwise `r` ends with the terminator. -/
theorem single_trie.tail_layout (seq : List (List (Fin 256) × Int)) (size : Int) :
    (single_trie.create size).insert_all (calls seq) = .crashed .out_of_bounds
    ∨ ∃ st, (single_trie.create size).insert_all (calls seq) = .done st
      ∧ ∀ w u, st.trie.walk 1 w = some u → st.trie.base u < 0 →
        ∃ k v r, last_insert seq k = some v
          ∧ key_type.assign k ++ [key_type.kTerminator] = w ++ r
          ∧ st.reads (-st.trie.base u) r
          ∧ st.suffix (-st.trie.base u + r.length) = v
          ∧ 1 ≤ -st.trie.base u ∧ -st.trie.base u + r.length < st.next_suffix
          ∧ (w.getLast? = some key_type.kTerminator → r = [])
          ∧ (w.getLast? ≠ some key_type.kTerminator →
              ∃ r0, r = r0 ++ [key_type.kTerminator]) := by
  rcases single_trie.tail_insert_all_spec seq (single_trie.create size)
    (fun _ => none) (single_trie.tail_stores_create size) with h1 | ⟨st, h1, S⟩
  · exact Or.inl h1
  refine Or.inr ⟨st, h1, ?_⟩
  intro w u hw hb
  rcases S.only w u hw with rfl | ⟨k', v, hM, hp⟩
  · simp only [basic_trie.walk_nil, Option.some.injEq] at hw
    rw [← hw] at hb
    have := S.root_base
    omega
  · obtain ⟨r, hl, hr, hv, hlo, hhi⟩ := single_trie.stores_leaf S hM hw hb hp
    have hval := S.key_sym k' v hM
    rcases bind_all_some hM with hn | ⟨k, rfl, hlast⟩
    · cases hn
    · refine ⟨k, v, r, hlast, hl.1, hr, hv, hlo, hhi, ?_, ?_⟩
      · intro hlastw
        have hmem : key_type.kTerminator ∈ w := List.mem_of_getLast?_eq_some hlastw
        have := key_type.not_prefix_of_mem hval hmem hp
        have e := hl.1
        rw [this] at e
        exact (List.self_eq_append_right.mp e)
      · intro hlastw
        rcases List.eq_nil_or_concat r with rfl | ⟨r0, y, rfl⟩
        · exfalso
          apply hlastw
          have e := hl.1
          rw [List.append_nil] at e
          rw [← e]
          simp
        · refine ⟨r0, ?_⟩
          have e := hl.1
          rw [List.concat_eq_append] at e ⊢
          rw [← List.append_assoc] at e
          have := List.append_inj' e rfl
          simp only [List.cons.injEq, and_true] at this
          rw [this.2]

set_option maxRecDepth 1000000 in
/-- C22 (evidence): after `insert("xab", 1)` alone `prefix_search("xc")`
returns nothing; after `insert("xab", 1)` and `insert("ycb", 2)` it returns
the pair of `xab`: the tail `ab` of the candidate differs from the residual
`c` at its first symbol, and the candidate is kept because the rear state at
that position has another child, labelled `c`, which belongs to `ycb`. -/
theorem double_trie.residual_filter_sibling :
    residual_filter_example.1 = some (.ok [])
    ∧ residual_filter_example.2 = some (.ok [(key_of "xab", 1)]) := by
  constructor <;> decide!

set_option maxRecDepth 1000000 in
/-- C23 (evidence): after `insert("a", 1)` and `insert("aba", 2)` on a fresh
two-trie the front state 3 of `a` with its terminator refers to the accept
entry 2 and is linked to the rear state 3, which `refer_` lists with the
referer 3 and which has two children, on the terminator and on `a`; the rear
state 4, the terminator child of that state, is occupied, has no child and is
not in `refer_`. -/
theorem double_trie.accept_state_with_children :
    exclusivity_example
      = some ⟨some 3, 2, 3, some [3], [1, 99], some 4, 3, [], false⟩ := by
  decide!

set_option maxRecDepth 1000000 in
/-- C25 (evidence): in a tail trie made with the size 4, `insert("ab", 5)`
returns with `next_suffix_ = suffix_size = 4`; `insert("a", 7)` then writes
its value to the cell `suffix_[next_suffix_]`, the cell 4 of an array of 4
cells: the call ends in the fault of a write outside the array. The same two
calls on a tail trie made with the size 5 show the cell: `next_suffix_` is
again 4 after the first, and after the second the capacity is 5 and the cell
`suffix_[4]` holds the value 7. -/
theorem single_trie.value_write_out_of_bounds :
    suffix_write_example = (some ((4, 4), some .out_of_bounds), some (4, 5, 7)) := by
  decide!

/-- C27: `find_base` terminates. In every trie state in which the cells from
some index `N` on are free, and for all symbols and extrema that are not
negative (those of `1 .. 257` among them), the scan of `find_base` returns
after at most `max 1 (N - last_base_)` candidates: it returns the same base
`b` for every bound on the number of rounds from some bound on, with
`last_base_ < b ≤ max (last_base_ + 1) N`; on a well-formed trie this is the
result of `find_base`. -/
theorem basic_trie.find_base_terminates (tr : basic_trie) (inputs : List Int)
    (e : extremum_type) (N : Int) (hfin : ∀ t, N ≤ t → tr.check t ≤ 0)
    (he1 : 0 ≤ e.min) (he2 : 0 ≤ e.max) (hin : ∀ c ∈ inputs, 0 ≤ c) :
    ∃ (n : Nat) (tr' : basic_trie) (b : Int),
      (∀ fuel : Nat, n ≤ fuel →
        basic_trie.find_base_loop inputs e fuel tr tr.last_base = .ok (tr', b))
      ∧ tr.last_base < b ∧ b ≤ max (tr.last_base + 1) N
      ∧ (tr.wf → ∃ tr'', tr.find_base inputs e = .ok (tr'', b)) := by
  obtain ⟨tr', b, hr, h1, h2⟩ :=
    basic_trie.find_base_loop_total tr.check inputs e N hfin he1 he2 hin
      ((N - tr.last_base).toNat + 1) tr tr.last_base rfl
      (by
        push_cast
        have := Int.self_le_toNat (N - tr.last_base)
        omega)
      (by omega)
  refine ⟨(N - tr.last_base).toNat + 1, tr', b, hr, h1, h2, ?_⟩
  intro hwf
  obtain ⟨tr1, b1, hr1, _, _⟩ :=
    basic_trie.find_base_loop_total tr.check inputs e tr.size
      (fun t ht => le_of_eq (basic_trie.check_free_of_ge hwf ht)) he1 he2 hin
      ((tr.size - tr.last_base).toNat + 1) tr tr.last_base rfl
      (by
        push_cast
        have := Int.self_le_toNat (tr.size - tr.last_base)
        omega)
      (by omega)
  have ea := hr (max ((N - tr.last_base).toNat + 1) ((tr.size - tr.last_base).toNat + 1))
    (le_max_left _ _)
  have eb := hr1 (max ((N - tr.last_base).toNat + 1) ((tr.size - tr.last_base).toNat + 1))
    (le_max_right _ _)
  rw [ea] at eb
  simp only [Except.ok.injEq, Prod.mk.injEq] at eb
  refine ⟨{ tr1 with last_base := if b1 > 256 then b1 - 255 else b1 }, ?_⟩
  unfold basic_trie.find_base
  rw [hr1 _ (le_refl _), eb.2]

/-- C27 (witness): a fresh trie, in which every cell is free, and the symbol
2. -/
theorem basic_trie.find_base_terminates_witness :
    (∀ t, (0 : Int) ≤ t → (basic_trie.create 0).check t ≤ 0)
    ∧ ∃ (n : Nat) (tr' : basic_trie) (b : Int),
      (∀ fuel : Nat, n ≤ fuel →
        basic_trie.find_base_loop [2] ⟨2, 2⟩ fuel (basic_trie.create 0)
          (basic_trie.create 0).last_base = .ok (tr', b))
      ∧ (basic_trie.create 0).last_base < b ∧ b ≤ max ((basic_trie.create 0).last_base + 1) 0
      ∧ ((basic_trie.create 0).wf →
          ∃ tr'', (basic_trie.create 0).find_base [2] ⟨2, 2⟩ = .ok (tr'', b)) :=
  ⟨fun _ _ => le_refl _,
    basic_trie.find_base_terminates (basic_trie.create 0) [2] ⟨2, 2⟩ 0
      (fun _ _ => le_refl _) (by decide) (by decide) (by decide)⟩

/-- C26: `create_transition(s, c)` on an edge that exists. On a well-formed
trie, for a state `s` at the end of a word from the root and an edge from `s`
on the symbol `c` to `t`, the call returns a state `t'` with
`check(t') = s`, `t' = base(s) + c` and the base `t` had; every non-empty
word from `t` leads from `t'` to the same state as before (so `t'` has the
outgoing symbols and the descendants of `t`), each of these states with the
base it had; and `s` has the same outgoing symbols, each child moved by the
same distance as `t`. -/
theorem basic_trie.create_transition_existing_edge {tr : basic_trie} (h : tr.wf)
    {s c t : Int} {ws : List Int} (hws : tr.walk 1 ws = some s) (hc1 : 1 ≤ c) (hc2 : c ≤ 257)
    (he : tr.step s c = some t) :
    ∃ tr' t' moved, tr.create_transition s c = .ok (tr', t', moved)
      ∧ tr'.check t' = s ∧ t' = tr'.base s + c
      ∧ tr'.base t' = tr.base t
      ∧ (∀ w, w ≠ [] → tr'.walk t' w = tr.walk t w)
      ∧ (∀ w u, w ≠ [] → tr.walk t w = some u → tr'.base u = tr.base u)
      ∧ (∀ x, tr'.step s x = (tr.step s x).map (fun b => b + (t' - t))) := by
  have hs : tr.live s := basic_trie.walk_live (basic_trie.live_root tr) hws
  have hs1 := basic_trie.live_pos h hs
  have ht : tr.live t := basic_trie.step_live he
  obtain ⟨tr', d, moved, hct, C, hbs, hbase, _⟩ :=
    basic_trie.create_transition_on_edge h hs hc1 hc2 he
  have hrs : basic_trie.rename tr s d s = s := basic_trie.rename_self h hs
  have hck : tr.check t = s := ((basic_trie.step_some_iff h hs1).mp he).2
  have hrt : basic_trie.rename tr s d t = t + d := by
    unfold basic_trie.rename
    rw [if_pos hck]
  have hts : t ≠ s := by
    intro e
    rw [e] at hck
    exact h.no_self s (by rw [hck]; exact hs1) hck
  have hwt : tr.walk 1 (ws ++ [c]) = some t := basic_trie.walk_snoc.mpr ⟨s, hws, he⟩
  -- a state below `t` is no child of `s` and is not `s`
  have hbelow : ∀ w u, w ≠ [] → tr.walk t w = some u → tr.check u ≠ s ∧ u ≠ s := by
    intro w u hw hwu
    have hwu1 : tr.walk 1 ((ws ++ [c]) ++ w) = some u := by
      rw [basic_trie.walk_append, hwt]
      exact hwu
    constructor
    · intro hcu
      have hl := h.link u (by rw [hcu]; exact hs1)
      rw [hcu] at hl
      have hstep : tr.step s (u - tr.base s) = some u := by
        rw [basic_trie.step_some_iff h hs1]
        exact ⟨by omega, hcu⟩
      have hw2 : tr.walk 1 (ws ++ [u - tr.base s]) = some u :=
        basic_trie.walk_snoc.mpr ⟨s, hws, hstep⟩
      have := basic_trie.walk_inj h _ _ u hwu1 hw2
      have hlen := congrArg List.length this
      simp only [List.length_append, List.length_singleton] at hlen
      have : w.length = 0 := by omega
      exact hw (List.length_eq_zero.mp this)
    · intro hus
      rw [hus] at hwu1
      have := basic_trie.walk_inj h _ _ s hwu1 hws
      have hlen := congrArg List.length this
      simp only [List.length_append, List.length_singleton] at hlen
      omega
  have hedge := C.edge
  rw [hrs, basic_trie.step_eq_some] at hedge
  refine ⟨tr', t + d, moved, hct, hedge.2.2.2.2, hedge.1, ?_, ?_, ?_, ?_⟩
  · have := hbase t ht hts
    rw [hrt] at this
    exact this
  · intro w hw
    cases hwu : tr.walk t w with
    | some u =>
      have := basic_trie.ct_walk_fwd C ht hwu
      rw [hrt] at this
      rw [this]
      unfold basic_trie.rename
      rw [if_neg (hbelow w u hw hwu).1]
    | none =>
      cases hwu' : tr'.walk (t + d) w with
      | none => rfl
      | some u' =>
        exfalso
        rw [← hrt] at hwu'
        rcases basic_trie.ct_walk_back C ht hwu' with ⟨u, hu, _⟩ | ⟨pre, _, hpre, _⟩
        · rw [hu] at hwu
          cases hwu
        · have hw1 : tr.walk 1 ((ws ++ [c]) ++ pre) = some s := by
            rw [basic_trie.walk_append, hwt]
            exact hpre
          have := basic_trie.walk_inj h _ _ s hw1 hws
          have hlen := congrArg List.length this
          simp only [List.length_append, List.length_singleton] at hlen
          omega
  · intro w u hw hwu
    obtain ⟨h1, h2⟩ := hbelow w u hw hwu
    have := hbase u (basic_trie.walk_live ht hwu) h2
    unfold basic_trie.rename at this
    rw [if_neg h1] at this
    exact this
  · intro x
    have e1 : t + d - t = d := by omega
    rw [e1]
    cases hx : tr.step s x with
    | some b =>
      have := C.fwd s x b hs hx
      rw [hrs] at this
      rw [this]
      have hcb : tr.check b = s := ((basic_trie.step_some_iff h hs1).mp hx).2
      unfold basic_trie.rename
      rw [if_pos hcb]
      rfl
    | none =>
      cases hx' : tr'.step s x with
      | none => rfl
      | some b' =>
        exfalso
        rw [← hrs] at hx'
        rcases C.bwd s x b' hs hx' with ⟨b, hb, _⟩ | ⟨_, hxc, _, hnone⟩
        · rw [hb] at hx
          cases hx
        · rw [he] at hnone
          cases hnone

/-- C26 (witness): the edge from the root on the symbol 2 in the trie with
that one edge. -/
theorem basic_trie.create_transition_existing_edge_witness :
    edge_trie.wf ∧ edge_trie.walk 1 [] = some 1 ∧ edge_trie.step 1 2 = some 3
    ∧ ∃ tr' t' moved, edge_trie.create_transition 1 2 = .ok (tr', t', moved)
      ∧ tr'.check t' = 1 ∧ t' = tr'.base 1 + 2
      ∧ tr'.base t' = edge_trie.base 3
      ∧ (∀ w, w ≠ [] → tr'.walk t' w = edge_trie.walk 3 w)
      ∧ (∀ w u, w ≠ [] → edge_trie.walk 3 w = some u → tr'.base u = edge_trie.base u)
      ∧ (∀ x, tr'.step 1 x = (edge_trie.step 1 x).map (fun b => b + (t' - 3))) :=
  ⟨edge_trie_wf, rfl, by decide,
    basic_trie.create_transition_existing_edge edge_trie_wf
      (show edge_trie.walk 1 [] = some 1 from rfl) (by decide) (by decide) (by decide)⟩

/-! ## Refer consistency of the two-trie -/

/-- C24: every sequence of `double_trie::insert` calls on a fresh two-trie completes, whatever
the keys, the values and the size hint (no assertion of `insert`, `rhs_insert`, `rhs_append` or
`rhs_clean_more` fails, no walk leaves the arrays, and the recursion of `rhs_clean_more` ends
within its bound), and in the state it leaves (with the relocations of rear states that happen
while `rhs_insert` is in progress) every accept entry `k` in use has its rear state
`accept[k].accept` in `refer` with `accept_index = k`, and every separator `s` of the front
trie whose index slot refers to `k` is among the referers of that rear state. -/
theorem double_trie.refer_consistency (seq : List (List (Fin 256) × Int)) (size : Int) :
    ∃ dt, (double_trie.create size).insert_all (calls seq) = .done dt
      ∧ ∀ k, dt.in_use k →
        ∃ e, dt.find_refer (dt.accept k) = some e ∧ e.accept_index = k
          ∧ ∀ s, dt.lhs.reach s → dt.lhs.base s < 0 →
              (dt.index (-dt.lhs.base s)).index = k → s ∈ e.referer := by
  obtain ⟨dt, h, I⟩ := double_trie.insert_all_total seq _ (double_trie.rinv_create size)
    (double_trie.tinv_create size).1 (double_trie.tinv_create size).2
  refine ⟨dt, h, ?_⟩
  intro k hk
  obtain ⟨e, h1, h2⟩ := I.acc k hk
  refine ⟨e, h1, h2, ?_⟩
  intro s hs hb hi
  have hpos : 0 < dt.index_ref s := by
    show 0 < (dt.index (-dt.lhs.base s)).index
    rw [hi]
    exact hk.1
  obtain ⟨_, e1, q1, q2⟩ := I.linked s hs hb hpos
  have : dt.index_ref s = k := hi
  rw [this, h1] at q1
  cases q1
  exact q2

set_option maxRecDepth 1000000 in
/-- C24 (witness): the inserts of `aaa` and `abb` on a fresh two-trie. The
second call walks the front trie to the separator of `aaa` and goes through
`rhs_insert`; its `rhs_append` needs the cell 103 of the rear trie, which
holds the accept state of `aaa`, and moves that state to the cell 104 while
the two watchers stand on it: both watchers, set to 103 in step R-1, are 104
at the end. The two calls complete, and the state they leave is
refer-consistent. -/
theorem double_trie.refer_consistency_witness :
    ((double_trie.create 0).insert_all (calls [(ascii "aaa", 1)])).state?.map
        (fun dt => (dt.link_state 100, dt.watcher0, dt.watcher1)) = some (103, 0, 0)
    ∧ ((double_trie.create 0).insert_all (calls [(ascii "aaa", 1), (ascii "abb", 2)])).state?.map
        (fun dt => (dt.watcher0, dt.watcher1)) = some (104, 104)
    ∧ ∃ dt, (double_trie.create 0).insert_all (calls [(ascii "aaa", 1), (ascii "abb", 2)])
        = .done dt
      ∧ ∀ k, dt.in_use k →
        ∃ e, dt.find_refer (dt.accept k) = some e ∧ e.accept_index = k
          ∧ ∀ s, dt.lhs.reach s → dt.lhs.base s < 0 →
              (dt.index (-dt.lhs.base s)).index = k → s ∈ e.referer :=
  ⟨by decide!, by decide!,
    double_trie.refer_consistency [(ascii "aaa", 1), (ascii "abb", 2)] 0⟩

/-! ## Searches, value checks and the regression run -/

/-- C3 (evidence): after `insert("a", 1)` on a fresh two-trie,
`double_trie::search("ab")` reports the key `"ab"`, which was never inserted,
as found with the value `1` of `"a"`. -/
theorem double_trie.search_phantom :
    ((double_trie.create 0).insert_all [(key_of "a", 1)]).state?.map
      (fun dt => dt.search (key_of "ab")) = some (.ok (some 1)) := by
  decide!

set_option maxRecDepth 1000000 in
/-- C5 (evidence): after `insert("pab", 1)` and `insert("qcb", 2)` on a fresh
two-trie, `double_trie::prefix_search("pc")` returns the pair of `"pab"`,
a key that does not begin with `"pc"`. -/
theorem double_trie.prefix_search_wrong_key :
    ((double_trie.create 0).insert_all [(key_of "pab", 1), (key_of "qcb", 2)]).state?.map
      (fun dt => (dt.prefix_search (key_of "pc")).map shown)
      = some (.ok [(key_of "pab", 1)]) := by
  decide!

/-- C6 (evidence): on a fresh tail trie `single_trie::prefix_search("")` does
not return the empty result: the root is taken as a candidate with an empty
key, and the read of the last symbol of that key is outside its buffer. -/
theorem single_trie.prefix_search_fresh :
    (single_trie.create 0).prefix_search (key_of "") = .error .out_of_bounds := by
  decide!

/-- C7 (counterexample): `insert("a", 0)` on a fresh tail trie and on a fresh
two-trie completes, and `search("a")` then finds the value `0`: the value
`0 ≤ 0` is stored, not rejected. -/
theorem engine_insert_stores_zero :
    ((single_trie.create 0).insert (key_of "a") 0).state?.map
        (fun st => st.search (key_of "a")) = some (some 0)
    ∧ ((double_trie.create 0).insert (key_of "a") 0).state?.map
        (fun dt => dt.search (key_of "a")) = some (.ok (some 0)) := by
  constructor <;> decide!

set_option maxRecDepth 1000000 in
set_option maxHeartbeats 4000000 in
/-- C7 (amended): the insert of the tail-trie engine and of the two-trie
engine tests no value, and a value `≤ 0` is stored like any other. In the
state that any completed sequence of inserts leaves of a fresh tail trie,
`insert(key, value)` for every key and every value throws nothing: it ends in
a write outside `suffix_` or completes, and `search(key)` then returns the
value. On a fresh tail trie and on a fresh two-trie of the default size,
`insert("a", v)` and `insert("ab", v)` complete for every `v`, and the search
of the key then returns `v`. -/
theorem engine_insert_stores_value :
    (∀ (seq : List (List (Fin 256) × Int)) (size : Int) (st : single_trie)
        (key : List (Fin 256)) (value : Int),
        (single_trie.create size).insert_all (calls seq) = .done st →
        st.insert (key_type.assign key) value = .crashed .out_of_bounds
        ∨ ∃ st', st.insert (key_type.assign key) value = .done st'
            ∧ st'.search (key_type.assign key) = some value)
    ∧ (∀ v : Int, ((single_trie.create 0).insert (key_of "a") v).state?.map
        (fun st => st.search (key_of "a")) = some (some v))
    ∧ (∀ v : Int, ((single_trie.create 0).insert (key_of "ab") v).state?.map
        (fun st => st.search (key_of "ab")) = some (some v))
    ∧ (∀ v : Int, ((double_trie.create 0).insert (key_of "a") v).state?.map
        (fun dt => dt.search (key_of "a")) = some (.ok (some v)))
    ∧ (∀ v : Int, ((double_trie.create 0).insert (key_of "ab") v).state?.map
        (fun dt => dt.search (key_of "ab")) = some (.ok (some v))) := by
  refine ⟨?_, fun v => rfl, fun v => rfl, fun v => rfl, fun v => rfl⟩
  intro seq size st key value h
  rcases single_trie.tail_insert_all_spec seq (single_trie.create size)
    (fun _ => none) (single_trie.tail_stores_create size) with h1 | ⟨st0, h1, S⟩
  · rw [h1] at h
    cases h
  · rw [h1] at h
    cases h
    rcases single_trie.tail_insert_spec S (key_type.valid_assign key) value
      with h2 | ⟨st', h2, S'⟩
    · exact Or.inl h2
    · refine Or.inr ⟨st', h2, ?_⟩
      rw [single_trie.tail_search_eq S' (key_type.valid_assign key)]
      unfold bind_key
      rw [if_pos rfl]

/-- C8 (counterexample): on the regression dictionary, in the tail trie and in
the two-trie, `prefix_search("back!")` does not return the set that
`prefix_search("back")` returns. -/
theorem regress_back_bang_differs :
    regress_single (key_of "back!") ≠ regress_single (key_of "back")
    ∧ regress_double (key_of "back!") ≠ regress_double (key_of "back") := by
  rw [regress_single_back, regress_single_back_bang, regress_double_back,
    regress_double_back_bang]
  constructor <;> simp

/-- C8 (amended): on the regression dictionary, in the tail trie and in the
two-trie, `prefix_search("back")` returns exactly `back = 2` and
`backbone = 7`, and `prefix_search("back!")` returns nothing. -/
theorem regress_back_bang_empty :
    regress_single (key_of "back") = some (.ok [(key_of "back", 2), (key_of "backbone", 7)])
    ∧ regress_single (key_of "back!") = some (.ok [])
    ∧ regress_double (key_of "back") = some (.ok [(key_of "back", 2), (key_of "backbone", 7)])
    ∧ regress_double (key_of "back!") = some (.ok []) :=
  ⟨regress_single_back, regress_single_back_bang, regress_double_back,
    regress_double_back_bang⟩

/-- C9: `basic_trie::insert` with `value < 1` throws and leaves the trie as it
was (same `base`, `check`, `size` and `last_base`); with `value ≥ 1` the call
does not throw. -/
theorem basic_trie.insert_value_check (tr : basic_trie) (key : key_type) (value : Int) :
    (value < 1 → tr.insert key value = .threw "basic_trie::insert: value must > 0" tr)
    ∧ (1 ≤ value → ∀ msg tr', tr.insert key value ≠ .threw msg tr') := by
  constructor
  · intro h
    simp [basic_trie.insert, h]
  · intro h msg tr'
    have h' : ¬ value < 1 := by omega
    simp only [basic_trie.insert, h', if_false]
    rcases tr.go_forward 1 key.data with ⟨s, _ | p⟩
    · simp
    · dsimp only
      cases basic_trie.insert_loop p tr s <;> simp

/-- C9 (witness): the value check at the values `0` and `1` on a fresh trie. -/
theorem basic_trie.insert_value_check_witness :
    (basic_trie.create 0).insert (key_of "a") 0
        = .threw "basic_trie::insert: value must > 0" (basic_trie.create 0)
    ∧ ∀ msg tr', (basic_trie.create 0).insert (key_of "a") 1 ≠ .threw msg tr' :=
  ⟨(basic_trie.insert_value_check (basic_trie.create 0) (key_of "a") 0).1 (by decide),
   (basic_trie.insert_value_check (basic_trie.create 0) (key_of "a") 1).2 (by decide)⟩

end dutil

